import Mathlib

/-!
# Bulletproof range proofs of `core/ecc_bulletproof.cpp`

A shallow embedding of the inner-product argument, the confidential range proof and the
batch verifier of `src/core/ecc_bulletproof.cpp`.

* Scalars (`Scalar::Native`) are the elements of a field `F`, native points (`Point::Native`)
  the elements of an `F`-module `P`, compact points (`Point`) the elements of a type `CP`.
  The group arithmetic itself is an external collaborator of the file.
* Objects that the C++ code mutates through references are passed and returned explicitly.
* A violated `assert(...)` is recorded in a ghost flag of the object concerned; the computation
  goes on as in a release build.
-/

namespace ECC

/-- Bit width of the ranged value (`InnerProduct::nDim`, 64 in the specification). -/
def nDim : Nat := 64

/-- Number of folding rounds (`InnerProduct::nCycles = log2 nDim`). -/
def nCycles : Nat := 6

/-- What a transcript has seen: absorbed compact points, scalars, integers, and a mark left by
every extraction. -/
inductive Item (F CP : Type) where
  | point : CP → Item F CP
  | scalar : F → Item F CP
  | amount : Nat → Item F CP
  | out : Item F CP
  deriving DecidableEq

/-- Modelled from the spec: the transcript primitive `Oracle` (its code is not part of the
reviewed sources). The state is the list of everything absorbed so far, newest first. -/
abbrev Oracle (F CP : Type) := List (Item F CP)

/-- The process-wide `Context::get()` together with the external primitives the file relies on.
Its initialisation code is not part of the reviewed sources, so it is a parameter. -/
structure Context (F P CP : Type) where
  /-- The blinding generator (`Context::get().G` and its prepared form `m_Ipp.G_`). -/
  G : P
  /-- The value generator (`Context::get().H_Big` and its prepared form `m_Ipp.H_`). -/
  H : P
  /-- The two generator vectors `m_Ipp.m_pGen_[j][i]`. -/
  m_pGen_ : Nat → Nat → P
  /-- The generator of the dot product `m_Ipp.m_GenDot_`. -/
  m_GenDot_ : P
  /-- The auxiliary generator `m_Ipp.m_Aux2_`. -/
  m_Aux2_ : P
  /-- The table `m_Ipp.m_pGet1_Minus[i]`. -/
  m_pGet1_Minus : Nat → P
  /-- Decoding of a compact point, `Point::Native::Import`. -/
  Import : CP → Option P
  /-- Encoding of a native point, the assignment `Point = Point::Native`. -/
  Export : P → CP
  /-- The scalar a transcript in a given state yields, `Oracle >> Scalar::Native`. -/
  squeeze : Oracle F CP → F
  /-- The nonce derived from a secret key and a transcript state, `Scalar::Native::GenerateNonce`
  applied to the hash the transcript yields. -/
  GenerateNonce : F → Oracle F CP → F
  /-- Index of `m_GenDot_` in the prepared table (`BatchContext::s_Idx_GenDot`). -/
  s_Idx_GenDot : Nat
  /-- Index of `m_Aux2_` in the prepared table (`BatchContext::s_Idx_Aux2`). -/
  s_Idx_Aux2 : Nat
  /-- Index of `G_` in the prepared table (`BatchContext::s_Idx_G`). -/
  s_Idx_G : Nat
  /-- Index of `H_` in the prepared table (`BatchContext::s_Idx_H`). -/
  s_Idx_H : Nat
  /-- Size of the prepared table (`BatchContext::s_CountPrepared`). -/
  s_CountPrepared : Nat

/-- Sum of `f 0, ..., f (n-1)` in a commutative group. -/
def sumRange {M : Type} [AddCommMonoid M] (n : Nat) (f : Nat → M) : M :=
  ((List.range n).map f).sum

/-! ## InnerProduct::BatchContext -/

/-- `InnerProduct::BatchContext`: the pending casual terms `m_pCasual[0 .. m_Casual)`, the
coefficients `m_Bufs.m_pKPrep` of the prepared generators, the capacity, the two flags and the
multiplier. Three ghost fields record violated assertions: `m_CasualOverflow` the assertion
`m_Casual < m_CasualTotal` of `AddCasual`, `m_WontFit` the `assert(false)` of `EquationBegin`,
`m_AssertFailed` any other one. -/
structure BatchContext (F P : Type) where
  m_pCasual : List (P × F)
  m_pKPrep : Nat → F
  m_CasualTotal : Nat
  m_bEnableBatch : Bool
  m_bDirty : Bool
  m_Multiplier : F
  m_CasualOverflow : Bool
  m_WontFit : Bool
  m_AssertFailed : Bool

section Defs

variable {F P CP : Type} [Field F] [DecidableEq F] [AddCommGroup P] [Module F P] [DecidableEq P]

/-- The pending count `m_Casual`. -/
def BatchContext.m_Casual (bc : BatchContext F P) : Nat := bc.m_pCasual.length

/-- The table `m_ppPrepared` as the constructor `BatchContext::BatchContext` fills it: the
generators `m_pGen_[j][i]` at `i + j * nDim`, then the four named generators. -/
def BatchContext.m_ppPrepared (ctx : Context F P CP) : Nat → P :=
  Function.update
    (Function.update
      (Function.update
        (Function.update
          (fun n => if n < 2 * nDim then ctx.m_pGen_ (n / nDim) (n % nDim) else 0)
          ctx.s_Idx_GenDot ctx.m_GenDot_)
        ctx.s_Idx_Aux2 ctx.m_Aux2_)
      ctx.s_Idx_G ctx.G)
    ctx.s_Idx_H ctx.H

/-- `BatchContext::Reset`. -/
def BatchContext.Reset (bc : BatchContext F P) : BatchContext F P :=
  { bc with m_pCasual := [], m_pKPrep := fun _ => 0, m_bDirty := false }

/-- The state the constructor `BatchContext::BatchContext(nCasualTotal)` leaves. -/
def BatchContext.init (nCasualTotal : Nat) : BatchContext F P :=
  BatchContext.Reset
    { m_pCasual := [], m_pKPrep := fun _ => 0, m_CasualTotal := nCasualTotal,
      m_bEnableBatch := false, m_bDirty := false, m_Multiplier := 0, m_CasualOverflow := false,
      m_WontFit := false, m_AssertFailed := false }

/-- Modelled from the spec: `MultiMac::Calculate` on a batch context (its code is not part of
the reviewed sources): one multi-scalar multiplication over all queued terms, the casual ones
and the prepared generators with their coefficients. -/
def BatchContext.Calculate (ctx : Context F P CP) (bc : BatchContext F P) : P :=
  (bc.m_pCasual.map (fun c => c.2 • c.1)).sum
    + sumRange ctx.s_CountPrepared (fun i => bc.m_pKPrep i • BatchContext.m_ppPrepared ctx i)

/-- `BatchContext::AddCasual(const Point::Native&, const Scalar::Native&)`. -/
def BatchContext.AddCasual (bc : BatchContext F P) (pt : P) (k : F) : BatchContext F P :=
  { bc with
    m_CasualOverflow := bc.m_CasualOverflow || !decide (bc.m_Casual < bc.m_CasualTotal)
    m_pCasual := bc.m_pCasual ++ [(pt, if bc.m_bEnableBatch then k * bc.m_Multiplier else k)] }

/-- `BatchContext::AddCasual(const Point&, const Scalar::Native&)`. -/
def BatchContext.AddCasualP (ctx : Context F P CP) (bc : BatchContext F P) (p : CP) (k : F) :
    Bool × BatchContext F P :=
  match ctx.Import p with
  | none => (false, bc)
  | some pt => (true, bc.AddCasual pt k)

/-- `BatchContext::AddPrepared`. -/
def BatchContext.AddPrepared (ctx : Context F P CP) (bc : BatchContext F P) (i : Nat) (k : F) :
    BatchContext F P :=
  { bc with
    m_AssertFailed := bc.m_AssertFailed || !decide (i < ctx.s_CountPrepared)
    m_pKPrep := Function.update bc.m_pKPrep i
      (bc.m_pKPrep i + (if bc.m_bEnableBatch then k * bc.m_Multiplier else k)) }

/-- `BatchContext::Flush`. -/
def BatchContext.Flush (ctx : Context F P CP) (bc : BatchContext F P) : Bool × BatchContext F P :=
  if !bc.m_bDirty then (true, bc)
  else if !decide (BatchContext.Calculate ctx bc = 0) then (false, bc)
  else (true, bc.Reset)

/-- `BatchContext::EquationBegin`; `nCasualNeeded` and `m_CasualTotal` are `uint32_t`. -/
def BatchContext.EquationBegin (ctx : Context F P CP) (bc : BatchContext F P)
    (nCasualNeeded : Nat) : Bool × BatchContext F P :=
  if nCasualNeeded > bc.m_CasualTotal then
    (false, { bc with m_WontFit := true })
  else
    let nCasualNeeded := (nCasualNeeded + bc.m_Casual) % 2 ^ 32
    if nCasualNeeded > bc.m_CasualTotal then
      let r := BatchContext.Flush ctx bc
      if !r.1 then (false, r.2) else (true, { r.2 with m_bDirty := true })
    else (true, { bc with m_bDirty := true })

/-- `BatchContext::EquationEnd`. -/
def BatchContext.EquationEnd (ctx : Context F P CP) (bc : BatchContext F P) :
    Bool × BatchContext F P :=
  let bc := { bc with m_AssertFailed := bc.m_AssertFailed || !bc.m_bDirty }
  if !bc.m_bEnableBatch then BatchContext.Flush ctx bc else (true, bc)

/-! ## MultiMac -/

/-- Modelled from the spec: `MultiMac` with its buffers (its code is not part of the reviewed
sources): the casual terms `m_pCasual[0 .. m_Casual)` and the prepared terms, each a generator
`m_ppPrepared[i]` with its coefficient `m_pKPrep[i]`, for `i < m_Prepared`. -/
structure MultiMac (F P : Type) where
  m_pCasual : List (P × F)
  m_pPrepared : List (P × F)

/-- Modelled from the spec: `MultiMac::Reset`, both counters back to zero. -/
def MultiMac.Reset : MultiMac F P := { m_pCasual := [], m_pPrepared := [] }

/-- Modelled from the spec: `MultiMac::Calculate`, the multi-scalar multiplication over all
queued terms. -/
def MultiMac.Calculate (mm : MultiMac F P) : P :=
  (mm.m_pCasual.map (fun c => c.2 • c.1)).sum + (mm.m_pPrepared.map (fun c => c.2 • c.1)).sum

/-- The statement `m_pCasual[m_Casual++].Init(pt, k)`. -/
def MultiMac.pushCasual (mm : MultiMac F P) (pt : P) (k : F) : MultiMac F P :=
  { mm with m_pCasual := mm.m_pCasual ++ [(pt, k)] }

/-- The statements `m_pKPrep[m_Prepared] = k; m_ppPrepared[m_Prepared++] = &gen`. -/
def MultiMac.pushPrepared (mm : MultiMac F P) (gen : P) (k : F) : MultiMac F P :=
  { mm with m_pPrepared := mm.m_pPrepared ++ [(gen, k)] }

/-! ## InnerProduct::Calculator -/

/-- The C++ `!j` on an `int`. -/
def lnot (j : Nat) : Nat := if j = 0 then 1 else 0

/-- `InnerProduct::Modifier`: the two optional multipliers `m_pMultiplier[j]`. -/
structure Modifier (F : Type) where
  m_pMultiplier : Nat → Option F

/-- `Calculator::ChallengeSet`. -/
structure ChallengeSet (F : Type) where
  m_DotMultiplier : F
  m_Val : Nat → Nat → F

/-- `Calculator::ModifierExpanded`. -/
structure ModifierExpanded (F : Type) where
  m_pPwr : Nat → Nat → F
  m_pUse : Nat → Bool

/-- Assignment to one cell of a two-dimensional array. -/
def set2 {α : Type} (a : Nat → Nat → α) (j i : Nat) (v : α) : Nat → Nat → α :=
  Function.update a j (Function.update (a j) i v)

/-- `ModifierExpanded::Init`; the object starts with all cells zero. -/
def ModifierExpanded.Init (mod : Modifier F) : ModifierExpanded F :=
  (List.range 2).foldl
    (fun (m : ModifierExpanded F) j =>
      let m := { m with m_pUse := Function.update m.m_pUse j (mod.m_pMultiplier j).isSome }
      match mod.m_pMultiplier j with
      | none => m
      | some mul =>
        (List.range (nDim - 1)).foldl
          (fun (m : ModifierExpanded F) i' =>
            let i := i' + 1
            { m with m_pPwr := set2 m.m_pPwr j i (m.m_pPwr j (i - 1) * mul) })
          { m with m_pPwr := set2 m.m_pPwr j 0 1 })
    { m_pPwr := fun _ _ => 0, m_pUse := fun _ => false }

/-- `ModifierExpanded::Set`, returning the value stored in `dst`. -/
def ModifierExpanded.Set (m : ModifierExpanded F) (src : F) (i j : Nat) : F :=
  if m.m_pUse j then src * m.m_pPwr j i else src

/-- `Calculator::get_Challenge`: the transcript is asked for scalars until one is nonzero;
`fuel` bounds the number of attempts. Every extraction leaves a mark in the transcript. -/
def get_Challenge (ctx : Context F P CP) : Nat → Oracle F CP → Option ((F × F) × Oracle F CP)
  | 0, _ => none
  | fuel + 1, oracle =>
    let x := ctx.squeeze oracle
    let oracle := Item.out :: oracle
    if x = 0 then get_Challenge ctx fuel oracle else some ((x, x⁻¹), oracle)

/-- `Calculator::s_iCycle0`. -/
def s_iCycle0 : Nat := 2

/-- `Calculator::Aggregator`. The referenced objects `m_Mm` and `*m_pBatchCtx` are held by value
and handed back by `Proceed`; `m_pCalc`, when set, is the table `m_pCalc->m_pGen`.
`m_AssertFailed` is a ghost field recording a violated `assert`. -/
structure Aggregator (F P : Type) where
  m_Mm : MultiMac F P
  m_cs : ChallengeSet F
  m_Mod : ModifierExpanded F
  m_pCalc : Option (Nat → Nat → P)
  m_pBatchCtx : Option (BatchContext F P)
  m_j : Nat
  m_iCycleTrg : Nat
  m_AssertFailed : Bool

/-- The constructor of `Aggregator`. -/
def Aggregator.mk' (mm : MultiMac F P) (cs : ChallengeSet F) (mod : ModifierExpanded F) (j : Nat)
    (iCycleTrg : Nat) : Aggregator F P :=
  { m_Mm := mm, m_cs := cs, m_Mod := mod, m_pCalc := none, m_pBatchCtx := none, m_j := j,
    m_iCycleTrg := iCycleTrg, m_AssertFailed := false }

/-- The `else` branch of `Aggregator::Proceed`: one term at the target level. -/
def Aggregator.Leaf (ctx : Context F P CP) (a : Aggregator F P) (iPos : Nat) (k : F) :
    Aggregator F P :=
  match a.m_pCalc with
  | some gen =>
    { a with
      m_AssertFailed := a.m_AssertFailed || !decide (iPos < nDim >>> (1 + s_iCycle0))
      m_Mm := a.m_Mm.pushCasual (gen a.m_j iPos) k }
  | none =>
    let a := { a with m_AssertFailed := a.m_AssertFailed || !decide (iPos < nDim) }
    match a.m_pBatchCtx with
    | some bc =>
      let k2 := a.m_Mod.Set k iPos a.m_j
      let v := bc.m_pKPrep (iPos + a.m_j * nDim) + k2
      { a with
        m_pBatchCtx := some { bc with m_pKPrep := Function.update bc.m_pKPrep (iPos + a.m_j * nDim) v } }
    | none =>
      { a with m_Mm := a.m_Mm.pushPrepared (ctx.m_pGen_ a.m_j iPos) (a.m_Mod.Set k iPos a.m_j) }

/-- `Aggregator::Proceed`. When `iCycle` is zero and differs from the target, `iCycle - 1` wraps
around and the next call violates `assert(iCycle <= nCycles)`: the model stops there. -/
def Aggregator.Proceed (ctx : Context F P CP) :
    Aggregator F P → Nat → Nat → F → Aggregator F P
  | a, iPos, 0, k =>
    if 0 ≠ a.m_iCycleTrg then { a with m_AssertFailed := true } else a.Leaf ctx iPos k
  | a, iPos, iCycle + 1, k =>
    if iCycle + 1 ≠ a.m_iCycleTrg then
      let a := { a with m_AssertFailed := a.m_AssertFailed || !decide (iCycle + 1 ≤ nCycles) }
      let k0 := k * a.m_cs.m_Val (nCycles - (iCycle + 1)) (lnot a.m_j)
      let a := Aggregator.Proceed ctx a iPos iCycle k0
      let k0 := k * a.m_cs.m_Val (nCycles - (iCycle + 1)) a.m_j
      let nStep := 1 <<< iCycle
      Aggregator.Proceed ctx a (iPos + nStep) iCycle k0
    else a.Leaf ctx iPos k

/-- Where `m_ppSrc[j]` points: at a caller's array or at the calculator's own `m_pVal[j]`. -/
inductive SrcPtr (F : Type) where
  | ext : (Nat → F) → SrcPtr F
  | val : SrcPtr F

/-- `InnerProduct::Calculator`. Arrays start with all cells zero. -/
structure Calculator (F P : Type) where
  m_pGen : Nat → Nat → P
  m_pVal : Nat → Nat → F
  m_ppSrc : Nat → SrcPtr F
  m_Mod : ModifierExpanded F
  m_Cs : ChallengeSet F
  m_Mm : MultiMac F P
  m_iCycle : Nat
  m_n : Nat
  m_GenOrder : Nat

/-- The read `m_ppSrc[j][i]`. -/
def Calculator.src (c : Calculator F P) (j i : Nat) : F :=
  match c.m_ppSrc j with
  | SrcPtr.ext a => a i
  | SrcPtr.val => c.m_pVal j i

/-- The first loop of `Calculator::Condense`: both vectors are folded, cell by cell. -/
def Calculator.CondenseVectors (c : Calculator F P) : Calculator F P :=
  (List.range 2).foldl
    (fun (c : Calculator F P) j =>
      (List.range c.m_n).foldl
        (fun (c : Calculator F P) i =>
          let c := { c with m_pVal := set2 c.m_pVal j i (c.src j i * c.m_Cs.m_Val c.m_iCycle j) }
          let v := c.m_pVal j i + c.src j (c.m_n + i) * c.m_Cs.m_Val c.m_iCycle (lnot j)
          { c with m_pVal := set2 c.m_pVal j i v })
        c)
    c

/-- The second loop of `Calculator::Condense`: the generators are condensed into `m_pGen`. -/
def Calculator.CondensePoints (ctx : Context F P CP) (c : Calculator F P) : Calculator F P :=
  let c := (List.range 2).foldl
    (fun (c : Calculator F P) j =>
      (List.range c.m_n).foldl
        (fun (c : Calculator F P) i =>
          let c := { c with m_Mm := MultiMac.Reset }
          let aggr := Aggregator.mk' c.m_Mm c.m_Cs c.m_Mod j (nCycles - c.m_iCycle - 1)
          let aggr := if c.m_iCycle > s_iCycle0 then { aggr with m_pCalc := some c.m_pGen } else aggr
          let aggr := Aggregator.Proceed ctx aggr i c.m_GenOrder 1
          let c := { c with m_Mm := aggr.m_Mm }
          { c with m_pGen := set2 c.m_pGen j i c.m_Mm.Calculate })
        c)
    c
  { c with m_GenOrder := nCycles - c.m_iCycle - 1 }

/-- `Calculator::Condense`. -/
def Calculator.Condense (ctx : Context F P CP) (c : Calculator F P) : Calculator F P :=
  let c := c.CondenseVectors
  if c.m_iCycle = s_iCycle0 then c.CondensePoints ctx else c

/-- `Calculator::ExtractLR`. -/
def Calculator.ExtractLR (ctx : Context F P CP) (c : Calculator F P) (j : Nat) : Calculator F P :=
  let c := { c with m_Mm := MultiMac.Reset }
  let crossTrm : F := 0
  let crossTrm := (List.range c.m_n).foldl
    (fun crossTrm i => crossTrm + c.src j i * c.src (lnot j) (c.m_n + i)) crossTrm
  let crossTrm := crossTrm * c.m_Cs.m_DotMultiplier
  let c := { c with m_Mm := c.m_Mm.pushPrepared ctx.m_GenDot_ crossTrm }
  (List.range 2).foldl
    (fun (c : Calculator F P) jSrc =>
      let off0 := if jSrc = j then 0 else c.m_n
      let off1 := if jSrc = j then c.m_n else 0
      (List.range c.m_n).foldl
        (fun (c : Calculator F P) i =>
          let v := c.src jSrc (i + off0)
          let aggr := Aggregator.mk' c.m_Mm c.m_Cs c.m_Mod jSrc (nCycles - c.m_iCycle)
          let aggr := if c.m_iCycle > s_iCycle0 then { aggr with m_pCalc := some c.m_pGen } else aggr
          let aggr := Aggregator.Proceed ctx aggr (i + off1) c.m_GenOrder v
          { c with m_Mm := aggr.m_Mm })
        c)
    c

/-- `InnerProduct::get_Dot`. -/
def get_Dot (pA pB : Nat → F) : F :=
  (List.range (nDim - 1)).foldl (fun res i' => res + pA (i' + 1) * pB (i' + 1)) (pA 0 * pB 0)

/-! ## InnerProduct -/

/-- `InnerProduct`: the points `m_pLR[iCycle][j]` and the scalars `m_pCondensed[j]`.
Scalars are kept in native form. -/
structure InnerProduct (F CP : Type) where
  m_pLR : Nat → Nat → CP
  m_pCondensed : Nat → F

/-- The statement `oracle >> k` for a scalar `k`. -/
def Oracle.get (ctx : Context F P CP) (oracle : Oracle F CP) : F × Oracle F CP :=
  (ctx.squeeze oracle, Item.out :: oracle)

/-- A default-constructed `Calculator`. -/
def Calculator.init : Calculator F P :=
  { m_pGen := fun _ _ => 0, m_pVal := fun _ _ => 0, m_ppSrc := fun _ => SrcPtr.val,
    m_Mod := { m_pPwr := fun _ _ => 0, m_pUse := fun _ => false },
    m_Cs := { m_DotMultiplier := 0, m_Val := fun _ _ => 0 },
    m_Mm := MultiMac.Reset, m_iCycle := 0, m_n := 0, m_GenOrder := 0 }

/-- The body of the loop over `j` inside one round of `InnerProduct::Create`: the point
`m_pLR[iCycle][j]` is computed, stored and absorbed. -/
def InnerProduct.Create_LR (ctx : Context F P CP)
    (s : Calculator F P × InnerProduct F CP × Oracle F CP) (j : Nat) :
    Calculator F P × InnerProduct F CP × Oracle F CP :=
  let c := s.1.ExtractLR ctx j
  let comm := c.m_Mm.Calculate
  let self := { s.2.1 with m_pLR := set2 s.2.1.m_pLR c.m_iCycle j (ctx.Export comm) }
  (c, self, Item.point (self.m_pLR c.m_iCycle j) :: s.2.2)

/-- The body of the loop over the rounds in `InnerProduct::Create`. -/
def InnerProduct.Create_cycle (ctx : Context F P CP) (fuel : Nat)
    (s : Calculator F P × InnerProduct F CP × Oracle F CP) (iCycle : Nat) :
    Option (Calculator F P × InnerProduct F CP × Oracle F CP) :=
  let c := { s.1 with m_iCycle := iCycle }
  let c := { c with m_n := nDim >>> (c.m_iCycle + 1) }
  match get_Challenge ctx fuel s.2.2 with
  | none => none
  | some (x, oracle) =>
    let c := { c with m_Cs := { c.m_Cs with
                m_Val := set2 (set2 c.m_Cs.m_Val c.m_iCycle 0 x.1) c.m_iCycle 1 x.2 } }
    let s := (List.range 2).foldl (InnerProduct.Create_LR ctx) (c, s.2.1, oracle)
    let c := s.1.Condense ctx
    let c := if c.m_iCycle = 0 then
        (List.range 2).foldl
          (fun (c : Calculator F P) j => { c with m_ppSrc := Function.update c.m_ppSrc j SrcPtr.val })
          c
      else c
    some (c, s.2.1, s.2.2)

/-- `InnerProduct::Create(Oracle&, Point::Native* pAB, dotAB, pA, pB, mod)`; `pAB` tells whether
the commitment is requested, and the commitment computed is returned in that case. -/
def InnerProduct.Create (ctx : Context F P CP) (fuel : Nat) (self : InnerProduct F CP)
    (oracle : Oracle F CP) (pAB : Bool) (dotAB : F) (pA pB : Nat → F) (mod : Modifier F) :
    Option (InnerProduct F CP × Oracle F CP × Option P) :=
  let c : Calculator F P := Calculator.init
  let c := { c with m_Mod := ModifierExpanded.Init mod }
  let c := { c with m_GenOrder := nCycles }
  let c := { c with m_ppSrc := Function.update c.m_ppSrc 0 (SrcPtr.ext pA) }
  let c := { c with m_ppSrc := Function.update c.m_ppSrc 1 (SrcPtr.ext pB) }
  let r : Calculator F P × Oracle F CP × Option P :=
    if pAB then
      let c := (List.range 2).foldl
        (fun (c : Calculator F P) j =>
          (List.range nDim).foldl
            (fun (c : Calculator F P) i =>
              { c with m_Mm := c.m_Mm.pushPrepared (ctx.m_pGen_ j i) (c.m_Mod.Set (c.src j i) i j) })
            c)
        c
      let AB := c.m_Mm.Calculate
      (c, Item.point (ctx.Export AB) :: oracle, some AB)
    else (c, oracle, none)
  let c := r.1
  let oracle := Item.scalar dotAB :: r.2.1
  let d := Oracle.get ctx oracle
  let c := { c with m_Cs := { c.m_Cs with m_DotMultiplier := d.1 } }
  match (List.range nCycles).foldlM (InnerProduct.Create_cycle ctx fuel) (c, self, d.2) with
  | none => none
  | some s =>
    let self := (List.range 2).foldl
      (fun (self : InnerProduct F CP) i =>
        { self with m_pCondensed := Function.update self.m_pCondensed i (s.1.m_pVal i 0) })
      s.2.1
    some (self, s.2.2, r.2.2)

/-- `InnerProduct::Create(commAB, dotAB, pA, pB, mod)`: a fresh transcript, the commitment is
computed and returned. -/
def InnerProduct.CreateComm (ctx : Context F P CP) (fuel : Nat) (self : InnerProduct F CP)
    (dotAB : F) (pA pB : Nat → F) (mod : Modifier F) : Option (InnerProduct F CP × Option P) :=
  match InnerProduct.Create ctx fuel self [] true dotAB pA pB mod with
  | none => none
  | some r => some (r.1, r.2.2)

/-- `InnerProduct::Create(Oracle&, dotAB, pA, pB, mod)`: no commitment. -/
def InnerProduct.CreateOracle (ctx : Context F P CP) (fuel : Nat) (self : InnerProduct F CP)
    (oracle : Oracle F CP) (dotAB : F) (pA pB : Nat → F) (mod : Modifier F) :
    Option (InnerProduct F CP × Oracle F CP) :=
  match InnerProduct.Create ctx fuel self oracle false dotAB pA pB mod with
  | none => none
  | some r => some (r.1, r.2.1)

/-- The loop over `j` inside one round of `InnerProduct::IsValid`; it stops with `false` at the
first point that does not import. -/
def InnerProduct.IsValid_LR (ctx : Context F P CP) (self : InnerProduct F CP)
    (cs : ChallengeSet F) (iCycle : Nat) :
    List Nat → Oracle F CP → BatchContext F P → Bool × Oracle F CP × BatchContext F P
  | [], oracle, bc => (true, oracle, bc)
  | j :: js, oracle, bc =>
    let k := cs.m_Val iCycle j
    let k := k * k
    let k := k
    let r := bc.AddCasualP ctx (self.m_pLR iCycle j) k
    if !r.1 then (false, oracle, r.2)
    else InnerProduct.IsValid_LR ctx self cs iCycle js (Item.point (self.m_pLR iCycle j) :: oracle) r.2

/-- The loop over the rounds of `InnerProduct::IsValid`. -/
def InnerProduct.IsValid_cycles (ctx : Context F P CP) (fuel : Nat) (self : InnerProduct F CP) :
    List Nat → ChallengeSet F → Oracle F CP → BatchContext F P →
      Option (Bool × ChallengeSet F × Oracle F CP × BatchContext F P)
  | [], cs, oracle, bc => some (true, cs, oracle, bc)
  | iCycle :: rest, cs, oracle, bc =>
    match get_Challenge ctx fuel oracle with
    | none => none
    | some (x, oracle) =>
      let cs := { cs with m_Val := set2 (set2 cs.m_Val iCycle 0 x.1) iCycle 1 x.2 }
      let r := InnerProduct.IsValid_LR ctx self cs iCycle (List.range 2) oracle bc
      if !r.1 then some (false, cs, r.2.1, r.2.2)
      else InnerProduct.IsValid_cycles ctx fuel self rest cs r.2.1 r.2.2

/-- The body of the loop over `j` at the end of `InnerProduct::IsValid`: the condensed scalar
`m_pCondensed[j]` is spread over the generators of side `j` by an aggregator that writes into the
batch context. -/
def InnerProduct.IsValid_condensed (ctx : Context F P CP) (self : InnerProduct F CP)
    (cs : ChallengeSet F) (modExp : ModifierExpanded F) (bc : BatchContext F P) (j : Nat) :
    BatchContext F P :=
  let aggr := Aggregator.mk' MultiMac.Reset cs modExp j 0
  let aggr := { aggr with m_pBatchCtx := some bc }
  let k := self.m_pCondensed j
  let k := -k
  let k := if bc.m_bEnableBatch then k * bc.m_Multiplier else k
  let aggr := Aggregator.Proceed ctx aggr 0 nCycles k
  match aggr.m_pBatchCtx with
  | some bc' => { bc' with m_AssertFailed := bc'.m_AssertFailed || aggr.m_AssertFailed }
  | none => bc

/-- `InnerProduct::IsValid(BatchContext&, Oracle&, dotAB, mod)`. -/
def InnerProduct.IsValidOracle (ctx : Context F P CP) (fuel : Nat) (self : InnerProduct F CP)
    (bc : BatchContext F P) (oracle : Oracle F CP) (dotAB : F) (mod : Modifier F) :
    Option (Bool × Oracle F CP × BatchContext F P) :=
  let oracle := Item.scalar dotAB :: oracle
  let d := Oracle.get ctx oracle
  let cs : ChallengeSet F := { m_DotMultiplier := d.1, m_Val := fun _ _ => 0 }
  let modExp := ModifierExpanded.Init mod
  match InnerProduct.IsValid_cycles ctx fuel self (List.range nCycles) cs d.2 bc with
  | none => none
  | some r =>
    if !r.1 then some (false, r.2.2.1, r.2.2.2)
    else
      let cs := r.2.1
      let bc := r.2.2.2
      let bc := { bc with
        m_AssertFailed := bc.m_AssertFailed || !decide (1 = nDim >>> nCycles) }
      let bc := (List.range 2).foldl (InnerProduct.IsValid_condensed ctx self cs modExp) bc
      let k := self.m_pCondensed 0
      let k := k * self.m_pCondensed 1
      let k := -k
      let k := k + dotAB
      let k := k * cs.m_DotMultiplier
      let bc := bc.AddPrepared ctx ctx.s_Idx_GenDot k
      some (true, r.2.2.1, bc)

/-- `InnerProduct::IsValid(BatchContext&, commAB, dotAB, mod)`. -/
def InnerProduct.IsValidBc (ctx : Context F P CP) (fuel : Nat) (self : InnerProduct F CP)
    (bc : BatchContext F P) (commAB : P) (dotAB : F) (mod : Modifier F) :
    Option (Bool × BatchContext F P) :=
  let oracle : Oracle F CP := [Item.point (ctx.Export commAB)]
  let r := bc.EquationBegin ctx 1
  if !r.1 then some (false, r.2)
  else
    let bc := r.2.AddCasual commAB 1
    match InnerProduct.IsValidOracle ctx fuel self bc oracle dotAB mod with
    | none => none
    | some r => if !r.1 then some (false, r.2.2) else some (r.2.2.EquationEnd ctx)

/-- Modelled from the spec: the number of casual terms one range proof needs,
`BatchContext::s_CasualCountPerProof` (declared outside the reviewed sources): the points
`L[], R[], A, S, T1, T2` of the proof and the commitment. -/
def s_CasualCountPerProof : Nat := nCycles * 2 + 5

/-- Modelled from the spec: the constructor of `BatchContextEx<nBatchSize>` (declared outside the
reviewed sources), a context with room for `nBatchSize` proofs. -/
def BatchContextEx (nBatchSize : Nat) : BatchContext F P :=
  BatchContext.init (nBatchSize * s_CasualCountPerProof)

/-- `InnerProduct::IsValid(commAB, dotAB, mod)`; `s_pInstance` is the ambient context, which is
returned in its new state when there is one. -/
def InnerProduct.IsValid (ctx : Context F P CP) (fuel : Nat) (self : InnerProduct F CP)
    (s_pInstance : Option (BatchContext F P)) (commAB : P) (dotAB : F) (mod : Modifier F) :
    Option (Bool × Option (BatchContext F P)) :=
  match s_pInstance with
  | some bc =>
    match InnerProduct.IsValidBc ctx fuel self bc commAB dotAB mod with
    | none => none
    | some r => some (r.1, some r.2)
  | none =>
    let bc : BatchContext F P := BatchContextEx 1
    match InnerProduct.IsValidBc ctx fuel self bc commAB dotAB mod with
    | none => none
    | some r => if !r.1 then some (false, none) else some ((r.2.Flush ctx).1, none)

/-! ## RangeProof::Confidential -/

/-- `RangeProof::Confidential::Part1`. -/
structure Part1 (CP : Type) where
  m_A : CP
  m_S : CP

/-- `RangeProof::Confidential::Part2`. -/
structure Part2 (CP : Type) where
  m_T1 : CP
  m_T2 : CP

/-- `RangeProof::Confidential::Part3`. -/
structure Part3 (F : Type) where
  m_TauX : F

/-- `RangeProof::Confidential`. Scalars are kept in native form. -/
structure Confidential (F CP : Type) where
  m_Part1 : Part1 CP
  m_Part2 : Part2 CP
  m_Part3 : Part3 F
  m_Mu : F
  m_tDot : F
  m_P_Tag : InnerProduct F CP

/-- `RangeProof::Confidential::Phase::Enum`. -/
inductive Phase where
  | SinglePass
  | Step1
  | Step2
  | Finalize
  deriving DecidableEq

/-- `NonceGenerator`. -/
structure NonceGenerator (F CP : Type) where
  m_Oracle : Oracle F CP
  m_sk : F

/-- `NonceGenerator::operator >>`: a hash is taken out of the transcript and turned into a
nonce with the secret key. -/
def NonceGenerator.get (ctx : Context F P CP) (g : NonceGenerator F CP) :
    F × NonceGenerator F CP :=
  (ctx.GenerateNonce g.m_sk g.m_Oracle, { g with m_Oracle := Item.out :: g.m_Oracle })

/-- `RangeProof::Confidential::MultiSig`. -/
structure MultiSig (F : Type) where
  m_tau1 : F
  m_tau2 : F

/-- `RangeProof::Confidential::ChallengeSet`. -/
structure Confidential.ChallengeSet (F : Type) where
  x : F
  y : F
  z : F
  zz : F

/-- `ChallengeSet::Init(const Part1&, Oracle&)`. -/
def Confidential.ChallengeSet.Init1 (ctx : Context F P CP) (cs : Confidential.ChallengeSet F)
    (p1 : Part1 CP) (oracle : Oracle F CP) : Confidential.ChallengeSet F × Oracle F CP :=
  let oracle := Item.point p1.m_S :: Item.point p1.m_A :: oracle
  let ry := Oracle.get ctx oracle
  let rz := Oracle.get ctx ry.2
  let cs := { cs with y := ry.1, z := rz.1 }
  let zz := cs.z
  let zz := zz * cs.z
  ({ cs with zz := zz }, rz.2)

/-- `ChallengeSet::Init(const Part2&, Oracle&)`. -/
def Confidential.ChallengeSet.Init2 (ctx : Context F P CP) (cs : Confidential.ChallengeSet F)
    (p2 : Part2 CP) (oracle : Oracle F CP) : Confidential.ChallengeSet F × Oracle F CP :=
  let oracle := Item.point p2.m_T2 :: Item.point p2.m_T1 :: oracle
  let rx := Oracle.get ctx oracle
  ({ cs with x := rx.1 }, rx.2)

/-- `MultiSig::Init(NonceGenerator&)`. -/
def MultiSig.Init (ctx : Context F P CP) (nonceGen : NonceGenerator F CP) :
    MultiSig F × NonceGenerator F CP :=
  let r1 := nonceGen.get ctx
  let r2 := r1.2.get ctx
  ({ m_tau1 := r1.1, m_tau2 := r2.1 }, r2.2)

/-- `MultiSig::Init(const Scalar::Native& sk, Amount v)`. -/
def MultiSig.InitSk (ctx : Context F P CP) (sk : F) (v : Nat) : MultiSig F :=
  let nonceGen : NonceGenerator F CP := { m_Oracle := [Item.amount v], m_sk := sk }
  (MultiSig.Init ctx nonceGen).1

/-- `MultiSig::AddInfo1`, returning `(ptT1, ptT2)`. -/
def MultiSig.AddInfo1 (ctx : Context F P CP) (msig : MultiSig F) : P × P :=
  (msig.m_tau1 • ctx.G, msig.m_tau2 • ctx.G)

/-- `MultiSig::AddInfo2`, returning `taux`. -/
def MultiSig.AddInfo2 (msig : MultiSig F) (sk : F) (cs : Confidential.ChallengeSet F) : F :=
  let taux := msig.m_tau2
  let taux := taux * cs.x
  let taux := taux * cs.x
  let t1 := msig.m_tau1
  let t1 := t1 * cs.x
  let taux := taux + t1
  let t1 := cs.zz
  let t1 := t1 * sk
  taux + t1

/-- The bit `1 & (v >> i)` of an amount. -/
def amountBit (v i : Nat) : Nat := (v >>> i) % 2

/-- `object_cmov(dst, src, flag)`: a conditional move, returning the new `dst`. -/
def object_cmov {α : Type} (dst src : α) (flag : Bool) : α := if flag then src else dst

/-- The loop of `CoSign` that adds one generator per bit of `v` to `comm`; the state is
`(comm, ge_s)`. `m_pGen_[0][i].m_Fast.m_pPt[0]` is the generator `m_pGen_[0][i]` itself. -/
def Confidential.CoSign_A (ctx : Context F P CP) (v : Nat) (comm : P) : P × P :=
  (List.range nDim).foldl
    (fun (s : P × P) i =>
      let iBit := amountBit v i
      let ge_s := object_cmov s.2 (ctx.m_pGet1_Minus i) (0 == iBit)
      let ge_s := object_cmov ge_s (ctx.m_pGen_ 0 i) (1 == iBit)
      (s.1 + ge_s, ge_s))
    (comm, 0)

/-- The loop of `CoSign` that draws the blinding vectors `pS[j][i]` and queues them; the state
is `(nonceGen, pS, mm)`. -/
def Confidential.CoSign_S (ctx : Context F P CP)
    (s : NonceGenerator F CP × (Nat → Nat → F) × MultiMac F P) :
    NonceGenerator F CP × (Nat → Nat → F) × MultiMac F P :=
  (List.range 2).foldl
    (fun (s : NonceGenerator F CP × (Nat → Nat → F) × MultiMac F P) j =>
      (List.range nDim).foldl
        (fun (s : NonceGenerator F CP × (Nat → Nat → F) × MultiMac F P) i =>
          let r := s.1.get ctx
          let pS := set2 s.2.1 j i r.1
          (r.2, pS, s.2.2.pushPrepared (ctx.m_pGen_ j i) (pS j i)))
        s)
    s

/-- The scalars the polynomial loop of `CoSign` carries. -/
structure Confidential.TState (F : Type) where
  t0 : F
  t1 : F
  t2 : F
  yPwr : F
  zz_twoPwr : F

/-- The loop of `CoSign` that computes `t0`, `t1`, `t2`. -/
def Confidential.CoSign_t (cs : Confidential.ChallengeSet F) (v : Nat) (pS : Nat → Nat → F) :
    Confidential.TState F :=
  (List.range nDim).foldl
    (fun (s : Confidential.TState F) i =>
      let bit := amountBit v i
      let l0 := -cs.z
      let l0 := if bit ≠ 0 then l0 + 1 else l0
      let lx := pS 0 i
      let r0 := cs.z
      let r0 := if bit = 0 then r0 + -1 else r0
      let r0 := r0 * s.yPwr
      let r0 := r0 + s.zz_twoPwr
      let rx := s.yPwr
      let rx := rx * pS 1 i
      let zz_twoPwr := s.zz_twoPwr * 2
      let yPwr := s.yPwr * cs.y
      let t0 := s.t0 + l0 * r0
      let t1 := s.t1 + l0 * rx
      let t1 := t1 + lx * r0
      let t2 := s.t2 + lx * rx
      { t0 := t0, t1 := t1, t2 := t2, yPwr := yPwr, zz_twoPwr := zz_twoPwr })
    { t0 := 0, t1 := 0, t2 := 0, yPwr := 1, zz_twoPwr := cs.zz }

/-- The loop of `CoSign` that turns the buffers `pS` into the vectors `l`, `r`; the state is
`(pS, yPwr, zz_twoPwr)`. -/
def Confidential.CoSign_lr (cs : Confidential.ChallengeSet F) (v : Nat) (pS : Nat → Nat → F) :
    (Nat → Nat → F) × F × F :=
  (List.range nDim).foldl
    (fun (s : (Nat → Nat → F) × F × F) i =>
      let bit := amountBit v i
      let pS := s.1
      let pS := set2 pS 0 i (pS 0 i * cs.x)
      let pS := set2 pS 0 i (pS 0 i + -cs.z)
      let pS := if bit ≠ 0 then set2 pS 0 i (pS 0 i + 1) else pS
      let pS := set2 pS 1 i (pS 1 i * cs.x)
      let pS := set2 pS 1 i (pS 1 i * s.2.1)
      let r0 := cs.z
      let r0 := if bit = 0 then r0 + -1 else r0
      let r0 := r0 * s.2.1
      let r0 := r0 + s.2.2
      let pS := set2 pS 1 i (pS 1 i + r0)
      (pS, s.2.1 * cs.y, s.2.2 * 2))
    (pS, 1, cs.zz)

/-- The second half of `RangeProof::Confidential::CoSign`, from `cs.Init(m_Part2, oracle)` to
the end; the arguments after `ePhase` are the local variables `cs`, `t0, t1, t2`, `msig`,
`alpha`, `ro` and `pS` as the first half leaves them. -/
def Confidential.CoSign_tail (ctx : Context F P CP) (fuel : Nat) (self : Confidential F CP)
    (sk : F) (v : Nat) (oracle : Oracle F CP) (ePhase : Phase)
    (cs : Confidential.ChallengeSet F) (t : Confidential.TState F) (msig : MultiSig F)
    (alpha ro : F) (pS : Nat → Nat → F) : Option (Bool × Confidential F CP × Oracle F CP) :=
  let rc := cs.Init2 ctx self.m_Part2 oracle
  let cs := rc.1
  let oracle := rc.2
  let l0 := msig.AddInfo2 sk cs
  let l0 := if Phase.SinglePass ≠ ePhase then l0 + self.m_Part3.m_TauX else l0
  let self := { self with m_Part3 := { m_TauX := l0 } }
  let l0 := ro
  let l0 := l0 * cs.x
  let l0 := l0 + alpha
  let self := { self with m_Mu := l0 }
  let l0 := t.t0
  let r0 := t.t1
  let r0 := r0 * cs.x
  let l0 := l0 + r0
  let r0 := t.t2
  let r0 := r0 * cs.x
  let r0 := r0 * cs.x
  let l0 := l0 + r0
  let self := { self with m_tDot := l0 }
  let pS := (Confidential.CoSign_lr cs v pS).1
  let yPwr := cs.y⁻¹
  let mod : Modifier F := { m_pMultiplier := Function.update (fun _ => none) 1 (some yPwr) }
  match InnerProduct.CreateOracle ctx fuel self.m_P_Tag oracle l0 (pS 0) (pS 1) mod with
  | none => none
  | some r => some (true, { self with m_P_Tag := r.1 }, r.2)

/-- `RangeProof::Confidential::CoSign`; `v` is an `Amount`. The result holds the value returned,
the proof object and the transcript. The code after the early return of phase `Step2` is
`CoSign_tail`. -/
def Confidential.CoSign (ctx : Context F P CP) (fuel : Nat) (self : Confidential F CP) (sk : F)
    (v : Nat) (oracle : Oracle F CP) (ePhase : Phase) :
    Option (Bool × Confidential F CP × Oracle F CP) :=
  let nonceGen : NonceGenerator F CP := { m_Oracle := [Item.amount v], m_sk := sk }
  let ra := nonceGen.get ctx
  let alpha := ra.1
  let comm := alpha • ctx.G
  let comm := (Confidential.CoSign_A ctx v comm).1
  let self := { self with m_Part1 := { self.m_Part1 with m_A := ctx.Export comm } }
  let rr := ra.2.get ctx
  let ro := rr.1
  let mm : MultiMac F P := MultiMac.Reset
  let mm := mm.pushPrepared ctx.G ro
  let rs := Confidential.CoSign_S ctx (rr.2, fun _ _ => 0, mm)
  let nonceGen := rs.1
  let pS := rs.2.1
  let comm := rs.2.2.Calculate
  let self := { self with m_Part1 := { self.m_Part1 with m_S := ctx.Export comm } }
  let cs : Confidential.ChallengeSet F := { x := 0, y := 0, z := 0, zz := 0 }
  let rc := cs.Init1 ctx self.m_Part1 oracle
  let cs := rc.1
  let oracle := rc.2
  let t := Confidential.CoSign_t cs v pS
  let msig := (MultiSig.Init ctx nonceGen).1
  let r2 : Option (Confidential F CP) :=
    if Phase.Finalize ≠ ePhase then
      let cc := msig.AddInfo1 ctx
      let comm := cc.1 + t.t1 • ctx.H
      let comm2 := cc.2 + t.t2 • ctx.H
      let r : Option (P × P) :=
        if Phase.SinglePass ≠ ePhase then
          match ctx.Import self.m_Part2.m_T1 with
          | none => none
          | some p =>
            let comm := comm + p
            match ctx.Import self.m_Part2.m_T2 with
            | none => none
            | some p => some (comm, comm2 + p)
        else some (comm, comm2)
      match r with
      | none => none
      | some cc => some { self with m_Part2 := { m_T1 := ctx.Export cc.1, m_T2 := ctx.Export cc.2 } }
    else some self
  match r2 with
  | none => some (false, self, oracle)
  | some self =>
    if Phase.Step2 = ePhase then some (true, self, oracle)
    else Confidential.CoSign_tail ctx fuel self sk v oracle ePhase cs t msig alpha ro pS

/-- `RangeProof::Confidential::Create`; `verify(...)` is an assertion on the value returned by
`CoSign`, which is handed back as the first component. -/
def Confidential.Create (ctx : Context F P CP) (fuel : Nat) (self : Confidential F CP) (sk : F)
    (v : Nat) (oracle : Oracle F CP) : Option (Bool × Confidential F CP × Oracle F CP) :=
  Confidential.CoSign ctx fuel self sk v oracle Phase.SinglePass

/-- `RangeProof::Confidential::CoSignPart(sk, v, Oracle&, Part2&)`. -/
def Confidential.CoSignPart2 (ctx : Context F P CP) (sk : F) (v : Nat) : Part2 CP :=
  let msig : MultiSig F := MultiSig.InitSk ctx sk v
  let pt := msig.AddInfo1 ctx
  { m_T1 := ctx.Export pt.1, m_T2 := ctx.Export pt.2 }

/-- `RangeProof::Confidential::CoSignPart(sk, v, Oracle&, const Part1&, const Part2&, Part3&)`. -/
def Confidential.CoSignPart3 (ctx : Context F P CP) (sk : F) (v : Nat) (oracle : Oracle F CP)
    (p1 : Part1 CP) (p2 : Part2 CP) : Part3 F × Oracle F CP :=
  let msig : MultiSig F := MultiSig.InitSk ctx sk v
  let cs : Confidential.ChallengeSet F := { x := 0, y := 0, z := 0, zz := 0 }
  let r1 := cs.Init1 ctx p1 oracle
  let r2 := r1.1.Init2 ctx p2 r1.2
  let taux := msig.AddInfo2 sk r2.1
  ({ m_TauX := taux }, r2.2)

/-- The block of `IsValid` that derives `bc.m_Multiplier` from the proof, run when
`bc.m_bEnableBatch` is set; the result is the transcript `o` right before the extraction. -/
def Confidential.MultiplierOracle (self : Confidential F CP) : Oracle F CP :=
  let o : Oracle F CP := []
  let o := (List.range 2).foldl
    (fun (o : Oracle F CP) j =>
      let o := Item.scalar (self.m_P_Tag.m_pCondensed j) :: o
      (List.range nCycles).foldl (fun (o : Oracle F CP) i => Item.point (self.m_P_Tag.m_pLR i j) :: o) o)
    o
  Item.scalar self.m_tDot :: Item.scalar self.m_Mu :: Item.scalar self.m_Part3.m_TauX ::
    Item.point self.m_Part2.m_T2 :: Item.point self.m_Part2.m_T1 ::
    Item.point self.m_Part1.m_S :: Item.point self.m_Part1.m_A :: o

/-- The block of `IsValid` that computes `delta(y,z)`; `Amount(-1)` is `2^64 - 1`. -/
def Confidential.Delta (cs : Confidential.ChallengeSet F) : F :=
  let sum2 : F := 1
  let sumY : F := 0
  let r := (List.range nDim).foldl
    (fun (s : F × F) _ =>
      let sumY := s.1 + s.2
      let sum2 := s.2 * cs.y
      (sumY, sum2))
    (sumY, sum2)
  let sumY := r.1
  let sum2 : F := ((2 ^ 64 - 1 : Nat) : F)
  let zz := cs.z * cs.z
  let delta := cs.z
  let delta := delta + -zz
  let delta := delta * sumY
  let sum2 := sum2 * zz
  let sum2 := sum2 * cs.z
  delta + -sum2

/-- The terms of the first equation of `IsValid`, between `EquationBegin(3)` and
`EquationEnd()`. -/
def Confidential.Equation1 (ctx : Context F P CP) (self : Confidential F CP) (commitment : P)
    (cs : Confidential.ChallengeSet F) (bc : BatchContext F P) : Bool × BatchContext F P :=
  let zz := cs.z * cs.z
  let delta := Confidential.Delta cs
  let xx := cs.x * cs.x
  let bc := bc.AddCasual commitment (-zz)
  let r := bc.AddCasualP ctx self.m_Part2.m_T1 (-cs.x)
  if !r.1 then (false, r.2)
  else
    let r := r.2.AddCasualP ctx self.m_Part2.m_T2 (-xx)
    if !r.1 then (false, r.2)
    else
      let bc := r.2
      let tDot := self.m_tDot
      let sumY := tDot
      let sumY := sumY + -delta
      let bc := bc.AddPrepared ctx ctx.s_Idx_G self.m_Part3.m_TauX
      let bc := bc.AddPrepared ctx ctx.s_Idx_H sumY
      (true, bc)

/-- The terms of the second equation of `IsValid`, between `EquationBegin(2)` and
`EquationEnd()`. -/
def Confidential.Equation2 (ctx : Context F P CP) (fuel : Nat) (self : Confidential F CP)
    (cs : Confidential.ChallengeSet F) (oracle : Oracle F CP) (bc : BatchContext F P) :
    Option (Bool × Oracle F CP × BatchContext F P) :=
  let zz := cs.z * cs.z
  let bc := bc.AddPrepared ctx ctx.s_Idx_Aux2 cs.z
  let bc := bc.AddPrepared ctx ctx.s_Idx_G (-self.m_Mu)
  let r := bc.AddCasualP ctx self.m_Part1.m_S cs.x
  if !r.1 then some (false, oracle, r.2)
  else
    let bc := r.2
    let yInv := cs.y⁻¹
    let mul : F := 2
    let mul := mul * yInv
    let pwr := zz
    let rl := (List.range nDim).foldl
      (fun (s : BatchContext F P × F) i =>
        let sum2 := s.2
        let sum2 := sum2 + cs.z
        (s.1.AddPrepared ctx (nDim + i) sum2, s.2 * mul))
      (bc, pwr)
    let bc := rl.1
    let bc := (bc.AddCasualP ctx self.m_Part1.m_A 1).2
    let mod : Modifier F := { m_pMultiplier := Function.update (fun _ => none) 1 (some yInv) }
    InnerProduct.IsValidOracle ctx fuel self.m_P_Tag bc oracle self.m_tDot mod

/-- `RangeProof::Confidential::IsValid(commitment, Oracle&, BatchContext&)`. -/
def Confidential.IsValidBc (ctx : Context F P CP) (fuel : Nat) (self : Confidential F CP)
    (commitment : P) (oracle : Oracle F CP) (bc : BatchContext F P) :
    Option (Bool × Oracle F CP × BatchContext F P) :=
  let bc := if bc.m_bEnableBatch then
      { bc with m_Multiplier := (Oracle.get ctx (Confidential.MultiplierOracle self)).1 }
    else bc
  let cs : Confidential.ChallengeSet F := { x := 0, y := 0, z := 0, zz := 0 }
  let r1 := cs.Init1 ctx self.m_Part1 oracle
  let r2 := r1.1.Init2 ctx self.m_Part2 r1.2
  let cs := r2.1
  let oracle := r2.2
  let r := bc.EquationBegin ctx 3
  if !r.1 then some (false, oracle, r.2)
  else
    let r := Confidential.Equation1 ctx self commitment cs r.2
    if !r.1 then some (false, oracle, r.2)
    else
      let r := r.2.EquationEnd ctx
      if !r.1 then some (false, oracle, r.2)
      else
        let bc := r.2
        let bc := if bc.m_bEnableBatch then
            { bc with m_Multiplier := (Oracle.get ctx [Item.scalar bc.m_Multiplier]).1 }
          else bc
        let r := bc.EquationBegin ctx 2
        if !r.1 then some (false, oracle, r.2)
        else
          match Confidential.Equation2 ctx fuel self cs oracle r.2 with
          | none => none
          | some r =>
            if !r.1 then some (false, r.2.1, r.2.2)
            else
              let e := r.2.2.EquationEnd ctx
              some (e.1, r.2.1, e.2)

/-- `RangeProof::Confidential::IsValid(commitment, Oracle&)`; `s_pInstance` is the ambient
context, which is returned in its new state when there is one. -/
def Confidential.IsValid (ctx : Context F P CP) (fuel : Nat) (self : Confidential F CP)
    (s_pInstance : Option (BatchContext F P)) (commitment : P) (oracle : Oracle F CP) :
    Option (Bool × Oracle F CP × Option (BatchContext F P)) :=
  match s_pInstance with
  | some bc =>
    match Confidential.IsValidBc ctx fuel self commitment oracle bc with
    | none => none
    | some r => some (r.1, r.2.1, some r.2.2)
  | none =>
    let bc : BatchContext F P := BatchContextEx 1
    let bc := { bc with m_bEnableBatch := true }
    match Confidential.IsValidBc ctx fuel self commitment oracle bc with
    | none => none
    | some r => if !r.1 then some (false, r.2.1, none) else some ((r.2.2.Flush ctx).1, r.2.1, none)

/-! ## uintBigImpl (`core/uintBig.h`) -/

/-- `uintBigImpl::_AssignRangeAligned<T>`. The buffer `pDst` is a map from indices to bytes,
`nDst`, `nOffsetBytes`, `nBytesX` and the indices are `uint32_t`; `x` is a value of the unsigned
type `T`, so `x >>= 8` is a division by 256. The second component tells whether the `assert`
held. -/
def uintBigImpl._AssignRangeAligned (pDst : Nat → Nat) (nDst : Nat) (x : Nat)
    (nOffsetBytes nBytesX : Nat) : (Nat → Nat) × Bool :=
  let ok := decide (nDst ≥ (nBytesX + nOffsetBytes) % 2 ^ 32)
  let nDst := (nDst + (2 ^ 32 - (nOffsetBytes + nBytesX) % 2 ^ 32)) % 2 ^ 32
  let r := (List.range nBytesX).foldl
    (fun (s : (Nat → Nat) × Nat) t =>
      let i := nBytesX - 1 - t
      (Function.update s.1 ((nDst + i) % 2 ^ 32) (s.2 % 256), s.2 / 256))
    (pDst, x)
  (r.1, ok)

/-- `uintBigImpl::_AssignRangeAlignedSafe<T>`, returning the value returned, the buffer and
whether the `assert` of `_AssignRangeAligned` held. -/
def uintBigImpl._AssignRangeAlignedSafe (pDst : Nat → Nat) (nDst : Nat) (x : Nat)
    (nOffsetBytes nBytesX : Nat) : Bool × (Nat → Nat) × Bool :=
  if nDst < nOffsetBytes then (false, pDst, true)
  else
    let n := nDst - nOffsetBytes
    let b := decide (nBytesX ≤ n)
    let r := uintBigImpl._AssignRangeAligned pDst nDst x nOffsetBytes (if b then nBytesX else n)
    (b, r.1, r.2)

/-- `uintBigImpl::_AssignSafe<T>`; `sizeofT` is `sizeof(T)`, `x` a value of `T`, so `x << nOffset`
converted to `T` keeps the low `8 * sizeof(T)` bits. The result holds the value returned, the
buffer and whether the `assert` held. -/
def uintBigImpl._AssignSafe (sizeofT : Nat) (pDst : Nat → Nat) (nDst : Nat) (x : Nat)
    (nOffset : Nat) : Bool × (Nat → Nat) × Bool :=
  let nOffsetBytes := nOffset >>> 3
  let nOffset := nOffset &&& 7
  let r := uintBigImpl._AssignRangeAlignedSafe pDst nDst ((x <<< nOffset) % 2 ^ (8 * sizeofT))
    nOffsetBytes sizeofT
  if !r.1 then (false, r.2.1, r.2.2)
  else
    if nOffset ≠ 0 then
      let nOffsetBytes := (nOffsetBytes + sizeofT) % 2 ^ 32
      if (nDst + (2 ^ 32 - 1)) % 2 ^ 32 < nOffsetBytes then (false, r.2.1, r.2.2)
      else
        let resid := (x >>> ((sizeofT <<< 3) - nOffset)) % 256
        let pDst := Function.update r.2.1
          (((nDst + (2 ^ 32 - 1)) % 2 ^ 32 + (2 ^ 32 - nOffsetBytes)) % 2 ^ 32) resid
        (true, pDst, r.2.2)
    else (true, r.2.1, r.2.2)

/-- `uintBig_t<nBits>::AssignSafe<T>` on the data `m_pData` of `nBytes` bytes. -/
def uintBig_t.AssignSafe (nBytes : Nat) (sizeofT : Nat) (m_pData : Nat → Nat) (x : Nat)
    (nOffset : Nat) : Bool × (Nat → Nat) × Bool :=
  uintBigImpl._AssignSafe sizeofT m_pData nBytes x nOffset

end Defs

/-! ## A small instance: the group of order 7 -/

namespace Example

instance prime7 : Fact (Nat.Prime 7) := ⟨by norm_num⟩

/-- The cyclic group of order 7 with its scalar field; a compact point is a point or a
malformed encoding (`none`). -/
def ctx : Context (ZMod 7) (ZMod 7) (Option (ZMod 7)) :=
  { G := 1, H := 2, m_pGen_ := fun _ _ => 3, m_GenDot_ := 4, m_Aux2_ := 4,
    m_pGet1_Minus := fun _ => 4, Import := id, Export := some, squeeze := fun _ => 1,
    GenerateNonce := fun sk _ => sk, s_Idx_GenDot := 128, s_Idx_Aux2 := 129, s_Idx_G := 130,
    s_Idx_H := 131, s_CountPrepared := 132 }

/-- A dirty context with one pending casual term, the point `1` with coefficient `1`. -/
def bcPending : BatchContext (ZMod 7) (ZMod 7) :=
  { (BatchContext.init 17 : BatchContext (ZMod 7) (ZMod 7)) with
    m_pCasual := [(1, 1)], m_bDirty := true }

/-- An inner-product proof all of whose points decode (to the identity). -/
def ipZero : InnerProduct (ZMod 7) (Option (ZMod 7)) :=
  { m_pLR := fun _ _ => some 0, m_pCondensed := fun _ => 0 }

/-- A range proof all of whose points decode. -/
def proofZero : Confidential (ZMod 7) (Option (ZMod 7)) :=
  { m_Part1 := { m_A := some 0, m_S := some 0 }, m_Part2 := { m_T1 := some 0, m_T2 := some 0 },
    m_Part3 := { m_TauX := 0 }, m_Mu := 0, m_tDot := 0, m_P_Tag := ipZero }

/-- The same range proof with an encoding of `A` that does not decode. -/
def proofBadA : Confidential (ZMod 7) (Option (ZMod 7)) :=
  { proofZero with m_Part1 := { m_A := none, m_S := some 0 } }

/-- A range proof with `T1 = 1`, `T2 = 0`, `tau_x = 0` and `tDot = 6`. -/
def proofT : Confidential (ZMod 7) (Option (ZMod 7)) :=
  { proofZero with m_Part2 := { m_T1 := some 1, m_T2 := some 0 }, m_tDot := 6 }

/-- The challenges `x = y = z = 1`. -/
def csOne : Confidential.ChallengeSet (ZMod 7) := { x := 1, y := 1, z := 1, zz := 1 }

/-- A fresh context for `n` proofs with batching enabled. -/
def bcBatch (n : Nat) : BatchContext (ZMod 7) (ZMod 7) :=
  { (BatchContextEx n : BatchContext (ZMod 7) (ZMod 7)) with m_bEnableBatch := true }

/-- Running `IsValid(commitment, oracle, bc)` on a list of proofs with the same context, as long
as every call returns `true`; the commitment is the identity and the transcript is fresh. -/
def verifyAll (fuel : Nat) :
    List (Confidential (ZMod 7) (Option (ZMod 7))) → BatchContext (ZMod 7) (ZMod 7) →
      Option (BatchContext (ZMod 7) (ZMod 7))
  | [], bc => some bc
  | p :: ps, bc =>
    match Confidential.IsValidBc ctx fuel p 0 [] bc with
    | some (true, _, bc) => verifyAll fuel ps bc
    | _ => none

end Example

/-! ## Notions used in the statements -/

section Notions

variable {F P CP : Type} [Field F] [DecidableEq F] [AddCommGroup P] [Module F P] [DecidableEq P]

/-- The layout of the prepared table that the constructor of `BatchContext` relies on: the
four named generators sit at four different indices behind the `2 * nDim` vector generators and
inside the table. -/
def Context.IdxOk (ctx : Context F P CP) : Prop :=
  2 * nDim ≤ ctx.s_Idx_GenDot ∧ 2 * nDim ≤ ctx.s_Idx_Aux2 ∧ 2 * nDim ≤ ctx.s_Idx_G ∧
  2 * nDim ≤ ctx.s_Idx_H ∧
  ctx.s_Idx_GenDot < ctx.s_CountPrepared ∧ ctx.s_Idx_Aux2 < ctx.s_CountPrepared ∧
  ctx.s_Idx_G < ctx.s_CountPrepared ∧ ctx.s_Idx_H < ctx.s_CountPrepared ∧
  ctx.s_Idx_GenDot ≠ ctx.s_Idx_Aux2 ∧ ctx.s_Idx_GenDot ≠ ctx.s_Idx_G ∧
  ctx.s_Idx_GenDot ≠ ctx.s_Idx_H ∧ ctx.s_Idx_Aux2 ≠ ctx.s_Idx_G ∧
  ctx.s_Idx_Aux2 ≠ ctx.s_Idx_H ∧ ctx.s_Idx_G ≠ ctx.s_Idx_H

instance Context.decIdxOk (ctx : Context F P CP) : Decidable ctx.IdxOk := by
  unfold Context.IdxOk
  infer_instance

/-- The point that a term of `Aggregator::Proceed` at position `iPos` stands for when the
aggregation starts at level `iCycle` and stops at level `trg`: a combination of the points
`leaf` with products of the challenges `val`. -/
def Efold (leaf : Nat → P) (val : Nat → Nat → F) (j trg : Nat) : Nat → Nat → P
  | iPos, 0 => if 0 ≠ trg then 0 else leaf iPos
  | iPos, iCycle + 1 =>
    if iCycle + 1 ≠ trg then
      val (nCycles - (iCycle + 1)) (lnot j) • Efold leaf val j trg iPos iCycle
        + val (nCycles - (iCycle + 1)) j • Efold leaf val j trg (iPos + 2 ^ iCycle) iCycle
    else leaf iPos

/-- The generator `m_pGen_[j][i]` weighted by the expanded modifier. -/
def Gt (ctx : Context F P CP) (mod : ModifierExpanded F) (j i : Nat) : P :=
  mod.Set 1 i j • ctx.m_pGen_ j i

/-- The factor applied to every term of an equation. -/
def BatchContext.factor (bc : BatchContext F P) : F :=
  if bc.m_bEnableBatch then bc.m_Multiplier else 1

/-- The first equation of the verifier, with all terms on one side. -/
def Equation1Sum (ctx : Context F P CP) (self : Confidential F CP) (commitment T1 T2 : P)
    (cs : Confidential.ChallengeSet F) : P :=
  -(cs.z * cs.z) • commitment + -cs.x • T1 + -(cs.x * cs.x) • T2 + self.m_Part3.m_TauX • ctx.G
    + (self.m_tDot - Confidential.Delta cs) • ctx.H

/-- The point a term of an aggregator without batch context stands for at the target level:
a condensed point of the calculator when `m_pCalc` is set, a weighted generator otherwise. -/
def Aggregator.leafPoint (ctx : Context F P CP) (a : Aggregator F P) : Nat → P :=
  match a.m_pCalc with
  | some gen => gen a.m_j
  | none => Gt ctx a.m_Mod a.m_j

/-- The points the aggregators of a calculator start from: the condensed points `m_pGen` after
the cutover round, the weighted generators before. -/
def Calculator.leafPoint (ctx : Context F P CP) (c : Calculator F P) (j : Nat) : Nat → P :=
  if c.m_iCycle > s_iCycle0 then c.m_pGen j else Gt ctx c.m_Mod j

/-- The point that `ExtractLR(j)` leaves in `m_Mm`, written with the current vectors. -/
def Calculator.LRPoint (ctx : Context F P CP) (c : Calculator F P) (j : Nat) : P :=
  (sumRange c.m_n (fun i => c.src j i * c.src (lnot j) (c.m_n + i)) * c.m_Cs.m_DotMultiplier)
      • ctx.m_GenDot_
    + sumRange c.m_n (fun i =>
        c.src 0 (i + if 0 = j then 0 else c.m_n)
          • Efold (c.leafPoint ctx 0) c.m_Cs.m_Val 0 (nCycles - c.m_iCycle)
              (i + if 0 = j then c.m_n else 0) c.m_GenOrder)
    + sumRange c.m_n (fun i =>
        c.src 1 (i + if 1 = j then 0 else c.m_n)
          • Efold (c.leafPoint ctx 1) c.m_Cs.m_Val 1 (nCycles - c.m_iCycle)
              (i + if 1 = j then c.m_n else 0) c.m_GenOrder)

/-- The generator of side `j` at position `p` after `k` folding rounds: the weighted generators
combined with the challenges of the rounds `0 .. k-1`. -/
def Gam (ctx : Context F P CP) (M : ModifierExpanded F) (val : Nat → Nat → F) (j k p : Nat) : P :=
  Efold (Gt ctx M j) val j (nCycles - k) p nCycles

/-- What holds of the calculator of `InnerProduct::Create` before round `k`: the modifier and
the dot multiplier are fixed, the generators are condensed once the cutover round is over, and
after the first round the vectors are read from the calculator's own buffers. -/
def CalcInv (ctx : Context F P CP) (M : ModifierExpanded F) (dm : F) (k : Nat)
    (c : Calculator F P) : Prop :=
  c.m_Mod = M ∧ c.m_Cs.m_DotMultiplier = dm ∧
  c.m_GenOrder = (if k ≤ s_iCycle0 then nCycles else nCycles - s_iCycle0 - 1) ∧
  (s_iCycle0 < k → ∀ j, j < 2 → ∀ q, q < nDim >>> (1 + s_iCycle0) →
    c.m_pGen j q = Efold (Gt ctx M j) c.m_Cs.m_Val j (nCycles - s_iCycle0 - 1) q nCycles) ∧
  (0 < k → c.m_ppSrc 0 = SrcPtr.val ∧ c.m_ppSrc 1 = SrcPtr.val)

/-- The commitment to the vectors `a`, `b` of length `nDim >> k` under the generators folded `k`
times, together with their dot product on `m_GenDot_`. -/
def Pk (ctx : Context F P CP) (M : ModifierExpanded F) (dm : F) (val : Nat → Nat → F) (k : Nat)
    (a b : Nat → F) : P :=
  sumRange (nDim >>> k) (fun i => a i • Gam ctx M val 0 k i)
    + sumRange (nDim >>> k) (fun i => b i • Gam ctx M val 1 k i)
    + (dm * sumRange (nDim >>> k) (fun i => a i * b i)) • ctx.m_GenDot_

/-- Adding a list of casual terms, given as pairs of a point and its coefficient. -/
def BatchContext.AddCasuals (bc : BatchContext F P) (terms : List (P × F)) : BatchContext F P :=
  terms.foldl (fun b t => b.AddCasual t.1 t.2) bc

/-- The commitment to the vectors `a` and `b` under the generators weighted by the modifier. -/
def InnerProduct.Commitment (ctx : Context F P CP) (mod : Modifier F) (a b : Nat → F) : P :=
  sumRange nDim (fun i => a i • Gt ctx (ModifierExpanded.Init mod) 0 i)
    + sumRange nDim (fun i => b i • Gt ctx (ModifierExpanded.Init mod) 1 i)

/-- The context `bc'` is the context `bc` with `n` more casual terms and other coefficients of
the prepared generators, the fields for flags, capacity and multiplier apart from the overflow
mark being those of `bc`, and the terms added amount to the point `E` times the factor of `bc`. -/
def BatchContext.Adds (ctx : Context F P CP) (bc bc' : BatchContext F P) (n : Nat) (E : P) :
    Prop :=
  ∃ (terms : List (P × F)) (kp : Nat → F),
    bc' = { bc.AddCasuals terms with m_pKPrep := kp } ∧ terms.length = n ∧
    bc'.Calculate ctx = bc.Calculate ctx + bc.factor • E

/-- The point the second equation of the verifier adds besides the inner-product part. -/
def Equation2Outer (ctx : Context F P CP) (self : Confidential F CP)
    (cs : Confidential.ChallengeSet F) (S : P) : P :=
  cs.z • ctx.m_Aux2_ + (-self.m_Mu) • ctx.G + cs.x • S
    + sumRange nDim (fun i => (cs.z * cs.z * (2 * cs.y⁻¹) ^ i + cs.z) • ctx.m_pGen_ 1 i)
    + (match ctx.Import self.m_Part1.m_A with
        | some A => A
        | none => 0)

/-- The challenges `x, y, z` the verifier derives from the parts of a proof, and the transcript
it is left with. -/
def Confidential.Challenges (ctx : Context F P CP) (self : Confidential F CP)
    (oracle : Oracle F CP) : Confidential.ChallengeSet F × Oracle F CP :=
  let cs : Confidential.ChallengeSet F := { x := 0, y := 0, z := 0, zz := 0 }
  let r1 := cs.Init1 ctx self.m_Part1 oracle
  r1.1.Init2 ctx self.m_Part2 r1.2

/-- The first equation of the verifier as a point: what the code between the first
`EquationBegin` and `EquationEnd` queues on a fresh context without batching, that is, unscaled,
for the challenges derived from the transcript. -/
def Confidential.Equation1Value (ctx : Context F P CP) (self : Confidential F CP)
    (commitment : P) (oracle : Oracle F CP) : P :=
  (Confidential.Equation1 ctx self commitment (Confidential.Challenges ctx self oracle).1
    (BatchContext.init s_CasualCountPerProof)).2.Calculate ctx

/-- The second equation of the verifier as a point: what the code between the second
`EquationBegin` and `EquationEnd` queues on a fresh context without batching. -/
def Confidential.Equation2Value (ctx : Context F P CP) (fuel : Nat) (self : Confidential F CP)
    (oracle : Oracle F CP) : P :=
  match Confidential.Equation2 ctx fuel self (Confidential.Challenges ctx self oracle).1
      (Confidential.Challenges ctx self oracle).2 (BatchContext.init s_CasualCountPerProof) with
  | some r => r.2.2.Calculate ctx
  | none => 0

/-- Verifying a list of proofs, each with its commitment and its transcript, one after another
with `IsValid(commitment, oracle, bc)` on one shared context; the run stops at the first call
that returns `false`. -/
def Confidential.IsValidAll (ctx : Context F P CP) (fuel : Nat) :
    List (Confidential F CP × P × Oracle F CP) → BatchContext F P →
      Option (Bool × BatchContext F P)
  | [], bc => some (true, bc)
  | x :: rest, bc =>
    match Confidential.IsValidBc ctx fuel x.1 x.2.1 x.2.2 bc with
    | none => none
    | some r => if r.1 then Confidential.IsValidAll ctx fuel rest r.2.2 else some (false, r.2.2)

/-- A proof is valid on its own for a commitment and a transcript: all of its points import and
both equations of the verifier are the identity. -/
def Confidential.Valid (ctx : Context F P CP) (fuel : Nat) (self : Confidential F CP)
    (commitment : P) (oracle : Oracle F CP) : Prop :=
  (ctx.Import self.m_Part1.m_A).isSome ∧ (ctx.Import self.m_Part1.m_S).isSome ∧
  (ctx.Import self.m_Part2.m_T1).isSome ∧ (ctx.Import self.m_Part2.m_T2).isSome ∧
  (∀ k, k < nCycles → ∀ j, j < 2 → (ctx.Import (self.m_P_Tag.m_pLR k j)).isSome) ∧
  Confidential.Equation1Value ctx self commitment oracle = 0 ∧
  Confidential.Equation2Value ctx fuel self oracle = 0

/-- What holds of the shared context between two verifications of a batch of valid proofs: it
holds a whole number of proofs, what it holds sums to the identity, and no assertion was
violated. -/
def BatchContext.BatchInv (ctx : Context F P CP) (M : Nat) (bc : BatchContext F P) : Prop :=
  bc.m_bEnableBatch = true ∧ bc.m_CasualTotal = M * s_CasualCountPerProof ∧
  (∃ q, q ≤ M ∧ bc.m_Casual = q * s_CasualCountPerProof) ∧ bc.Calculate ctx = 0 ∧
  (0 < bc.m_Casual → bc.m_bDirty = true) ∧ bc.m_CasualOverflow = false ∧
  bc.m_WontFit = false ∧ bc.m_AssertFailed = false

/-- The nonce `alpha` of `CoSign`, the first one drawn from the generator seeded with `sk`
and `v`, together with the generator it leaves. -/
def Confidential.CoSign_alpha (ctx : Context F P CP) (sk : F) (v : Nat) :
    F × NonceGenerator F CP :=
  ({ m_Oracle := [Item.amount v], m_sk := sk } : NonceGenerator F CP).get ctx

/-- The nonce `ro` of `CoSign`, the second one drawn. -/
def Confidential.CoSign_ro (ctx : Context F P CP) (sk : F) (v : Nat) :
    F × NonceGenerator F CP :=
  (Confidential.CoSign_alpha ctx sk v).2.get ctx

/-- The state `CoSign` is in after the loop that draws the blinding vectors. -/
def Confidential.CoSign_rs (ctx : Context F P CP) (sk : F) (v : Nat) :
    NonceGenerator F CP × (Nat → Nat → F) × MultiMac F P :=
  Confidential.CoSign_S ctx ((Confidential.CoSign_ro ctx sk v).2, fun _ _ => 0,
    (MultiMac.Reset : MultiMac F P).pushPrepared ctx.G (Confidential.CoSign_ro ctx sk v).1)

/-- The blinding vectors `sL = pS[0]`, `sR = pS[1]` of `CoSign`. -/
def Confidential.CoSign_pS (ctx : Context F P CP) (sk : F) (v : Nat) : Nat → Nat → F :=
  (Confidential.CoSign_rs ctx sk v).2.1

/-- The nonces `tau1`, `tau2` of `CoSign`. -/
def Confidential.CoSign_msig (ctx : Context F P CP) (sk : F) (v : Nat) : MultiSig F :=
  (MultiSig.Init ctx (Confidential.CoSign_rs ctx sk v).1).1

/-- The part `(A, S)` that `CoSign` computes. -/
def Confidential.CoSign_Part1 (ctx : Context F P CP) (sk : F) (v : Nat) : Part1 CP :=
  { m_A := ctx.Export
      (Confidential.CoSign_A ctx v ((Confidential.CoSign_alpha ctx sk v).1 • ctx.G)).1,
    m_S := ctx.Export (Confidential.CoSign_rs ctx sk v).2.2.Calculate }

/-- The challenges `y`, `z` of `CoSign` and the transcript after their extraction. -/
def Confidential.CoSign_cs1 (ctx : Context F P CP) (sk : F) (v : Nat) (oracle : Oracle F CP) :
    Confidential.ChallengeSet F × Oracle F CP :=
  ({ x := 0, y := 0, z := 0, zz := 0 } : Confidential.ChallengeSet F).Init1 ctx
    (Confidential.CoSign_Part1 ctx sk v) oracle

/-- The coefficients `t0`, `t1`, `t2` of `CoSign`. -/
def Confidential.CoSign_tt (ctx : Context F P CP) (sk : F) (v : Nat) (oracle : Oracle F CP) :
    Confidential.TState F :=
  Confidential.CoSign_t (Confidential.CoSign_cs1 ctx sk v oracle).1 v
    (Confidential.CoSign_pS ctx sk v)

/-- The part `(T1, T2)` the proof object holds after the middle block of `CoSign`, `none` when
a point stored before does not import. -/
def Confidential.CoSign_Part2 (ctx : Context F P CP) (self : Confidential F CP) (sk : F)
    (v : Nat) (oracle : Oracle F CP) (ePhase : Phase) : Option (Part2 CP) :=
  if Phase.Finalize ≠ ePhase then
    if Phase.SinglePass ≠ ePhase then
      match ctx.Import self.m_Part2.m_T1 with
      | none => none
      | some p =>
        match ctx.Import self.m_Part2.m_T2 with
        | none => none
        | some p' =>
          some { m_T1 := ctx.Export ((Confidential.CoSign_msig ctx sk v).m_tau1 • ctx.G
                    + (Confidential.CoSign_tt ctx sk v oracle).t1 • ctx.H + p),
                 m_T2 := ctx.Export ((Confidential.CoSign_msig ctx sk v).m_tau2 • ctx.G
                    + (Confidential.CoSign_tt ctx sk v oracle).t2 • ctx.H + p') }
    else
      some { m_T1 := ctx.Export ((Confidential.CoSign_msig ctx sk v).m_tau1 • ctx.G
                + (Confidential.CoSign_tt ctx sk v oracle).t1 • ctx.H),
             m_T2 := ctx.Export ((Confidential.CoSign_msig ctx sk v).m_tau2 • ctx.G
                + (Confidential.CoSign_tt ctx sk v oracle).t2 • ctx.H) }
  else some self.m_Part2

/-- The bit `i` of an amount as a scalar. -/
def bitF (v i : Nat) : F := if amountBit v i ≠ 0 then 1 else 0

/-- The vector `l0` of the prover: `bit_i - z`. -/
def Confidential.l0 (cs : Confidential.ChallengeSet F) (v i : Nat) : F := -cs.z + bitF v i

/-- The vector `r0` of the prover: `y^i * (z + bit_i - 1) + z^2 * 2^i`. -/
def Confidential.r0 (cs : Confidential.ChallengeSet F) (v i : Nat) : F :=
  (cs.z + (bitF v i - 1)) * cs.y ^ i + cs.zz * 2 ^ i

/-- What the code assumes of the context: the layout of the prepared table, `m_Aux2_` is minus
the sum of the generators `m_pGen_[0][i]`, `m_pGet1_Minus[i]` is minus `m_pGen_[1][i]`, an
exported point imports back to itself, and the transcript yields nonzero scalars. -/
def Context.Ok (ctx : Context F P CP) : Prop :=
  ctx.IdxOk ∧ (∀ p, ctx.Import (ctx.Export p) = some p) ∧
  ctx.m_Aux2_ = -sumRange nDim (fun i => ctx.m_pGen_ 0 i) ∧
  (∀ i, i < nDim → ctx.m_pGet1_Minus i = -ctx.m_pGen_ 1 i) ∧
  (∀ o, ctx.squeeze o ≠ 0)

/-- The vectors `l`, `r` that `CoSign` hands to the inner-product engine. -/
def Confidential.CoSign_vec (ctx : Context F P CP) (self : Confidential F CP) (sk : F) (v : Nat)
    (oracle : Oracle F CP) : Nat → Nat → F :=
  (Confidential.CoSign_lr
    ((Confidential.CoSign_cs1 ctx sk v oracle).1.Init2 ctx self.m_Part2
      (Confidential.CoSign_cs1 ctx sk v oracle).2).1 v (Confidential.CoSign_pS ctx sk v)).1

/-- The proof `Create(sk, v, oracle)` leaves in the proof object, with the commitment
`sk*G + v*H` it is for and the transcript state it was made in. -/
def Confidential.Honest (ctx : Context F P CP) (fuel : Nat) (self : Confidential F CP) (sk : F)
    (v : Nat) (oracle : Oracle F CP) : Confidential F CP × P × Oracle F CP :=
  (((Confidential.Create ctx fuel self sk v oracle).map (fun r => r.2.1)).getD self,
    sk • ctx.G + (v : F) • ctx.H, oracle)

/-- Three proofs made by `Create` in the group of order 7. -/
def Example.honestList :
    List (Confidential (ZMod 7) (Option (ZMod 7)) × ZMod 7 × Oracle (ZMod 7) (Option (ZMod 7))) :=
  [Confidential.Honest Example.ctx 1 Example.proofZero 3 5 [],
   Confidential.Honest Example.ctx 1 Example.proofZero 1 0 [],
   Confidential.Honest Example.ctx 1 Example.proofZero 2 (2 ^ 64 - 1) []]

/-- The transcript after the rounds `ks` of the inner-product argument when every extraction
yields a nonzero scalar at once: per round the mark of the extraction of the challenge, then the
points `L` and `R` of the round. -/
def InnerProduct.roundsLog (ip : InnerProduct F CP) : List Nat → Oracle F CP → Oracle F CP
  | [], o => o
  | k :: ks, o =>
    InnerProduct.roundsLog ip ks
      (Item.point (ip.m_pLR k 1) :: Item.point (ip.m_pLR k 0) :: Item.out :: o)

/-- The cells of an inner-product proof that exist in the code: the points `m_pLR[k][j]` for
`k < nCycles`, `j < 2` and the scalars `m_pCondensed[j]` for `j < 2`. -/
def InnerProduct.SameAs (ip ip' : InnerProduct F CP) : Prop :=
  (∀ k, k < nCycles → ∀ j, j < 2 → ip.m_pLR k j = ip'.m_pLR k j) ∧
  (∀ j, j < 2 → ip.m_pCondensed j = ip'.m_pCondensed j)

/-- The challenges `x, y, z` of `CoSign` for the part `(T1, T2)` it absorbs, and the transcript
after their extraction. -/
def Confidential.CoSign_cs2 (ctx : Context F P CP) (sk : F) (v : Nat) (oracle : Oracle F CP)
    (p2 : Part2 CP) : Confidential.ChallengeSet F × Oracle F CP :=
  (Confidential.CoSign_cs1 ctx sk v oracle).1.Init2 ctx p2 (Confidential.CoSign_cs1 ctx sk v oracle).2

/-- A range proof whose stored `T1` does not decode. -/
def Example.proofBadT1 : Confidential (ZMod 7) (Option (ZMod 7)) :=
  { Example.proofZero with m_Part2 := { m_T1 := none, m_T2 := some 0 } }

/-- A range proof with other content than `Example.proofZero` in every field. -/
def Example.proofOther : Confidential (ZMod 7) (Option (ZMod 7)) :=
  { m_Part1 := { m_A := none, m_S := some 5 }, m_Part2 := { m_T1 := some 1, m_T2 := none },
    m_Part3 := { m_TauX := 3 }, m_Mu := 2, m_tDot := 6,
    m_P_Tag := { m_pLR := fun _ _ => some 4, m_pCondensed := fun _ => 5 } }

/-- The number of compact points among the items a transcript has absorbed. -/
def Oracle.countPoints (o : Oracle F CP) : Nat :=
  (o.filter (fun x => match x with
    | Item.point _ => true
    | _ => false)).length

/-- The number of scalars among the items a transcript has absorbed. -/
def Oracle.countScalars (o : Oracle F CP) : Nat :=
  (o.filter (fun x => match x with
    | Item.scalar _ => true
    | _ => false)).length

/-- The `len` bytes of a big-endian buffer of `nDst` bytes that start at byte offset `q` from
the least-significant end, read as the number they contribute to the value of the buffer. -/
def uintBigImpl.rangeValue (pDst : Nat → Nat) (nDst q len : Nat) : Nat :=
  sumRange len (fun t => pDst (nDst - 1 - (q + t)) * 256 ^ (q + t))

/-- A buffer of four zero bytes. -/
def Example.zeroBuf : Nat → Nat := fun _ => 0

/-- The nonce generator after `n` nonces have been drawn from it. -/
def NonceGenerator.skip (ctx : Context F P CP) (g : NonceGenerator F CP) :
    Nat → NonceGenerator F CP
  | 0 => g
  | n + 1 => ((NonceGenerator.skip ctx g n).get ctx).2

/-- Output number `n` (counted from 1) of the nonce stream of a generator. -/
def NonceGenerator.output (ctx : Context F P CP) (g : NonceGenerator F CP) (n : Nat) : F :=
  ((NonceGenerator.skip ctx g (n - 1)).get ctx).1

/-- The challenges `x, y, z` derived from the parts `(A, S)` and `(T1, T2)` and a transcript
state, as `ChallengeSet::Init(p1, oracle)` followed by `ChallengeSet::Init(p2, oracle)` leaves
them. -/
def Confidential.PartChallenges (ctx : Context F P CP) (p1 : Part1 CP) (p2 : Part2 CP)
    (oracle : Oracle F CP) : Confidential.ChallengeSet F :=
  ((({ x := 0, y := 0, z := 0, zz := 0 } : Confidential.ChallengeSet F).Init1 ctx p1 oracle).1.Init2
    ctx p2 (({ x := 0, y := 0, z := 0, zz := 0 } :
      Confidential.ChallengeSet F).Init1 ctx p1 oracle).2).1

/-- One operation of a caller on a batch context: a member function, the direct write
`m_Bufs.m_pKPrep[i] += k` of the verifier, or an assignment to one of the public fields
`m_bEnableBatch` and `m_Multiplier`. -/
inductive BatchContext.Op (F P CP : Type) where
  | Reset : BatchContext.Op F P CP
  | Flush : BatchContext.Op F P CP
  | EquationBegin : Nat → BatchContext.Op F P CP
  | EquationEnd : BatchContext.Op F P CP
  | AddCasual : P → F → BatchContext.Op F P CP
  | AddCasualP : CP → F → BatchContext.Op F P CP
  | AddPrepared : Nat → F → BatchContext.Op F P CP
  | WriteKPrep : Nat → F → BatchContext.Op F P CP
  | SetEnableBatch : Bool → BatchContext.Op F P CP
  | SetMultiplier : F → BatchContext.Op F P CP

/-- The operations that queue a term. -/
def BatchContext.Op.isAdd : BatchContext.Op F P CP → Bool
  | BatchContext.Op.AddCasual _ _ => true
  | BatchContext.Op.AddCasualP _ _ => true
  | BatchContext.Op.AddPrepared _ _ => true
  | BatchContext.Op.WriteKPrep _ _ => true
  | _ => false

/-- One operation applied to a context; the flag tells whether an equation is open, that is,
whether the last operation that did not queue a term or set a public field was an
`EquationBegin` that returned `true`. -/
def BatchContext.applyOp (ctx : Context F P CP) (s : BatchContext F P × Bool) :
    BatchContext.Op F P CP → BatchContext F P × Bool
  | BatchContext.Op.Reset => (s.1.Reset, false)
  | BatchContext.Op.Flush => ((s.1.Flush ctx).2, false)
  | BatchContext.Op.EquationBegin n => ((s.1.EquationBegin ctx n).2, (s.1.EquationBegin ctx n).1)
  | BatchContext.Op.EquationEnd => ((s.1.EquationEnd ctx).2, false)
  | BatchContext.Op.AddCasual pt k => (s.1.AddCasual pt k, s.2)
  | BatchContext.Op.AddCasualP p k => ((s.1.AddCasualP ctx p k).2, s.2)
  | BatchContext.Op.AddPrepared i k => (s.1.AddPrepared ctx i k, s.2)
  | BatchContext.Op.WriteKPrep i k =>
    ({ s.1 with m_pKPrep := Function.update s.1.m_pKPrep i (s.1.m_pKPrep i + k) }, s.2)
  | BatchContext.Op.SetEnableBatch b => ({ s.1 with m_bEnableBatch := b }, s.2)
  | BatchContext.Op.SetMultiplier m => ({ s.1 with m_Multiplier := m }, s.2)

/-- A sequence of operations in which terms are queued only while an equation is open. -/
def BatchContext.disciplined (ctx : Context F P CP) :
    BatchContext F P × Bool → List (BatchContext.Op F P CP) → Bool
  | _, [] => true
  | s, op :: ops =>
    (!op.isAdd || s.2) && BatchContext.disciplined ctx (BatchContext.applyOp ctx s op) ops

/-- The state a sequence of operations leaves. -/
def BatchContext.runOps (ctx : Context F P CP) (s : BatchContext F P × Bool)
    (ops : List (BatchContext.Op F P CP)) : BatchContext F P × Bool :=
  ops.foldl (BatchContext.applyOp ctx) s

/-- What holds of a context between operations: while an equation is open it is dirty, and
when it is not dirty nothing is queued. -/
def BatchContext.CleanInv (s : BatchContext F P × Bool) : Prop :=
  (s.2 = true → s.1.m_bDirty = true) ∧
  (s.1.m_bDirty = false → s.1.m_pCasual = [] ∧ ∀ i, s.1.m_pKPrep i = 0)

/-- The terms the rounds `ks` of the inner-product verifier are to enqueue, starting from the
transcript `o`: per round `k` the point `L_k` with the square of the challenge and the point
`R_k` with the square of its inverse, the challenge being the scalar the transcript yields when
the round begins; `LR k j` is the decoded point `m_pLR[k][j]`. -/
def InnerProduct.roundTerms (ctx : Context F P CP) (ip : InnerProduct F CP) (LR : Nat → Nat → P) :
    List Nat → Oracle F CP → List (P × F)
  | [], _ => []
  | k :: ks, o =>
    (LR k 0, ctx.squeeze o ^ 2) :: (LR k 1, (ctx.squeeze o)⁻¹ ^ 2) ::
      InnerProduct.roundTerms ctx ip LR ks
        (Item.point (ip.m_pLR k 1) :: Item.point (ip.m_pLR k 0) :: Item.out :: o)

/-- A modifier without multipliers. -/
def Example.modNone : Modifier (ZMod 7) := { m_pMultiplier := fun _ => none }

/-- The cross term of side `j` in a round with half-length `n`: `<a_lo, b_hi>` for `j = 0`
(it goes into `L`) and `<b_lo, a_hi>` for `j = 1` (it goes into `R`), as the loop of
`ExtractLR(j)` sums it before the multiplication by the dot multiplier. -/
def crossTerm (n : Nat) (a b : Nat → F) (j : Nat) : F :=
  if j = 0 then sumRange n (fun i => a i * b (n + i)) else sumRange n (fun i => b i * a (n + i))

/-- The point `L` (`j = 0`) or `R` (`j = 1`) of round `k` for the current vectors `a`, `b`, with
every coefficient expanded over the original `2 * nDim` generators folded by the challenges of
the rounds before. -/
def LRExpanded (ctx : Context F P CP) (M : ModifierExpanded F) (dm : F) (val : Nat → Nat → F)
    (k : Nat) (a b : Nat → F) (j : Nat) : P :=
  if j = 0 then
    (crossTerm (nDim >>> (k + 1)) a b 0 * dm) • ctx.m_GenDot_
      + sumRange (nDim >>> (k + 1)) (fun i => a i • Gam ctx M val 0 k (i + nDim >>> (k + 1)))
      + sumRange (nDim >>> (k + 1)) (fun i => b (i + nDim >>> (k + 1)) • Gam ctx M val 1 k i)
  else
    (crossTerm (nDim >>> (k + 1)) a b 1 * dm) • ctx.m_GenDot_
      + sumRange (nDim >>> (k + 1)) (fun i => a (i + nDim >>> (k + 1)) • Gam ctx M val 0 k i)
      + sumRange (nDim >>> (k + 1)) (fun i => b i • Gam ctx M val 1 k (i + nDim >>> (k + 1)))

/-- The state of the inner-product construction without condensation of generators: the
transcript, the challenges of the rounds so far (`val k 0 = x_k`, `val k 1 = x_k^-1`), the
current vectors and the pairs `(L, R)` stored so far. -/
structure PlainState (F CP : Type) where
  o : Oracle F CP
  val : Nat → Nat → F
  a : Nat → F
  b : Nat → F
  lr : Nat → Nat → CP

/-- One round of the construction as the specification describes it, without the condensation
of generators: the challenge is extracted, `L` and `R` are computed with every coefficient
expanded over the original generators, stored and absorbed, and both vectors are folded in
half. -/
def InnerProduct.plainRound (ctx : Context F P CP) (M : ModifierExpanded F) (dm : F)
    (s : PlainState F CP) (k : Nat) : PlainState F CP :=
  let x := ctx.squeeze s.o
  let val := set2 (set2 s.val k 0 x) k 1 x⁻¹
  let n := nDim >>> (k + 1)
  let L := ctx.Export (LRExpanded ctx M dm val k s.a s.b 0)
  let R := ctx.Export (LRExpanded ctx M dm val k s.a s.b 1)
  { o := Item.point R :: Item.point L :: Item.out :: s.o,
    val := val,
    a := fun i => s.a i * x + s.a (n + i) * x⁻¹,
    b := fun i => s.b i * x⁻¹ + s.b (n + i) * x,
    lr := set2 (set2 s.lr k 0 L) k 1 R }

/-- The state before the rounds of the construction without condensation. -/
def InnerProduct.plainStart (ctx : Context F P CP) (self : InnerProduct F CP)
    (oracle : Oracle F CP) (pAB : Bool) (dotAB : F) (pA pB : Nat → F) (mod : Modifier F) :
    PlainState F CP :=
  { o := Item.out :: Item.scalar dotAB ::
      (if pAB then Item.point (ctx.Export (InnerProduct.Commitment ctx mod pA pB)) :: oracle
        else oracle),
    val := fun _ _ => 0, a := pA, b := pB, lr := self.m_pLR }

/-- The dot multiplier of the construction. -/
def InnerProduct.plainDm (ctx : Context F P CP) (oracle : Oracle F CP) (pAB : Bool) (dotAB : F)
    (pA pB : Nat → F) (mod : Modifier F) : F :=
  ctx.squeeze (Item.scalar dotAB ::
    (if pAB then Item.point (ctx.Export (InnerProduct.Commitment ctx mod pA pB)) :: oracle
      else oracle))

/-- The state of the construction without condensation after `n` rounds. -/
def InnerProduct.plainRounds (ctx : Context F P CP) (self : InnerProduct F CP)
    (oracle : Oracle F CP) (pAB : Bool) (dotAB : F) (pA pB : Nat → F) (mod : Modifier F)
    (n : Nat) : PlainState F CP :=
  (List.range n).foldl
    (InnerProduct.plainRound ctx (ModifierExpanded.Init mod)
      (InnerProduct.plainDm ctx oracle pAB dotAB pA pB mod))
    (InnerProduct.plainStart ctx self oracle pAB dotAB pA pB mod)

/-- `InnerProduct::Create` without the condensation of generators, as the specification
describes the construction (steps 1, 2 and 4), for a transcript that yields a nonzero scalar at
every extraction: the result holds the proof, the transcript and the commitment when it is
requested. -/
def InnerProduct.CreatePlain (ctx : Context F P CP) (self : InnerProduct F CP)
    (oracle : Oracle F CP) (pAB : Bool) (dotAB : F) (pA pB : Nat → F) (mod : Modifier F) :
    InnerProduct F CP × Oracle F CP × Option P :=
  ({ m_pLR := (InnerProduct.plainRounds ctx self oracle pAB dotAB pA pB mod nCycles).lr,
     m_pCondensed := Function.update (Function.update self.m_pCondensed 0
        ((InnerProduct.plainRounds ctx self oracle pAB dotAB pA pB mod nCycles).a 0)) 1
        ((InnerProduct.plainRounds ctx self oracle pAB dotAB pA pB mod nCycles).b 0) },
    (InnerProduct.plainRounds ctx self oracle pAB dotAB pA pB mod nCycles).o,
    if pAB then some (InnerProduct.Commitment ctx mod pA pB) else none)

/-- The cross terms of the rounds before round `n`, each with the square of the challenge of its
round or of its inverse: the sum over `k < n` of `x_k^2 * <a_lo, b_hi> + x_k^-2 * <a_hi, b_lo>`
for the vectors current in round `k`. -/
def InnerProduct.crossSum (ctx : Context F P CP) (self : InnerProduct F CP)
    (oracle : Oracle F CP) (pAB : Bool) (dotAB : F) (pA pB : Nat → F) (mod : Modifier F)
    (n : Nat) : F :=
  sumRange n (fun k =>
    ctx.squeeze (InnerProduct.plainRounds ctx self oracle pAB dotAB pA pB mod k).o ^ 2
        * crossTerm (nDim >>> (k + 1))
            (InnerProduct.plainRounds ctx self oracle pAB dotAB pA pB mod k).a
            (InnerProduct.plainRounds ctx self oracle pAB dotAB pA pB mod k).b 0
      + (ctx.squeeze (InnerProduct.plainRounds ctx self oracle pAB dotAB pA pB mod k).o)⁻¹ ^ 2
        * crossTerm (nDim >>> (k + 1))
            (InnerProduct.plainRounds ctx self oracle pAB dotAB pA pB mod k).a
            (InnerProduct.plainRounds ctx self oracle pAB dotAB pA pB mod k).b 1)

/-- The coefficient of the leaf term at offset `off` from the start position, for an aggregation
from level `iCycle` down to level `trg`: the product over the bits `b` in `[trg, iCycle)` of
`m_Val[nCycles-1-b][j]` if bit `b` of `off` is set and of `m_Val[nCycles-1-b][!j]` otherwise. -/
def Aggregator.leafCoef (val : Nat → Nat → F) (j trg iCycle off : Nat) : F :=
  ((List.range (iCycle - trg)).map
    (fun d => val (nCycles - 1 - (trg + d)) (if off.testBit (trg + d) then j else lnot j))).prod

/-- The leaf term number `m` of an aggregation, counted in the order of emission: its position
and its coefficient. -/
def Aggregator.leafTerm (val : Nat → Nat → F) (j trg iCycle iPos : Nat) (k : F) (m : Nat) :
    Nat × F :=
  (iPos + m * 2 ^ trg, k * Aggregator.leafCoef val j trg iCycle (m * 2 ^ trg))

/-- An aggregator of the verifier for side `0`, with every challenge equal to `2`. -/
def Example.aggr : Aggregator (ZMod 7) (ZMod 7) :=
  Aggregator.mk' MultiMac.Reset { m_DotMultiplier := 1, m_Val := fun _ _ => 2 }
    (ModifierExpanded.Init Example.modNone) 0 0

/-- The verification `IsValid(commitment, Oracle&, BatchContext&)` on a context with batching,
with the two derivations of `bc.m_Multiplier` replaced by the assignment of given values: `m1`
before the first equation and `m2` before the second. The code is compared with it in the
statement that both multipliers depend on the proof alone. -/
def Confidential.IsValidBcWith (ctx : Context F P CP) (fuel : Nat) (self : Confidential F CP)
    (commitment : P) (oracle : Oracle F CP) (bc : BatchContext F P) (m1 m2 : F) :
    Option (Bool × Oracle F CP × BatchContext F P) :=
  let bc := { bc with m_Multiplier := m1 }
  let cs : Confidential.ChallengeSet F := { x := 0, y := 0, z := 0, zz := 0 }
  let r1 := cs.Init1 ctx self.m_Part1 oracle
  let r2 := r1.1.Init2 ctx self.m_Part2 r1.2
  let cs := r2.1
  let oracle := r2.2
  let r := bc.EquationBegin ctx 3
  if !r.1 then some (false, oracle, r.2)
  else
    let r := Confidential.Equation1 ctx self commitment cs r.2
    if !r.1 then some (false, oracle, r.2)
    else
      let r := r.2.EquationEnd ctx
      if !r.1 then some (false, oracle, r.2)
      else
        let bc := { r.2 with m_Multiplier := m2 }
        let r := bc.EquationBegin ctx 2
        if !r.1 then some (false, oracle, r.2)
        else
          match Confidential.Equation2 ctx fuel self cs oracle r.2 with
          | none => none
          | some r =>
            if !r.1 then some (false, r.2.1, r.2.2)
            else
              let e := r.2.2.EquationEnd ctx
              some (e.1, r.2.1, e.2)

end Notions

/-! # Properties -/

/-! ## The batch context -/

section BatchContextFacts

set_option linter.unusedSectionVars false

variable {F P CP : Type} [Field F] [DecidableEq F] [AddCommGroup P] [Module F P] [DecidableEq P]

theorem sumRange_eq_sum {M : Type} [AddCommMonoid M] (n : Nat) (f : Nat → M) :
    sumRange n f = ∑ i in Finset.range n, f i := by
  induction n with
  | zero => simp [sumRange]
  | succ n ih =>
    rw [Finset.sum_range_succ, ← ih]
    simp [sumRange, List.range_succ]

theorem Flush_fst (ctx : Context F P CP) (bc : BatchContext F P) :
    (bc.Flush ctx).1 = (!bc.m_bDirty || decide (bc.Calculate ctx = 0)) := by
  unfold BatchContext.Flush
  cases hd : bc.m_bDirty <;> by_cases hc : bc.Calculate ctx = 0 <;> simp [hc]

theorem Flush_snd (ctx : Context F P CP) (bc : BatchContext F P) :
    (bc.Flush ctx).2 = if bc.m_bDirty = true ∧ bc.Calculate ctx = 0 then bc.Reset else bc := by
  unfold BatchContext.Flush
  cases hd : bc.m_bDirty <;> by_cases hc : bc.Calculate ctx = 0 <;> simp [hc]

/-- C7. `Flush` on a dirty context returns `true` exactly when the multi-scalar multiplication
over all queued terms, the pending casual terms plus the prepared generators with their
accumulated coefficients, is the identity. -/
theorem Flush_dirty_iff_identity (ctx : Context F P CP) (bc : BatchContext F P)
    (hDirty : bc.m_bDirty = true) :
    (bc.Flush ctx).1 = true ↔
      (bc.m_pCasual.map (fun c => c.2 • c.1)).sum
        + ∑ i in Finset.range ctx.s_CountPrepared,
            bc.m_pKPrep i • BatchContext.m_ppPrepared ctx i = 0 := by
  rw [Flush_fst, hDirty, ← sumRange_eq_sum]
  simp [BatchContext.Calculate]

set_option maxRecDepth 100000 in
theorem Flush_dirty_iff_identity_witness :
    Example.bcPending.m_bDirty = true ∧
    ((Example.bcPending.Flush Example.ctx).1 = true ↔
      (Example.bcPending.m_pCasual.map (fun c => c.2 • c.1)).sum
        + ∑ i in Finset.range Example.ctx.s_CountPrepared,
            Example.bcPending.m_pKPrep i • BatchContext.m_ppPrepared Example.ctx i = 0) :=
  ⟨rfl, Flush_dirty_iff_identity Example.ctx Example.bcPending rfl⟩

set_option maxRecDepth 100000 in
/-- C6, counterexample. A dirty context whose single pending term is the point `1` with
coefficient `1`: `Flush` returns `false`, and afterwards the term is still pending and the dirty
flag is still set. -/
theorem Flush_failure_keeps_state :
    (Example.bcPending.Flush Example.ctx).1 = false ∧
    (Example.bcPending.Flush Example.ctx).2.m_Casual = 1 ∧
    (Example.bcPending.Flush Example.ctx).2.m_bDirty = true := by
  decide

/-- C6, amended. `Flush` resets the context, leaving no pending casual term, all prepared
coefficients zero and the dirty flag cleared, exactly when it returns `true` on a dirty context;
when it returns `false`, or when the context was not dirty, the context is left as it was. -/
theorem Flush_state (ctx : Context F P CP) (bc : BatchContext F P) :
    (bc.Flush ctx).2
        = (if bc.m_bDirty = true ∧ (bc.Flush ctx).1 = true then bc.Reset else bc) ∧
    bc.Reset.m_Casual = 0 ∧ (∀ i, bc.Reset.m_pKPrep i = 0) ∧ bc.Reset.m_bDirty = false := by
  refine ⟨?_, rfl, fun _ => rfl, rfl⟩
  rw [Flush_snd, Flush_fst]
  cases hd : bc.m_bDirty <;> simp

/-- Adding a list of casual terms one after another. -/
theorem AddCasual_foldl_overflow (bc : BatchContext F P) (terms : List (P × F))
    (hfit : bc.m_Casual + terms.length ≤ bc.m_CasualTotal) :
    (terms.foldl (fun b t => b.AddCasual t.1 t.2) bc).m_CasualOverflow = bc.m_CasualOverflow ∧
    (terms.foldl (fun b t => b.AddCasual t.1 t.2) bc).m_Casual = bc.m_Casual + terms.length := by
  induction terms generalizing bc with
  | nil => simp
  | cons t ts ih =>
    have h1 : (bc.AddCasual t.1 t.2).m_Casual = bc.m_Casual + 1 := by
      simp [BatchContext.AddCasual, BatchContext.m_Casual]
    have h2 : (bc.AddCasual t.1 t.2).m_CasualTotal = bc.m_CasualTotal := rfl
    have h3 : (bc.AddCasual t.1 t.2).m_CasualOverflow = bc.m_CasualOverflow := by
      have : bc.m_Casual < bc.m_CasualTotal := by
        simp only [List.length_cons] at hfit; omega
      simp [BatchContext.AddCasual, this]
    simp only [List.foldl_cons, List.length_cons]
    have := ih (bc.AddCasual t.1 t.2) (by simp only [List.length_cons] at hfit; omega)
    rw [this.1, this.2, h1, h3]
    exact ⟨rfl, by omega⟩

/-- C10. `EquationBegin(k)` on a context whose capacity is below `2^31`, whose pending count
does not exceed the capacity and which has nothing pending unless it is dirty:
if `k` exceeds the capacity it returns `false` and changes nothing (the ghost flag of
`assert(false)` apart); otherwise, if `pending + k` exceeds the capacity it flushes first and
returns `false` when the flush fails; if `pending + k` fits it only sets the dirty flag.
Whenever it returns `true` the context is dirty and `pending + k ≤ capacity`, so adding at most
`k` casual terms afterwards never violates the assertion of `AddCasual`. -/
theorem EquationBegin_spec (ctx : Context F P CP) (bc : BatchContext F P) (k : Nat)
    (hcap : bc.m_CasualTotal < 2 ^ 31) (hpend : bc.m_Casual ≤ bc.m_CasualTotal)
    (hclean : bc.m_bDirty = false → bc.m_Casual = 0) :
    (bc.m_CasualTotal < k → bc.EquationBegin ctx k = (false, { bc with m_WontFit := true })) ∧
    (k ≤ bc.m_CasualTotal → bc.m_CasualTotal < bc.m_Casual + k →
      bc.EquationBegin ctx k =
        if (bc.Flush ctx).1 = true then (true, { (bc.Flush ctx).2 with m_bDirty := true })
        else (false, (bc.Flush ctx).2)) ∧
    (bc.m_Casual + k ≤ bc.m_CasualTotal →
      bc.EquationBegin ctx k = (true, { bc with m_bDirty := true })) ∧
    ((bc.EquationBegin ctx k).1 = true →
      (bc.EquationBegin ctx k).2.m_bDirty = true ∧
      (bc.EquationBegin ctx k).2.m_Casual + k ≤ (bc.EquationBegin ctx k).2.m_CasualTotal ∧
      ∀ terms : List (P × F), terms.length ≤ k →
        (terms.foldl (fun b t => b.AddCasual t.1 t.2) (bc.EquationBegin ctx k).2).m_CasualOverflow
          = bc.m_CasualOverflow) := by
  have hA : bc.m_CasualTotal < k →
      bc.EquationBegin ctx k = (false, { bc with m_WontFit := true }) := by
    intro h
    simp [BatchContext.EquationBegin, h]
  have hB : k ≤ bc.m_CasualTotal → bc.m_CasualTotal < bc.m_Casual + k →
      bc.EquationBegin ctx k =
        if (bc.Flush ctx).1 = true then (true, { (bc.Flush ctx).2 with m_bDirty := true })
        else (false, (bc.Flush ctx).2) := by
    intro h1 h2
    have hmod : (k + bc.m_Casual) % 2 ^ 32 = k + bc.m_Casual := Nat.mod_eq_of_lt (by omega)
    have h3 : ¬ bc.m_CasualTotal < k := by omega
    have h4 : bc.m_CasualTotal < k + bc.m_Casual := by omega
    simp only [BatchContext.EquationBegin, gt_iff_lt, h3, if_false, hmod, h4, if_true]
    cases (bc.Flush ctx).1 <;> simp
  have hC : bc.m_Casual + k ≤ bc.m_CasualTotal →
      bc.EquationBegin ctx k = (true, { bc with m_bDirty := true }) := by
    intro h1
    have hmod : (k + bc.m_Casual) % 2 ^ 32 = k + bc.m_Casual := Nat.mod_eq_of_lt (by omega)
    have h3 : ¬ bc.m_CasualTotal < k := by omega
    have h4 : ¬ bc.m_CasualTotal < k + bc.m_Casual := by omega
    simp only [BatchContext.EquationBegin, gt_iff_lt, h3, if_false, hmod, h4]
  refine ⟨hA, hB, hC, ?_⟩
  intro hres
  have key : (bc.EquationBegin ctx k).2.m_bDirty = true ∧
      (bc.EquationBegin ctx k).2.m_Casual + k ≤ (bc.EquationBegin ctx k).2.m_CasualTotal ∧
      (bc.EquationBegin ctx k).2.m_CasualOverflow = bc.m_CasualOverflow := by
    by_cases h1 : bc.m_CasualTotal < k
    · rw [hA h1] at hres
      simp at hres
    · by_cases h2 : bc.m_Casual + k ≤ bc.m_CasualTotal
      · rw [hC h2]
        exact ⟨rfl, h2, rfl⟩
      · rw [hB (by omega) (by omega)] at hres ⊢
        cases hf : (bc.Flush ctx).1
        · simp [hf] at hres
        · have hf1 := Flush_fst ctx bc
          have hf2 := Flush_snd ctx bc
          rw [hf] at hf1
          cases hd : bc.m_bDirty
          · have := hclean hd
            omega
          · rw [hd] at hf1
            have hz : bc.Calculate ctx = 0 := by simpa using hf1.symm
            rw [if_pos ⟨hd, hz⟩] at hf2
            rw [hf2]
            refine ⟨by simp, ?_, by simp [BatchContext.Reset]⟩
            simp only [if_true, BatchContext.Reset, BatchContext.m_Casual, List.length_nil]
            omega
  refine ⟨key.1, key.2.1, ?_⟩
  intro terms hlen
  rw [(AddCasual_foldl_overflow _ terms (by omega)).1, key.2.2]

set_option maxRecDepth 100000 in
theorem EquationBegin_spec_witness :
    (Example.bcPending.EquationBegin Example.ctx 17).1 = false ∧
    ((Example.bcPending.EquationBegin Example.ctx 16).1 = true →
      (Example.bcPending.EquationBegin Example.ctx 16).2.m_bDirty = true ∧
      (Example.bcPending.EquationBegin Example.ctx 16).2.m_Casual + 16
        ≤ (Example.bcPending.EquationBegin Example.ctx 16).2.m_CasualTotal ∧
      ∀ terms : List (ZMod 7 × ZMod 7), terms.length ≤ 16 →
        (terms.foldl (fun b t => b.AddCasual t.1 t.2)
            (Example.bcPending.EquationBegin Example.ctx 16).2).m_CasualOverflow
          = Example.bcPending.m_CasualOverflow) :=
  ⟨by decide,
   (EquationBegin_spec Example.ctx Example.bcPending 16 (by decide) (by decide)
      (by decide)).2.2.2⟩

end BatchContextFacts

/-! ## The model and the points it computes -/

section Facts

set_option linter.unusedSectionVars false

variable {F P CP : Type} [Field F] [DecidableEq F] [AddCommGroup P] [Module F P] [DecidableEq P]

theorem sumRange_update (n : Nat) (f : Nat → F) (g : Nat → P)
    (i : Nat) (v : F) (hi : i < n) :
    sumRange n (fun q => Function.update f i v q • g q)
      = sumRange n (fun q => f q • g q) + (v - f i) • g i := by
  rw [sumRange_eq_sum, sumRange_eq_sum]
  have hmem : i ∈ Finset.range n := Finset.mem_range.mpr hi
  rw [← Finset.add_sum_erase _ _ hmem, ← Finset.add_sum_erase (Finset.range n) (fun q => f q • g q) hmem]
  have : ∑ x in (Finset.range n).erase i, Function.update f i v x • g x
      = ∑ x in (Finset.range n).erase i, f x • g x := by
    apply Finset.sum_congr rfl
    intro x hx
    rw [Function.update_noteq (Finset.ne_of_mem_erase hx)]
  rw [this, Function.update_same, sub_smul]
  abel

theorem ppPrepared_gen (ctx : Context F P CP) (hIdx : ctx.IdxOk) (j i : Nat) (hj : j < 2)
    (hi : i < nDim) : BatchContext.m_ppPrepared ctx (i + j * nDim) = ctx.m_pGen_ j i := by
  obtain ⟨h1, h2, h3, h4, -⟩ := hIdx
  have hlt : i + j * nDim < 2 * nDim := by
    have : j ≤ 1 := by omega
    have := Nat.mul_le_mul_right nDim this
    omega
  unfold BatchContext.m_ppPrepared
  rw [Function.update_noteq (by omega), Function.update_noteq (by omega),
    Function.update_noteq (by omega), Function.update_noteq (by omega)]
  have hn : 0 < nDim := by decide
  simp only [hlt, if_true]
  congr 1
  · rw [Nat.add_mul_div_right _ _ hn, Nat.div_eq_of_lt hi, zero_add]
  · rw [Nat.add_mul_mod_self_right, Nat.mod_eq_of_lt hi]

theorem ppPrepared_GenDot (ctx : Context F P CP) (hIdx : ctx.IdxOk) :
    BatchContext.m_ppPrepared ctx ctx.s_Idx_GenDot = ctx.m_GenDot_ := by
  obtain ⟨-, -, -, -, -, -, -, -, h1, h2, h3, -⟩ := hIdx
  unfold BatchContext.m_ppPrepared
  rw [Function.update_noteq h3, Function.update_noteq h2, Function.update_noteq h1,
    Function.update_same]

theorem ppPrepared_Aux2 (ctx : Context F P CP) (hIdx : ctx.IdxOk) :
    BatchContext.m_ppPrepared ctx ctx.s_Idx_Aux2 = ctx.m_Aux2_ := by
  obtain ⟨-, -, -, -, -, -, -, -, -, -, -, h1, h2, -⟩ := hIdx
  unfold BatchContext.m_ppPrepared
  rw [Function.update_noteq h2, Function.update_noteq h1, Function.update_same]

theorem ppPrepared_G (ctx : Context F P CP) (hIdx : ctx.IdxOk) :
    BatchContext.m_ppPrepared ctx ctx.s_Idx_G = ctx.G := by
  obtain ⟨-, -, -, -, -, -, -, -, -, -, -, -, -, h1⟩ := hIdx
  unfold BatchContext.m_ppPrepared
  rw [Function.update_noteq h1, Function.update_same]

theorem ppPrepared_H (ctx : Context F P CP) :
    BatchContext.m_ppPrepared ctx ctx.s_Idx_H = ctx.H := by
  unfold BatchContext.m_ppPrepared
  rw [Function.update_same]

theorem factor_mul (bc : BatchContext F P) (k : F) :
    (if bc.m_bEnableBatch then k * bc.m_Multiplier else k) = bc.factor * k := by
  unfold BatchContext.factor
  cases bc.m_bEnableBatch <;> simp [mul_comm]

theorem Calculate_AddCasual (ctx : Context F P CP) (bc : BatchContext F P) (pt : P) (k : F) :
    (bc.AddCasual pt k).Calculate ctx = bc.Calculate ctx + (bc.factor * k) • pt := by
  simp only [BatchContext.Calculate, BatchContext.AddCasual, List.map_append, List.sum_append,
    List.map_cons, List.map_nil, List.sum_cons, List.sum_nil, add_zero, factor_mul]
  abel

theorem Calculate_AddPrepared (ctx : Context F P CP) (bc : BatchContext F P) (i : Nat) (k : F)
    (hi : i < ctx.s_CountPrepared) :
    (bc.AddPrepared ctx i k).Calculate ctx
      = bc.Calculate ctx + (bc.factor * k) • BatchContext.m_ppPrepared ctx i := by
  simp only [BatchContext.Calculate, BatchContext.AddPrepared, factor_mul]
  rw [sumRange_update _ _ _ _ _ hi]
  simp only [add_sub_cancel_left]
  abel

theorem Set_eq_mul (m : ModifierExpanded F) (k : F) (i j : Nat) :
    m.Set k i j = k * m.Set 1 i j := by
  unfold ModifierExpanded.Set
  cases m.m_pUse j <;> simp

theorem Proceed_batch (ctx : Context F P CP) (hIdx : ctx.IdxOk) (iCycle : Nat) :
    ∀ (a : Aggregator F P) (bc : BatchContext F P) (iPos : Nat) (k : F),
      a.m_pCalc = none → a.m_pBatchCtx = some bc → a.m_j < 2 → a.m_iCycleTrg ≤ iCycle →
      iCycle ≤ nCycles → iPos + 2 ^ iCycle ≤ nDim →
      ∃ kp, Aggregator.Proceed ctx a iPos iCycle k
          = { a with m_pBatchCtx := some { bc with m_pKPrep := kp } } ∧
        sumRange ctx.s_CountPrepared (fun q => kp q • BatchContext.m_ppPrepared ctx q)
          = sumRange ctx.s_CountPrepared
              (fun q => bc.m_pKPrep q • BatchContext.m_ppPrepared ctx q)
            + k • Efold (Gt ctx a.m_Mod a.m_j) a.m_cs.m_Val a.m_j a.m_iCycleTrg iPos iCycle := by
  have hleaf : ∀ (a : Aggregator F P) (bc : BatchContext F P) (iPos : Nat) (k : F),
      a.m_pCalc = none → a.m_pBatchCtx = some bc → a.m_j < 2 → iPos < nDim →
      ∃ kp, a.Leaf ctx iPos k = { a with m_pBatchCtx := some { bc with m_pKPrep := kp } } ∧
        sumRange ctx.s_CountPrepared (fun q => kp q • BatchContext.m_ppPrepared ctx q)
          = sumRange ctx.s_CountPrepared
              (fun q => bc.m_pKPrep q • BatchContext.m_ppPrepared ctx q)
            + k • Gt ctx a.m_Mod a.m_j iPos := by
    intro a bc iPos k hc hb hj hp
    refine ⟨Function.update bc.m_pKPrep (iPos + a.m_j * nDim)
      (bc.m_pKPrep (iPos + a.m_j * nDim) + a.m_Mod.Set k iPos a.m_j), ?_, ?_⟩
    · unfold Aggregator.Leaf
      simp [hc, hb, hp]
    · have hlt : iPos + a.m_j * nDim < ctx.s_CountPrepared := by
        obtain ⟨h1, -, -, -, h5, -⟩ := hIdx
        have : a.m_j ≤ 1 := by omega
        have := Nat.mul_le_mul_right nDim this
        omega
      rw [sumRange_update _ _ _ _ _ hlt, ppPrepared_gen ctx hIdx _ _ hj hp]
      simp only [add_sub_cancel_left, Gt]
      rw [Set_eq_mul, mul_smul]
  induction iCycle with
  | zero =>
    intro a bc iPos k hc hb hj ht _ hp
    have ht0 : ¬ (0 ≠ a.m_iCycleTrg) := by omega
    obtain ⟨kp, h1, h2⟩ := hleaf a bc iPos k hc hb hj (by simp at hp; omega)
    refine ⟨kp, ?_, ?_⟩
    · rw [Aggregator.Proceed, if_neg ht0]
      exact h1
    · rw [Efold, if_neg ht0]
      exact h2
  | succ n ih =>
    intro a bc iPos k hc hb hj ht hn hp
    have h2n : 0 < 2 ^ n := Nat.two_pow_pos n
    have hpow : 2 ^ (n + 1) = 2 ^ n + 2 ^ n := by rw [pow_succ]; omega
    by_cases heq : n + 1 = a.m_iCycleTrg
    · have hpos : iPos < nDim := by omega
      have heq' : ¬ (n + 1 ≠ a.m_iCycleTrg) := not_not.mpr heq
      obtain ⟨kp, h1, h2⟩ := hleaf a bc iPos k hc hb hj hpos
      refine ⟨kp, ?_, ?_⟩
      · rw [Aggregator.Proceed, if_neg heq']
        exact h1
      · rw [Efold, if_neg heq']
        exact h2
    · have hflag : (a.m_AssertFailed || !decide (n + 1 ≤ nCycles)) = a.m_AssertFailed := by
        simp [hn]
      have hp1 : iPos + 2 ^ n ≤ nDim := by omega
      have hp2 : iPos + 2 ^ n + 2 ^ n ≤ nDim := by omega
      have htn : a.m_iCycleTrg ≤ n := by omega
      have hnn : n ≤ nCycles := by omega
      obtain ⟨kp1, h1, h2⟩ := ih a bc iPos (k * a.m_cs.m_Val (nCycles - (n + 1)) (lnot a.m_j))
        hc hb hj htn hnn hp1
      obtain ⟨kp2, h3, h4⟩ := ih
        { a with m_pBatchCtx := some { bc with m_pKPrep := kp1 } }
        { bc with m_pKPrep := kp1 } (iPos + 2 ^ n)
        (k * a.m_cs.m_Val (nCycles - (n + 1)) a.m_j) hc rfl hj htn hnn hp2
      refine ⟨kp2, ?_, ?_⟩
      · rw [Aggregator.Proceed, if_pos heq]
        simp only [hflag]
        have ha : ({ a with m_AssertFailed := a.m_AssertFailed } : Aggregator F P) = a := rfl
        rw [ha, h1]
        simp only [Nat.one_shiftLeft]
        rw [h3]
      · rw [h4, h2, Efold, if_pos heq]
        simp only [smul_add, mul_smul]
        abel

theorem factor_AddCasual (bc : BatchContext F P) (pt : P) (k : F) :
    (bc.AddCasual pt k).factor = bc.factor := rfl

theorem factor_AddPrepared (ctx : Context F P CP) (bc : BatchContext F P) (i : Nat) (k : F) :
    (bc.AddPrepared ctx i k).factor = bc.factor := rfl

theorem AddCasualP_some (ctx : Context F P CP) (bc : BatchContext F P) (p : CP) (pt : P) (k : F)
    (h : ctx.Import p = some pt) : bc.AddCasualP ctx p k = (true, bc.AddCasual pt k) := by
  simp [BatchContext.AddCasualP, h]

theorem AddCasualP_none (ctx : Context F P CP) (bc : BatchContext F P) (p : CP) (k : F)
    (h : ctx.Import p = none) : bc.AddCasualP ctx p k = (false, bc) := by
  simp [BatchContext.AddCasualP, h]

theorem Equation1_eq (ctx : Context F P CP) (self : Confidential F CP)
    (commitment T1 T2 : P) (cs : Confidential.ChallengeSet F) (bc : BatchContext F P)
    (h1 : ctx.Import self.m_Part2.m_T1 = some T1) (h2 : ctx.Import self.m_Part2.m_T2 = some T2) :
    Confidential.Equation1 ctx self commitment cs bc
      = (true, ((((bc.AddCasual commitment (-(cs.z * cs.z))).AddCasual T1 (-cs.x)).AddCasual T2
          (-(cs.x * cs.x))).AddPrepared ctx ctx.s_Idx_G self.m_Part3.m_TauX).AddPrepared ctx
            ctx.s_Idx_H (self.m_tDot + -Confidential.Delta cs)) := by
  simp [Confidential.Equation1, AddCasualP_some _ _ _ _ _ h1, AddCasualP_some _ _ _ _ _ h2]

theorem Calculate_Equation1 (ctx : Context F P CP) (hIdx : ctx.IdxOk) (self : Confidential F CP)
    (commitment T1 T2 : P) (cs : Confidential.ChallengeSet F) (bc : BatchContext F P)
    (h1 : ctx.Import self.m_Part2.m_T1 = some T1) (h2 : ctx.Import self.m_Part2.m_T2 = some T2) :
    (Confidential.Equation1 ctx self commitment cs bc).2.Calculate ctx
      = bc.Calculate ctx + bc.factor • Equation1Sum ctx self commitment T1 T2 cs := by
  rw [Equation1_eq ctx self commitment T1 T2 cs bc h1 h2]
  have hG := hIdx.2.2.2.2.2.2.1
  have hH := hIdx.2.2.2.2.2.2.2.1
  simp only [Calculate_AddPrepared _ _ _ _ hG, Calculate_AddPrepared _ _ _ _ hH,
    Calculate_AddCasual, factor_AddCasual, factor_AddPrepared, ppPrepared_G ctx hIdx,
    ppPrepared_H, Equation1Sum, smul_add, mul_smul, sub_eq_add_neg]
  abel

/-! ## The verifier and the batch context -/

set_option maxRecDepth 1000000 in
/-- C3, counterexample. With `x = y = z = 1`, commitment `1`, `T1 = 1`, `T2 = 0`, `tau_x = 0` and
`tDot = delta`, the equality `commitment*z^2 + G*tau_x + H*(tDot - delta) = T1*x + T2*x^2`
holds, yet the terms of the first equation do not sum to the identity. -/
theorem Equation1_not_claimed_form :
    (Example.csOne.z * Example.csOne.z) • (1 : ZMod 7)
        + Example.proofT.m_Part3.m_TauX • Example.ctx.G
        + (Example.proofT.m_tDot - Confidential.Delta Example.csOne) • Example.ctx.H
      = Example.csOne.x • (1 : ZMod 7) + (Example.csOne.x * Example.csOne.x) • (0 : ZMod 7) ∧
    (Confidential.Equation1 Example.ctx Example.proofT 1 Example.csOne
        (BatchContext.init 17)).1 = true ∧
    (Confidential.Equation1 Example.ctx Example.proofT 1 Example.csOne
        (BatchContext.init 17)).2.Calculate Example.ctx ≠ 0 := by
  decide

/-- C3, amended. The terms that `IsValid` adds between the first `EquationBegin(3)` and its
`EquationEnd` leave the queued sum unchanged, that is, they sum to the identity, exactly when
`G*tau_x + H*(tDot - delta) = commitment*z^2 + T1*x + T2*x^2`: the commitment stands on the side
of `T1*x`. Under batching every term carries the multiplier, which is taken nonzero. -/
theorem Equation1_identity_iff (ctx : Context F P CP) (hIdx : ctx.IdxOk)
    (self : Confidential F CP) (commitment T1 T2 : P) (cs : Confidential.ChallengeSet F)
    (bc : BatchContext F P)
    (h1 : ctx.Import self.m_Part2.m_T1 = some T1) (h2 : ctx.Import self.m_Part2.m_T2 = some T2)
    (hm : bc.m_bEnableBatch = true → bc.m_Multiplier ≠ 0) :
    (Confidential.Equation1 ctx self commitment cs bc).1 = true ∧
    ((Confidential.Equation1 ctx self commitment cs bc).2.Calculate ctx = bc.Calculate ctx ↔
      self.m_Part3.m_TauX • ctx.G + (self.m_tDot - Confidential.Delta cs) • ctx.H
        = (cs.z * cs.z) • commitment + cs.x • T1 + (cs.x * cs.x) • T2) := by
  refine ⟨by rw [Equation1_eq ctx self commitment T1 T2 cs bc h1 h2], ?_⟩
  rw [Calculate_Equation1 ctx hIdx self commitment T1 T2 cs bc h1 h2]
  have hf : bc.factor ≠ 0 := by
    unfold BatchContext.factor
    cases hb : bc.m_bEnableBatch
    · simp
    · simpa using hm hb
  rw [add_right_eq_self, smul_eq_zero]
  simp only [hf, false_or, Equation1Sum, neg_smul]
  constructor
  · intro h
    rw [← sub_eq_zero, ← h]
    abel
  · intro h
    rw [← sub_eq_zero] at h
    rw [← h]
    abel

set_option maxRecDepth 1000000 in
theorem Equation1_identity_iff_witness :
    (Confidential.Equation1 Example.ctx Example.proofT 1 Example.csOne
        (BatchContext.init 17)).1 = true ∧
    ((Confidential.Equation1 Example.ctx Example.proofT 1 Example.csOne
          (BatchContext.init 17)).2.Calculate Example.ctx
        = (BatchContext.init 17 : BatchContext (ZMod 7) (ZMod 7)).Calculate Example.ctx ↔
      Example.proofT.m_Part3.m_TauX • Example.ctx.G
          + (Example.proofT.m_tDot - Confidential.Delta Example.csOne) • Example.ctx.H
        = (Example.csOne.z * Example.csOne.z) • (1 : ZMod 7) + Example.csOne.x • (1 : ZMod 7)
          + (Example.csOne.x * Example.csOne.x) • (0 : ZMod 7)) :=
  Equation1_identity_iff Example.ctx (by decide) Example.proofT 1 1 0 Example.csOne
    (BatchContext.init 17) rfl rfl (by decide)

set_option maxRecDepth 1000000 in
/-- C5, failing input. A proof whose `A` does not decode while all its other points do, checked
on a fresh batch-enabled context for one proof: `IsValid(commitment, oracle, bc)` returns
`true`. When `T1` is the undecodable point instead, it returns `false`. -/
theorem IsValid_accepts_undecodable_A :
    (Confidential.IsValidBc Example.ctx 1 Example.proofBadA 0 [] (Example.bcBatch 1)).map
        (fun r => r.1) = some true ∧
    (Confidential.IsValidBc Example.ctx 1
        { Example.proofZero with m_Part2 := { m_T1 := none, m_T2 := some 0 } } 0 []
        (Example.bcBatch 1)).map (fun r => r.1) = some false := by
  decide

set_option maxRecDepth 1000000 in
/-- C8, failing input. On a batch-enabled context of capacity `2 * nCycles + 5 = 17`:
`InnerProduct::IsValid(bc, ...)` called twice leaves the first call without a violated assertion
and 13 terms pending, and violates the assertion of `AddCasual` in the second call;
`RangeProof::Confidential::IsValid(..., bc)` entered with one term pending violates it too. -/
theorem IsValid_overflows_capacity :
    (Example.bcBatch 1).m_CasualTotal = 2 * nCycles + 5 ∧
    (InnerProduct.IsValidBc Example.ctx 1 Example.ipZero (Example.bcBatch 1) 0 0
        { m_pMultiplier := fun _ => none }).map
      (fun r => (r.1, r.2.m_Casual, r.2.m_CasualOverflow)) = some (true, 13, false) ∧
    ((InnerProduct.IsValidBc Example.ctx 1 Example.ipZero (Example.bcBatch 1) 0 0
        { m_pMultiplier := fun _ => none }).bind
      (fun r => InnerProduct.IsValidBc Example.ctx 1 Example.ipZero r.2 0 0
        { m_pMultiplier := fun _ => none })).map
      (fun r => (r.1, r.2.m_CasualOverflow)) = some (true, true) ∧
    (Confidential.IsValidBc Example.ctx 1 Example.proofZero 0 []
        { Example.bcPending with m_bEnableBatch := true }).map
      (fun r => (r.1, r.2.2.m_CasualOverflow)) = some (true, true) := by
  decide

set_option maxRecDepth 1000000 in
/-- C9, failing input. A fresh batch-enabled context: with capacity for one proof, a call on a
proof whose `A` does not decode returns `true` and leaves 16 terms pending, not 17; with
capacity for five proofs, `5 * 17 = 85`, five such calls return `true` and leave 80 terms
pending without any violated assertion, and a sixth call, on a proof all of whose points
decode, returns `true` and violates the assertion of `AddCasual`. -/
theorem IsValid_sequence_overflows :
    (Example.verifyAll 1 [Example.proofBadA] (Example.bcBatch 1)).map
      (fun bc => bc.m_Casual) = some 16 ∧
    (Example.verifyAll 1
        [Example.proofBadA, Example.proofBadA, Example.proofBadA, Example.proofBadA,
          Example.proofBadA] (Example.bcBatch 5)).map
      (fun bc => (bc.m_CasualTotal, bc.m_Casual, bc.m_CasualOverflow, bc.m_WontFit))
        = some (85, 80, false, false) ∧
    (Example.verifyAll 1
        [Example.proofBadA, Example.proofBadA, Example.proofBadA, Example.proofBadA,
          Example.proofBadA, Example.proofZero] (Example.bcBatch 5)).map
      (fun bc => bc.m_CasualOverflow) = some true := by
  decide

/-! ## Loops over a range -/

theorem foldl_range_induction {σ : Type} (n : Nat) (step : σ → Nat → σ) (I : Nat → σ → Prop)
    (s0 : σ) (h0 : I 0 s0) (hstep : ∀ i s, i < n → I i s → I (i + 1) (step s i)) :
    I n ((List.range n).foldl step s0) := by
  induction n with
  | zero => simpa using h0
  | succ n ih =>
    rw [List.range_succ, List.foldl_append]
    simp only [List.foldl_cons, List.foldl_nil]
    exact hstep n _ (Nat.lt_succ_self n)
      (ih (fun i s hi hI => hstep i s (Nat.lt_succ_of_lt hi) hI))

theorem sumRange_zero {M : Type} [AddCommMonoid M] (f : Nat → M) : sumRange 0 f = 0 := by
  simp [sumRange]

theorem sumRange_succ {M : Type} [AddCommMonoid M] (n : Nat) (f : Nat → M) :
    sumRange (n + 1) f = sumRange n f + f n := by
  simp [sumRange, List.range_succ]

theorem sumRange_congr {M : Type} [AddCommMonoid M] (n : Nat) (f g : Nat → M)
    (h : ∀ i, i < n → f i = g i) : sumRange n f = sumRange n g := by
  rw [sumRange_eq_sum, sumRange_eq_sum]
  exact Finset.sum_congr rfl (fun i hi => h i (Finset.mem_range.mp hi))

theorem sumRange_add {M : Type} [AddCommMonoid M] (n : Nat) (f g : Nat → M) :
    sumRange n (fun i => f i + g i) = sumRange n f + sumRange n g := by
  simp only [sumRange_eq_sum, Finset.sum_add_distrib]

theorem sumRange_smul (n : Nat) (a : F) (f : Nat → P) :
    sumRange n (fun i => a • f i) = a • sumRange n f := by
  simp only [sumRange_eq_sum, Finset.smul_sum]

theorem sumRange_mul_left (n : Nat) (a : F) (f : Nat → F) :
    sumRange n (fun i => a * f i) = a * sumRange n f := by
  simp only [sumRange_eq_sum, Finset.mul_sum]

theorem sumRange_split {M : Type} [AddCommMonoid M] (n : Nat) (f : Nat → M) :
    sumRange (n + n) f = sumRange n f + sumRange n (fun i => f (n + i)) := by
  simp only [sumRange_eq_sum]
  exact Finset.sum_range_add f n n

/-! ## The points of `Proceed` -/

theorem Efold_self (leaf : Nat → P) (val : Nat → Nat → F) (j trg p : Nat) :
    Efold leaf val j trg p trg = leaf p := by
  cases trg with
  | zero => simp [Efold]
  | succ n => simp [Efold]

theorem Efold_succ (leaf : Nat → P) (val : Nat → Nat → F) (j trg p lvl : Nat)
    (h : lvl + 1 ≠ trg) :
    Efold leaf val j trg p (lvl + 1)
      = val (nCycles - (lvl + 1)) (lnot j) • Efold leaf val j trg p lvl
        + val (nCycles - (lvl + 1)) j • Efold leaf val j trg (p + 2 ^ lvl) lvl := by
  rw [Efold, if_pos h]

theorem Efold_linear (f g : Nat → P) (a b : F) (val : Nat → Nat → F) (j trg lvl : Nat) :
    ∀ p, Efold (fun q => a • f q + b • g q) val j trg p lvl
      = a • Efold f val j trg p lvl + b • Efold g val j trg p lvl := by
  induction lvl with
  | zero =>
    intro p
    by_cases h : 0 ≠ trg <;> simp [Efold, h]
  | succ n ih =>
    intro p
    by_cases h : n + 1 ≠ trg
    · rw [Efold_succ _ _ _ _ _ _ h, Efold_succ _ _ _ _ _ _ h, Efold_succ _ _ _ _ _ _ h, ih p,
        ih (p + 2 ^ n)]
      simp only [smul_add, smul_comm a, smul_comm b]
      abel
    · have h' : trg = n + 1 := by omega
      subst h'
      simp only [Efold_self]

theorem Efold_shift (f : Nat → P) (s : Nat) (val : Nat → Nat → F) (j trg lvl : Nat) :
    ∀ p, Efold (fun q => f (q + s)) val j trg p lvl = Efold f val j trg (p + s) lvl := by
  induction lvl with
  | zero =>
    intro p
    by_cases h : 0 ≠ trg <;> simp [Efold, h]
  | succ n ih =>
    intro p
    by_cases h : n + 1 ≠ trg
    · rw [Efold_succ _ _ _ _ _ _ h, Efold_succ _ _ _ _ _ _ h, ih p, ih (p + 2 ^ n),
        Nat.add_right_comm p (2 ^ n) s]
    · have h' : trg = n + 1 := by omega
      subst h'
      simp only [Efold_self]

theorem Efold_comp (leaf : Nat → P) (val : Nat → Nat → F) (j trg mid : Nat) (htm : trg ≤ mid)
    (d : Nat) :
    ∀ p, Efold leaf val j trg p (mid + d)
      = Efold (fun q => Efold leaf val j mid q (mid + d)) val j trg p mid := by
  induction d with
  | zero =>
    intro p
    simp only [Nat.add_zero, Efold_self]
  | succ d ih =>
    intro p
    have h1 : mid + d + 1 ≠ trg := by omega
    have h2 : mid + d + 1 ≠ mid := by omega
    rw [← Nat.add_assoc, Efold_succ _ _ _ _ _ _ h1, ih, ih]
    have hfun : (fun q => Efold leaf val j mid q (mid + d + 1))
        = fun q => val (nCycles - (mid + d + 1)) (lnot j) • Efold leaf val j mid q (mid + d)
            + val (nCycles - (mid + d + 1)) j
              • (fun q => Efold leaf val j mid (q + 2 ^ (mid + d)) (mid + d)) q := by
      funext q
      rw [Efold_succ _ _ _ _ _ _ h2]
    rw [hfun, Efold_linear]
    have hs := Efold_shift (fun q => Efold leaf val j mid q (mid + d)) (2 ^ (mid + d)) val j trg
      mid p
    simp only at hs
    rw [hs]

theorem Efold_congr_val (leaf : Nat → P) (val val' : Nat → Nat → F) (j trg lvl : Nat)
    (h : ∀ ic, trg < ic → ic ≤ lvl → val (nCycles - ic) = val' (nCycles - ic)) :
    ∀ p, Efold leaf val j trg p lvl = Efold leaf val' j trg p lvl := by
  induction lvl with
  | zero =>
    intro p
    simp [Efold]
  | succ n ih =>
    intro p
    by_cases hn : n + 1 ≠ trg
    · by_cases hlt : trg < n + 1
      · have ih' := ih (fun ic h1 h2 => h ic h1 (Nat.le_succ_of_le h2))
        rw [Efold_succ _ _ _ _ _ _ hn, Efold_succ _ _ _ _ _ _ hn, ih' p, ih' (p + 2 ^ n),
          h (n + 1) hlt (Nat.le_refl _)]
      · -- the target lies above: both sides run down to level zero
        have key : ∀ (v : Nat → Nat → F) (m : Nat), m < trg → ∀ q, Efold leaf v j trg q m = 0 := by
          intro v m
          induction m with
          | zero =>
            intro hm q
            have : 0 ≠ trg := by omega
            simp [Efold, this]
          | succ m ihm =>
            intro hm q
            have : m + 1 ≠ trg := by omega
            rw [Efold_succ _ _ _ _ _ _ this, ihm (by omega), ihm (by omega)]
            simp
        rw [key val (n + 1) (by omega), key val' (n + 1) (by omega)]
    · have h' : trg = n + 1 := by omega
      subst h'
      simp only [Efold_self]

theorem Efold_congr_leaf (leaf leaf' : Nat → P) (val : Nat → Nat → F) (j trg lvl : Nat)
    (htl : trg ≤ lvl) :
    ∀ p, (∀ q, p ≤ q → q + 2 ^ trg ≤ p + 2 ^ lvl → leaf q = leaf' q) →
      Efold leaf val j trg p lvl = Efold leaf' val j trg p lvl := by
  induction lvl with
  | zero =>
    intro p h
    have ht : trg = 0 := by omega
    subst ht
    simp only [Efold, ne_eq, not_true_eq_false, if_false]
    exact h p (Nat.le_refl _) (Nat.le_refl _)
  | succ n ih =>
    intro p h
    have hpow : 2 ^ (n + 1) = 2 ^ n + 2 ^ n := by rw [pow_succ]; omega
    have h2n : 0 < 2 ^ n := Nat.two_pow_pos n
    by_cases hn : n + 1 ≠ trg
    · have htn : trg ≤ n := by omega
      rw [Efold_succ _ _ _ _ _ _ hn, Efold_succ _ _ _ _ _ _ hn,
        ih htn p (fun q h1 h2 => h q h1 (by omega)),
        ih htn (p + 2 ^ n) (fun q h1 h2 => h q (by omega) (by omega))]
    · have ht : trg = n + 1 := by omega
      subst ht
      simp only [Efold_self]
      exact h p (Nat.le_refl _) (Nat.le_refl _)

theorem MultiMac.Calculate_pushCasual (mm : MultiMac F P) (pt : P) (k : F) :
    (mm.pushCasual pt k).Calculate = mm.Calculate + k • pt := by
  simp only [MultiMac.Calculate, MultiMac.pushCasual, List.map_append, List.sum_append,
    List.map_cons, List.map_nil, List.sum_cons, List.sum_nil, add_zero]
  abel

theorem MultiMac.Calculate_pushPrepared (mm : MultiMac F P) (pt : P) (k : F) :
    (mm.pushPrepared pt k).Calculate = mm.Calculate + k • pt := by
  simp only [MultiMac.Calculate, MultiMac.pushPrepared, List.map_append, List.sum_append,
    List.map_cons, List.map_nil, List.sum_cons, List.sum_nil, add_zero]
  abel

theorem MultiMac.Calculate_Reset : (MultiMac.Reset : MultiMac F P).Calculate = 0 := by
  simp [MultiMac.Calculate, MultiMac.Reset]

theorem Leaf_mm (ctx : Context F P CP) (a : Aggregator F P) (iPos : Nat) (k : F)
    (hb : a.m_pBatchCtx = none) :
    ∃ mm fl, a.Leaf ctx iPos k = { a with m_Mm := mm, m_AssertFailed := fl } ∧
      mm.Calculate = a.m_Mm.Calculate + k • a.leafPoint ctx iPos := by
  unfold Aggregator.Leaf Aggregator.leafPoint
  cases hc : a.m_pCalc with
  | some gen =>
    exact ⟨_, _, rfl, by rw [MultiMac.Calculate_pushCasual]⟩
  | none =>
    simp only [hb]
    refine ⟨_, _, rfl, ?_⟩
    rw [MultiMac.Calculate_pushPrepared, Gt, Set_eq_mul, mul_smul]

theorem Proceed_mm (ctx : Context F P CP) (iCycle : Nat) :
    ∀ (a : Aggregator F P) (iPos : Nat) (k : F), a.m_pBatchCtx = none →
      ∃ mm fl, Aggregator.Proceed ctx a iPos iCycle k
          = { a with m_Mm := mm, m_AssertFailed := fl } ∧
        mm.Calculate = a.m_Mm.Calculate
          + k • Efold (a.leafPoint ctx) a.m_cs.m_Val a.m_j a.m_iCycleTrg iPos iCycle := by
  induction iCycle with
  | zero =>
    intro a iPos k hb
    by_cases ht : 0 ≠ a.m_iCycleTrg
    · refine ⟨a.m_Mm, true, ?_, ?_⟩
      · rw [Aggregator.Proceed, if_pos ht]
      · rw [Efold, if_pos ht]; simp
    · obtain ⟨mm, fl, h1, h2⟩ := Leaf_mm ctx a iPos k hb
      refine ⟨mm, fl, ?_, ?_⟩
      · rw [Aggregator.Proceed, if_neg ht]; exact h1
      · rw [Efold, if_neg ht]; exact h2
  | succ n ih =>
    intro a iPos k hb
    by_cases ht : n + 1 ≠ a.m_iCycleTrg
    · obtain ⟨mm1, fl1, h1, h2⟩ := ih
        { a with m_AssertFailed := a.m_AssertFailed || !decide (n + 1 ≤ nCycles) } iPos
        (k * a.m_cs.m_Val (nCycles - (n + 1)) (lnot a.m_j)) hb
      obtain ⟨mm2, fl2, h3, h4⟩ := ih
        { a with m_Mm := mm1, m_AssertFailed := fl1 } (iPos + 2 ^ n)
        (k * a.m_cs.m_Val (nCycles - (n + 1)) a.m_j) hb
      refine ⟨mm2, fl2, ?_, ?_⟩
      · rw [Aggregator.Proceed, if_pos ht]
        simp only [Nat.one_shiftLeft]
        rw [h1]
        exact h3
      · rw [h4, h2, Efold_succ _ _ _ _ _ _ ht]
        simp only [smul_add, mul_smul]
        show a.m_Mm.Calculate + _ + _ = _
        simp only [Aggregator.leafPoint]
        abel
    · obtain ⟨mm, fl, h1, h2⟩ := Leaf_mm ctx a iPos k hb
      refine ⟨mm, fl, ?_, ?_⟩
      · rw [Aggregator.Proceed, if_neg ht]; exact h1
      · rw [Efold, if_neg ht]; exact h2

theorem foldl_range_two {σ : Type} (f : σ → Nat → σ) (s : σ) :
    (List.range 2).foldl f s = f (f s 0) 1 := rfl

theorem foldl_add_eq_sumRange {M : Type} [AddCommMonoid M] (n : Nat) (f : Nat → M) (a : M) :
    (List.range n).foldl (fun acc i => acc + f i) a = a + sumRange n f := by
  induction n with
  | zero => simp [sumRange]
  | succ n ih =>
    rw [List.range_succ, List.foldl_append, ih, sumRange_succ]
    simp only [List.foldl_cons, List.foldl_nil, add_assoc]

theorem ExtractLR_inner (ctx : Context F P CP) (c : Calculator F P) (jSrc off0 off1 : Nat)
    (mm0 : MultiMac F P) :
    ∃ mm, (List.range c.m_n).foldl
        (fun (c : Calculator F P) i =>
          let v := c.src jSrc (i + off0)
          let aggr := Aggregator.mk' c.m_Mm c.m_Cs c.m_Mod jSrc (nCycles - c.m_iCycle)
          let aggr := if c.m_iCycle > s_iCycle0 then { aggr with m_pCalc := some c.m_pGen } else aggr
          let aggr := Aggregator.Proceed ctx aggr (i + off1) c.m_GenOrder v
          { c with m_Mm := aggr.m_Mm })
        { c with m_Mm := mm0 } = { c with m_Mm := mm } ∧
      mm.Calculate = mm0.Calculate + sumRange c.m_n (fun i =>
        c.src jSrc (i + off0)
          • Efold (c.leafPoint ctx jSrc) c.m_Cs.m_Val jSrc (nCycles - c.m_iCycle)
              (i + off1) c.m_GenOrder) := by
  refine foldl_range_induction c.m_n _
    (fun i s => ∃ mm, s = { c with m_Mm := mm } ∧
      mm.Calculate = mm0.Calculate + sumRange i (fun i =>
        c.src jSrc (i + off0)
          • Efold (c.leafPoint ctx jSrc) c.m_Cs.m_Val jSrc (nCycles - c.m_iCycle)
              (i + off1) c.m_GenOrder))
    _ ⟨mm0, rfl, by rw [sumRange_zero, add_zero]⟩ ?_
  rintro i s _ ⟨mm, rfl, hmm⟩
  have hsrc : ∀ q, ({ c with m_Mm := mm } : Calculator F P).src jSrc q = c.src jSrc q :=
    fun q => rfl
  by_cases hgt : c.m_iCycle > s_iCycle0
  · obtain ⟨mm', fl, h1, h2⟩ := Proceed_mm ctx c.m_GenOrder
      { Aggregator.mk' mm c.m_Cs c.m_Mod jSrc (nCycles - c.m_iCycle) with
        m_pCalc := some c.m_pGen }
      (i + off1) (c.src jSrc (i + off0)) rfl
    refine ⟨mm', ?_, ?_⟩
    · simp only [hgt, if_true, hsrc, h1]
    · rw [h2, sumRange_succ, ← add_assoc, ← hmm]
      simp only [Aggregator.leafPoint, Aggregator.mk', Calculator.leafPoint, hgt, if_true]
  · obtain ⟨mm', fl, h1, h2⟩ := Proceed_mm ctx c.m_GenOrder
      (Aggregator.mk' mm c.m_Cs c.m_Mod jSrc (nCycles - c.m_iCycle))
      (i + off1) (c.src jSrc (i + off0)) rfl
    refine ⟨mm', ?_, ?_⟩
    · simp only [hgt, if_false, hsrc, h1]
    · rw [h2, sumRange_succ, ← add_assoc, ← hmm]
      simp only [Aggregator.leafPoint, Aggregator.mk', Calculator.leafPoint, hgt, if_false]

theorem ExtractLR_eq (ctx : Context F P CP) (c : Calculator F P) (j : Nat) :
    ∃ mm, c.ExtractLR ctx j = { c with m_Mm := mm } ∧ mm.Calculate = c.LRPoint ctx j := by
  obtain ⟨mm1, h1, h2⟩ := ExtractLR_inner ctx c 0 (if 0 = j then 0 else c.m_n)
    (if 0 = j then c.m_n else 0)
    ((MultiMac.Reset : MultiMac F P).pushPrepared ctx.m_GenDot_
      ((List.range c.m_n).foldl (fun crossTrm i => crossTrm + c.src j i * c.src (lnot j) (c.m_n + i)) 0
        * c.m_Cs.m_DotMultiplier))
  obtain ⟨mm2, h3, h4⟩ := ExtractLR_inner ctx c 1 (if 1 = j then 0 else c.m_n)
    (if 1 = j then c.m_n else 0) mm1
  refine ⟨mm2, ?_, ?_⟩
  · dsimp only [Calculator.ExtractLR, foldl_range_two]
    dsimp only at h1 h3
    have hsrc : ∀ mm j' q, ({ c with m_Mm := mm } : Calculator F P).src j' q = c.src j' q :=
      fun _ _ _ => rfl
    simp only [hsrc]
    rw [h1]
    exact h3
  · rw [h4, h2, MultiMac.Calculate_pushPrepared, MultiMac.Calculate_Reset, foldl_add_eq_sumRange,
      Calculator.LRPoint]
    simp only [zero_add]

theorem set2_same {α : Type} (a : Nat → Nat → α) (j i : Nat) (v : α) : set2 a j i v j i = v := by
  simp [set2]

theorem set2_row {α : Type} (a : Nat → Nat → α) (j i : Nat) (v : α) (j' : Nat) (h : j' ≠ j) :
    set2 a j i v j' = a j' := by
  simp [set2, h]

theorem set2_col {α : Type} (a : Nat → Nat → α) (j i : Nat) (v : α) (i' : Nat) (h : i' ≠ i) :
    set2 a j i v j i' = a j i' := by
  simp [set2, h]

theorem src_setVal (c : Calculator F P) (v : Nat → Nat → F) (j q : Nat) :
    ({ c with m_pVal := v } : Calculator F P).src j q
      = match c.m_ppSrc j with
        | SrcPtr.ext a => a q
        | SrcPtr.val => v j q := rfl

theorem CondenseVectors_inner (c : Calculator F P) (j : Nat) (v1 : Nat → Nat → F) :
    ∃ v, (List.range c.m_n).foldl
        (fun (c : Calculator F P) i =>
          let c := { c with m_pVal := set2 c.m_pVal j i (c.src j i * c.m_Cs.m_Val c.m_iCycle j) }
          let v := c.m_pVal j i + c.src j (c.m_n + i) * c.m_Cs.m_Val c.m_iCycle (lnot j)
          { c with m_pVal := set2 c.m_pVal j i v })
        { c with m_pVal := v1 } = { c with m_pVal := v } ∧
      (∀ i, i < c.m_n → v j i
        = ({ c with m_pVal := v1 } : Calculator F P).src j i * c.m_Cs.m_Val c.m_iCycle j
          + ({ c with m_pVal := v1 } : Calculator F P).src j (c.m_n + i)
            * c.m_Cs.m_Val c.m_iCycle (lnot j)) ∧
      (∀ j', j' ≠ j → v j' = v1 j') := by
  have key := foldl_range_induction c.m_n
    (fun (c : Calculator F P) i =>
          let c := { c with m_pVal := set2 c.m_pVal j i (c.src j i * c.m_Cs.m_Val c.m_iCycle j) }
          let v := c.m_pVal j i + c.src j (c.m_n + i) * c.m_Cs.m_Val c.m_iCycle (lnot j)
          { c with m_pVal := set2 c.m_pVal j i v })
    (fun k s => ∃ v, s = { c with m_pVal := v } ∧
      (∀ i, i < k → v j i
        = ({ c with m_pVal := v1 } : Calculator F P).src j i * c.m_Cs.m_Val c.m_iCycle j
          + ({ c with m_pVal := v1 } : Calculator F P).src j (c.m_n + i)
            * c.m_Cs.m_Val c.m_iCycle (lnot j)) ∧
      (∀ i, k ≤ i → v j i = v1 j i) ∧
      (∀ j', j' ≠ j → v j' = v1 j'))
    { c with m_pVal := v1 } ⟨v1, rfl, fun i hi => absurd hi (Nat.not_lt_zero i), fun _ _ => rfl,
      fun _ _ => rfl⟩ ?_
  · obtain ⟨v, h1, h2, -, h4⟩ := key
    exact ⟨v, h1, h2, h4⟩
  · rintro i s hi ⟨v, rfl, h2, h3, h4⟩
    have e1 : ({ c with m_pVal := v } : Calculator F P).src j i
        = ({ c with m_pVal := v1 } : Calculator F P).src j i := by
      rw [src_setVal, src_setVal]
      cases c.m_ppSrc j with
      | ext a => rfl
      | val => exact h3 i (Nat.le_refl _)
    have e2 : ∀ x, ({ c with m_pVal := set2 v j i x } : Calculator F P).src j (c.m_n + i)
        = ({ c with m_pVal := v1 } : Calculator F P).src j (c.m_n + i) := by
      intro x
      rw [src_setVal, src_setVal]
      cases c.m_ppSrc j with
      | ext a => rfl
      | val =>
        show set2 v j i x j (c.m_n + i) = v1 j (c.m_n + i)
        rw [set2_col _ _ _ _ _ (by omega), h3 _ (by omega)]
    refine ⟨_, rfl, ?_, ?_, ?_⟩
    · intro i' hi'
      by_cases hii : i' = i
      · subst hii
        dsimp only
        rw [set2_same, set2_same, e1, e2]
      · dsimp only
        rw [set2_col _ _ _ _ _ hii, set2_col _ _ _ _ _ hii]
        exact h2 i' (by omega)
    · intro i' hi'
      dsimp only
      rw [set2_col _ _ _ _ _ (by omega), set2_col _ _ _ _ _ (by omega)]
      exact h3 i' (by omega)
    · intro j' hj'
      dsimp only
      rw [set2_row _ _ _ _ _ hj', set2_row _ _ _ _ _ hj']
      exact h4 j' hj'

theorem CondenseVectors_eq (c : Calculator F P) :
    ∃ v, c.CondenseVectors = { c with m_pVal := v } ∧
      ∀ j, j < 2 → ∀ i, i < c.m_n → v j i
        = c.src j i * c.m_Cs.m_Val c.m_iCycle j
          + c.src j (c.m_n + i) * c.m_Cs.m_Val c.m_iCycle (lnot j) := by
  obtain ⟨va, h1, h2, h3⟩ := CondenseVectors_inner c 0 c.m_pVal
  obtain ⟨vb, h4, h5, h6⟩ := CondenseVectors_inner c 1 va
  refine ⟨vb, ?_, ?_⟩
  · dsimp only [Calculator.CondenseVectors, foldl_range_two]
    dsimp only at h1 h4
    have hc : ({ c with m_pVal := c.m_pVal } : Calculator F P) = c := rfl
    rw [hc] at h1
    rw [h1]
    exact h4
  · intro j hj i hi
    have hj' : j = 0 ∨ j = 1 := by omega
    rcases hj' with rfl | rfl
    · rw [h6 0 (by decide), h2 i hi]
    · rw [h5 i hi, src_setVal, src_setVal]
      unfold Calculator.src
      cases c.m_ppSrc 1 with
      | ext a => rfl
      | val =>
        show va 1 i * _ + va 1 (c.m_n + i) * _ = _
        rw [h3 1 (by decide)]

theorem CondensePoints_inner (ctx : Context F P CP) (c : Calculator F P) (j : Nat)
    (hle : ¬ c.m_iCycle > s_iCycle0) (mm1 : MultiMac F P) (g1 : Nat → Nat → P) :
    ∃ mm g, (List.range c.m_n).foldl
        (fun (c : Calculator F P) i =>
          let c := { c with m_Mm := MultiMac.Reset }
          let aggr := Aggregator.mk' c.m_Mm c.m_Cs c.m_Mod j (nCycles - c.m_iCycle - 1)
          let aggr := if c.m_iCycle > s_iCycle0 then { aggr with m_pCalc := some c.m_pGen } else aggr
          let aggr := Aggregator.Proceed ctx aggr i c.m_GenOrder 1
          let c := { c with m_Mm := aggr.m_Mm }
          { c with m_pGen := set2 c.m_pGen j i c.m_Mm.Calculate })
        { c with m_Mm := mm1, m_pGen := g1 } = { c with m_Mm := mm, m_pGen := g } ∧
      (∀ i, i < c.m_n → g j i
        = Efold (Gt ctx c.m_Mod j) c.m_Cs.m_Val j (nCycles - c.m_iCycle - 1) i c.m_GenOrder) ∧
      (∀ j', j' ≠ j → g j' = g1 j') := by
  have key := foldl_range_induction c.m_n
    (fun (c : Calculator F P) i =>
          let c := { c with m_Mm := MultiMac.Reset }
          let aggr := Aggregator.mk' c.m_Mm c.m_Cs c.m_Mod j (nCycles - c.m_iCycle - 1)
          let aggr := if c.m_iCycle > s_iCycle0 then { aggr with m_pCalc := some c.m_pGen } else aggr
          let aggr := Aggregator.Proceed ctx aggr i c.m_GenOrder 1
          let c := { c with m_Mm := aggr.m_Mm }
          { c with m_pGen := set2 c.m_pGen j i c.m_Mm.Calculate })
    (fun k s => ∃ mm g, s = { c with m_Mm := mm, m_pGen := g } ∧
      (∀ i, i < k → g j i
        = Efold (Gt ctx c.m_Mod j) c.m_Cs.m_Val j (nCycles - c.m_iCycle - 1) i c.m_GenOrder) ∧
      (∀ j', j' ≠ j → g j' = g1 j'))
    { c with m_Mm := mm1, m_pGen := g1 }
    ⟨mm1, g1, rfl, fun i hi => absurd hi (Nat.not_lt_zero i), fun _ _ => rfl⟩ ?_
  · exact key
  · rintro i s hi ⟨mm, g, rfl, h2, h4⟩
    obtain ⟨mm', fl, e1, e2⟩ := Proceed_mm ctx c.m_GenOrder
      (Aggregator.mk' (MultiMac.Reset : MultiMac F P) c.m_Cs c.m_Mod j (nCycles - c.m_iCycle - 1))
      i 1 rfl
    have e3 : mm'.Calculate
        = Efold (Gt ctx c.m_Mod j) c.m_Cs.m_Val j (nCycles - c.m_iCycle - 1) i c.m_GenOrder := by
      rw [e2]
      simp only [Aggregator.mk', Aggregator.leafPoint, MultiMac.Calculate_Reset, zero_add,
        one_smul]
    refine ⟨mm', set2 g j i mm'.Calculate, ?_, ?_, ?_⟩
    · simp only [hle, if_false, e1]
    · intro i' hi'
      by_cases hii : i' = i
      · subst hii
        rw [set2_same, e3]
      · rw [set2_col _ _ _ _ _ hii]
        exact h2 i' (by omega)
    · intro j' hj'
      rw [set2_row _ _ _ _ _ hj']
      exact h4 j' hj'

theorem CondensePoints_eq (ctx : Context F P CP) (c : Calculator F P)
    (hle : ¬ c.m_iCycle > s_iCycle0) :
    ∃ mm g, c.CondensePoints ctx
        = { c with m_Mm := mm, m_pGen := g, m_GenOrder := nCycles - c.m_iCycle - 1 } ∧
      ∀ j, j < 2 → ∀ i, i < c.m_n → g j i
        = Efold (Gt ctx c.m_Mod j) c.m_Cs.m_Val j (nCycles - c.m_iCycle - 1) i c.m_GenOrder := by
  obtain ⟨mma, ga, h1, h2, h3⟩ := CondensePoints_inner ctx c 0 hle c.m_Mm c.m_pGen
  obtain ⟨mmb, gb, h4, h5, h6⟩ := CondensePoints_inner ctx c 1 hle mma ga
  refine ⟨mmb, gb, ?_, ?_⟩
  · dsimp only [Calculator.CondensePoints, foldl_range_two]
    dsimp only at h1 h4
    have hc : ({ c with m_Mm := c.m_Mm, m_pGen := c.m_pGen } : Calculator F P) = c := rfl
    rw [hc] at h1
    rw [h1, h4]
  · intro j hj i hi
    have hj' : j = 0 ∨ j = 1 := by omega
    rcases hj' with rfl | rfl
    · rw [h6 0 (by decide), h2 i hi]
    · rw [h5 i hi]

theorem nDim_shift (k : Nat) (hk : k ≤ nCycles) : nDim >>> k = 2 ^ (nCycles - k) := by
  have : k ≤ 6 := hk
  interval_cases k <;> rfl

theorem Gam_zero (ctx : Context F P CP) (M : ModifierExpanded F) (val : Nat → Nat → F)
    (j p : Nat) : Gam ctx M val j 0 p = Gt ctx M j p := by
  unfold Gam
  exact Efold_self _ _ _ _ _

theorem Gam_congr (ctx : Context F P CP) (M : ModifierExpanded F) (val val' : Nat → Nat → F)
    (j k p : Nat) (h : ∀ r, r < k → val r = val' r) :
    Gam ctx M val j k p = Gam ctx M val' j k p := by
  unfold Gam
  apply Efold_congr_val
  intro ic h1 h2
  apply h
  unfold nCycles at *
  omega

theorem Gam_succ (ctx : Context F P CP) (M : ModifierExpanded F) (val : Nat → Nat → F)
    (j k p : Nat) (hk : k < nCycles) :
    Gam ctx M val j (k + 1) p
      = val k (lnot j) • Gam ctx M val j k p
        + val k j • Gam ctx M val j k (p + nDim >>> (k + 1)) := by
  unfold Gam
  have hmid : nCycles - k = (nCycles - (k + 1)) + 1 := by omega
  have hlvl : nCycles = (nCycles - k) + k := by omega
  have hne : nCycles - (k + 1) + 1 ≠ nCycles - (k + 1) := by omega
  have hidx : nCycles - (nCycles - (k + 1) + 1) = k := by omega
  have hc := Efold_comp (Gt ctx M j) val j (nCycles - (k + 1)) (nCycles - k) (by omega) k p
  rw [← hlvl] at hc
  rw [hc, hmid, Efold_succ _ _ _ _ _ _ hne, Efold_self, Efold_self, hidx,
    nDim_shift (k + 1) (by omega)]

theorem term_G (x xi a0 a1 : F) (g0 g1 : P) (hx : x * xi = 1) :
    (a0 * x + a1 * xi) • (xi • g0 + x • g1)
      = a0 • g0 + a1 • g1 + (x * x) • (a0 • g1) + (xi * xi) • (a1 • g0) := by
  have e1 : (a0 * x + a1 * xi) * xi = a0 + (xi * xi) * a1 := by linear_combination a0 * hx
  have e2 : (a0 * x + a1 * xi) * x = (x * x) * a0 + a1 := by linear_combination a1 * hx
  rw [smul_add, smul_smul, smul_smul, e1, e2]
  module

theorem term_H (x xi b0 b1 : F) (h0 h1 : P) (hx : x * xi = 1) :
    (b0 * xi + b1 * x) • (x • h0 + xi • h1)
      = b0 • h0 + b1 • h1 + (x * x) • (b1 • h0) + (xi * xi) • (b0 • h1) := by
  have e1 : (b0 * xi + b1 * x) * x = b0 + (x * x) * b1 := by linear_combination b0 * hx
  have e2 : (b0 * xi + b1 * x) * xi = (xi * xi) * b0 + b1 := by linear_combination b1 * hx
  rw [smul_add, smul_smul, smul_smul, e1, e2]
  module

theorem term_dot (x xi a0 a1 b0 b1 : F) (hx : x * xi = 1) :
    (a0 * x + a1 * xi) * (b0 * xi + b1 * x)
      = a0 * b0 + a1 * b1 + (x * x) * (a0 * b1) + (xi * xi) * (a1 * b0) := by
  linear_combination (a0 * b0 + a1 * b1) * hx

/-- One folding round keeps the commitment up to the two cross terms. -/
theorem round_identity (Q : P) (dm x xi : F) (hx : x * xi = 1) (n : Nat) (a b : Nat → F)
    (G H : Nat → P) :
    sumRange n (fun i => (a i * x + a (n + i) * xi) • (xi • G i + x • G (i + n)))
      + sumRange n (fun i => (b i * xi + b (n + i) * x) • (x • H i + xi • H (i + n)))
      + (dm * sumRange n (fun i => (a i * x + a (n + i) * xi) * (b i * xi + b (n + i) * x))) • Q
    = (sumRange (n + n) (fun i => a i • G i) + sumRange (n + n) (fun i => b i • H i)
        + (dm * sumRange (n + n) (fun i => a i * b i)) • Q)
      + (x * x) • ((sumRange n (fun i => a i * b (n + i)) * dm) • Q
          + sumRange n (fun i => a i • G (i + n)) + sumRange n (fun i => b (i + n) • H i))
      + (xi * xi) • ((sumRange n (fun i => b i * a (n + i)) * dm) • Q
          + sumRange n (fun i => a (i + n) • G i) + sumRange n (fun i => b i • H (i + n))) := by
  have hG : sumRange n (fun i => (a i * x + a (n + i) * xi) • (xi • G i + x • G (i + n)))
      = sumRange n (fun i => a i • G i) + sumRange n (fun i => a (n + i) • G (n + i))
        + (x * x) • sumRange n (fun i => a i • G (i + n))
        + (xi * xi) • sumRange n (fun i => a (i + n) • G i) := by
    rw [← sumRange_smul, ← sumRange_smul, ← sumRange_add, ← sumRange_add, ← sumRange_add]
    apply sumRange_congr
    intro i _
    rw [term_G x xi _ _ _ _ hx, Nat.add_comm i n]
  have hH : sumRange n (fun i => (b i * xi + b (n + i) * x) • (x • H i + xi • H (i + n)))
      = sumRange n (fun i => b i • H i) + sumRange n (fun i => b (n + i) • H (n + i))
        + (x * x) • sumRange n (fun i => b (i + n) • H i)
        + (xi * xi) • sumRange n (fun i => b i • H (i + n)) := by
    rw [← sumRange_smul, ← sumRange_smul, ← sumRange_add, ← sumRange_add, ← sumRange_add]
    apply sumRange_congr
    intro i _
    rw [term_H x xi _ _ _ _ hx, Nat.add_comm i n]
  have hD : sumRange n (fun i => (a i * x + a (n + i) * xi) * (b i * xi + b (n + i) * x))
      = sumRange n (fun i => a i * b i) + sumRange n (fun i => a (n + i) * b (n + i))
        + (x * x) * sumRange n (fun i => a i * b (n + i))
        + (xi * xi) * sumRange n (fun i => b i * a (n + i)) := by
    rw [← sumRange_mul_left, ← sumRange_mul_left, ← sumRange_add, ← sumRange_add,
      ← sumRange_add]
    apply sumRange_congr
    intro i _
    rw [term_dot x xi _ _ _ _ hx, mul_comm (b i) (a (n + i))]
  rw [hG, hH, hD, sumRange_split n (fun i => a i • G i), sumRange_split n (fun i => b i • H i),
    sumRange_split n (fun i => a i * b i)]
  module

theorem get_Challenge_spec (ctx : Context F P CP) (fuel : Nat) :
    ∀ (o : Oracle F CP) (r : (F × F) × Oracle F CP), get_Challenge ctx fuel o = some r →
      r.1.1 ≠ 0 ∧ r.1.2 = r.1.1⁻¹ := by
  induction fuel with
  | zero =>
    intro o r h
    simp [get_Challenge] at h
  | succ n ih =>
    intro o r h
    rw [get_Challenge] at h
    by_cases hz : ctx.squeeze o = 0
    · simp only [hz, if_true] at h
      exact ih _ r h
    · simp only [hz, if_false, Option.some.injEq] at h
      subst h
      exact ⟨hz, rfl⟩

theorem get_Challenge_of_ne (ctx : Context F P CP) (hsq : ∀ o, ctx.squeeze o ≠ 0) (fuel : Nat)
    (hfuel : 0 < fuel) (o : Oracle F CP) :
    get_Challenge ctx fuel o = some ((ctx.squeeze o, (ctx.squeeze o)⁻¹), Item.out :: o) := by
  obtain ⟨n, rfl⟩ : ∃ n, fuel = n + 1 := ⟨fuel - 1, by omega⟩
  rw [get_Challenge]
  simp [hsq o]

theorem leaf_Gam (ctx : Context F P CP) (M : ModifierExpanded F) (dm : F) (k : Nat)
    (c : Calculator F P) (hinv : CalcInv ctx M dm k c) (hic : c.m_iCycle = k)
    (hk : k ≤ nCycles) (j : Nat) (hj : j < 2) (p : Nat) (hp : p < nDim >>> k) :
    Efold (c.leafPoint ctx j) c.m_Cs.m_Val j (nCycles - k) p c.m_GenOrder
      = Gam ctx M c.m_Cs.m_Val j k p := by
  obtain ⟨hM, -, hGO, hGen, -⟩ := hinv
  unfold Gam Calculator.leafPoint
  rw [hic, hGO, hM]
  by_cases hle : k ≤ s_iCycle0
  · have : ¬ k > s_iCycle0 := by omega
    simp only [hle, this, if_true, if_false]
  · have hgt : k > s_iCycle0 := by omega
    simp only [hle, hgt, if_true, if_false]
    have hmid : nCycles = (nCycles - s_iCycle0 - 1) + (s_iCycle0 + 1) := by
      unfold nCycles s_iCycle0; rfl
    have hc := Efold_comp (Gt ctx M j) c.m_Cs.m_Val j (nCycles - k) (nCycles - s_iCycle0 - 1)
      (by omega) (s_iCycle0 + 1) p
    rw [← hmid] at hc
    rw [hc]
    apply Efold_congr_leaf _ _ _ _ _ _ (by omega)
    intro q h1 h2
    apply hGen hgt j hj q
    rw [nDim_shift k hk] at hp
    have e1 : nDim >>> (1 + s_iCycle0) = 2 ^ (nCycles - s_iCycle0 - 1) := by
      unfold nDim nCycles s_iCycle0; rfl
    rw [e1]
    omega

theorem LRPoint_setMm (ctx : Context F P CP) (c : Calculator F P) (mm : MultiMac F P) (j : Nat) :
    ({ c with m_Mm := mm } : Calculator F P).LRPoint ctx j = c.LRPoint ctx j := rfl

theorem LRPoint_zero (ctx : Context F P CP) (M : ModifierExpanded F) (dm : F) (k : Nat)
    (c : Calculator F P) (hinv : CalcInv ctx M dm k c) (hic : c.m_iCycle = k)
    (hn : c.m_n = nDim >>> (k + 1)) (hk : k < nCycles) :
    c.LRPoint ctx 0
      = (sumRange c.m_n (fun i => c.src 0 i * c.src 1 (c.m_n + i)) * dm) • ctx.m_GenDot_
        + sumRange c.m_n (fun i => c.src 0 i • Gam ctx M c.m_Cs.m_Val 0 k (i + c.m_n))
        + sumRange c.m_n (fun i => c.src 1 (i + c.m_n) • Gam ctx M c.m_Cs.m_Val 1 k i) := by
  have h2n : nDim >>> k = c.m_n + c.m_n := by
    rw [hn, nDim_shift k (by omega), nDim_shift (k + 1) (by omega)]
    have : nCycles - k = (nCycles - (k + 1)) + 1 := by omega
    rw [this, pow_succ]; omega
  unfold Calculator.LRPoint
  rw [hinv.2.1, hic]
  simp only [if_true, Nat.add_zero, show (1 : Nat) = 0 ↔ False from by decide, if_false]
  have hG : ∀ j, j < 2 → ∀ p, p < c.m_n + c.m_n →
      Efold (c.leafPoint ctx j) c.m_Cs.m_Val j (nCycles - k) p c.m_GenOrder
        = Gam ctx M c.m_Cs.m_Val j k p :=
    fun j hj p hp => leaf_Gam ctx M dm k c hinv hic (by omega) j hj p (by rw [h2n]; exact hp)
  congr 1
  · congr 1
    apply sumRange_congr
    intro i hi
    rw [hG 0 (by decide) _ (by omega)]
  · apply sumRange_congr
    intro i hi
    rw [hG 1 (by decide) _ (by omega)]

theorem LRPoint_one (ctx : Context F P CP) (M : ModifierExpanded F) (dm : F) (k : Nat)
    (c : Calculator F P) (hinv : CalcInv ctx M dm k c) (hic : c.m_iCycle = k)
    (hn : c.m_n = nDim >>> (k + 1)) (hk : k < nCycles) :
    c.LRPoint ctx 1
      = (sumRange c.m_n (fun i => c.src 1 i * c.src 0 (c.m_n + i)) * dm) • ctx.m_GenDot_
        + sumRange c.m_n (fun i => c.src 0 (i + c.m_n) • Gam ctx M c.m_Cs.m_Val 0 k i)
        + sumRange c.m_n (fun i => c.src 1 i • Gam ctx M c.m_Cs.m_Val 1 k (i + c.m_n)) := by
  have h2n : nDim >>> k = c.m_n + c.m_n := by
    rw [hn, nDim_shift k (by omega), nDim_shift (k + 1) (by omega)]
    have : nCycles - k = (nCycles - (k + 1)) + 1 := by omega
    rw [this, pow_succ]; omega
  unfold Calculator.LRPoint
  rw [hinv.2.1, hic]
  simp only [if_true, Nat.add_zero, show (0 : Nat) = 1 ↔ False from by decide, if_false]
  have hG : ∀ j, j < 2 → ∀ p, p < c.m_n + c.m_n →
      Efold (c.leafPoint ctx j) c.m_Cs.m_Val j (nCycles - k) p c.m_GenOrder
        = Gam ctx M c.m_Cs.m_Val j k p :=
    fun j hj p hp => leaf_Gam ctx M dm k c hinv hic (by omega) j hj p (by rw [h2n]; exact hp)
  congr 1
  · congr 1
    apply sumRange_congr
    intro i hi
    rw [hG 0 (by decide) _ (by omega)]
  · apply sumRange_congr
    intro i hi
    rw [hG 1 (by decide) _ (by omega)]

theorem lnot_zero : lnot 0 = 1 := rfl

theorem lnot_one : lnot 1 = 0 := rfl

theorem nDim_shift_double (k : Nat) (hk : k < nCycles) :
    nDim >>> k = nDim >>> (k + 1) + nDim >>> (k + 1) := by
  rw [nDim_shift k (by omega), nDim_shift (k + 1) (by omega)]
  have : nCycles - k = (nCycles - (k + 1)) + 1 := by omega
  rw [this, pow_succ]; omega

theorem Pk_step (ctx : Context F P CP) (M : ModifierExpanded F) (dm : F)
    (val val' : Nat → Nat → F) (k : Nat) (hk : k < nCycles) (x xi : F) (hx : x * xi = 1)
    (hrow : ∀ r, r < k → val r = val' r) (h0 : val' k 0 = x) (h1 : val' k 1 = xi)
    (n : Nat) (hn : n = nDim >>> (k + 1)) (a b a' b' : Nat → F)
    (ha : ∀ i, i < n → a' i = a i * val' k 0 + a (n + i) * val' k (lnot 0))
    (hb : ∀ i, i < n → b' i = b i * val' k 1 + b (n + i) * val' k (lnot 1)) :
    Pk ctx M dm val' (k + 1) a' b'
      = Pk ctx M dm val k a b
        + (x * x) • ((sumRange n (fun i => a i * b (n + i)) * dm) • ctx.m_GenDot_
            + sumRange n (fun i => a i • Gam ctx M val' 0 k (i + n))
            + sumRange n (fun i => b (i + n) • Gam ctx M val' 1 k i))
        + (xi * xi) • ((sumRange n (fun i => b i * a (n + i)) * dm) • ctx.m_GenDot_
            + sumRange n (fun i => a (i + n) • Gam ctx M val' 0 k i)
            + sumRange n (fun i => b i • Gam ctx M val' 1 k (i + n))) := by
  have hcg : ∀ j p, Gam ctx M val j k p = Gam ctx M val' j k p :=
    fun j p => Gam_congr ctx M val val' j k p hrow
  unfold Pk
  rw [nDim_shift_double k hk, ← hn]
  simp only [hcg]
  rw [← round_identity ctx.m_GenDot_ dm x xi hx n a b (Gam ctx M val' 0 k) (Gam ctx M val' 1 k)]
  congr 1
  · congr 1
    · apply sumRange_congr
      intro i hi
      rw [ha i hi, Gam_succ ctx M val' 0 k i hk, lnot_zero, h0, h1, ← hn]
    · apply sumRange_congr
      intro i hi
      rw [hb i hi, Gam_succ ctx M val' 1 k i hk, lnot_one, h0, h1, ← hn]
  · congr 2
    apply sumRange_congr
    intro i hi
    rw [ha i hi, hb i hi, lnot_zero, lnot_one, h0, h1]

theorem src_val (c : Calculator F P) (j : Nat) (h : c.m_ppSrc j = SrcPtr.val) (i : Nat) :
    c.src j i = c.m_pVal j i := by
  unfold Calculator.src
  rw [h]

theorem CalcInv_setVal (ctx : Context F P CP) (M : ModifierExpanded F) (dm : F) (k : Nat)
    (c : Calculator F P) (hinv : CalcInv ctx M dm k c) (hk : k < nCycles) (x xi : F) (n : Nat)
    (mm : MultiMac F P) :
    CalcInv ctx M dm k
      { c with m_iCycle := k, m_n := n, m_Mm := mm,
               m_Cs := { c.m_Cs with m_Val := set2 (set2 c.m_Cs.m_Val k 0 x) k 1 xi } } := by
  obtain ⟨h1, h2, h3, h4, h5⟩ := hinv
  refine ⟨h1, h2, h3, ?_, h5⟩
  intro hgt j hj q hq
  rw [h4 hgt j hj q hq]
  apply Efold_congr_val
  intro ic hic1 hic2
  have hne : nCycles - ic ≠ k := by
    unfold nCycles s_iCycle0 at *
    omega
  show c.m_Cs.m_Val (nCycles - ic) = set2 (set2 c.m_Cs.m_Val k 0 x) k 1 xi (nCycles - ic)
  rw [set2_row _ _ _ _ _ hne, set2_row _ _ _ _ _ hne]

theorem Create_LR_eq (ctx : Context F P CP) (c : Calculator F P) (ip : InnerProduct F CP)
    (o : Oracle F CP) (j : Nat) :
    ∃ mm, InnerProduct.Create_LR ctx (c, ip, o) j
      = ({ c with m_Mm := mm },
          { ip with m_pLR := set2 ip.m_pLR c.m_iCycle j (ctx.Export (c.LRPoint ctx j)) },
          Item.point (ctx.Export (c.LRPoint ctx j)) :: o) := by
  obtain ⟨mm, h1, h2⟩ := ExtractLR_eq ctx c j
  refine ⟨mm, ?_⟩
  unfold InnerProduct.Create_LR
  dsimp only
  rw [h1]
  dsimp only
  rw [h2, set2_same]

theorem Create_finish_spec (ctx : Context F P CP) (M : ModifierExpanded F) (dm : F) (k : Nat)
    (hk : k < nCycles) (c : Calculator F P) (hinv : CalcInv ctx M dm k c) (hic : c.m_iCycle = k)
    (hn : c.m_n = nDim >>> (k + 1)) (c' : Calculator F P)
    (hc' : c' = (let c := c.Condense ctx
        if c.m_iCycle = 0 then
          (List.range 2).foldl
            (fun (c : Calculator F P) j =>
              { c with m_ppSrc := Function.update c.m_ppSrc j SrcPtr.val })
            c
        else c)) :
    CalcInv ctx M dm (k + 1) c' ∧ c'.m_Cs.m_Val = c.m_Cs.m_Val ∧
    ∀ j, j < 2 → ∀ i, i < c.m_n → c'.src j i
      = c.src j i * c.m_Cs.m_Val k j + c.src j (c.m_n + i) * c.m_Cs.m_Val k (lnot j) := by
  obtain ⟨v, hV, hv⟩ := CondenseVectors_eq c
  rw [hic] at hv
  obtain ⟨hM, hdm, hGO, hGen, hptr⟩ := hinv
  have hj01 : ∀ j, j < 2 → j = 0 ∨ j = 1 := fun j hj => by omega
  by_cases h2 : k = s_iCycle0
  · -- the cutover round: the generators are condensed
    obtain ⟨mm, g, hP, hg⟩ := CondensePoints_eq ctx { c with m_pVal := v }
      (by show ¬ c.m_iCycle > s_iCycle0; omega)
    have hcond : c.Condense ctx
        = { c with m_pVal := v, m_Mm := mm, m_pGen := g,
                   m_GenOrder := nCycles - c.m_iCycle - 1 } := by
      unfold Calculator.Condense
      dsimp only
      rw [hV]
      dsimp only
      rw [if_pos (by rw [hic, h2]), hP]
    have hc2 : c' = { c with m_pVal := v, m_Mm := mm, m_pGen := g,
                             m_GenOrder := nCycles - c.m_iCycle - 1 } := by
      rw [hc']
      dsimp only
      rw [hcond]
      dsimp only
      rw [if_neg (by rw [hic, h2]; decide)]
    have hp := hptr (by rw [h2]; decide)
    refine ⟨⟨?_, ?_, ?_, ?_, ?_⟩, ?_, ?_⟩
    · rw [hc2]; exact hM
    · rw [hc2]; exact hdm
    · rw [hc2]
      show nCycles - c.m_iCycle - 1 = _
      rw [hic, h2]; rfl
    · intro _ j hj q hq
      rw [hc2]
      show g j q = Efold (Gt ctx M j) c.m_Cs.m_Val j (nCycles - s_iCycle0 - 1) q nCycles
      have := hg j hj q (by show q < c.m_n; rw [hn, h2]; exact hq)
      rw [this]
      show Efold (Gt ctx c.m_Mod j) c.m_Cs.m_Val j (nCycles - c.m_iCycle - 1) q c.m_GenOrder = _
      rw [hM, hic, h2, hGO, h2]
      rfl
    · intro _
      rw [hc2]; exact hp
    · rw [hc2]
    · intro j hj i hi
      have hpj : c.m_ppSrc j = SrcPtr.val := by
        rcases hj01 j hj with rfl | rfl
        · exact hp.1
        · exact hp.2
      have e : c'.src j i = v j i := by rw [hc2]; unfold Calculator.src; simp only [hpj]
      rw [e]
      exact hv j hj i hi
  · have hcond : c.Condense ctx = { c with m_pVal := v } := by
      unfold Calculator.Condense
      dsimp only
      rw [hV]
      dsimp only
      rw [if_neg (by rw [hic]; exact h2)]
    by_cases h0 : k = 0
    · have hc2 : c' =
          { c with m_pVal := v
                   m_ppSrc := Function.update (Function.update c.m_ppSrc 0 SrcPtr.val) 1
                     SrcPtr.val } := by
        rw [hc']
        dsimp only
        rw [hcond]
        dsimp only
        rw [if_pos (by rw [hic]; exact h0), foldl_range_two]
      have hp0 : c'.m_ppSrc 0 = SrcPtr.val := by rw [hc2]; simp [Function.update]
      have hp1 : c'.m_ppSrc 1 = SrcPtr.val := by rw [hc2]; simp [Function.update]
      refine ⟨⟨?_, ?_, ?_, ?_, ?_⟩, ?_, ?_⟩
      · rw [hc2]; exact hM
      · rw [hc2]; exact hdm
      · rw [hc2]
        show c.m_GenOrder = _
        rw [hGO, h0]; rfl
      · intro hgt
        rw [h0] at hgt
        exact absurd hgt (by decide)
      · intro _
        exact ⟨hp0, hp1⟩
      · rw [hc2]
      · intro j hj i hi
        have hpj : c'.m_ppSrc j = SrcPtr.val := by
          rcases hj01 j hj with rfl | rfl
          · exact hp0
          · exact hp1
        have e : c'.src j i = v j i := by rw [src_val _ j hpj, hc2]
        rw [e]
        exact hv j hj i hi
    · have hc2 : c' = { c with m_pVal := v } := by
        rw [hc']
        dsimp only
        rw [hcond]
        dsimp only
        rw [if_neg (by rw [hic]; exact h0)]
      have hp := hptr (by omega)
      refine ⟨⟨?_, ?_, ?_, ?_, ?_⟩, ?_, ?_⟩
      · rw [hc2]; exact hM
      · rw [hc2]; exact hdm
      · rw [hc2]
        show c.m_GenOrder = _
        rw [hGO]
        unfold s_iCycle0 at *
        by_cases hle : k ≤ 2
        · have : k + 1 ≤ 2 := by omega
          simp only [hle, this, if_true]
        · have : ¬ k + 1 ≤ 2 := by omega
          simp only [hle, this, if_false]
      · intro hgt j hj q hq
        rw [hc2]
        exact hGen (by unfold s_iCycle0 at *; omega) j hj q hq
      · intro _
        rw [hc2]; exact hp
      · rw [hc2]
      · intro j hj i hi
        have hpj : c.m_ppSrc j = SrcPtr.val := by
          rcases hj01 j hj with rfl | rfl
          · exact hp.1
          · exact hp.2
        have e : c'.src j i = v j i := by rw [hc2]; unfold Calculator.src; simp only [hpj]
        rw [e]
        exact hv j hj i hi

theorem Create_cycle_spec (ctx : Context F P CP) (M : ModifierExpanded F) (dm : F) (fuel k : Nat)
    (hk : k < nCycles) (c : Calculator F P) (ip : InnerProduct F CP) (o o1 : Oracle F CP)
    (x xi : F) (hinv : CalcInv ctx M dm k c)
    (hch : get_Challenge ctx fuel o = some ((x, xi), o1)) (hx : x * xi = 1) :
    ∃ c' L R, InnerProduct.Create_cycle ctx fuel (c, ip, o) k
        = some (c', { ip with m_pLR := set2 (set2 ip.m_pLR k 0 (ctx.Export L)) k 1 (ctx.Export R) },
            Item.point (ctx.Export R) :: Item.point (ctx.Export L) :: o1) ∧
      CalcInv ctx M dm (k + 1) c' ∧
      c'.m_Cs.m_Val = set2 (set2 c.m_Cs.m_Val k 0 x) k 1 xi ∧
      Pk ctx M dm c'.m_Cs.m_Val (k + 1) (c'.src 0) (c'.src 1)
        = Pk ctx M dm c.m_Cs.m_Val k (c.src 0) (c.src 1) + (x * x) • L + (xi * xi) • R := by
  -- the calculator once the challenge of the round is stored
  obtain ⟨c1, hc1⟩ : ∃ c1 : Calculator F P, c1 =
      { c with m_iCycle := k, m_n := nDim >>> (k + 1), m_Mm := c.m_Mm,
               m_Cs := { c.m_Cs with m_Val := set2 (set2 c.m_Cs.m_Val k 0 x) k 1 xi } } :=
    ⟨_, rfl⟩
  have hinv1 : CalcInv ctx M dm k c1 := by
    rw [hc1]; exact CalcInv_setVal ctx M dm k c hinv hk x xi _ c.m_Mm
  have hic1 : c1.m_iCycle = k := by rw [hc1]
  have hn1 : c1.m_n = nDim >>> (k + 1) := by rw [hc1]
  have hval1 : c1.m_Cs.m_Val = set2 (set2 c.m_Cs.m_Val k 0 x) k 1 xi := by rw [hc1]
  have hsrc1 : ∀ j i, c1.src j i = c.src j i := by intro j i; rw [hc1]; rfl
  have hptr1 : c1.m_ppSrc = c.m_ppSrc := by rw [hc1]
  have hstart : InnerProduct.Create_cycle ctx fuel (c, ip, o) k
      = (let s := (List.range 2).foldl (InnerProduct.Create_LR ctx) (c1, ip, o1)
         let c := s.1.Condense ctx
         let c := if c.m_iCycle = 0 then
             (List.range 2).foldl
               (fun (c : Calculator F P) j =>
                 { c with m_ppSrc := Function.update c.m_ppSrc j SrcPtr.val })
               c
           else c
         some (c, s.2.1, s.2.2)) := by
    unfold InnerProduct.Create_cycle
    dsimp only
    rw [hch, hc1]
  obtain ⟨mm0, hE0⟩ := Create_LR_eq ctx c1 ip o1 0
  obtain ⟨mm1, hE1⟩ := Create_LR_eq ctx { c1 with m_Mm := mm0 }
    { ip with m_pLR := set2 ip.m_pLR c1.m_iCycle 0 (ctx.Export (c1.LRPoint ctx 0)) }
    (Item.point (ctx.Export (c1.LRPoint ctx 0)) :: o1) 1
  obtain ⟨v, hV, hv⟩ := CondenseVectors_eq ({ c1 with m_Mm := mm1 })
  clear hc1 hch
  subst hic1
  rw [hstart, foldl_range_two, hE0, hE1]
  dsimp only
  rw [LRPoint_setMm]
  obtain ⟨c', hc'⟩ : ∃ c' : Calculator F P, c' =
      (let c := ({ c1 with m_Mm := mm1 } : Calculator F P).Condense ctx
       if c.m_iCycle = 0 then
         (List.range 2).foldl
           (fun (c : Calculator F P) j =>
             { c with m_ppSrc := Function.update c.m_ppSrc j SrcPtr.val })
           c
       else c) := ⟨_, rfl⟩
  obtain ⟨hI, hval, hsrc⟩ := Create_finish_spec ctx M dm c1.m_iCycle hk { c1 with m_Mm := mm1 }
    hinv1 rfl hn1 c' hc'
  refine ⟨c', c1.LRPoint ctx 0, c1.LRPoint ctx 1, by subst hc'; rfl, hI, ?_, ?_⟩
  · rw [hval]; exact hval1
  · rw [hval]
    have hv0 : (set2 (set2 c.m_Cs.m_Val c1.m_iCycle 0 x) c1.m_iCycle 1 xi) c1.m_iCycle 0 = x := by
      rw [set2_col _ _ _ _ _ (by decide), set2_same]
    have hv1 : (set2 (set2 c.m_Cs.m_Val c1.m_iCycle 0 x) c1.m_iCycle 1 xi) c1.m_iCycle 1 = xi :=
      set2_same _ _ _ _
    have hrow : ∀ r, r < c1.m_iCycle →
        c.m_Cs.m_Val r = (set2 (set2 c.m_Cs.m_Val c1.m_iCycle 0 x) c1.m_iCycle 1 xi) r := by
      intro r hr
      rw [set2_row _ _ _ _ _ (by omega), set2_row _ _ _ _ _ (by omega)]
    have hstepP := Pk_step ctx M dm c.m_Cs.m_Val (set2 (set2 c.m_Cs.m_Val c1.m_iCycle 0 x) c1.m_iCycle 1 xi)
      c1.m_iCycle hk x xi
      hx hrow hv0 hv1 c1.m_n hn1 (c.src 0) (c.src 1) (c'.src 0) (c'.src 1)
      (fun i hi => by
        rw [hsrc 0 (by decide) i hi]
        show c1.src 0 i * c1.m_Cs.m_Val c1.m_iCycle 0
          + c1.src 0 (c1.m_n + i) * c1.m_Cs.m_Val c1.m_iCycle (lnot 0) = _
        rw [hval1, hsrc1, hsrc1])
      (fun i hi => by
        rw [hsrc 1 (by decide) i hi]
        show c1.src 1 i * c1.m_Cs.m_Val c1.m_iCycle 1
          + c1.src 1 (c1.m_n + i) * c1.m_Cs.m_Val c1.m_iCycle (lnot 1) = _
        rw [hval1, hsrc1, hsrc1])
    show Pk ctx M dm c1.m_Cs.m_Val (c1.m_iCycle + 1) (c'.src 0) (c'.src 1) = _
    rw [hval1, hstepP, LRPoint_zero ctx M dm c1.m_iCycle c1 hinv1 rfl hn1 hk,
      LRPoint_one ctx M dm c1.m_iCycle c1 hinv1 rfl hn1 hk, hval1]
    simp only [hsrc1]

theorem AddCasuals_nil (bc : BatchContext F P) : bc.AddCasuals [] = bc := rfl

theorem AddCasuals_cons (bc : BatchContext F P) (t : P × F) (ts : List (P × F)) :
    bc.AddCasuals (t :: ts) = (bc.AddCasual t.1 t.2).AddCasuals ts := rfl

theorem AddCasuals_append (bc : BatchContext F P) (ts us : List (P × F)) :
    bc.AddCasuals (ts ++ us) = (bc.AddCasuals ts).AddCasuals us := by
  unfold BatchContext.AddCasuals
  rw [List.foldl_append]

theorem factor_AddCasuals (bc : BatchContext F P) (ts : List (P × F)) :
    (bc.AddCasuals ts).factor = bc.factor := by
  induction ts generalizing bc with
  | nil => rfl
  | cons t ts ih => rw [AddCasuals_cons, ih, factor_AddCasual]

theorem Calculate_AddCasuals (ctx : Context F P CP) (bc : BatchContext F P)
    (ts : List (P × F)) :
    (bc.AddCasuals ts).Calculate ctx
      = bc.Calculate ctx + bc.factor • (ts.map (fun t => t.2 • t.1)).sum := by
  induction ts generalizing bc with
  | nil => simp [AddCasuals_nil]
  | cons t ts ih =>
    rw [AddCasuals_cons, ih, factor_AddCasual, Calculate_AddCasual]
    simp only [List.map_cons, List.sum_cons, smul_add, mul_smul]
    abel

theorem IsValid_LR_two (ctx : Context F P CP) (self : InnerProduct F CP) (cs : ChallengeSet F)
    (iCycle : Nat) (o : Oracle F CP) (bc : BatchContext F P) (L R : P)
    (hL : ctx.Import (self.m_pLR iCycle 0) = some L)
    (hR : ctx.Import (self.m_pLR iCycle 1) = some R) :
    InnerProduct.IsValid_LR ctx self cs iCycle (List.range 2) o bc
      = (true, Item.point (self.m_pLR iCycle 1) :: Item.point (self.m_pLR iCycle 0) :: o,
          bc.AddCasuals [(L, cs.m_Val iCycle 0 * cs.m_Val iCycle 0),
            (R, cs.m_Val iCycle 1 * cs.m_Val iCycle 1)]) := by
  have hr : List.range 2 = [0, 1] := rfl
  rw [hr]
  simp only [InnerProduct.IsValid_LR, AddCasualP_some _ _ _ _ _ hL, AddCasualP_some _ _ _ _ _ hR,
    Bool.not_true, Bool.false_eq_true, if_false]
  rfl

theorem loops_joint (ctx : Context F P CP) (hIE : ∀ p, ctx.Import (ctx.Export p) = some p)
    (hsq : ∀ o, ctx.squeeze o ≠ 0) (M : ModifierExpanded F) (dm : F) (fuel : Nat)
    (hfuel : 0 < fuel) (d : Nat) :
    ∀ (k : Nat), k + d = nCycles → ∀ (c : Calculator F P) (ip : InnerProduct F CP)
      (o : Oracle F CP), CalcInv ctx M dm k c →
      ∃ c' ip' o', (List.range' k d).foldlM (InnerProduct.Create_cycle ctx fuel) (c, ip, o)
          = some (c', ip', o') ∧
        CalcInv ctx M dm nCycles c' ∧ (∀ k', k' < k → ip'.m_pLR k' = ip.m_pLR k') ∧
        ip'.m_pCondensed = ip.m_pCondensed ∧
        ∀ (ipv : InnerProduct F CP) (cs : ChallengeSet F) (bc : BatchContext F P),
          (∀ k' j, k ≤ k' → k' < nCycles → j < 2 → ipv.m_pLR k' j = ip'.m_pLR k' j) →
          cs.m_Val = c.m_Cs.m_Val →
          ∃ terms : List (P × F),
            InnerProduct.IsValid_cycles ctx fuel ipv (List.range' k d) cs o bc
              = some (true, { cs with m_Val := c'.m_Cs.m_Val }, o', bc.AddCasuals terms) ∧
            terms.length = 2 * d ∧
            (terms.map (fun t => t.2 • t.1)).sum
              = Pk ctx M dm c'.m_Cs.m_Val nCycles (c'.src 0) (c'.src 1)
                - Pk ctx M dm c.m_Cs.m_Val k (c.src 0) (c.src 1) := by
  induction d with
  | zero =>
    intro k hk c ip o hinv
    have hk' : k = nCycles := by omega
    subst hk'
    refine ⟨c, ip, o, rfl, hinv, fun _ _ => rfl, rfl, ?_⟩
    intro ipv cs bc _ hcs
    refine ⟨[], ?_, rfl, by simp⟩
    simp only [List.range', InnerProduct.IsValid_cycles, AddCasuals_nil]
    rw [← hcs]
  | succ d ih =>
    intro k hk c ip o hinv
    have hklt : k < nCycles := by omega
    have hch := get_Challenge_of_ne ctx hsq fuel hfuel o
    have hx : ctx.squeeze o * (ctx.squeeze o)⁻¹ = 1 := mul_inv_cancel₀ (hsq o)
    obtain ⟨c1, L, R, hstep, hinv1, hval1, hP1⟩ :=
      Create_cycle_spec ctx M dm fuel k hklt c ip o _ _ _ hinv hch hx
    obtain ⟨c', ip', o', hrun, hinv', hlr, hcond, hver⟩ := ih (k + 1) (by omega) c1
      { ip with m_pLR := set2 (set2 ip.m_pLR k 0 (ctx.Export L)) k 1 (ctx.Export R) }
      (Item.point (ctx.Export R) :: Item.point (ctx.Export L) :: Item.out :: o) hinv1
    refine ⟨c', ip', o', ?_, hinv', ?_, hcond, ?_⟩
    · rw [List.range', List.foldlM_cons]
      show (InnerProduct.Create_cycle ctx fuel (c, ip, o) k).bind _ = _
      rw [hstep]
      exact hrun
    · intro k' hk'
      rw [hlr k' (by omega)]
      show set2 (set2 ip.m_pLR k 0 _) k 1 _ k' = _
      rw [set2_row _ _ _ _ _ (by omega), set2_row _ _ _ _ _ (by omega)]
    · intro ipv cs bc hipv hcs
      have hL : ipv.m_pLR k 0 = ctx.Export L := by
        rw [hipv k 0 (Nat.le_refl _) hklt (by decide), hlr k (by omega)]
        show set2 (set2 ip.m_pLR k 0 _) k 1 _ k 0 = _
        rw [set2_col _ _ _ _ _ (by decide), set2_same]
      have hR : ipv.m_pLR k 1 = ctx.Export R := by
        rw [hipv k 1 (Nat.le_refl _) hklt (by decide), hlr k (by omega)]
        show set2 (set2 ip.m_pLR k 0 _) k 1 _ k 1 = _
        rw [set2_same]
      obtain ⟨terms, hv1, hv2, hv3⟩ := hver ipv
        { cs with m_Val := set2 (set2 cs.m_Val k 0 (ctx.squeeze o)) k 1 (ctx.squeeze o)⁻¹ }
        (bc.AddCasuals [(L, ctx.squeeze o * ctx.squeeze o),
          (R, (ctx.squeeze o)⁻¹ * (ctx.squeeze o)⁻¹)])
        (fun k' j h1 h2 h3 => hipv k' j (by omega) h2 h3)
        (by rw [hval1, hcs])
      refine ⟨(L, ctx.squeeze o * ctx.squeeze o)
        :: (R, (ctx.squeeze o)⁻¹ * (ctx.squeeze o)⁻¹) :: terms, ?_, ?_, ?_⟩
      · rw [List.range', InnerProduct.IsValid_cycles, hch]
        dsimp only
        rw [IsValid_LR_two ctx ipv _ k _ bc L R (by rw [hL]; exact hIE L)
          (by rw [hR]; exact hIE R)]
        dsimp only
        rw [set2_col _ _ _ _ _ (by decide), set2_same, set2_same, hL, hR]
        simp only [Bool.not_true, Bool.false_eq_true, if_false]
        rw [hv1]
        rfl
      · simp only [List.length_cons, hv2]
        omega
      · simp only [List.map_cons, List.sum_cons, hv3, hP1]
        abel

theorem AddCasuals_setKPrep (bc : BatchContext F P) (kp : Nat → F) (ts : List (P × F)) :
    ({ bc with m_pKPrep := kp } : BatchContext F P).AddCasuals ts
      = { bc.AddCasuals ts with m_pKPrep := kp } := by
  induction ts generalizing bc with
  | nil => rfl
  | cons t ts ih =>
    rw [AddCasuals_cons, AddCasuals_cons, ← ih]
    rfl

theorem kprep_AddCasuals (bc : BatchContext F P) (ts : List (P × F)) :
    (bc.AddCasuals ts).m_pKPrep = bc.m_pKPrep := by
  induction ts generalizing bc with
  | nil => rfl
  | cons t ts ih => rw [AddCasuals_cons, ih]; rfl

theorem Calculate_setKPrep (ctx : Context F P CP) (bc : BatchContext F P) (kp : Nat → F) :
    ({ bc with m_pKPrep := kp } : BatchContext F P).Calculate ctx
      = bc.Calculate ctx
        + (sumRange ctx.s_CountPrepared (fun q => kp q • BatchContext.m_ppPrepared ctx q)
          - sumRange ctx.s_CountPrepared
              (fun q => bc.m_pKPrep q • BatchContext.m_ppPrepared ctx q)) := by
  unfold BatchContext.Calculate
  abel

theorem AddPrepared_eq (ctx : Context F P CP) (bc : BatchContext F P) (i : Nat) (k : F)
    (hi : i < ctx.s_CountPrepared) :
    bc.AddPrepared ctx i k
      = { bc with m_pKPrep := Function.update bc.m_pKPrep i (bc.m_pKPrep i + bc.factor * k) } := by
  unfold BatchContext.AddPrepared
  rw [factor_mul]
  simp [hi]

theorem IsValid_condensed_eq (ctx : Context F P CP) (hIdx : ctx.IdxOk) (self : InnerProduct F CP)
    (cs : ChallengeSet F) (modExp : ModifierExpanded F) (bc : BatchContext F P) (j : Nat)
    (hj : j < 2) :
    ∃ kp, InnerProduct.IsValid_condensed ctx self cs modExp bc j = { bc with m_pKPrep := kp } ∧
      sumRange ctx.s_CountPrepared (fun q => kp q • BatchContext.m_ppPrepared ctx q)
        = sumRange ctx.s_CountPrepared
            (fun q => bc.m_pKPrep q • BatchContext.m_ppPrepared ctx q)
          + (bc.factor * -self.m_pCondensed j) • Gam ctx modExp cs.m_Val j nCycles 0 := by
  obtain ⟨kp, h1, h2⟩ := Proceed_batch ctx hIdx nCycles
    { Aggregator.mk' MultiMac.Reset cs modExp j 0 with m_pBatchCtx := some bc } bc 0
    (bc.factor * -self.m_pCondensed j) rfl rfl hj (Nat.zero_le _) (Nat.le_refl _) (by decide)
  refine ⟨kp, ?_, ?_⟩
  · unfold InnerProduct.IsValid_condensed
    dsimp only
    rw [factor_mul, h1]
    simp [Aggregator.mk']
  · rw [h2]
    rfl

theorem Create_comm_inner (ctx : Context F P CP) (c : Calculator F P) (j : Nat) :
    ∃ mm, (List.range nDim).foldl
        (fun (c : Calculator F P) i =>
          { c with m_Mm := c.m_Mm.pushPrepared (ctx.m_pGen_ j i) (c.m_Mod.Set (c.src j i) i j) })
        c = { c with m_Mm := mm } ∧
      mm.Calculate = c.m_Mm.Calculate + sumRange nDim (fun i => c.src j i • Gt ctx c.m_Mod j i) := by
  refine foldl_range_induction nDim
    (fun (c : Calculator F P) i =>
      { c with m_Mm := c.m_Mm.pushPrepared (ctx.m_pGen_ j i) (c.m_Mod.Set (c.src j i) i j) })
    (fun n s => ∃ mm, s = { c with m_Mm := mm } ∧
      mm.Calculate = c.m_Mm.Calculate + sumRange n (fun i => c.src j i • Gt ctx c.m_Mod j i))
    c ?_ ?_
  · exact ⟨c.m_Mm, rfl, by rw [sumRange_zero, add_zero]⟩
  · rintro i s hi ⟨mm, rfl, hmm⟩
    refine ⟨_, rfl, ?_⟩
    rw [MultiMac.Calculate_pushPrepared, sumRange_succ, ← add_assoc, ← hmm]
    show _ + c.m_Mod.Set (c.src j i) i j • ctx.m_pGen_ j i = _
    rw [Set_eq_mul, mul_smul]
    rfl

theorem Create_comm_fold (ctx : Context F P CP) (c : Calculator F P) :
    ∃ mm, (List.range 2).foldl
        (fun (c : Calculator F P) j =>
          (List.range nDim).foldl
            (fun (c : Calculator F P) i =>
              { c with m_Mm := c.m_Mm.pushPrepared (ctx.m_pGen_ j i) (c.m_Mod.Set (c.src j i) i j) })
            c)
        c = { c with m_Mm := mm } ∧
      mm.Calculate = c.m_Mm.Calculate + sumRange nDim (fun i => c.src 0 i • Gt ctx c.m_Mod 0 i)
        + sumRange nDim (fun i => c.src 1 i • Gt ctx c.m_Mod 1 i) := by
  obtain ⟨mm0, h0, h0'⟩ := Create_comm_inner ctx c 0
  obtain ⟨mm1, h1, h1'⟩ := Create_comm_inner ctx { c with m_Mm := mm0 } 1
  refine ⟨mm1, ?_, ?_⟩
  · rw [foldl_range_two, h0, h1]
  · rw [h1', ← h0']
    rfl

theorem Pk_zero (ctx : Context F P CP) (mod : Modifier F) (dm : F) (val : Nat → Nat → F)
    (a b : Nat → F) :
    Pk ctx (ModifierExpanded.Init mod) dm val 0 a b
      = InnerProduct.Commitment ctx mod a b
        + (dm * sumRange nDim (fun i => a i * b i)) • ctx.m_GenDot_ := by
  unfold Pk InnerProduct.Commitment
  simp only [Gam_zero]
  rfl

theorem Pk_last (ctx : Context F P CP) (M : ModifierExpanded F) (dm : F) (val : Nat → Nat → F)
    (a b : Nat → F) :
    Pk ctx M dm val nCycles a b
      = a 0 • Gam ctx M val 0 nCycles 0 + b 0 • Gam ctx M val 1 nCycles 0
        + (dm * (a 0 * b 0)) • ctx.m_GenDot_ := by
  unfold Pk
  have h : nDim >>> nCycles = 1 := rfl
  rw [h]
  simp [sumRange, List.range_succ]

theorem Create_IsValidOracle (ctx : Context F P CP) (hIdx : ctx.IdxOk)
    (hIE : ∀ p, ctx.Import (ctx.Export p) = some p) (hsq : ∀ o, ctx.squeeze o ≠ 0)
    (fuel : Nat) (hfuel : 0 < fuel) (self0 : InnerProduct F CP) (oracle : Oracle F CP)
    (pAB : Bool) (dotAB : F) (pA pB : Nat → F) (mod : Modifier F) :
    ∃ ip o', InnerProduct.Create ctx fuel self0 oracle pAB dotAB pA pB mod
        = some (ip, o', if pAB then some (InnerProduct.Commitment ctx mod pA pB) else none) ∧
      ∀ bc : BatchContext F P, ∃ terms kp,
        InnerProduct.IsValidOracle ctx fuel ip bc
            (if pAB then Item.point (ctx.Export (InnerProduct.Commitment ctx mod pA pB)) :: oracle
              else oracle) dotAB mod
          = some (true, o', { bc.AddCasuals terms with m_pKPrep := kp }) ∧
        terms.length = 2 * nCycles ∧
        ({ bc.AddCasuals terms with m_pKPrep := kp } : BatchContext F P).Calculate ctx
          = bc.Calculate ctx + bc.factor •
              ((ctx.squeeze (Item.scalar dotAB ::
                    (if pAB then
                      Item.point (ctx.Export (InnerProduct.Commitment ctx mod pA pB)) :: oracle
                    else oracle))
                  * (dotAB - sumRange nDim (fun i => pA i * pB i))) • ctx.m_GenDot_
                - InnerProduct.Commitment ctx mod pA pB) := by
  -- the calculator before the rounds
  obtain ⟨c0, hc0⟩ : ∃ c0 : Calculator F P, c0 =
      { (Calculator.init : Calculator F P) with
        m_Mod := ModifierExpanded.Init mod, m_GenOrder := nCycles,
        m_ppSrc := Function.update (Function.update (fun _ => SrcPtr.val) 0 (SrcPtr.ext pA)) 1
          (SrcPtr.ext pB) } := ⟨_, rfl⟩
  have hsrc0 : ∀ (mm : MultiMac F P) (cs : ChallengeSet F),
      ({ c0 with m_Mm := mm, m_Cs := cs } : Calculator F P).src 0 = pA := by
    intro mm cs; subst hc0; funext i; simp [Calculator.src, Function.update]
  have hsrc1 : ∀ (mm : MultiMac F P) (cs : ChallengeSet F),
      ({ c0 with m_Mm := mm, m_Cs := cs } : Calculator F P).src 1 = pB := by
    intro mm cs; subst hc0; funext i; simp [Calculator.src, Function.update]
  obtain ⟨mm, hmm, hmmc⟩ := Create_comm_fold ctx c0
  have hcomm : mm.Calculate = InnerProduct.Commitment ctx mod pA pB := by
    rw [hmmc]
    have h0 := hsrc0 c0.m_Mm c0.m_Cs
    have h1 := hsrc1 c0.m_Mm c0.m_Cs
    have hc : ({ c0 with m_Mm := c0.m_Mm, m_Cs := c0.m_Cs } : Calculator F P) = c0 := rfl
    rw [hc] at h0 h1
    rw [h0, h1]
    subst hc0
    simp [InnerProduct.Commitment, Calculator.init, MultiMac.Calculate_Reset]
  -- the transcript the rounds start from
  obtain ⟨ov, hov⟩ : ∃ ov : Oracle F CP, ov =
      (if pAB then Item.point (ctx.Export (InnerProduct.Commitment ctx mod pA pB)) :: oracle
        else oracle) := ⟨_, rfl⟩
  obtain ⟨dm, hdm⟩ : ∃ dm : F, dm = ctx.squeeze (Item.scalar dotAB :: ov) := ⟨_, rfl⟩
  obtain ⟨c1, hc1⟩ : ∃ c1 : Calculator F P, c1 =
      { c0 with m_Mm := (if pAB then mm else c0.m_Mm),
                m_Cs := { c0.m_Cs with m_DotMultiplier := dm } } := ⟨_, rfl⟩
  have hinv : CalcInv ctx (ModifierExpanded.Init mod) dm 0 c1 := by
    subst hc1; subst hc0
    exact ⟨rfl, rfl, rfl, fun h => absurd h (Nat.not_lt_zero _),
      fun h => absurd h (Nat.lt_irrefl 0)⟩
  obtain ⟨c', ip', o', hrun, hinv', -, hcond, hver⟩ :=
    loops_joint ctx hIE hsq (ModifierExpanded.Init mod) dm fuel hfuel nCycles 0 (Nat.zero_add _)
      c1 self0 (Item.out :: Item.scalar dotAB :: ov) hinv
  have hrange : List.range nCycles = List.range' 0 nCycles := List.range_eq_range' nCycles
  obtain ⟨ip, hip⟩ : ∃ ip : InnerProduct F CP, ip = (List.range 2).foldl
      (fun (self : InnerProduct F CP) i =>
        { self with m_pCondensed := Function.update self.m_pCondensed i (c'.m_pVal i 0) })
      ip' := ⟨_, rfl⟩
  have hipLR : ip.m_pLR = ip'.m_pLR := by subst hip; rfl
  have hsrc' : ∀ j, j < 2 → ip.m_pCondensed j = c'.src j 0 := by
    obtain ⟨-, -, -, -, h5⟩ := hinv'
    obtain ⟨h50, h51⟩ := h5 (by decide)
    intro j hj
    subst hip
    interval_cases j
    · rw [src_val _ _ h50]; simp [foldl_range_two, Function.update]
    · rw [src_val _ _ h51]; simp [foldl_range_two, Function.update]
  refine ⟨ip, o', ?_, ?_⟩
  · unfold InnerProduct.Create
    dsimp only [Oracle.get]
    cases pAB
    · simp only [Bool.false_eq_true, if_false] at hov hc1 ⊢
      rw [hov] at hdm hrun
      rw [hdm] at hc1
      rw [hc1, hc0] at hrun
      dsimp only [Calculator.init] at hrun ⊢
      rw [hrange, hrun]
      dsimp only
      rw [hip]
    · simp only [if_true] at hov hc1 ⊢
      rw [hov] at hdm hrun
      rw [hdm] at hc1
      rw [hc1] at hrun
      rw [hc0] at hmm hrun
      dsimp only [Calculator.init] at hmm hrun ⊢
      rw [hrange, hmm]
      dsimp only
      rw [hcomm, hrun]
      dsimp only
      rw [hip]
  · intro bc
    obtain ⟨terms, hv1, hv2, hv3⟩ := hver ip
      { m_DotMultiplier := dm, m_Val := fun _ _ => 0 } bc
      (fun k' j _ _ _ => by rw [hipLR]) (by subst hc1; subst hc0; rfl)
    obtain ⟨kp1, ht1, ht1'⟩ := IsValid_condensed_eq ctx hIdx ip
      { m_DotMultiplier := dm, m_Val := c'.m_Cs.m_Val } (ModifierExpanded.Init mod)
      (bc.AddCasuals terms) 0 (by decide)
    obtain ⟨kp2, ht2, ht2'⟩ := IsValid_condensed_eq ctx hIdx ip
      { m_DotMultiplier := dm, m_Val := c'.m_Cs.m_Val } (ModifierExpanded.Init mod)
      { bc.AddCasuals terms with m_pKPrep := kp1 } 1 (by decide)
    have hGD : ctx.s_Idx_GenDot < ctx.s_CountPrepared := hIdx.2.2.2.2.1
    refine ⟨terms, Function.update kp2 ctx.s_Idx_GenDot
      (kp2 ctx.s_Idx_GenDot + (bc.AddCasuals terms).factor *
        ((-(ip.m_pCondensed 0 * ip.m_pCondensed 1) + dotAB) * dm)), ?_, hv2, ?_⟩
    · unfold InnerProduct.IsValidOracle
      dsimp only [Oracle.get]
      rw [← hov, ← hdm, hrange, hv1]
      dsimp only
      simp only [Bool.not_true, Bool.false_eq_true, if_false]
      rw [foldl_range_two]
      have hflag : ({ bc.AddCasuals terms with
          m_AssertFailed := (bc.AddCasuals terms).m_AssertFailed
            || !decide (1 = nDim >>> nCycles) } : BatchContext F P) = bc.AddCasuals terms := by
        have : (1 = nDim >>> nCycles) := rfl
        simp [this]
      rw [hflag, ht1, ht2, AddPrepared_eq ctx _ _ _ hGD]
      rfl
    · have hf : (bc.AddCasuals terms).factor = bc.factor := factor_AddCasuals bc terms
      have hf2 : ({ bc.AddCasuals terms with m_pKPrep := kp1 } : BatchContext F P).factor
          = bc.factor := hf
      rw [hf2] at ht2'
      rw [hf] at ht1'
      rw [Calculate_setKPrep, Calculate_AddCasuals, kprep_AddCasuals, hv3,
        sumRange_update _ _ _ _ _ hGD, ppPrepared_GenDot ctx hIdx, ht2', ht1',
        Pk_last, Pk_zero, hsrc' 0 (by decide), hsrc' 1 (by decide)]
      have e0 : c1.src 0 = pA := by rw [hc1]; exact hsrc0 _ _
      have e1 : c1.src 1 = pB := by rw [hc1]; exact hsrc1 _ _
      rw [e0, e1, ← hov, ← hdm, hf]
      simp only [kprep_AddCasuals]
      module

theorem get_Dot_eq (a b : Nat → F) : get_Dot a b = sumRange nDim (fun i => a i * b i) := by
  unfold get_Dot
  have h : ∀ n, (List.range n).foldl (fun res i' => res + a (i' + 1) * b (i' + 1)) (a 0 * b 0)
      = sumRange (n + 1) (fun i => a i * b i) := by
    intro n
    induction n with
    | zero => simp [sumRange, List.range_succ]
    | succ n ih =>
      rw [List.range_succ, List.foldl_append, ih, sumRange_succ (n + 1)]
      rfl
  exact h (nDim - 1)

theorem Calculate_init (ctx : Context F P CP) (n : Nat) :
    (BatchContext.init n : BatchContext F P).Calculate ctx = 0 := by
  simp [BatchContext.Calculate, BatchContext.init, BatchContext.Reset, sumRange]

theorem AddCasuals_dirty (bc : BatchContext F P) (ts : List (P × F)) :
    (bc.AddCasuals ts).m_bDirty = bc.m_bDirty := by
  induction ts generalizing bc with
  | nil => rfl
  | cons t ts ih => rw [AddCasuals_cons, ih]; rfl

theorem AddCasuals_enable (bc : BatchContext F P) (ts : List (P × F)) :
    (bc.AddCasuals ts).m_bEnableBatch = bc.m_bEnableBatch := by
  induction ts generalizing bc with
  | nil => rfl
  | cons t ts ih => rw [AddCasuals_cons, ih]; rfl

theorem EquationEnd_of_zero (ctx : Context F P CP) (bc : BatchContext F P)
    (hd : bc.m_bDirty = true) (he : bc.m_bEnableBatch = false) (hz : bc.Calculate ctx = 0) :
    bc.EquationEnd ctx = (true, bc.Reset) := by
  cases bc
  simp only [BatchContext.Calculate] at hz
  simp only at hd he
  subst hd; subst he
  simp [BatchContext.EquationEnd, BatchContext.Flush, BatchContext.Reset, BatchContext.Calculate,
    hz]

/-- C2. Inner-product completeness: with a prepared table laid out as the constructor of the
batch context expects, point encodings that decode back and a transcript that yields nonzero
scalars, `InnerProduct::Create(commAB, dotAB, a, b, mod)` with `dotAB = get_Dot(a, b)` returns a
proof and the commitment to `a` and `b`, and `InnerProduct::IsValid(commAB, dotAB, mod)` without
an ambient batch context returns `true` on them. -/
theorem InnerProduct_complete (ctx : Context F P CP) (hIdx : ctx.IdxOk)
    (hIE : ∀ p, ctx.Import (ctx.Export p) = some p) (hsq : ∀ o, ctx.squeeze o ≠ 0)
    (fuel : Nat) (hfuel : 0 < fuel) (self0 : InnerProduct F CP) (a b : Nat → F)
    (mod : Modifier F) :
    ∃ ip, InnerProduct.CreateComm ctx fuel self0 (get_Dot a b) a b mod
        = some (ip, some (InnerProduct.Commitment ctx mod a b)) ∧
      InnerProduct.IsValid ctx fuel ip none (InnerProduct.Commitment ctx mod a b)
        (get_Dot a b) mod = some (true, none) := by
  obtain ⟨ip, o', hcreate, hver⟩ := Create_IsValidOracle ctx hIdx hIE hsq fuel hfuel self0 []
    true (get_Dot a b) a b mod
  simp only [if_true] at hcreate hver
  refine ⟨ip, ?_, ?_⟩
  · unfold InnerProduct.CreateComm
    rw [hcreate]
  · obtain ⟨bc0, hbc0⟩ : ∃ bc0 : BatchContext F P, bc0 =
        ({ (BatchContext.init (1 * s_CasualCountPerProof) : BatchContext F P) with
            m_bDirty := true }).AddCasual (InnerProduct.Commitment ctx mod a b) 1 := ⟨_, rfl⟩
    obtain ⟨terms, kp, hv, -, hcalc⟩ := hver bc0
    have hbegin : (BatchContextEx 1 : BatchContext F P).EquationBegin ctx 1
        = (true, { (BatchContext.init (1 * s_CasualCountPerProof) : BatchContext F P) with
            m_bDirty := true }) := by
      simp [BatchContext.EquationBegin, BatchContextEx, BatchContext.init, BatchContext.Reset,
        BatchContext.m_Casual, s_CasualCountPerProof, nCycles]
    have hzero : ({ bc0.AddCasuals terms with m_pKPrep := kp } : BatchContext F P).Calculate ctx
        = 0 := by
      rw [hcalc, get_Dot_eq, sub_self, mul_zero, zero_smul, zero_sub, hbc0, Calculate_AddCasual]
      have hf : ({ (BatchContext.init (1 * s_CasualCountPerProof) : BatchContext F P) with
            m_bDirty := true }).factor = 1 := rfl
      have hc : ({ (BatchContext.init (1 * s_CasualCountPerProof) : BatchContext F P) with
            m_bDirty := true }).Calculate ctx = 0 := Calculate_init ctx (1 * s_CasualCountPerProof)
      rw [factor_AddCasual, hf, hc]
      module
    have hdirty : ({ bc0.AddCasuals terms with m_pKPrep := kp } : BatchContext F P).m_bDirty
        = true := by
      show (bc0.AddCasuals terms).m_bDirty = true
      rw [AddCasuals_dirty, hbc0]; rfl
    have hen : ({ bc0.AddCasuals terms with m_pKPrep := kp } : BatchContext F P).m_bEnableBatch
        = false := by
      show (bc0.AddCasuals terms).m_bEnableBatch = false
      rw [AddCasuals_enable, hbc0]; rfl
    have hend := EquationEnd_of_zero ctx _ hdirty hen hzero
    unfold InnerProduct.IsValid InnerProduct.IsValidBc
    dsimp only
    rw [hbegin]
    dsimp only
    simp only [Bool.not_true, Bool.false_eq_true, if_false]
    rw [← hbc0, hv]
    dsimp only
    simp only [Bool.not_true, Bool.false_eq_true, if_false]
    rw [hend]
    simp [BatchContext.Flush, BatchContext.Reset]

theorem InnerProduct_complete_witness :
    Example.ctx.IdxOk ∧ (∀ p, Example.ctx.Import (Example.ctx.Export p) = some p) ∧
      (∀ o, Example.ctx.squeeze o ≠ 0) ∧ 0 < 1 ∧
      ∃ ip, InnerProduct.CreateComm Example.ctx 1 Example.ipZero
          (get_Dot (fun i => (i : ZMod 7)) (fun _ => 2)) (fun i => (i : ZMod 7)) (fun _ => 2)
          { m_pMultiplier := fun j => if j = 1 then some 3 else none }
          = some (ip, some (InnerProduct.Commitment Example.ctx
              { m_pMultiplier := fun j => if j = 1 then some 3 else none }
              (fun i => (i : ZMod 7)) (fun _ => 2))) ∧
        InnerProduct.IsValid Example.ctx 1 ip none
          (InnerProduct.Commitment Example.ctx
            { m_pMultiplier := fun j => if j = 1 then some 3 else none }
            (fun i => (i : ZMod 7)) (fun _ => 2))
          (get_Dot (fun i => (i : ZMod 7)) (fun _ => 2))
          { m_pMultiplier := fun j => if j = 1 then some 3 else none } = some (true, none) :=
  ⟨by decide, fun _ => rfl, fun _ => (by decide : (1 : ZMod 7) ≠ 0), by decide,
    InnerProduct_complete Example.ctx (by decide) (fun _ => rfl) (fun _ => (by decide : (1 : ZMod 7) ≠ 0)) 1
      (by decide) Example.ipZero (fun i => (i : ZMod 7)) (fun _ => 2)
      { m_pMultiplier := fun j => if j = 1 then some 3 else none }⟩

theorem Condense_Cs (ctx : Context F P CP) (c : Calculator F P) :
    (c.Condense ctx).m_Cs = c.m_Cs ∧ (c.Condense ctx).m_iCycle = c.m_iCycle := by
  obtain ⟨v, hV, -⟩ := CondenseVectors_eq c
  unfold Calculator.Condense
  dsimp only
  rw [hV]
  by_cases h : c.m_iCycle = s_iCycle0
  · obtain ⟨mm, g, hP, -⟩ := CondensePoints_eq ctx ({ c with m_pVal := v })
      (by show ¬ c.m_iCycle > s_iCycle0; omega)
    rw [if_pos h, hP]
    exact ⟨rfl, rfl⟩
  · rw [if_neg h]
    exact ⟨rfl, rfl⟩

theorem Create_cycle_Val (ctx : Context F P CP) (fuel k : Nat) (c : Calculator F P)
    (ip : InnerProduct F CP) (o o1 : Oracle F CP) (x : F × F)
    (hch : get_Challenge ctx fuel o = some (x, o1)) :
    ∃ c' L R, InnerProduct.Create_cycle ctx fuel (c, ip, o) k
        = some (c', { ip with m_pLR := set2 (set2 ip.m_pLR k 0 L) k 1 R },
            Item.point R :: Item.point L :: o1) ∧
      c'.m_Cs.m_Val = set2 (set2 c.m_Cs.m_Val k 0 x.1) k 1 x.2 := by
  obtain ⟨c1, hc1⟩ : ∃ c1 : Calculator F P, c1 =
      { c with m_iCycle := k, m_n := nDim >>> (k + 1), m_Mm := c.m_Mm,
               m_Cs := { c.m_Cs with m_Val := set2 (set2 c.m_Cs.m_Val k 0 x.1) k 1 x.2 } } :=
    ⟨_, rfl⟩
  have hic1 : c1.m_iCycle = k := by rw [hc1]
  have hval1 : c1.m_Cs.m_Val = set2 (set2 c.m_Cs.m_Val k 0 x.1) k 1 x.2 := by rw [hc1]
  have hstart : InnerProduct.Create_cycle ctx fuel (c, ip, o) k
      = (let s := (List.range 2).foldl (InnerProduct.Create_LR ctx) (c1, ip, o1)
         let c := s.1.Condense ctx
         let c := if c.m_iCycle = 0 then
             (List.range 2).foldl
               (fun (c : Calculator F P) j =>
                 { c with m_ppSrc := Function.update c.m_ppSrc j SrcPtr.val })
               c
           else c
         some (c, s.2.1, s.2.2)) := by
    unfold InnerProduct.Create_cycle
    dsimp only
    rw [hch, hc1]
  obtain ⟨mm0, hE0⟩ := Create_LR_eq ctx c1 ip o1 0
  obtain ⟨mm1, hE1⟩ := Create_LR_eq ctx { c1 with m_Mm := mm0 }
    { ip with m_pLR := set2 ip.m_pLR c1.m_iCycle 0 (ctx.Export (c1.LRPoint ctx 0)) }
    (Item.point (ctx.Export (c1.LRPoint ctx 0)) :: o1) 1
  obtain ⟨hC, -⟩ := Condense_Cs ctx ({ c1 with m_Mm := mm1 })
  clear hc1 hch
  subst hic1
  rw [hstart, foldl_range_two, hE0, hE1]
  dsimp only
  rw [LRPoint_setMm]
  refine ⟨_, _, _, rfl, ?_⟩
  rw [← hval1]
  split
  · rw [foldl_range_two]
    show (Calculator.Condense ctx _).m_Cs.m_Val = _
    rw [hC]
  · rw [hC]

/-- C4. In one folding round the challenge pair is what `get_Challenge` extracts from the
transcript as it stands when the round begins, both in `InnerProduct::Create` and in
`InnerProduct::IsValid`: the points `L` and `R` of the round are absorbed only afterwards, on top
of the transcript the extraction leaves, and the challenge of the round is the same whatever
they are. -/
theorem challenge_precedes_LR (ctx : Context F P CP) (fuel k : Nat) (o : Oracle F CP) :
    (∀ (c : Calculator F P) (ip : InnerProduct F CP),
      (InnerProduct.Create_cycle ctx fuel (c, ip, o) k).map
          (fun s => ((s.1.m_Cs.m_Val k 0, s.1.m_Cs.m_Val k 1), s.2.2))
        = (get_Challenge ctx fuel o).bind (fun r =>
            (InnerProduct.Create_cycle ctx fuel (c, ip, o) k).map (fun s =>
              (r.1, Item.point (s.2.1.m_pLR k 1) :: Item.point (s.2.1.m_pLR k 0) :: r.2)))) ∧
    (∀ (ip : InnerProduct F CP) (cs : ChallengeSet F) (bc : BatchContext F P),
      (InnerProduct.IsValid_cycles ctx fuel ip [k] cs o bc).map
          (fun r => (r.2.1.m_Val k 0, r.2.1.m_Val k 1))
        = (get_Challenge ctx fuel o).map (fun r => r.1)) := by
  have hv : ∀ (a : Nat → Nat → F) (x : F × F),
      (set2 (set2 a k 0 x.1) k 1 x.2 k 0, set2 (set2 a k 0 x.1) k 1 x.2 k 1) = x := by
    intro a x
    rw [set2_col _ _ _ _ _ (by decide), set2_same, set2_same]
  constructor
  · intro c ip
    cases hch : get_Challenge ctx fuel o with
    | none =>
      unfold InnerProduct.Create_cycle
      dsimp only
      rw [hch]
      rfl
    | some r =>
      obtain ⟨c', L, R, hrun, hval⟩ := Create_cycle_Val ctx fuel k c ip o r.2 r.1 hch
      rw [hrun]
      simp only [Option.map_some', Option.some_bind, hval, hv]
      have h0 : set2 (set2 ip.m_pLR k 0 L) k 1 R k 0 = L := by
        rw [set2_col _ _ _ _ _ (by decide), set2_same]
      rw [set2_same, h0]
  · intro ip cs bc
    unfold InnerProduct.IsValid_cycles
    cases hch : get_Challenge ctx fuel o with
    | none => rfl
    | some r =>
      dsimp only
      split
      · simp only [Option.map_some', hv]
      · unfold InnerProduct.IsValid_cycles
        simp only [Option.map_some', hv]

theorem Adds_refl (ctx : Context F P CP) (bc : BatchContext F P) :
    BatchContext.Adds ctx bc bc 0 0 :=
  ⟨[], bc.m_pKPrep, rfl, rfl, by rw [smul_zero, add_zero]⟩

theorem Adds_factor (ctx : Context F P CP) (bc bc' : BatchContext F P) (n : Nat) (E : P)
    (h : BatchContext.Adds ctx bc bc' n E) : bc'.factor = bc.factor := by
  obtain ⟨ts, kp, rfl, -, -⟩ := h
  exact factor_AddCasuals bc ts

theorem Adds_trans (ctx : Context F P CP) (bc bc1 bc2 : BatchContext F P) (n m : Nat) (E E' : P)
    (h1 : BatchContext.Adds ctx bc bc1 n E) (h2 : BatchContext.Adds ctx bc1 bc2 m E') :
    BatchContext.Adds ctx bc bc2 (n + m) (E + E') := by
  have hf := Adds_factor ctx bc bc1 n E h1
  obtain ⟨t1, kp1, e1, l1, c1⟩ := h1
  obtain ⟨t2, kp2, e2, l2, c2⟩ := h2
  refine ⟨t1 ++ t2, kp2, ?_, by rw [List.length_append, l1, l2], ?_⟩
  · rw [e2, e1, AddCasuals_setKPrep, AddCasuals_append]
  · rw [c2, c1, hf, smul_add, add_assoc]

theorem Adds_Calculate (ctx : Context F P CP) (bc bc' : BatchContext F P) (n : Nat) (E : P)
    (h : BatchContext.Adds ctx bc bc' n E) :
    bc'.Calculate ctx = bc.Calculate ctx + bc.factor • E := by
  obtain ⟨_, _, _, _, c⟩ := h
  exact c

theorem Adds_AddCasual (ctx : Context F P CP) (bc : BatchContext F P) (pt : P) (k : F) :
    BatchContext.Adds ctx bc (bc.AddCasual pt k) 1 (k • pt) :=
  ⟨[(pt, k)], bc.m_pKPrep, rfl, rfl, by rw [Calculate_AddCasual, mul_smul]⟩

theorem Adds_AddCasuals (ctx : Context F P CP) (bc : BatchContext F P) (ts : List (P × F)) :
    BatchContext.Adds ctx bc (bc.AddCasuals ts) ts.length (ts.map (fun t => t.2 • t.1)).sum :=
  ⟨ts, (bc.AddCasuals ts).m_pKPrep, rfl, rfl, Calculate_AddCasuals ctx bc ts⟩

theorem Adds_AddPrepared (ctx : Context F P CP) (bc : BatchContext F P) (i : Nat) (k : F)
    (hi : i < ctx.s_CountPrepared) :
    BatchContext.Adds ctx bc (bc.AddPrepared ctx i k) 0 (k • BatchContext.m_ppPrepared ctx i) :=
  ⟨[], _, AddPrepared_eq ctx bc i k hi, rfl, by rw [Calculate_AddPrepared _ _ _ _ hi, mul_smul]⟩

theorem Adds_setKPrep (ctx : Context F P CP) (bc : BatchContext F P) (kp : Nat → F) (E : P)
    (h : sumRange ctx.s_CountPrepared (fun q => kp q • BatchContext.m_ppPrepared ctx q)
      = sumRange ctx.s_CountPrepared (fun q => bc.m_pKPrep q • BatchContext.m_ppPrepared ctx q)
        + bc.factor • E) :
    BatchContext.Adds ctx bc { bc with m_pKPrep := kp } 0 E :=
  ⟨[], kp, rfl, rfl, by rw [Calculate_setKPrep, h]; abel⟩

theorem Adds_congr (ctx : Context F P CP) (bc bc' : BatchContext F P) (n m : Nat) (E E' : P)
    (h : BatchContext.Adds ctx bc bc' n E) (hn : n = m) (hE : E = E') :
    BatchContext.Adds ctx bc bc' m E' := by
  subst hn; subst hE; exact h

/-- What `Adds` leaves as it was. -/
theorem Adds_frame (ctx : Context F P CP) (bc bc' : BatchContext F P) (n : Nat) (E : P)
    (h : BatchContext.Adds ctx bc bc' n E) :
    bc'.m_bDirty = bc.m_bDirty ∧ bc'.m_bEnableBatch = bc.m_bEnableBatch ∧
    bc'.m_Multiplier = bc.m_Multiplier ∧ bc'.m_CasualTotal = bc.m_CasualTotal ∧
    bc'.m_WontFit = bc.m_WontFit ∧ bc'.m_AssertFailed = bc.m_AssertFailed ∧
    bc'.m_Casual = bc.m_Casual + n ∧
    (bc.m_Casual + n ≤ bc.m_CasualTotal → bc'.m_CasualOverflow = bc.m_CasualOverflow) := by
  obtain ⟨ts, kp, rfl, rfl, -⟩ := h
  have key : ∀ (ts : List (P × F)) (bc : BatchContext F P),
      (bc.AddCasuals ts).m_bDirty = bc.m_bDirty ∧
      (bc.AddCasuals ts).m_bEnableBatch = bc.m_bEnableBatch ∧
      (bc.AddCasuals ts).m_Multiplier = bc.m_Multiplier ∧
      (bc.AddCasuals ts).m_CasualTotal = bc.m_CasualTotal ∧
      (bc.AddCasuals ts).m_WontFit = bc.m_WontFit ∧
      (bc.AddCasuals ts).m_AssertFailed = bc.m_AssertFailed ∧
      (bc.AddCasuals ts).m_Casual = bc.m_Casual + ts.length := by
    intro ts
    induction ts with
    | nil => intro bc; exact ⟨rfl, rfl, rfl, rfl, rfl, rfl, rfl⟩
    | cons t ts ih =>
      intro bc
      obtain ⟨a1, a2, a3, a4, a5, a6, a7⟩ := ih (bc.AddCasual t.1 t.2)
      rw [AddCasuals_cons]
      refine ⟨a1, a2, a3, a4, a5, a6, ?_⟩
      rw [a7]
      simp only [BatchContext.AddCasual, BatchContext.m_Casual, List.length_append,
        List.length_cons, List.length_nil]
      omega
  obtain ⟨a1, a2, a3, a4, a5, a6, a7⟩ := key ts bc
  refine ⟨a1, a2, a3, a4, a5, a6, a7, ?_⟩
  intro hfit
  exact (AddCasual_foldl_overflow bc ts hfit).1

theorem IsValid_cycles_Adds (ctx : Context F P CP) (hsq : ∀ o, ctx.squeeze o ≠ 0) (fuel : Nat)
    (hfuel : 0 < fuel) (ip : InnerProduct F CP) :
    ∀ (ks : List Nat) (cs : ChallengeSet F) (o : Oracle F CP),
      (∀ k, k ∈ ks → ∀ j, j < 2 → ∃ p, ctx.Import (ip.m_pLR k j) = some p) →
      ∃ (val' : Nat → Nat → F) (o' : Oracle F CP) (E : P), ∀ bc : BatchContext F P,
        ∃ bc', InnerProduct.IsValid_cycles ctx fuel ip ks cs o bc
            = some (true, { cs with m_Val := val' }, o', bc') ∧
          BatchContext.Adds ctx bc bc' (2 * ks.length) E := by
  intro ks
  induction ks with
  | nil =>
    intro cs o _
    exact ⟨cs.m_Val, o, 0, fun bc => ⟨bc, rfl, Adds_refl ctx bc⟩⟩
  | cons k rest ih =>
    intro cs o himp
    have hch := get_Challenge_of_ne ctx hsq fuel hfuel o
    obtain ⟨L, hL⟩ := himp k (List.mem_cons_self _ _) 0 (by decide)
    obtain ⟨R, hR⟩ := himp k (List.mem_cons_self _ _) 1 (by decide)
    obtain ⟨val', o', E', hrest⟩ := ih
      { cs with m_Val := set2 (set2 cs.m_Val k 0 (ctx.squeeze o)) k 1 (ctx.squeeze o)⁻¹ }
      (Item.point (ip.m_pLR k 1) :: Item.point (ip.m_pLR k 0) :: Item.out :: o)
      (fun k' hk' => himp k' (List.mem_cons_of_mem _ hk'))
    refine ⟨val', o', (ctx.squeeze o * ctx.squeeze o) • L
      + ((ctx.squeeze o)⁻¹ * (ctx.squeeze o)⁻¹) • R + E', ?_⟩
    intro bc
    obtain ⟨bc', hrun, hadds⟩ := hrest (bc.AddCasuals [(L, ctx.squeeze o * ctx.squeeze o),
      (R, (ctx.squeeze o)⁻¹ * (ctx.squeeze o)⁻¹)])
    refine ⟨bc', ?_, ?_⟩
    · rw [InnerProduct.IsValid_cycles, hch]
      dsimp only
      rw [IsValid_LR_two ctx ip _ k _ bc L R hL hR]
      dsimp only
      rw [set2_col _ _ _ _ _ (by decide), set2_same, set2_same]
      simp only [Bool.not_true, Bool.false_eq_true, if_false]
      exact hrun
    · have h2 := Adds_AddCasuals ctx bc [(L, ctx.squeeze o * ctx.squeeze o),
        (R, (ctx.squeeze o)⁻¹ * (ctx.squeeze o)⁻¹)]
      refine Adds_congr ctx _ _ _ _ _ _ (Adds_trans ctx _ _ _ _ _ _ _ h2 hadds) ?_ ?_
      · simp only [List.length_cons, List.length_nil]; omega
      · simp only [List.map_cons, List.map_nil, List.sum_cons, List.sum_nil, add_zero]

theorem IsValid_condensed_Adds (ctx : Context F P CP) (hIdx : ctx.IdxOk)
    (self : InnerProduct F CP) (cs : ChallengeSet F) (modExp : ModifierExpanded F)
    (bc : BatchContext F P) (j : Nat) (hj : j < 2) :
    BatchContext.Adds ctx bc (InnerProduct.IsValid_condensed ctx self cs modExp bc j) 0
      ((-self.m_pCondensed j) • Gam ctx modExp cs.m_Val j nCycles 0) := by
  obtain ⟨kp, h1, h2⟩ := IsValid_condensed_eq ctx hIdx self cs modExp bc j hj
  rw [h1]
  apply Adds_setKPrep
  rw [h2, mul_smul]

theorem IsValidOracle_Adds (ctx : Context F P CP) (hIdx : ctx.IdxOk)
    (hsq : ∀ o, ctx.squeeze o ≠ 0) (fuel : Nat) (hfuel : 0 < fuel) (ip : InnerProduct F CP)
    (oracle : Oracle F CP) (dotAB : F) (mod : Modifier F)
    (himp : ∀ k, k < nCycles → ∀ j, j < 2 → ∃ p, ctx.Import (ip.m_pLR k j) = some p) :
    ∃ (o' : Oracle F CP) (E : P), ∀ bc : BatchContext F P,
      ∃ bc', InnerProduct.IsValidOracle ctx fuel ip bc oracle dotAB mod = some (true, o', bc') ∧
        BatchContext.Adds ctx bc bc' (2 * nCycles) E := by
  obtain ⟨val', o', E, hcyc⟩ := IsValid_cycles_Adds ctx hsq fuel hfuel ip (List.range nCycles)
    { m_DotMultiplier := ctx.squeeze (Item.scalar dotAB :: oracle), m_Val := fun _ _ => 0 }
    (Item.out :: Item.scalar dotAB :: oracle)
    (fun k hk => himp k (List.mem_range.mp hk))
  refine ⟨o', E
    + (-ip.m_pCondensed 0) • Gam ctx (ModifierExpanded.Init mod) val' 0 nCycles 0
    + (-ip.m_pCondensed 1) • Gam ctx (ModifierExpanded.Init mod) val' 1 nCycles 0
    + ((-(ip.m_pCondensed 0 * ip.m_pCondensed 1) + dotAB)
        * ctx.squeeze (Item.scalar dotAB :: oracle)) • ctx.m_GenDot_, ?_⟩
  intro bc
  obtain ⟨bc1, hrun, hA1⟩ := hcyc bc
  have hGD : ctx.s_Idx_GenDot < ctx.s_CountPrepared := hIdx.2.2.2.2.1
  have hflag : ({ bc1 with
      m_AssertFailed := bc1.m_AssertFailed || !decide (1 = nDim >>> nCycles) }
        : BatchContext F P) = bc1 := by
    have : (1 = nDim >>> nCycles) := rfl
    simp [this]
  obtain ⟨cs', hcs'⟩ : ∃ cs' : ChallengeSet F, cs' =
      { m_DotMultiplier := ctx.squeeze (Item.scalar dotAB :: oracle), m_Val := val' } := ⟨_, rfl⟩
  obtain ⟨bc2, hbc2⟩ : ∃ bc2, bc2 = InnerProduct.IsValid_condensed ctx ip cs'
      (ModifierExpanded.Init mod) bc1 0 := ⟨_, rfl⟩
  obtain ⟨bc3, hbc3⟩ : ∃ bc3, bc3 = InnerProduct.IsValid_condensed ctx ip cs'
      (ModifierExpanded.Init mod) bc2 1 := ⟨_, rfl⟩
  have hA2 : BatchContext.Adds ctx bc1 bc2 0
      ((-ip.m_pCondensed 0) • Gam ctx (ModifierExpanded.Init mod) val' 0 nCycles 0) := by
    rw [hbc2, hcs']
    exact IsValid_condensed_Adds ctx hIdx ip _ (ModifierExpanded.Init mod) bc1 0 (by decide)
  have hA3 : BatchContext.Adds ctx bc2 bc3 0
      ((-ip.m_pCondensed 1) • Gam ctx (ModifierExpanded.Init mod) val' 1 nCycles 0) := by
    rw [hbc3, hcs']
    exact IsValid_condensed_Adds ctx hIdx ip _ (ModifierExpanded.Init mod) bc2 1 (by decide)
  have hA4 := Adds_AddPrepared ctx bc3 ctx.s_Idx_GenDot
    ((-(ip.m_pCondensed 0 * ip.m_pCondensed 1) + dotAB)
        * ctx.squeeze (Item.scalar dotAB :: oracle)) hGD
  rw [ppPrepared_GenDot ctx hIdx] at hA4
  refine ⟨_, ?_, Adds_congr ctx _ _ _ _ _ _
    (Adds_trans ctx _ _ _ _ _ _ _ (Adds_trans ctx _ _ _ _ _ _ _
      (Adds_trans ctx _ _ _ _ _ _ _ hA1 hA2) hA3) hA4) ?_ rfl⟩
  · unfold InnerProduct.IsValidOracle
    dsimp only [Oracle.get]
    rw [hrun]
    dsimp only
    simp only [Bool.not_true, Bool.false_eq_true, if_false]
    rw [hflag, foldl_range_two, hbc3, hbc2, hcs']
  · simp [List.length_range]

theorem Equation1_Adds (ctx : Context F P CP) (hIdx : ctx.IdxOk) (self : Confidential F CP)
    (commitment T1 T2 : P) (cs : Confidential.ChallengeSet F) (bc : BatchContext F P)
    (h1 : ctx.Import self.m_Part2.m_T1 = some T1) (h2 : ctx.Import self.m_Part2.m_T2 = some T2) :
    ∃ bc', Confidential.Equation1 ctx self commitment cs bc = (true, bc') ∧
      BatchContext.Adds ctx bc bc' 3 (Equation1Sum ctx self commitment T1 T2 cs) := by
  have hG : ctx.s_Idx_G < ctx.s_CountPrepared := hIdx.2.2.2.2.2.2.1
  have hH : ctx.s_Idx_H < ctx.s_CountPrepared := hIdx.2.2.2.2.2.2.2.1
  refine ⟨_, Equation1_eq ctx self commitment T1 T2 cs bc h1 h2, ?_⟩
  have a1 := Adds_AddCasual ctx bc commitment (-(cs.z * cs.z))
  have a2 := Adds_AddCasual ctx (bc.AddCasual commitment (-(cs.z * cs.z))) T1 (-cs.x)
  have a3 := Adds_AddCasual ctx
    ((bc.AddCasual commitment (-(cs.z * cs.z))).AddCasual T1 (-cs.x)) T2 (-(cs.x * cs.x))
  have a4 := Adds_AddPrepared ctx
    (((bc.AddCasual commitment (-(cs.z * cs.z))).AddCasual T1 (-cs.x)).AddCasual T2
      (-(cs.x * cs.x))) ctx.s_Idx_G self.m_Part3.m_TauX hG
  have a5 := Adds_AddPrepared ctx
    ((((bc.AddCasual commitment (-(cs.z * cs.z))).AddCasual T1 (-cs.x)).AddCasual T2
      (-(cs.x * cs.x))).AddPrepared ctx ctx.s_Idx_G self.m_Part3.m_TauX)
    ctx.s_Idx_H (self.m_tDot + -Confidential.Delta cs) hH
  refine Adds_congr ctx _ _ _ _ _ _
    (Adds_trans ctx _ _ _ _ _ _ _ (Adds_trans ctx _ _ _ _ _ _ _
      (Adds_trans ctx _ _ _ _ _ _ _ (Adds_trans ctx _ _ _ _ _ _ _ a1 a2) a3) a4) a5) rfl ?_
  rw [ppPrepared_G ctx hIdx, ppPrepared_H]
  unfold Equation1Sum
  module

theorem Equation2_loop_Adds (ctx : Context F P CP) (hIdx : ctx.IdxOk) (z zz mul : F)
    (bc : BatchContext F P) :
    ∃ bc', (List.range nDim).foldl
        (fun (s : BatchContext F P × F) i =>
          let sum2 := s.2
          let sum2 := sum2 + z
          (s.1.AddPrepared ctx (nDim + i) sum2, s.2 * mul))
        (bc, zz) = (bc', zz * mul ^ nDim) ∧
      BatchContext.Adds ctx bc bc' 0
        (sumRange nDim (fun i => (zz * mul ^ i + z) • ctx.m_pGen_ 1 i)) := by
  have key : ∀ n, n ≤ nDim → ∃ bc', (List.range n).foldl
        (fun (s : BatchContext F P × F) i =>
          let sum2 := s.2
          let sum2 := sum2 + z
          (s.1.AddPrepared ctx (nDim + i) sum2, s.2 * mul))
        (bc, zz) = (bc', zz * mul ^ n) ∧
      BatchContext.Adds ctx bc bc' 0
        (sumRange n (fun i => (zz * mul ^ i + z) • ctx.m_pGen_ 1 i)) := by
    intro n
    induction n with
    | zero =>
      intro _
      refine ⟨bc, by simp, ?_⟩
      rw [sumRange_zero]
      exact Adds_refl ctx bc
    | succ n ih =>
      intro hn
      obtain ⟨bc1, h1, a1⟩ := ih (by omega)
      have hlt : nDim + n < ctx.s_CountPrepared := by
        obtain ⟨h1, -, -, -, h5, -⟩ := hIdx
        omega
      have hprep : BatchContext.m_ppPrepared ctx (nDim + n) = ctx.m_pGen_ 1 n := by
        have := ppPrepared_gen ctx hIdx 1 n (by decide) (by omega)
        rw [Nat.one_mul, Nat.add_comm] at this
        exact this
      refine ⟨bc1.AddPrepared ctx (nDim + n) (zz * mul ^ n + z), ?_, ?_⟩
      · rw [List.range_succ, List.foldl_append, h1]
        simp only [List.foldl_cons, List.foldl_nil, pow_succ, mul_assoc]
      · have a2 := Adds_AddPrepared ctx bc1 (nDim + n) (zz * mul ^ n + z) hlt
        rw [hprep] at a2
        rw [sumRange_succ]
        exact Adds_congr ctx _ _ _ _ _ _ (Adds_trans ctx _ _ _ _ _ _ _ a1 a2) rfl rfl
  exact key nDim (Nat.le_refl _)

theorem Equation2_Adds (ctx : Context F P CP) (hIdx : ctx.IdxOk) (fuel : Nat)
    (self : Confidential F CP) (cs : Confidential.ChallengeSet F) (oracle : Oracle F CP)
    (S : P) (hS : ctx.Import self.m_Part1.m_S = some S) (o' : Oracle F CP) (Eip : P)
    (hip : ∀ bc : BatchContext F P, ∃ bc',
      InnerProduct.IsValidOracle ctx fuel self.m_P_Tag bc oracle self.m_tDot
          { m_pMultiplier := Function.update (fun _ => none) 1 (some cs.y⁻¹) }
        = some (true, o', bc') ∧ BatchContext.Adds ctx bc bc' (2 * nCycles) Eip)
    (bc : BatchContext F P) :
    ∃ bc', Confidential.Equation2 ctx fuel self cs oracle bc = some (true, o', bc') ∧
      BatchContext.Adds ctx bc bc'
        (2 * nCycles + 1 + (if (ctx.Import self.m_Part1.m_A).isSome then 1 else 0))
        (Equation2Outer ctx self cs S + Eip) := by
  have hAux : ctx.s_Idx_Aux2 < ctx.s_CountPrepared := hIdx.2.2.2.2.2.1
  have hG : ctx.s_Idx_G < ctx.s_CountPrepared := hIdx.2.2.2.2.2.2.1
  obtain ⟨b1, hb1⟩ : ∃ b1, b1 = bc.AddPrepared ctx ctx.s_Idx_Aux2 cs.z := ⟨_, rfl⟩
  obtain ⟨b2, hb2⟩ : ∃ b2, b2 = b1.AddPrepared ctx ctx.s_Idx_G (-self.m_Mu) := ⟨_, rfl⟩
  obtain ⟨b3, hb3⟩ : ∃ b3, b3 = b2.AddCasual S cs.x := ⟨_, rfl⟩
  have a1 : BatchContext.Adds ctx bc b1 0 (cs.z • ctx.m_Aux2_) := by
    rw [hb1, ← ppPrepared_Aux2 ctx hIdx]; exact Adds_AddPrepared ctx bc _ _ hAux
  have a2 : BatchContext.Adds ctx b1 b2 0 ((-self.m_Mu) • ctx.G) := by
    rw [hb2, ← ppPrepared_G ctx hIdx]; exact Adds_AddPrepared ctx b1 _ _ hG
  have a3 : BatchContext.Adds ctx b2 b3 1 (cs.x • S) := by
    rw [hb3]; exact Adds_AddCasual ctx b2 S cs.x
  obtain ⟨b4, hb4, a4⟩ := Equation2_loop_Adds ctx hIdx cs.z (cs.z * cs.z) (2 * cs.y⁻¹) b3
  obtain ⟨b5, hb5⟩ : ∃ b5, b5 = (b4.AddCasualP ctx self.m_Part1.m_A 1).2 := ⟨_, rfl⟩
  have a5 : BatchContext.Adds ctx b4 b5
      (if (ctx.Import self.m_Part1.m_A).isSome then 1 else 0)
      (match ctx.Import self.m_Part1.m_A with
        | some A => A
        | none => 0) := by
    rw [hb5]
    cases hA : ctx.Import self.m_Part1.m_A with
    | none =>
      rw [AddCasualP_none _ _ _ _ hA]
      exact Adds_refl ctx b4
    | some A =>
      rw [AddCasualP_some _ _ _ _ _ hA]
      have := Adds_AddCasual ctx b4 A 1
      rw [one_smul] at this
      exact this
  obtain ⟨b6, hrun, a6⟩ := hip b5
  refine ⟨b6, ?_, ?_⟩
  · unfold Confidential.Equation2
    dsimp only
    rw [← hb1, ← hb2, AddCasualP_some _ _ _ _ _ hS, ← hb3]
    simp only [Bool.not_true, Bool.false_eq_true, if_false]
    rw [hb4, ← hb5]
    exact hrun
  · refine Adds_congr ctx _ _ _ _ _ _
      (Adds_trans ctx _ _ _ _ _ _ _ (Adds_trans ctx _ _ _ _ _ _ _
        (Adds_trans ctx _ _ _ _ _ _ _ (Adds_trans ctx _ _ _ _ _ _ _
          (Adds_trans ctx _ _ _ _ _ _ _ a1 a2) a3) a4) a5) a6) ?_ ?_
    · omega
    · unfold Equation2Outer
      rfl

theorem EquationEnd_batch (ctx : Context F P CP) (bc : BatchContext F P)
    (hen : bc.m_bEnableBatch = true) (hd : bc.m_bDirty = true) :
    bc.EquationEnd ctx = (true, bc) := by
  cases bc
  simp only at hen hd
  subst hen; subst hd
  simp [BatchContext.EquationEnd]

theorem EquationBegin_fits (ctx : Context F P CP) (bc : BatchContext F P) (k : Nat)
    (hfit : bc.m_Casual + k ≤ bc.m_CasualTotal) (htot : bc.m_CasualTotal < 2 ^ 32) :
    bc.EquationBegin ctx k = (true, { bc with m_bDirty := true }) := by
  unfold BatchContext.EquationBegin
  have h1 : ¬ k > bc.m_CasualTotal := by omega
  have h2 : (k + bc.m_Casual) % 2 ^ 32 = k + bc.m_Casual := Nat.mod_eq_of_lt (by omega)
  rw [if_neg h1]
  dsimp only
  rw [h2, if_neg (by omega)]

theorem IsValidBc_batch_core (ctx : Context F P CP) (hIdx : ctx.IdxOk) (fuel : Nat)
    (self : Confidential F CP) (commitment : P) (oracle : Oracle F CP) (bc : BatchContext F P)
    (T1 T2 S : P) (h1 : ctx.Import self.m_Part2.m_T1 = some T1)
    (h2 : ctx.Import self.m_Part2.m_T2 = some T2) (hS : ctx.Import self.m_Part1.m_S = some S)
    (o' : Oracle F CP) (Eip : P)
    (hip : ∀ bc : BatchContext F P, ∃ bc',
      InnerProduct.IsValidOracle ctx fuel self.m_P_Tag bc (Confidential.Challenges ctx self oracle).2
          self.m_tDot
          { m_pMultiplier := Function.update (fun _ => none) 1
              (some (Confidential.Challenges ctx self oracle).1.y⁻¹) }
        = some (true, o', bc') ∧ BatchContext.Adds ctx bc bc' (2 * nCycles) Eip)
    (hen : bc.m_bEnableBatch = true) (bcB : BatchContext F P)
    (hB : ({ bc with m_Multiplier := ctx.squeeze (Confidential.MultiplierOracle self) }
        : BatchContext F P).EquationBegin ctx 3 = (true, bcB))
    (hBen : bcB.m_bEnableBatch = true) (hBd : bcB.m_bDirty = true)
    (hBm : bcB.m_Multiplier = ctx.squeeze (Confidential.MultiplierOracle self))
    (hroom : bcB.m_Casual + s_CasualCountPerProof ≤ bcB.m_CasualTotal)
    (htot : bcB.m_CasualTotal < 2 ^ 32) :
    ∃ bc', Confidential.IsValidBc ctx fuel self commitment oracle bc = some (true, o', bc') ∧
      bc'.Calculate ctx = bcB.Calculate ctx
        + ctx.squeeze (Confidential.MultiplierOracle self)
            • Equation1Sum ctx self commitment T1 T2 (Confidential.Challenges ctx self oracle).1
        + ctx.squeeze [Item.scalar (ctx.squeeze (Confidential.MultiplierOracle self))]
            • (Equation2Outer ctx self (Confidential.Challenges ctx self oracle).1 S + Eip) ∧
      bc'.m_Casual = bcB.m_Casual + (2 * nCycles + 4
        + (if (ctx.Import self.m_Part1.m_A).isSome then 1 else 0)) ∧
      bc'.m_CasualTotal = bcB.m_CasualTotal ∧ bc'.m_bEnableBatch = true ∧ bc'.m_bDirty = true ∧
      bc'.m_CasualOverflow = bcB.m_CasualOverflow ∧ bc'.m_WontFit = bcB.m_WontFit ∧
      bc'.m_AssertFailed = bcB.m_AssertFailed ∧
      bc'.m_Multiplier
        = ctx.squeeze [Item.scalar (ctx.squeeze (Confidential.MultiplierOracle self))] := by
  obtain ⟨cs, hcs⟩ : ∃ cs, cs = (Confidential.Challenges ctx self oracle).1 := ⟨_, rfl⟩
  obtain ⟨oc, hoc⟩ : ∃ oc, oc = (Confidential.Challenges ctx self oracle).2 := ⟨_, rfl⟩
  rw [← hcs, ← hoc] at hip
  rw [← hcs]
  obtain ⟨m1, hm1⟩ : ∃ m1, m1 = ctx.squeeze (Confidential.MultiplierOracle self) := ⟨_, rfl⟩
  rw [← hm1] at hB hBm ⊢
  -- the first equation
  obtain ⟨b1, hE1, a1⟩ := Equation1_Adds ctx hIdx self commitment T1 T2 cs bcB h1 h2
  obtain ⟨f1, f2, f3, f4, f5, f6, f7, f8⟩ := Adds_frame ctx bcB b1 3 _ a1
  have hEnd1 : b1.EquationEnd ctx = (true, b1) :=
    EquationEnd_batch ctx b1 (by rw [f2, hBen]) (by rw [f1, hBd])
  -- the second equation
  obtain ⟨b2, hb2⟩ : ∃ b2 : BatchContext F P, b2 =
      { b1 with m_Multiplier := ctx.squeeze [Item.scalar b1.m_Multiplier] } := ⟨_, rfl⟩
  have hcnt : s_CasualCountPerProof = 17 := rfl
  have hnc : nCycles = 6 := rfl
  have hBegin2 : b2.EquationBegin ctx 2 = (true, { b2 with m_bDirty := true }) := by
    apply EquationBegin_fits
    · rw [hb2]
      show b1.m_Casual + 2 ≤ b1.m_CasualTotal
      rw [f7, f4]; omega
    · rw [hb2]
      show b1.m_CasualTotal < 2 ^ 32
      rw [f4]; exact htot
  obtain ⟨b4, hE2, a2⟩ := Equation2_Adds ctx hIdx fuel self cs oc S hS o' Eip hip
    { b2 with m_bDirty := true }
  obtain ⟨g1, g2, g3, g4, g5, g6, g7, g8⟩ := Adds_frame ctx _ b4 _ _ a2
  have hEnd2 : b4.EquationEnd ctx = (true, b4) := by
    apply EquationEnd_batch ctx b4
    · rw [g2, hb2]; show b1.m_bEnableBatch = true; rw [f2, hBen]
    · rw [g1]
  refine ⟨b4, ?_, ?_, ?_, ?_, ?_, ?_, ?_, ?_, ?_, ?_⟩
  · unfold Confidential.IsValidBc
    dsimp only [Oracle.get]
    rw [if_pos hen, ← hm1, hB]
    dsimp only
    simp only [Bool.not_true, Bool.false_eq_true, if_false]
    have hcs' : ((({ x := 0, y := 0, z := 0, zz := 0 } : Confidential.ChallengeSet F).Init1 ctx
        self.m_Part1 oracle).1.Init2 ctx self.m_Part2
        (({ x := 0, y := 0, z := 0, zz := 0 } : Confidential.ChallengeSet F).Init1 ctx
          self.m_Part1 oracle).2) = (cs, oc) := by
      rw [hcs, hoc]; rfl
    rw [hcs']
    dsimp only
    rw [hE1]
    dsimp only
    simp only [Bool.not_true, Bool.false_eq_true, if_false]
    rw [hEnd1]
    dsimp only
    simp only [Bool.not_true, Bool.false_eq_true, if_false]
    rw [if_pos (show b1.m_bEnableBatch = true by rw [f2, hBen]), ← hb2, hBegin2]
    dsimp only
    simp only [Bool.not_true, Bool.false_eq_true, if_false]
    rw [hE2]
    dsimp only
    simp only [Bool.not_true, Bool.false_eq_true, if_false]
    rw [hEnd2]
  · rw [Adds_Calculate ctx _ _ _ _ a2]
    have hc2 : ({ b2 with m_bDirty := true } : BatchContext F P).Calculate ctx
        = b1.Calculate ctx := by rw [hb2]; rfl
    have hf2 : ({ b2 with m_bDirty := true } : BatchContext F P).factor
        = ctx.squeeze [Item.scalar m1] := by
      rw [hb2]
      show (if b1.m_bEnableBatch then ctx.squeeze [Item.scalar b1.m_Multiplier] else 1) = _
      rw [f2, hBen, f3, hBm]; rfl
    have hf1 : bcB.factor = m1 := by
      unfold BatchContext.factor
      rw [hBen, hBm]; rfl
    rw [hc2, hf2, Adds_Calculate ctx _ _ _ _ a1, hf1]
  · rw [g7, hb2]
    show b1.m_Casual + _ = _
    rw [f7]; omega
  · rw [g4, hb2]; exact f4
  · rw [g2, hb2]; show b1.m_bEnableBatch = true; rw [f2, hBen]
  · rw [g1]
  · rw [g8 (by
      rw [hb2]
      show b1.m_Casual + _ ≤ b1.m_CasualTotal
      rw [f7, f4]; split <;> omega), hb2]
    exact f8 (by omega)
  · rw [g5, hb2]; exact f5
  · rw [g6, hb2]; exact f6
  · rw [g3, hb2]
    show ctx.squeeze [Item.scalar b1.m_Multiplier] = _
    rw [f3, hBm]

theorem factor_init (n : Nat) : (BatchContext.init n : BatchContext F P).factor = 1 := rfl

theorem Equation1Value_eq (ctx : Context F P CP) (hIdx : ctx.IdxOk) (self : Confidential F CP)
    (commitment T1 T2 : P) (oracle : Oracle F CP)
    (h1 : ctx.Import self.m_Part2.m_T1 = some T1) (h2 : ctx.Import self.m_Part2.m_T2 = some T2) :
    Confidential.Equation1Value ctx self commitment oracle
      = Equation1Sum ctx self commitment T1 T2 (Confidential.Challenges ctx self oracle).1 := by
  unfold Confidential.Equation1Value
  rw [Calculate_Equation1 ctx hIdx self commitment T1 T2 _ _ h1 h2, Calculate_init, factor_init,
    one_smul, zero_add]

theorem Equation2Value_eq (ctx : Context F P CP) (hIdx : ctx.IdxOk) (fuel : Nat)
    (self : Confidential F CP) (oracle : Oracle F CP)
    (S : P) (hS : ctx.Import self.m_Part1.m_S = some S) (o' : Oracle F CP) (Eip : P)
    (hip : ∀ bc : BatchContext F P, ∃ bc',
      InnerProduct.IsValidOracle ctx fuel self.m_P_Tag bc (Confidential.Challenges ctx self oracle).2
          self.m_tDot
          { m_pMultiplier := Function.update (fun _ => none) 1
              (some (Confidential.Challenges ctx self oracle).1.y⁻¹) }
        = some (true, o', bc') ∧ BatchContext.Adds ctx bc bc' (2 * nCycles) Eip) :
    Confidential.Equation2Value ctx fuel self oracle
      = Equation2Outer ctx self (Confidential.Challenges ctx self oracle).1 S + Eip := by
  obtain ⟨b, hb, a⟩ := Equation2_Adds ctx hIdx fuel self _ _ S hS o' Eip hip
    (BatchContext.init s_CasualCountPerProof)
  unfold Confidential.Equation2Value
  rw [hb]
  dsimp only
  rw [Adds_Calculate ctx _ _ _ _ a, Calculate_init, factor_init, one_smul, zero_add]

theorem EquationBegin_flush (ctx : Context F P CP) (bc : BatchContext F P) (k : Nat)
    (hk : k ≤ bc.m_CasualTotal) (hfull : bc.m_CasualTotal < bc.m_Casual + k)
    (htot : bc.m_Casual + k < 2 ^ 32) (hd : bc.m_bDirty = true) (hz : bc.Calculate ctx = 0) :
    bc.EquationBegin ctx k = (true, { bc.Reset with m_bDirty := true }) := by
  unfold BatchContext.EquationBegin
  have h1 : ¬ k > bc.m_CasualTotal := by omega
  have h2 : (k + bc.m_Casual) % 2 ^ 32 = k + bc.m_Casual := Nat.mod_eq_of_lt (by omega)
  rw [if_neg h1]
  dsimp only
  rw [h2, if_pos (by omega)]
  simp [BatchContext.Flush, hd, hz]

theorem Calculate_of_Reset (ctx : Context F P CP) (bc : BatchContext F P) :
    (bc.Reset).Calculate ctx = 0 := by
  simp [BatchContext.Calculate, BatchContext.Reset, sumRange]

theorem EquationBegin_true_spec (ctx : Context F P CP) (bc : BatchContext F P) (k : Nat)
    (h : (bc.EquationBegin ctx k).1 = true) :
    ∃ b, bc.EquationBegin ctx k = (true, b) ∧ b.m_bDirty = true ∧
      b.m_bEnableBatch = bc.m_bEnableBatch ∧ b.m_Multiplier = bc.m_Multiplier ∧
      (bc.Calculate ctx = 0 → b.Calculate ctx = 0) := by
  unfold BatchContext.EquationBegin at h ⊢
  by_cases h1 : k > bc.m_CasualTotal
  · rw [if_pos h1] at h
    exact absurd h (by simp)
  · rw [if_neg h1] at h ⊢
    dsimp only at h ⊢
    by_cases h2 : (k + bc.m_Casual) % 2 ^ 32 > bc.m_CasualTotal
    · rw [if_pos h2] at h ⊢
      unfold BatchContext.Flush at h ⊢
      by_cases hd : bc.m_bDirty = true
      · by_cases hz : bc.Calculate ctx = 0
        · simp only [hd, hz, Bool.not_true, Bool.false_eq_true, if_false, decide_True]
          exact ⟨_, rfl, rfl, rfl, rfl, fun _ => Calculate_of_Reset ctx bc⟩
        · simp [hd, hz] at h
      · have hd' : bc.m_bDirty = false := by simpa using hd
        simp only [hd', Bool.not_false, if_true]
        exact ⟨_, rfl, rfl, rfl, rfl, fun hz => hz⟩
    · rw [if_neg h2]
      exact ⟨_, rfl, rfl, rfl, rfl, fun hz => hz⟩

theorem EquationEnd_nobatch (ctx : Context F P CP) (bc : BatchContext F P)
    (hen : bc.m_bEnableBatch = false) (hd : bc.m_bDirty = true) :
    (bc.EquationEnd ctx).1 = decide (bc.Calculate ctx = 0) ∧
    ((bc.EquationEnd ctx).1 = true →
      (bc.EquationEnd ctx).2.Calculate ctx = 0 ∧
      (bc.EquationEnd ctx).2.m_bEnableBatch = false) := by
  cases bc
  simp only at hen hd
  subst hen; subst hd
  simp only [BatchContext.EquationEnd, BatchContext.Flush, Bool.not_true, Bool.or_false,
    Bool.not_false, if_true, Bool.false_eq_true, if_false]
  split
  · rename_i hz
    simp only [Bool.not_eq_true', decide_eq_false_iff_not] at hz
    constructor
    · simpa [BatchContext.Calculate] using hz
    · intro h; exact absurd h (by simp)
  · rename_i hz
    simp only [Bool.not_eq_true', decide_eq_false_iff_not, not_not] at hz
    refine ⟨?_, fun _ => ⟨Calculate_of_Reset ctx _, rfl⟩⟩
    simpa [BatchContext.Calculate] using hz

theorem IsValidBc_nobatch (ctx : Context F P CP) (hIdx : ctx.IdxOk) (fuel : Nat)
    (self : Confidential F CP) (commitment : P) (oracle : Oracle F CP) (bc : BatchContext F P)
    (T1 T2 S : P) (h1 : ctx.Import self.m_Part2.m_T1 = some T1)
    (h2 : ctx.Import self.m_Part2.m_T2 = some T2) (hS : ctx.Import self.m_Part1.m_S = some S)
    (o' : Oracle F CP) (Eip : P)
    (hip : ∀ bc : BatchContext F P, ∃ bc',
      InnerProduct.IsValidOracle ctx fuel self.m_P_Tag bc (Confidential.Challenges ctx self oracle).2
          self.m_tDot
          { m_pMultiplier := Function.update (fun _ => none) 1
              (some (Confidential.Challenges ctx self oracle).1.y⁻¹) }
        = some (true, o', bc') ∧ BatchContext.Adds ctx bc bc' (2 * nCycles) Eip)
    (hen : bc.m_bEnableBatch = false) (hz : bc.Calculate ctx = 0)
    (o2 : Oracle F CP) (bc2 : BatchContext F P)
    (hres : Confidential.IsValidBc ctx fuel self commitment oracle bc = some (true, o2, bc2)) :
    Equation1Sum ctx self commitment T1 T2 (Confidential.Challenges ctx self oracle).1 = 0 ∧
    Equation2Outer ctx self (Confidential.Challenges ctx self oracle).1 S + Eip = 0 := by
  obtain ⟨cs, hcs⟩ : ∃ cs, cs = (Confidential.Challenges ctx self oracle).1 := ⟨_, rfl⟩
  obtain ⟨oc, hoc⟩ : ∃ oc, oc = (Confidential.Challenges ctx self oracle).2 := ⟨_, rfl⟩
  rw [← hcs, ← hoc] at hip
  rw [← hcs]
  have hcs' : ((({ x := 0, y := 0, z := 0, zz := 0 } : Confidential.ChallengeSet F).Init1 ctx
      self.m_Part1 oracle).1.Init2 ctx self.m_Part2
      (({ x := 0, y := 0, z := 0, zz := 0 } : Confidential.ChallengeSet F).Init1 ctx
        self.m_Part1 oracle).2) = (cs, oc) := by
    rw [hcs, hoc]; rfl
  unfold Confidential.IsValidBc at hres
  dsimp only [Oracle.get] at hres
  simp only [hen, Bool.false_eq_true, if_false] at hres
  rw [hcs'] at hres
  dsimp only at hres
  -- the first EquationBegin
  by_cases hB : (bc.EquationBegin ctx 3).1 = true
  swap
  · rw [if_pos (by simpa using hB)] at hres
    simp at hres
  obtain ⟨b0, hb0, hd0, hen0, -, hz0⟩ := EquationBegin_true_spec ctx bc 3 hB
  rw [hb0] at hres
  dsimp only at hres
  simp only [Bool.not_true, Bool.false_eq_true, if_false] at hres
  obtain ⟨b1, hE1, a1⟩ := Equation1_Adds ctx hIdx self commitment T1 T2 cs b0 h1 h2
  obtain ⟨f1, f2, f3, f4, f5, f6, f7, f8⟩ := Adds_frame ctx b0 b1 3 _ a1
  rw [hE1] at hres
  dsimp only at hres
  simp only [Bool.not_true, Bool.false_eq_true, if_false] at hres
  have hf0 : b0.factor = 1 := by
    unfold BatchContext.factor; rw [hen0, hen]; rfl
  have hc1 : b1.Calculate ctx = Equation1Sum ctx self commitment T1 T2 cs := by
    rw [Adds_Calculate ctx _ _ _ _ a1, hz0 hz, hf0, one_smul, zero_add]
  obtain ⟨he1, he1'⟩ := EquationEnd_nobatch ctx b1 (by rw [f2, hen0, hen]) (by rw [f1, hd0])
  obtain ⟨e1, hee1⟩ : ∃ e1, e1 = b1.EquationEnd ctx := ⟨_, rfl⟩
  rw [← hee1] at hres he1 he1'
  by_cases hT : e1.1 = true
  swap
  · rw [if_pos (by simpa using hT)] at hres
    simp at hres
  rw [if_neg (by rw [hT]; simp)] at hres
  obtain ⟨hz1, hen1⟩ := he1' hT
  rw [hT] at he1
  have hE1z : Equation1Sum ctx self commitment T1 T2 cs = 0 := by
    rw [← hc1]; exact of_decide_eq_true he1.symm
  refine ⟨hE1z, ?_⟩
  simp only [hen1, Bool.false_eq_true, if_false] at hres
  -- the second EquationBegin
  by_cases hB2 : (e1.2.EquationBegin ctx 2).1 = true
  swap
  · rw [if_pos (by simpa using hB2)] at hres
    simp at hres
  obtain ⟨b3, hb3, hd3, hen3, -, hz3⟩ := EquationBegin_true_spec ctx e1.2 2 hB2
  rw [hb3] at hres
  dsimp only at hres
  simp only [Bool.not_true, Bool.false_eq_true, if_false] at hres
  obtain ⟨b4, hE2, a2⟩ := Equation2_Adds ctx hIdx fuel self cs oc S hS o' Eip hip b3
  obtain ⟨g1, g2, g3, g4, g5, g6, g7, g8⟩ := Adds_frame ctx _ b4 _ _ a2
  rw [hE2] at hres
  dsimp only at hres
  simp only [Bool.not_true, Bool.false_eq_true, if_false, Option.some.injEq, Prod.mk.injEq]
    at hres
  have hf3 : b3.factor = 1 := by
    unfold BatchContext.factor; rw [hen3, hen1]; rfl
  have hc4 : b4.Calculate ctx = Equation2Outer ctx self cs S + Eip := by
    rw [Adds_Calculate ctx _ _ _ _ a2, hz3 hz1, hf3, one_smul, zero_add]
  obtain ⟨he2, -⟩ := EquationEnd_nobatch ctx b4 (by rw [g2, hen3, hen1]) (by rw [g1, hd3])
  rw [hres.1] at he2
  rw [← hc4]
  exact of_decide_eq_true he2.symm

theorem IsValidBc_batch_fits (ctx : Context F P CP) (hIdx : ctx.IdxOk) (fuel : Nat)
    (self : Confidential F CP) (commitment : P) (oracle : Oracle F CP) (bc : BatchContext F P)
    (T1 T2 S : P) (h1 : ctx.Import self.m_Part2.m_T1 = some T1)
    (h2 : ctx.Import self.m_Part2.m_T2 = some T2) (hS : ctx.Import self.m_Part1.m_S = some S)
    (o' : Oracle F CP) (Eip : P)
    (hip : ∀ bc : BatchContext F P, ∃ bc',
      InnerProduct.IsValidOracle ctx fuel self.m_P_Tag bc (Confidential.Challenges ctx self oracle).2
          self.m_tDot
          { m_pMultiplier := Function.update (fun _ => none) 1
              (some (Confidential.Challenges ctx self oracle).1.y⁻¹) }
        = some (true, o', bc') ∧ BatchContext.Adds ctx bc bc' (2 * nCycles) Eip)
    (hen : bc.m_bEnableBatch = true)
    (hroom : bc.m_Casual + s_CasualCountPerProof ≤ bc.m_CasualTotal)
    (htot : bc.m_CasualTotal < 2 ^ 32) :
    ∃ bc', Confidential.IsValidBc ctx fuel self commitment oracle bc = some (true, o', bc') ∧
      bc'.Calculate ctx = bc.Calculate ctx
        + ctx.squeeze (Confidential.MultiplierOracle self)
            • Confidential.Equation1Value ctx self commitment oracle
        + ctx.squeeze [Item.scalar (ctx.squeeze (Confidential.MultiplierOracle self))]
            • Confidential.Equation2Value ctx fuel self oracle ∧
      bc'.m_Casual = bc.m_Casual + (2 * nCycles + 4
        + (if (ctx.Import self.m_Part1.m_A).isSome then 1 else 0)) ∧
      bc'.m_CasualTotal = bc.m_CasualTotal ∧ bc'.m_bEnableBatch = true ∧ bc'.m_bDirty = true ∧
      bc'.m_CasualOverflow = bc.m_CasualOverflow ∧ bc'.m_WontFit = bc.m_WontFit ∧
      bc'.m_AssertFailed = bc.m_AssertFailed ∧
      bc'.m_Multiplier
        = ctx.squeeze [Item.scalar (ctx.squeeze (Confidential.MultiplierOracle self))] := by
  have hcnt : s_CasualCountPerProof = 17 := rfl
  have hB : ({ bc with m_Multiplier := ctx.squeeze (Confidential.MultiplierOracle self) }
      : BatchContext F P).EquationBegin ctx 3
      = (true, { bc with m_Multiplier := ctx.squeeze (Confidential.MultiplierOracle self),
                         m_bDirty := true }) :=
    EquationBegin_fits ctx _ 3 (by show bc.m_Casual + 3 ≤ bc.m_CasualTotal; omega) htot
  obtain ⟨bc', hr, hc, r⟩ := IsValidBc_batch_core ctx hIdx fuel self commitment oracle bc T1 T2 S
    h1 h2 hS o' Eip hip hen _ hB hen rfl rfl hroom htot
  refine ⟨bc', hr, ?_, r⟩
  rw [hc, Equation1Value_eq ctx hIdx self commitment T1 T2 oracle h1 h2,
    Equation2Value_eq ctx hIdx fuel self oracle S hS o' Eip hip]
  rfl

/-- C13. Randomized combination scales whole equations. For a proof whose points `T1`, `T2`,
`S`, `L_i`, `R_i` import: whatever the context, the terms of the first equation, and likewise
those of the second, change the queued sum by the equation times the factor in force (the
multiplier when `m_bEnableBatch` is set, `1` when it is clear); and on a batch-enabled context
with room for one proof `IsValid` returns `true` and leaves the sum
`previous + m1 * E1 + m2 * E2`, where `m1` is extracted from the proof and `m2` from `m1`. -/
theorem IsValid_scales_equations (ctx : Context F P CP) (hIdx : ctx.IdxOk)
    (hsq : ∀ o, ctx.squeeze o ≠ 0) (fuel : Nat) (hfuel : 0 < fuel) (self : Confidential F CP)
    (commitment : P) (oracle : Oracle F CP) (T1 T2 S : P)
    (h1 : ctx.Import self.m_Part2.m_T1 = some T1) (h2 : ctx.Import self.m_Part2.m_T2 = some T2)
    (hS : ctx.Import self.m_Part1.m_S = some S)
    (himp : ∀ k, k < nCycles → ∀ j, j < 2 → ∃ p, ctx.Import (self.m_P_Tag.m_pLR k j) = some p)
    (bc bcOn : BatchContext F P) (hen : bcOn.m_bEnableBatch = true)
    (hroom : bcOn.m_Casual + s_CasualCountPerProof ≤ bcOn.m_CasualTotal)
    (htot : bcOn.m_CasualTotal < 2 ^ 32) :
    (Confidential.Equation1 ctx self commitment (Confidential.Challenges ctx self oracle).1
        bc).2.Calculate ctx
      = bc.Calculate ctx
        + (if bc.m_bEnableBatch then bc.m_Multiplier else 1)
          • Confidential.Equation1Value ctx self commitment oracle ∧
    (∃ r, Confidential.Equation2 ctx fuel self (Confidential.Challenges ctx self oracle).1
        (Confidential.Challenges ctx self oracle).2 bc = some r ∧
      r.2.2.Calculate ctx
        = bc.Calculate ctx
          + (if bc.m_bEnableBatch then bc.m_Multiplier else 1)
            • Confidential.Equation2Value ctx fuel self oracle) ∧
    (∃ o' bc', Confidential.IsValidBc ctx fuel self commitment oracle bcOn
        = some (true, o', bc') ∧
      bc'.Calculate ctx = bcOn.Calculate ctx
        + ctx.squeeze (Confidential.MultiplierOracle self)
            • Confidential.Equation1Value ctx self commitment oracle
        + ctx.squeeze [Item.scalar (ctx.squeeze (Confidential.MultiplierOracle self))]
            • Confidential.Equation2Value ctx fuel self oracle ∧
      bc'.m_Multiplier
        = ctx.squeeze [Item.scalar (ctx.squeeze (Confidential.MultiplierOracle self))]) := by
  obtain ⟨o', Eip, hip⟩ := IsValidOracle_Adds ctx hIdx hsq fuel hfuel self.m_P_Tag
    (Confidential.Challenges ctx self oracle).2 self.m_tDot
    { m_pMultiplier := Function.update (fun _ => none) 1
        (some (Confidential.Challenges ctx self oracle).1.y⁻¹) } himp
  refine ⟨?_, ?_, ?_⟩
  · rw [Calculate_Equation1 ctx hIdx self commitment T1 T2 _ _ h1 h2,
      Equation1Value_eq ctx hIdx self commitment T1 T2 oracle h1 h2]
    rfl
  · obtain ⟨b, hb, a⟩ := Equation2_Adds ctx hIdx fuel self _ _ S hS o' Eip hip bc
    refine ⟨_, hb, ?_⟩
    rw [Equation2Value_eq ctx hIdx fuel self oracle S hS o' Eip hip]
    exact Adds_Calculate ctx _ _ _ _ a
  · obtain ⟨bc', hr, hc, -, -, -, -, -, -, -, hm⟩ := IsValidBc_batch_fits ctx hIdx fuel self
      commitment oracle bcOn T1 T2 S h1 h2 hS o' Eip hip hen hroom htot
    exact ⟨o', bc', hr, hc, hm⟩

set_option maxRecDepth 1000000 in
theorem IsValid_scales_equations_witness :
    Example.ctx.IdxOk ∧ (∀ o, Example.ctx.squeeze o ≠ 0) ∧ 0 < 1 ∧
    Example.ctx.Import Example.proofT.m_Part2.m_T1 = some 1 ∧
    Example.ctx.Import Example.proofT.m_Part2.m_T2 = some 0 ∧
    Example.ctx.Import Example.proofT.m_Part1.m_S = some 0 ∧
    (∀ k, k < nCycles → ∀ j, j < 2 →
      ∃ p, Example.ctx.Import (Example.proofT.m_P_Tag.m_pLR k j) = some p) ∧
    (Example.bcBatch 1).m_bEnableBatch = true ∧
    (Example.bcBatch 1).m_Casual + s_CasualCountPerProof ≤ (Example.bcBatch 1).m_CasualTotal ∧
    (Example.bcBatch 1).m_CasualTotal < 2 ^ 32 ∧
    ((Confidential.Equation1 Example.ctx Example.proofT 1
        (Confidential.Challenges Example.ctx Example.proofT []).1
        Example.bcPending).2.Calculate Example.ctx
      = Example.bcPending.Calculate Example.ctx
        + (if Example.bcPending.m_bEnableBatch then Example.bcPending.m_Multiplier else 1)
          • Confidential.Equation1Value Example.ctx Example.proofT 1 [] ∧
    (∃ r, Confidential.Equation2 Example.ctx 1 Example.proofT
        (Confidential.Challenges Example.ctx Example.proofT []).1
        (Confidential.Challenges Example.ctx Example.proofT []).2 Example.bcPending = some r ∧
      r.2.2.Calculate Example.ctx
        = Example.bcPending.Calculate Example.ctx
          + (if Example.bcPending.m_bEnableBatch then Example.bcPending.m_Multiplier else 1)
            • Confidential.Equation2Value Example.ctx 1 Example.proofT []) ∧
    (∃ o' bc', Confidential.IsValidBc Example.ctx 1 Example.proofT 1 [] (Example.bcBatch 1)
        = some (true, o', bc') ∧
      bc'.Calculate Example.ctx = (Example.bcBatch 1).Calculate Example.ctx
        + Example.ctx.squeeze (Confidential.MultiplierOracle Example.proofT)
            • Confidential.Equation1Value Example.ctx Example.proofT 1 []
        + Example.ctx.squeeze
            [Item.scalar (Example.ctx.squeeze (Confidential.MultiplierOracle Example.proofT))]
            • Confidential.Equation2Value Example.ctx 1 Example.proofT [] ∧
      bc'.m_Multiplier = Example.ctx.squeeze
        [Item.scalar (Example.ctx.squeeze (Confidential.MultiplierOracle Example.proofT))])) :=
  ⟨by decide, fun _ => (by decide : (1 : ZMod 7) ≠ 0), by decide, rfl, rfl, rfl,
    fun _ _ _ _ => ⟨0, rfl⟩, rfl, by decide, by decide,
    IsValid_scales_equations Example.ctx (by decide) (fun _ => (by decide : (1 : ZMod 7) ≠ 0)) 1
      (by decide) Example.proofT 1 [] 1 0 0 rfl rfl rfl (fun _ _ _ _ => ⟨0, rfl⟩)
      Example.bcPending (Example.bcBatch 1) rfl (by decide) (by decide)⟩

/-- C14. Verification is deferred under batch mode. For a proof whose points `T1`, `T2`, `S`,
`L_i`, `R_i` import: on a batch-enabled context with at least `2*nCycles+5` free casual slots
`IsValid` returns `true` whether or not the equations hold, and nothing is resolved: the pending
terms stay, `2*nCycles+4` more are queued (one more when `A` imports) and the queued sum is the
previous one plus the two scaled equations. On a context without batching that holds nothing
`IsValid` returns `true` only if both equations are the identity. -/
theorem IsValid_deferred (ctx : Context F P CP) (hIdx : ctx.IdxOk)
    (hsq : ∀ o, ctx.squeeze o ≠ 0) (fuel : Nat) (hfuel : 0 < fuel) (self : Confidential F CP)
    (commitment : P) (oracle : Oracle F CP) (T1 T2 S : P)
    (h1 : ctx.Import self.m_Part2.m_T1 = some T1) (h2 : ctx.Import self.m_Part2.m_T2 = some T2)
    (hS : ctx.Import self.m_Part1.m_S = some S)
    (himp : ∀ k, k < nCycles → ∀ j, j < 2 → ∃ p, ctx.Import (self.m_P_Tag.m_pLR k j) = some p)
    (bcOn : BatchContext F P) (hen : bcOn.m_bEnableBatch = true)
    (hroom : bcOn.m_Casual + (2 * nCycles + 5) ≤ bcOn.m_CasualTotal)
    (htot : bcOn.m_CasualTotal < 2 ^ 32)
    (bcOff : BatchContext F P) (hoff : bcOff.m_bEnableBatch = false)
    (hempty : bcOff.Calculate ctx = 0) :
    (∃ o' bc', Confidential.IsValidBc ctx fuel self commitment oracle bcOn
        = some (true, o', bc') ∧
      bc'.m_Casual = bcOn.m_Casual + (2 * nCycles + 4
        + (if (ctx.Import self.m_Part1.m_A).isSome then 1 else 0)) ∧
      bc'.m_bDirty = true ∧
      bc'.Calculate ctx = bcOn.Calculate ctx
        + ctx.squeeze (Confidential.MultiplierOracle self)
            • Confidential.Equation1Value ctx self commitment oracle
        + ctx.squeeze [Item.scalar (ctx.squeeze (Confidential.MultiplierOracle self))]
            • Confidential.Equation2Value ctx fuel self oracle) ∧
    (∀ o' bc', Confidential.IsValidBc ctx fuel self commitment oracle bcOff
        = some (true, o', bc') →
      Confidential.Equation1Value ctx self commitment oracle = 0 ∧
      Confidential.Equation2Value ctx fuel self oracle = 0) := by
  obtain ⟨o', Eip, hip⟩ := IsValidOracle_Adds ctx hIdx hsq fuel hfuel self.m_P_Tag
    (Confidential.Challenges ctx self oracle).2 self.m_tDot
    { m_pMultiplier := Function.update (fun _ => none) 1
        (some (Confidential.Challenges ctx self oracle).1.y⁻¹) } himp
  constructor
  · obtain ⟨bc', hr, hc, hn, -, -, hd, -⟩ := IsValidBc_batch_fits ctx hIdx fuel self
      commitment oracle bcOn T1 T2 S h1 h2 hS o' Eip hip hen hroom htot
    exact ⟨o', bc', hr, hn, hd, hc⟩
  · intro o2 bc2 hres
    rw [Equation1Value_eq ctx hIdx self commitment T1 T2 oracle h1 h2,
      Equation2Value_eq ctx hIdx fuel self oracle S hS o' Eip hip]
    exact IsValidBc_nobatch ctx hIdx fuel self commitment oracle bcOff T1 T2 S h1 h2 hS o' Eip
      hip hoff hempty o2 bc2 hres

set_option maxRecDepth 1000000 in
theorem IsValid_deferred_witness :
    Example.ctx.IdxOk ∧ (∀ o, Example.ctx.squeeze o ≠ 0) ∧ 0 < 1 ∧
    Example.ctx.Import Example.proofT.m_Part2.m_T1 = some 1 ∧
    Example.ctx.Import Example.proofT.m_Part2.m_T2 = some 0 ∧
    Example.ctx.Import Example.proofT.m_Part1.m_S = some 0 ∧
    (∀ k, k < nCycles → ∀ j, j < 2 →
      ∃ p, Example.ctx.Import (Example.proofT.m_P_Tag.m_pLR k j) = some p) ∧
    (Example.bcBatch 1).m_bEnableBatch = true ∧
    (Example.bcBatch 1).m_Casual + (2 * nCycles + 5) ≤ (Example.bcBatch 1).m_CasualTotal ∧
    (Example.bcBatch 1).m_CasualTotal < 2 ^ 32 ∧
    (BatchContext.init 17 : BatchContext (ZMod 7) (ZMod 7)).m_bEnableBatch = false ∧
    (BatchContext.init 17 : BatchContext (ZMod 7) (ZMod 7)).Calculate Example.ctx = 0 ∧
    ((∃ o' bc', Confidential.IsValidBc Example.ctx 1 Example.proofT 1 [] (Example.bcBatch 1)
        = some (true, o', bc') ∧
      bc'.m_Casual = (Example.bcBatch 1).m_Casual + (2 * nCycles + 4
        + (if (Example.ctx.Import Example.proofT.m_Part1.m_A).isSome then 1 else 0)) ∧
      bc'.m_bDirty = true ∧
      bc'.Calculate Example.ctx = (Example.bcBatch 1).Calculate Example.ctx
        + Example.ctx.squeeze (Confidential.MultiplierOracle Example.proofT)
            • Confidential.Equation1Value Example.ctx Example.proofT 1 []
        + Example.ctx.squeeze
            [Item.scalar (Example.ctx.squeeze (Confidential.MultiplierOracle Example.proofT))]
            • Confidential.Equation2Value Example.ctx 1 Example.proofT []) ∧
    (∀ o' bc', Confidential.IsValidBc Example.ctx 1 Example.proofT 1 []
        (BatchContext.init 17) = some (true, o', bc') →
      Confidential.Equation1Value Example.ctx Example.proofT 1 [] = 0 ∧
      Confidential.Equation2Value Example.ctx 1 Example.proofT [] = 0)) :=
  ⟨by decide, fun _ => (by decide : (1 : ZMod 7) ≠ 0), by decide, rfl, rfl, rfl,
    fun _ _ _ _ => ⟨0, rfl⟩, rfl, by decide, by decide, rfl, Calculate_init Example.ctx 17,
    IsValid_deferred Example.ctx (by decide) (fun _ => (by decide : (1 : ZMod 7) ≠ 0)) 1
      (by decide) Example.proofT 1 [] 1 0 0 rfl rfl rfl (fun _ _ _ _ => ⟨0, rfl⟩)
      (Example.bcBatch 1) rfl (by decide) (by decide)
      (BatchContext.init 17) rfl (Calculate_init Example.ctx 17)⟩

theorem IsValidBc_BatchInv (ctx : Context F P CP) (hIdx : ctx.IdxOk)
    (hsq : ∀ o, ctx.squeeze o ≠ 0) (fuel : Nat) (hfuel : 0 < fuel) (M : Nat) (hM : 0 < M)
    (hcap : M * s_CasualCountPerProof + 3 < 2 ^ 32) (self : Confidential F CP)
    (commitment : P) (oracle : Oracle F CP)
    (hvalid : Confidential.Valid ctx fuel self commitment oracle)
    (bc : BatchContext F P) (hinv : bc.BatchInv ctx M) :
    ∃ o' bc', Confidential.IsValidBc ctx fuel self commitment oracle bc = some (true, o', bc') ∧
      bc'.BatchInv ctx M := by
  obtain ⟨vA, vS, vT1, vT2, vLR, vE1, vE2⟩ := hvalid
  obtain ⟨S, hS⟩ := Option.isSome_iff_exists.mp vS
  obtain ⟨T1, h1⟩ := Option.isSome_iff_exists.mp vT1
  obtain ⟨T2, h2⟩ := Option.isSome_iff_exists.mp vT2
  obtain ⟨o', Eip, hip⟩ := IsValidOracle_Adds ctx hIdx hsq fuel hfuel self.m_P_Tag
    (Confidential.Challenges ctx self oracle).2 self.m_tDot
    { m_pMultiplier := Function.update (fun _ => none) 1
        (some (Confidential.Challenges ctx self oracle).1.y⁻¹) }
    (fun k hk j hj => Option.isSome_iff_exists.mp (vLR k hk j hj))
  obtain ⟨ien, itot, ⟨q, hq, icas⟩, icalc, idirty, iov, iwf, iaf⟩ := hinv
  have hcnt : s_CasualCountPerProof = 17 := rfl
  have hnc : nCycles = 6 := rfl
  rw [hcnt] at itot icas hcap
  by_cases hroom : bc.m_Casual + s_CasualCountPerProof ≤ bc.m_CasualTotal
  · obtain ⟨bc', hr, hc, hn, ht, he, hd, ho, hw, ha, -⟩ := IsValidBc_batch_fits ctx hIdx fuel
      self commitment oracle bc T1 T2 S h1 h2 hS o' Eip hip ien hroom (by omega)
    refine ⟨o', bc', hr, he, by rw [ht, itot, hcnt], ⟨q + 1, ?_, ?_⟩, ?_, fun _ => hd,
      by rw [ho, iov], by rw [hw, iwf], by rw [ha, iaf]⟩
    · rw [hcnt] at hroom; omega
    · rw [hn, vA, hcnt, hnc, icas]; simp only [if_true]; omega
    · rw [hc, vE1, vE2, icalc, smul_zero, smul_zero, add_zero, add_zero]
  · rw [hcnt] at hroom
    have hfull : bc.m_Casual = bc.m_CasualTotal := by
      have : M ≤ q := by
        by_contra hlt
        have : q + 1 ≤ M := by omega
        have := Nat.mul_le_mul_right 17 this
        omega
      have hqM : q = M := by omega
      rw [icas, itot, hqM]
    have hpos : 0 < bc.m_Casual := by rw [hfull, itot]; omega
    have hB : ({ bc with m_Multiplier := ctx.squeeze (Confidential.MultiplierOracle self) }
        : BatchContext F P).EquationBegin ctx 3
        = (true, { ({ bc with m_Multiplier := ctx.squeeze (Confidential.MultiplierOracle self) }
            : BatchContext F P).Reset with m_bDirty := true }) :=
      EquationBegin_flush ctx _ 3
        (by show 3 ≤ bc.m_CasualTotal; omega)
        (by show bc.m_CasualTotal < bc.m_Casual + 3; omega)
        (by show bc.m_Casual + 3 < 2 ^ 32; omega)
        (idirty hpos) icalc
    obtain ⟨bc', hr, hc, hn, ht, he, hd, ho, hw, ha, -⟩ := IsValidBc_batch_core ctx hIdx fuel
      self commitment oracle bc T1 T2 S h1 h2 hS o' Eip hip ien _ hB ien rfl rfl
      (by show 0 + s_CasualCountPerProof ≤ bc.m_CasualTotal; rw [hcnt]; omega)
      (by show bc.m_CasualTotal < 2 ^ 32; omega)
    refine ⟨o', bc', hr, he, by rw [ht, hcnt]; exact itot, ⟨1, hM, ?_⟩, ?_, fun _ => hd,
      by rw [ho]; exact iov, by rw [hw]; exact iwf, by rw [ha]; exact iaf⟩
    · rw [hn, vA, hcnt, hnc]
      show 0 + _ = _
      simp only [if_true]
    · rw [hc, ← Equation1Value_eq ctx hIdx self commitment T1 T2 oracle h1 h2,
        ← Equation2Value_eq ctx hIdx fuel self oracle S hS o' Eip hip, vE1, vE2, smul_zero,
        smul_zero, add_zero, add_zero]
      exact Calculate_of_Reset ctx
        ({ bc with m_Multiplier := ctx.squeeze (Confidential.MultiplierOracle self) }
          : BatchContext F P)

/-- C12. Batch completeness: a batch-enabled context built for `M > 0` proofs (capacity
`M * (2*nCycles+5)`, below `2^32 - 3`) and started empty verifies every list of proofs that are
valid on their own (their points import and both of their equations are the identity): every
call of `IsValid(commitment_i, oracle_i, bc)` returns `true`, the final `Flush` returns `true`,
and no assertion of the context is violated on the way. -/
theorem batch_complete (ctx : Context F P CP) (hIdx : ctx.IdxOk)
    (hsq : ∀ o, ctx.squeeze o ≠ 0) (fuel : Nat) (hfuel : 0 < fuel) (M : Nat) (hM : 0 < M)
    (hcap : M * s_CasualCountPerProof + 3 < 2 ^ 32)
    (ps : List (Confidential F CP × P × Oracle F CP))
    (hvalid : ∀ x, x ∈ ps → Confidential.Valid ctx fuel x.1 x.2.1 x.2.2) :
    ∃ bc', Confidential.IsValidAll ctx fuel ps
        { (BatchContextEx M : BatchContext F P) with m_bEnableBatch := true }
        = some (true, bc') ∧
      (bc'.Flush ctx).1 = true ∧ bc'.m_CasualOverflow = false ∧ bc'.m_WontFit = false ∧
      bc'.m_AssertFailed = false := by
  have key : ∀ (ps : List (Confidential F CP × P × Oracle F CP)) (bc : BatchContext F P),
      (∀ x, x ∈ ps → Confidential.Valid ctx fuel x.1 x.2.1 x.2.2) → bc.BatchInv ctx M →
      ∃ bc', Confidential.IsValidAll ctx fuel ps bc = some (true, bc') ∧ bc'.BatchInv ctx M := by
    intro ps
    induction ps with
    | nil => intro bc _ hinv; exact ⟨bc, rfl, hinv⟩
    | cons x rest ih =>
      intro bc hv hinv
      obtain ⟨o', bc1, hr, hinv1⟩ := IsValidBc_BatchInv ctx hIdx hsq fuel hfuel M hM hcap
        x.1 x.2.1 x.2.2 (hv x (List.mem_cons_self _ _)) bc hinv
      obtain ⟨bc', hrun, hinv'⟩ := ih bc1 (fun y hy => hv y (List.mem_cons_of_mem _ hy)) hinv1
      refine ⟨bc', ?_, hinv'⟩
      rw [Confidential.IsValidAll, hr]
      exact hrun
  have hinit : ({ (BatchContextEx M : BatchContext F P) with m_bEnableBatch := true }
      : BatchContext F P).BatchInv ctx M :=
    ⟨rfl, rfl, ⟨0, Nat.zero_le _, by simp [BatchContext.m_Casual, BatchContextEx,
      BatchContext.init, BatchContext.Reset]⟩, Calculate_init ctx (M * s_CasualCountPerProof),
      fun h => absurd h (by simp [BatchContext.m_Casual, BatchContextEx, BatchContext.init,
        BatchContext.Reset]), rfl, rfl, rfl⟩
  obtain ⟨bc', hrun, ien, itot, -, icalc, -, iov, iwf, iaf⟩ := key ps _ hvalid hinit
  refine ⟨bc', hrun, ?_, iov, iwf, iaf⟩
  unfold BatchContext.Flush
  by_cases hd : bc'.m_bDirty = true
  · simp [hd, icalc]
  · simp [hd]

theorem CoSign_eq (ctx : Context F P CP) (fuel : Nat) (self : Confidential F CP)
    (sk : F) (v : Nat) (oracle : Oracle F CP) (ePhase : Phase) :
    Confidential.CoSign ctx fuel self sk v oracle ePhase
      = match Confidential.CoSign_Part2 ctx self sk v oracle ePhase with
        | none => some (false, { self with m_Part1 := Confidential.CoSign_Part1 ctx sk v },
            (Confidential.CoSign_cs1 ctx sk v oracle).2)
        | some p2 =>
          if Phase.Step2 = ePhase then
            some (true, { self with m_Part1 := Confidential.CoSign_Part1 ctx sk v, m_Part2 := p2 },
              (Confidential.CoSign_cs1 ctx sk v oracle).2)
          else
            Confidential.CoSign_tail ctx fuel
              { self with m_Part1 := Confidential.CoSign_Part1 ctx sk v, m_Part2 := p2 }
              sk v (Confidential.CoSign_cs1 ctx sk v oracle).2 ePhase
              (Confidential.CoSign_cs1 ctx sk v oracle).1 (Confidential.CoSign_tt ctx sk v oracle)
              (Confidential.CoSign_msig ctx sk v) (Confidential.CoSign_alpha ctx sk v).1
              (Confidential.CoSign_ro ctx sk v).1 (Confidential.CoSign_pS ctx sk v) := by
  unfold Confidential.CoSign Confidential.CoSign_Part2
  lift_lets
  extract_lets nonceGen ra alpha comm comm1 src1 self1 rr ro mm mm1 rs nonceGen1 pS commS src2 self2 cs rc cs1 oracle1 t msig cc commT1 commT2
  have hα : alpha = (Confidential.CoSign_alpha ctx sk v).1 := rfl
  have hro : ro = (Confidential.CoSign_ro ctx sk v).1 := rfl
  have hpS : pS = Confidential.CoSign_pS ctx sk v := rfl
  have hmsig : msig = Confidential.CoSign_msig ctx sk v := rfl
  have hself2 : self2 = { self with m_Part1 := Confidential.CoSign_Part1 ctx sk v } := rfl
  have hrc : rc = Confidential.CoSign_cs1 ctx sk v oracle := rfl
  have hcs1 : cs1 = (Confidential.CoSign_cs1 ctx sk v oracle).1 := rfl
  have ho1 : oracle1 = (Confidential.CoSign_cs1 ctx sk v oracle).2 := rfl
  have ht : t = Confidential.CoSign_tt ctx sk v oracle := rfl
  have hT1 : commT1 = (Confidential.CoSign_msig ctx sk v).m_tau1 • ctx.G
      + (Confidential.CoSign_tt ctx sk v oracle).t1 • ctx.H := rfl
  have hT2 : commT2 = (Confidential.CoSign_msig ctx sk v).m_tau2 • ctx.G
      + (Confidential.CoSign_tt ctx sk v oracle).t2 • ctx.H := rfl
  have hP2 : self2.m_Part2 = self.m_Part2 := rfl
  clear_value alpha ro pS msig self2 rc cs1 oracle1 t commT1 commT2
  subst hα hro hpS hmsig hself2 hcs1 ho1 ht hT1 hT2
  intro r r2
  cases ePhase
  · -- SinglePass
    simp only [r2, r, ne_eq, reduceCtorEq, not_false_eq_true, not_true_eq_false, if_true,
      if_false]
  · -- Step1
    simp only [r2, r, ne_eq, reduceCtorEq, not_false_eq_true, not_true_eq_false, if_true,
      if_false]
    cases h1 : ctx.Import self.m_Part2.m_T1 with
    | none => rfl
    | some p =>
      cases h2 : ctx.Import self.m_Part2.m_T2 with
      | none => rfl
      | some p' => rfl
  · -- Step2
    simp only [r2, r, ne_eq, reduceCtorEq, not_false_eq_true, not_true_eq_false, if_true,
      if_false]
    cases h1 : ctx.Import self.m_Part2.m_T1 with
    | none => rfl
    | some p =>
      cases h2 : ctx.Import self.m_Part2.m_T2 with
      | none => rfl
      | some p' => rfl
  · -- Finalize
    simp only [r2, r, ne_eq, reduceCtorEq, not_false_eq_true, not_true_eq_false, if_true,
      if_false]

theorem amountBit_lt (v i : Nat) : amountBit v i = 0 ∨ amountBit v i = 1 := by
  unfold amountBit
  omega

theorem bitF_eq_cast (v i : Nat) : (bitF v i : F) = ((amountBit v i : Nat) : F) := by
  unfold bitF
  rcases amountBit_lt v i with h | h <;> simp [h]

theorem bitF_sq (v i : Nat) : (bitF v i : F) * bitF v i = bitF v i := by
  unfold bitF
  split <;> simp

theorem sum_bits_nat (v : Nat) : ∀ n, sumRange n (fun i => amountBit v i * 2 ^ i) = v % 2 ^ n := by
  intro n
  induction n with
  | zero => simp [sumRange, Nat.mod_one]
  | succ n ih =>
    rw [sumRange_succ, ih, Nat.mod_pow_succ]
    unfold amountBit
    rw [Nat.shiftRight_eq_div_pow, Nat.mul_comm]

theorem sumRange_cast (n : Nat) (f : Nat → Nat) :
    ((sumRange n f : Nat) : F) = sumRange n (fun i => ((f i : Nat) : F)) := by
  induction n with
  | zero => simp [sumRange]
  | succ n ih => rw [sumRange_succ, sumRange_succ, Nat.cast_add, ih]

theorem sum_bitF (v : Nat) (hv : v < 2 ^ 64) :
    sumRange nDim (fun i => (bitF v i : F) * 2 ^ i) = (v : F) := by
  have h := sum_bits_nat v nDim
  have hmod : v % 2 ^ nDim = v := Nat.mod_eq_of_lt hv
  rw [hmod] at h
  have h2 : (v : F) = ((sumRange nDim (fun i => amountBit v i * 2 ^ i) : Nat) : F) := by rw [h]
  rw [h2, sumRange_cast]
  apply sumRange_congr
  intro i _
  rw [bitF_eq_cast, Nat.cast_mul, Nat.cast_pow, Nat.cast_ofNat]

theorem sum_two_pow_nat : ∀ n, sumRange n (fun i => 2 ^ i) + 1 = 2 ^ n := by
  intro n
  induction n with
  | zero => simp [sumRange]
  | succ n ih =>
    rw [sumRange_succ, pow_succ]
    omega

theorem sum_two_pow : sumRange nDim (fun i => (2 : F) ^ i) = ((2 ^ 64 - 1 : Nat) : F) := by
  have h := sum_two_pow_nat nDim
  have h' : sumRange nDim (fun i => 2 ^ i) = 2 ^ 64 - 1 := by
    have : (2 : Nat) ^ nDim = 2 ^ 64 := rfl
    omega
  rw [← h', sumRange_cast]
  apply sumRange_congr
  intro i _
  rw [Nat.cast_pow, Nat.cast_ofNat]

theorem Delta_loop (y : F) (n : Nat) :
    (List.range n).foldl
      (fun (s : F × F) _ =>
        let sumY := s.1 + s.2
        let sum2 := s.2 * y
        (sumY, sum2))
      ((0 : F), (1 : F)) = (sumRange n (fun i => y ^ i), y ^ n) := by
  induction n with
  | zero => simp [sumRange]
  | succ n ih =>
    rw [List.range_succ, List.foldl_append, ih, sumRange_succ]
    simp [pow_succ]

theorem Delta_eq (cs : Confidential.ChallengeSet F) :
    Confidential.Delta cs
      = (cs.z - cs.z ^ 2) * sumRange nDim (fun i => cs.y ^ i)
        - cs.z ^ 3 * sumRange nDim (fun i => (2 : F) ^ i) := by
  unfold Confidential.Delta
  dsimp only
  rw [Delta_loop, sum_two_pow]
  ring

/-- C16. The verifier's `delta` equals the closed form
`(z - z^2) * sum_{i<nDim} y^i - z^3 * sum_{i<nDim} 2^i` for all challenges, and the second sum is
the scalar of the 64-bit constant `Amount(-1) = 2^64 - 1` that the code uses for it. -/
theorem Delta_closed_form (cs : Confidential.ChallengeSet F) :
    Confidential.Delta cs
      = (cs.z - cs.z ^ 2) * sumRange nDim (fun i => cs.y ^ i)
        - cs.z ^ 3 * sumRange nDim (fun i => (2 : F) ^ i) ∧
    sumRange nDim (fun i => (2 : F) ^ i) = ((2 ^ 64 - 1 : Nat) : F) :=
  ⟨Delta_eq cs, sum_two_pow⟩

theorem Init_yInv (yInv : F) :
    (ModifierExpanded.Init
      ({ m_pMultiplier := Function.update (fun _ => none) 1 (some yInv) } : Modifier F)).m_pUse 0
        = false ∧
    (ModifierExpanded.Init
      ({ m_pMultiplier := Function.update (fun _ => none) 1 (some yInv) } : Modifier F)).m_pUse 1
        = true ∧
    ∀ i, i < nDim → (ModifierExpanded.Init
      ({ m_pMultiplier := Function.update (fun _ => none) 1 (some yInv) } : Modifier F)).m_pPwr 1 i
        = yInv ^ i := by
  have hloop : ∀ (m0 : ModifierExpanded F) (n : Nat), m0.m_pPwr 1 0 = 1 →
      ((List.range n).foldl
        (fun (m : ModifierExpanded F) i' =>
          { m with m_pPwr := set2 m.m_pPwr 1 (i' + 1) (m.m_pPwr 1 i' * yInv) }) m0).m_pUse
          = m0.m_pUse ∧
      ∀ i, i ≤ n → ((List.range n).foldl
        (fun (m : ModifierExpanded F) i' =>
          { m with m_pPwr := set2 m.m_pPwr 1 (i' + 1) (m.m_pPwr 1 i' * yInv) }) m0).m_pPwr 1 i
          = yInv ^ i := by
    intro m0 n h0
    induction n with
    | zero =>
      refine ⟨rfl, ?_⟩
      intro i hi
      have : i = 0 := by omega
      subst this
      simpa using h0
    | succ n ih =>
      rw [List.range_succ, List.foldl_append]
      simp only [List.foldl_cons, List.foldl_nil]
      refine ⟨ih.1, ?_⟩
      intro i hi
      by_cases hin : i = n + 1
      · subst hin
        rw [set2_same, ih.2 n (Nat.le_refl _), pow_succ]
      · rw [set2_col _ _ _ _ _ hin]
        exact ih.2 i (by omega)
  obtain ⟨h1, h2⟩ := hloop
    { m_pPwr := set2 (fun _ _ => (0 : F)) 1 0 1,
      m_pUse := Function.update (Function.update (fun _ => false) 0 false) 1 true } (nDim - 1)
    (by show set2 (fun _ _ => (0 : F)) 1 0 1 1 0 = 1; exact set2_same _ _ _ _)
  have hInit : ModifierExpanded.Init
      ({ m_pMultiplier := Function.update (fun _ => none) 1 (some yInv) } : Modifier F)
      = (List.range (nDim - 1)).foldl
        (fun (m : ModifierExpanded F) i' =>
          { m with m_pPwr := set2 m.m_pPwr 1 (i' + 1) (m.m_pPwr 1 i' * yInv) })
        { m_pPwr := set2 (fun _ _ => (0 : F)) 1 0 1,
          m_pUse := Function.update (Function.update (fun _ => false) 0 false) 1 true } := by
    unfold ModifierExpanded.Init
    rw [foldl_range_two]
    simp only [Function.update_same, Function.update_noteq (show (0 : Nat) ≠ 1 by decide),
      Option.isSome_none, Option.isSome_some, Nat.add_sub_cancel]
  rw [hInit]
  refine ⟨?_, ?_, ?_⟩
  · rw [h1]; rfl
  · rw [h1]; rfl
  · intro i hi
    exact h2 i (by unfold nDim at *; omega)

theorem Gt_yInv (ctx : Context F P CP) (yInv : F) (i : Nat) (hi : i < nDim) :
    Gt ctx (ModifierExpanded.Init
      ({ m_pMultiplier := Function.update (fun _ => none) 1 (some yInv) } : Modifier F)) 0 i
        = ctx.m_pGen_ 0 i ∧
    Gt ctx (ModifierExpanded.Init
      ({ m_pMultiplier := Function.update (fun _ => none) 1 (some yInv) } : Modifier F)) 1 i
        = yInv ^ i • ctx.m_pGen_ 1 i := by
  obtain ⟨h0, h1, h2⟩ := Init_yInv yInv
  unfold Gt ModifierExpanded.Set
  rw [h0, h1, h2 i hi]
  simp

theorem CoSign_A_eq (ctx : Context F P CP) (v : Nat) (comm : P) :
    (Confidential.CoSign_A ctx v comm).1
      = comm + sumRange nDim (fun i =>
          if amountBit v i = 0 then ctx.m_pGet1_Minus i else ctx.m_pGen_ 0 i) := by
  unfold Confidential.CoSign_A
  refine foldl_range_induction nDim _
    (fun n (s : P × P) => s.1 = comm + sumRange n (fun i =>
      if amountBit v i = 0 then ctx.m_pGet1_Minus i else ctx.m_pGen_ 0 i)) (comm, 0) ?_ ?_
  · show comm = comm + sumRange 0 _
    rw [sumRange_zero, add_zero]
  · intro i s _ hs
    dsimp only
    rw [sumRange_succ, ← add_assoc, ← hs]
    congr 1
    rcases amountBit_lt v i with h | h <;> simp [h, object_cmov]

theorem CoSign_A_hom (ctx : Context F P CP) (hMinus : ∀ i, i < nDim →
    ctx.m_pGet1_Minus i = -ctx.m_pGen_ 1 i) (v : Nat) (comm : P) :
    (Confidential.CoSign_A ctx v comm).1
      = comm + sumRange nDim (fun i => (bitF v i : F) • ctx.m_pGen_ 0 i)
        + sumRange nDim (fun i => ((bitF v i : F) - 1) • ctx.m_pGen_ 1 i) := by
  rw [CoSign_A_eq, add_assoc, ← sumRange_add]
  congr 1
  apply sumRange_congr
  intro i hi
  unfold bitF
  rcases amountBit_lt v i with h | h
  · simp [h, hMinus i hi]
  · simp [h]

theorem CoSign_S_row (ctx : Context F P CP) (j : Nat) (n : Nat)
    (s : NonceGenerator F CP × (Nat → Nat → F) × MultiMac F P) :
    ∃ ng pS mm, (List.range n).foldl
        (fun (s : NonceGenerator F CP × (Nat → Nat → F) × MultiMac F P) i =>
          let r := s.1.get ctx
          let pS := set2 s.2.1 j i r.1
          (r.2, pS, s.2.2.pushPrepared (ctx.m_pGen_ j i) (pS j i)))
        s = (ng, pS, mm) ∧
      (∀ j', j' ≠ j → pS j' = s.2.1 j') ∧
      mm.Calculate = s.2.2.Calculate + sumRange n (fun i => pS j i • ctx.m_pGen_ j i) := by
  induction n with
  | zero =>
    refine ⟨s.1, s.2.1, s.2.2, rfl, fun _ _ => rfl, ?_⟩
    rw [sumRange_zero, add_zero]
  | succ n ih =>
    obtain ⟨ng, pS, mm, h1, h2, h3⟩ := ih
    refine ⟨(ng.get ctx).2, set2 pS j n (ng.get ctx).1,
      mm.pushPrepared (ctx.m_pGen_ j n) (set2 pS j n (ng.get ctx).1 j n), ?_, ?_, ?_⟩
    · rw [List.range_succ, List.foldl_append, h1]
      rfl
    · intro j' hj'
      rw [set2_row _ _ _ _ _ hj']
      exact h2 j' hj'
    · rw [MultiMac.Calculate_pushPrepared, h3, sumRange_succ, add_assoc]
      congr 2
      apply sumRange_congr
      intro i hi
      rw [set2_col _ _ _ _ _ (by omega)]

theorem CoSign_S_eq (ctx : Context F P CP)
    (s : NonceGenerator F CP × (Nat → Nat → F) × MultiMac F P) :
    (Confidential.CoSign_S ctx s).2.2.Calculate
      = s.2.2.Calculate
        + sumRange nDim (fun i => (Confidential.CoSign_S ctx s).2.1 0 i • ctx.m_pGen_ 0 i)
        + sumRange nDim (fun i => (Confidential.CoSign_S ctx s).2.1 1 i • ctx.m_pGen_ 1 i) := by
  obtain ⟨ng0, pS0, mm0, a1, a2, a3⟩ := CoSign_S_row ctx 0 nDim s
  obtain ⟨ng1, pS1, mm1, b1, b2, b3⟩ := CoSign_S_row ctx 1 nDim (ng0, pS0, mm0)
  have h : Confidential.CoSign_S ctx s = (ng1, pS1, mm1) := by
    unfold Confidential.CoSign_S
    rw [foldl_range_two, a1, b1]
  rw [h]
  dsimp only at b2 b3 ⊢
  rw [b3, a3, b2 0 (by decide)]

theorem CoSign_t_eq (cs : Confidential.ChallengeSet F) (v : Nat) (pS : Nat → Nat → F) :
    (Confidential.CoSign_t cs v pS).t0
      = sumRange nDim (fun i => Confidential.l0 cs v i * Confidential.r0 cs v i) ∧
    (Confidential.CoSign_t cs v pS).t1
      = sumRange nDim (fun i => Confidential.l0 cs v i * (cs.y ^ i * pS 1 i)
          + pS 0 i * Confidential.r0 cs v i) ∧
    (Confidential.CoSign_t cs v pS).t2
      = sumRange nDim (fun i => pS 0 i * (cs.y ^ i * pS 1 i)) := by
  have key : ∀ n, ((List.range n).foldl
      (fun (s : Confidential.TState F) i =>
        let bit := amountBit v i
        let l0 := -cs.z
        let l0 := if bit ≠ 0 then l0 + 1 else l0
        let lx := pS 0 i
        let r0 := cs.z
        let r0 := if bit = 0 then r0 + -1 else r0
        let r0 := r0 * s.yPwr
        let r0 := r0 + s.zz_twoPwr
        let rx := s.yPwr
        let rx := rx * pS 1 i
        let zz_twoPwr := s.zz_twoPwr * 2
        let yPwr := s.yPwr * cs.y
        let t0 := s.t0 + l0 * r0
        let t1 := s.t1 + l0 * rx
        let t1 := t1 + lx * r0
        let t2 := s.t2 + lx * rx
        ({ t0 := t0, t1 := t1, t2 := t2, yPwr := yPwr, zz_twoPwr := zz_twoPwr }
          : Confidential.TState F))
      { t0 := 0, t1 := 0, t2 := 0, yPwr := 1, zz_twoPwr := cs.zz })
      = { t0 := sumRange n (fun i => Confidential.l0 cs v i * Confidential.r0 cs v i),
          t1 := sumRange n (fun i => Confidential.l0 cs v i * (cs.y ^ i * pS 1 i)
            + pS 0 i * Confidential.r0 cs v i),
          t2 := sumRange n (fun i => pS 0 i * (cs.y ^ i * pS 1 i)),
          yPwr := cs.y ^ n, zz_twoPwr := cs.zz * 2 ^ n } := by
    intro n
    induction n with
    | zero => simp [sumRange]
    | succ n ih =>
      rw [List.range_succ, List.foldl_append, ih]
      simp only [List.foldl_cons, List.foldl_nil, sumRange_succ, pow_succ]
      have hl : (if amountBit v n ≠ 0 then -cs.z + 1 else -cs.z) = Confidential.l0 cs v n := by
        unfold Confidential.l0 bitF
        split <;> simp
      have hr : (if amountBit v n = 0 then cs.z + -1 else cs.z) = cs.z + (bitF v n - 1) := by
        unfold bitF
        split <;> simp_all
      rw [hl, hr]
      unfold Confidential.r0
      congr 1 <;> ring
  unfold Confidential.CoSign_t
  rw [key nDim]
  exact ⟨rfl, rfl, rfl⟩

theorem CoSign_lr_eq (cs : Confidential.ChallengeSet F) (v : Nat) (pS : Nat → Nat → F) :
    ∀ i, i < nDim →
      (Confidential.CoSign_lr cs v pS).1 0 i = pS 0 i * cs.x + Confidential.l0 cs v i ∧
      (Confidential.CoSign_lr cs v pS).1 1 i
        = pS 1 i * cs.x * cs.y ^ i + Confidential.r0 cs v i := by
  have key : ∀ n, ∃ q : Nat → Nat → F, (List.range n).foldl
      (fun (s : (Nat → Nat → F) × F × F) i =>
        let bit := amountBit v i
        let pS := s.1
        let pS := set2 pS 0 i (pS 0 i * cs.x)
        let pS := set2 pS 0 i (pS 0 i + -cs.z)
        let pS := if bit ≠ 0 then set2 pS 0 i (pS 0 i + 1) else pS
        let pS := set2 pS 1 i (pS 1 i * cs.x)
        let pS := set2 pS 1 i (pS 1 i * s.2.1)
        let r0 := cs.z
        let r0 := if bit = 0 then r0 + -1 else r0
        let r0 := r0 * s.2.1
        let r0 := r0 + s.2.2
        let pS := set2 pS 1 i (pS 1 i + r0)
        (pS, s.2.1 * cs.y, s.2.2 * 2))
      (pS, 1, cs.zz) = (q, cs.y ^ n, cs.zz * 2 ^ n) ∧
      (∀ i, i < n → q 0 i = pS 0 i * cs.x + Confidential.l0 cs v i ∧
        q 1 i = pS 1 i * cs.x * cs.y ^ i + Confidential.r0 cs v i) ∧
      (∀ i, n ≤ i → q 0 i = pS 0 i ∧ q 1 i = pS 1 i) := by
    intro n
    induction n with
    | zero =>
      refine ⟨pS, by simp, ?_, fun _ _ => ⟨rfl, rfl⟩⟩
      intro i hi
      omega
    | succ n ih =>
      obtain ⟨q, h1, h2, h3⟩ := ih
      obtain ⟨q0, q1⟩ := h3 n (Nat.le_refl _)
      refine ⟨set2 (set2 q 0 n (pS 0 n * cs.x + Confidential.l0 cs v n)) 1 n
        (pS 1 n * cs.x * cs.y ^ n + Confidential.r0 cs v n), ?_, ?_, ?_⟩
      · rw [List.range_succ, List.foldl_append, h1]
        simp only [List.foldl_cons, List.foldl_nil, pow_succ, mul_assoc]
        have hr : (if amountBit v n = 0 then cs.z + -1 else cs.z) = cs.z + (bitF v n - 1) := by
          unfold bitF
          split <;> simp_all
        rw [hr]
        congr 1
        funext a b
        unfold Confidential.l0 Confidential.r0 bitF
        by_cases ha : a = 0
        · subst ha
          by_cases hb : b = n
          · subst hb
            split <;> simp [set2, Function.update, q0] <;> ring
          · split <;> simp [set2, Function.update, hb]
        · by_cases ha1 : a = 1
          · subst ha1
            by_cases hb : b = n
            · subst hb
              split <;> simp [set2, Function.update, q1] <;> ring
            · split <;> simp [set2, Function.update, hb]
          · split <;> simp [set2, Function.update, ha, ha1]
      · intro i hi
        by_cases hin : i = n
        · subst hin
          constructor
          · rw [set2_row _ _ _ _ _ (by decide), set2_same]
          · rw [set2_same]
        · obtain ⟨e0, e1⟩ := h2 i (by omega)
          constructor
          · rw [set2_row _ _ _ _ _ (by decide), set2_col _ _ _ _ _ hin]; exact e0
          · rw [set2_col _ _ _ _ _ hin, set2_row _ _ _ _ _ (by decide)]; exact e1
      · intro i hi
        obtain ⟨e0, e1⟩ := h3 i (by omega)
        have hin : i ≠ n + 1 - 1 := by omega
        constructor
        · rw [set2_row _ _ _ _ _ (by decide), set2_col _ _ _ _ _ (by omega)]; exact e0
        · rw [set2_col _ _ _ _ _ (by omega), set2_row _ _ _ _ _ (by decide)]; exact e1
  obtain ⟨q, h1, h2, -⟩ := key nDim
  unfold Confidential.CoSign_lr
  rw [h1]
  exact h2

theorem sumRange_lin3 {M : Type} [AddCommGroup M] [Module F M] (n : Nat) (a b c : F)
    (f g h : Nat → M) :
    sumRange n (fun i => a • f i + b • g i + c • h i)
      = a • sumRange n f + b • sumRange n g + c • sumRange n h := by
  induction n with
  | zero => simp [sumRange]
  | succ n ih =>
    simp only [sumRange_succ, ih]
    module

theorem honest_dot (cs : Confidential.ChallengeSet F) (v : Nat) (pS : Nat → Nat → F)
    (l r : Nat → F)
    (hl : ∀ i, i < nDim → l i = pS 0 i * cs.x + Confidential.l0 cs v i)
    (hr : ∀ i, i < nDim → r i = pS 1 i * cs.x * cs.y ^ i + Confidential.r0 cs v i) :
    (Confidential.CoSign_t cs v pS).t0 + (Confidential.CoSign_t cs v pS).t1 * cs.x
        + (Confidential.CoSign_t cs v pS).t2 * cs.x * cs.x
      = sumRange nDim (fun i => l i * r i) := by
  obtain ⟨h0, h1, h2⟩ := CoSign_t_eq cs v pS
  rw [h0, h1, h2]
  have h := sumRange_lin3 (F := F) (M := F) nDim 1 cs.x (cs.x * cs.x)
    (fun i => Confidential.l0 cs v i * Confidential.r0 cs v i)
    (fun i => Confidential.l0 cs v i * (cs.y ^ i * pS 1 i) + pS 0 i * Confidential.r0 cs v i)
    (fun i => pS 0 i * (cs.y ^ i * pS 1 i))
  simp only [smul_eq_mul] at h
  have e : sumRange nDim (fun i => l i * r i)
      = sumRange nDim (fun i => 1 * (Confidential.l0 cs v i * Confidential.r0 cs v i)
        + cs.x * (Confidential.l0 cs v i * (cs.y ^ i * pS 1 i)
            + pS 0 i * Confidential.r0 cs v i)
        + cs.x * cs.x * (pS 0 i * (cs.y ^ i * pS 1 i))) := by
    apply sumRange_congr
    intro i hi
    rw [hl i hi, hr i hi]
    ring
  rw [e, h]
  ring

theorem honest_t0 (cs : Confidential.ChallengeSet F) (hzz : cs.zz = cs.z * cs.z) (v : Nat)
    (hv : v < 2 ^ 64) (pS : Nat → Nat → F) :
    (Confidential.CoSign_t cs v pS).t0 = cs.zz * (v : F) + Confidential.Delta cs := by
  obtain ⟨h0, -, -⟩ := CoSign_t_eq cs v pS
  have hd := Delta_eq cs
  rw [h0, hd, ← sum_bitF v hv]
  have h := sumRange_lin3 (F := F) (M := F) nDim (cs.z - cs.z ^ 2) cs.zz (-(cs.z ^ 3))
    (fun i => cs.y ^ i) (fun i => (bitF v i : F) * 2 ^ i) (fun i => (2 : F) ^ i)
  simp only [smul_eq_mul] at h
  have e : sumRange nDim (fun i => Confidential.l0 cs v i * Confidential.r0 cs v i)
      = sumRange nDim (fun i => (cs.z - cs.z ^ 2) * cs.y ^ i + cs.zz * ((bitF v i : F) * 2 ^ i)
          + -(cs.z ^ 3) * (2 : F) ^ i) := by
    apply sumRange_congr
    intro i _
    unfold Confidential.l0 Confidential.r0
    rw [hzz]
    linear_combination (cs.y ^ i) * bitF_sq (F := F) v i
  rw [e, h]
  ring

theorem AddInfo2_eq (msig : MultiSig F) (sk : F) (cs : Confidential.ChallengeSet F) :
    msig.AddInfo2 sk cs = msig.m_tau2 * cs.x * cs.x + msig.m_tau1 * cs.x + cs.zz * sk := rfl

theorem honest_E1 (ctx : Context F P CP) (self : Confidential F CP)
    (cs : Confidential.ChallengeSet F) (tauA tauB skT t0 t1 t2 vF : F)
    (hTau : self.m_Part3.m_TauX = tauB * cs.x * cs.x + tauA * cs.x + cs.z * cs.z * skT)
    (hdot : self.m_tDot = t0 + t1 * cs.x + t2 * cs.x * cs.x)
    (ht0 : t0 = cs.z * cs.z * vF + Confidential.Delta cs) :
    Equation1Sum ctx self (skT • ctx.G + vF • ctx.H) (tauA • ctx.G + t1 • ctx.H)
      (tauB • ctx.G + t2 • ctx.H) cs = 0 := by
  unfold Equation1Sum
  rw [hTau, hdot, ht0]
  module

theorem honest_E2 (ctx : Context F P CP)
    (hAux : ctx.m_Aux2_ = -sumRange nDim (fun i => ctx.m_pGen_ 0 i))
    (cs : Confidential.ChallengeSet F) (hy : cs.y ≠ 0) (hzz : cs.zz = cs.z * cs.z) (v : Nat)
    (pS : Nat → Nat → F) (alpha ro mu : F) (l r : Nat → F)
    (hl : ∀ i, i < nDim → l i = pS 0 i * cs.x + Confidential.l0 cs v i)
    (hr : ∀ i, i < nDim → r i = pS 1 i * cs.x * cs.y ^ i + Confidential.r0 cs v i)
    (A S : P)
    (hA : A = alpha • ctx.G + sumRange nDim (fun i => (bitF v i : F) • ctx.m_pGen_ 0 i)
      + sumRange nDim (fun i => ((bitF v i : F) - 1) • ctx.m_pGen_ 1 i))
    (hS : S = ro • ctx.G + sumRange nDim (fun i => pS 0 i • ctx.m_pGen_ 0 i)
      + sumRange nDim (fun i => pS 1 i • ctx.m_pGen_ 1 i))
    (hmu : mu = ro * cs.x + alpha) :
    cs.z • ctx.m_Aux2_ + (-mu) • ctx.G + cs.x • S
        + sumRange nDim (fun i => (cs.z * cs.z * (2 * cs.y⁻¹) ^ i + cs.z) • ctx.m_pGen_ 1 i)
        + A
        - InnerProduct.Commitment ctx
            { m_pMultiplier := Function.update (fun _ => none) 1 (some cs.y⁻¹) } l r = 0 := by
  have e0 : sumRange nDim (fun i => l i • Gt ctx (ModifierExpanded.Init
        ({ m_pMultiplier := Function.update (fun _ => none) 1 (some cs.y⁻¹) } : Modifier F)) 0 i)
      = cs.x • sumRange nDim (fun i => pS 0 i • ctx.m_pGen_ 0 i)
        + (-cs.z) • sumRange nDim (fun i => ctx.m_pGen_ 0 i)
        + (1 : F) • sumRange nDim (fun i => (bitF v i : F) • ctx.m_pGen_ 0 i) := by
    rw [← sumRange_lin3]
    apply sumRange_congr
    intro i hi
    rw [(Gt_yInv ctx cs.y⁻¹ i hi).1, hl i hi]
    unfold Confidential.l0
    module
  have e1 : sumRange nDim (fun i => r i • Gt ctx (ModifierExpanded.Init
        ({ m_pMultiplier := Function.update (fun _ => none) 1 (some cs.y⁻¹) } : Modifier F)) 1 i)
      = cs.x • sumRange nDim (fun i => pS 1 i • ctx.m_pGen_ 1 i)
        + (1 : F) • sumRange nDim (fun i => ((bitF v i : F) - 1) • ctx.m_pGen_ 1 i)
        + (1 : F) • sumRange nDim
            (fun i => (cs.z * cs.z * (2 * cs.y⁻¹) ^ i + cs.z) • ctx.m_pGen_ 1 i) := by
    rw [← sumRange_lin3]
    apply sumRange_congr
    intro i hi
    rw [(Gt_yInv ctx cs.y⁻¹ i hi).2, hr i hi, smul_smul]
    have hyi : cs.y ^ i * cs.y⁻¹ ^ i = 1 := by
      rw [← mul_pow, mul_inv_cancel₀ hy, one_pow]
    have hs : (pS 1 i * cs.x * cs.y ^ i + Confidential.r0 cs v i) * cs.y⁻¹ ^ i
        = cs.x * pS 1 i + ((bitF v i : F) - 1) + (cs.z * cs.z * (2 * cs.y⁻¹) ^ i + cs.z) := by
      unfold Confidential.r0
      rw [hzz, mul_pow]
      linear_combination (pS 1 i * cs.x + cs.z + ((bitF v i : F) - 1)) * hyi
    rw [hs]
    module
  unfold InnerProduct.Commitment
  rw [e0, e1, hAux, hA, hS, hmu]
  module

theorem IsValid_LR_true (ctx : Context F P CP) (self : InnerProduct F CP) (cs : ChallengeSet F)
    (iCycle : Nat) :
    ∀ (js : List Nat) (o : Oracle F CP) (bc : BatchContext F P),
      (InnerProduct.IsValid_LR ctx self cs iCycle js o bc).1 = true →
      ∀ j, j ∈ js → (ctx.Import (self.m_pLR iCycle j)).isSome := by
  intro js
  induction js with
  | nil => intro o bc _ j hj; exact absurd hj (List.not_mem_nil j)
  | cons j0 js ih =>
    intro o bc h j hj
    rw [InnerProduct.IsValid_LR] at h
    cases himp : ctx.Import (self.m_pLR iCycle j0) with
    | none =>
      rw [AddCasualP_none _ _ _ _ himp] at h
      simp at h
    | some p =>
      rw [AddCasualP_some _ _ _ _ _ himp] at h
      simp only [Bool.not_true, Bool.false_eq_true, if_false] at h
      rcases List.mem_cons.mp hj with rfl | hj'
      · rw [himp]; rfl
      · exact ih _ _ h j hj'

theorem IsValid_cycles_true (ctx : Context F P CP) (fuel : Nat) (self : InnerProduct F CP) :
    ∀ (ks : List Nat) (cs : ChallengeSet F) (o : Oracle F CP) (bc : BatchContext F P)
      (r : ChallengeSet F × Oracle F CP × BatchContext F P),
      InnerProduct.IsValid_cycles ctx fuel self ks cs o bc = some (true, r) →
      ∀ k, k ∈ ks → ∀ j, j < 2 → (ctx.Import (self.m_pLR k j)).isSome := by
  intro ks
  induction ks with
  | nil => intro cs o bc r _ k hk; exact absurd hk (List.not_mem_nil k)
  | cons k0 ks ih =>
    intro cs o bc r h k hk j hj
    rw [InnerProduct.IsValid_cycles] at h
    cases hch : get_Challenge ctx fuel o with
    | none => rw [hch] at h; simp at h
    | some x =>
      rw [hch] at h
      dsimp only at h
      by_cases hlr : (InnerProduct.IsValid_LR ctx self
          { cs with m_Val := set2 (set2 cs.m_Val k0 0 x.1.1) k0 1 x.1.2 } k0 (List.range 2)
          x.2 bc).1 = true
      · rw [if_neg (by rw [hlr]; simp)] at h
        rcases List.mem_cons.mp hk with rfl | hk'
        · exact IsValid_LR_true ctx self _ k _ _ _ hlr j (List.mem_range.mpr hj)
        · exact ih _ _ _ r h k hk' j hj
      · rw [if_pos (by simpa using hlr)] at h
        simp at h

theorem IsValidOracle_true (ctx : Context F P CP) (fuel : Nat) (self : InnerProduct F CP)
    (bc : BatchContext F P) (oracle : Oracle F CP) (dotAB : F) (mod : Modifier F)
    (r : Oracle F CP × BatchContext F P)
    (h : InnerProduct.IsValidOracle ctx fuel self bc oracle dotAB mod = some (true, r)) :
    ∀ k, k < nCycles → ∀ j, j < 2 → (ctx.Import (self.m_pLR k j)).isSome := by
  unfold InnerProduct.IsValidOracle at h
  dsimp only [Oracle.get] at h
  cases hc : InnerProduct.IsValid_cycles ctx fuel self (List.range nCycles)
      { m_DotMultiplier := ctx.squeeze (Item.scalar dotAB :: oracle), m_Val := fun _ _ => 0 }
      (Item.out :: Item.scalar dotAB :: oracle) bc with
  | none => rw [hc] at h; simp at h
  | some q =>
    rw [hc] at h
    dsimp only at h
    obtain ⟨b, q'⟩ := q
    cases b with
    | false => simp at h
    | true =>
      intro k hk j hj
      exact IsValid_cycles_true ctx fuel self _ _ _ _ q' hc k (List.mem_range.mpr hk) j hj

theorem CoSign_tail_valid (ctx : Context F P CP) (hctx : ctx.Ok) (fuel : Nat) (hfuel : 0 < fuel)
    (self : Confidential F CP) (sk : F) (v : Nat) (hv : v < 2 ^ 64) (oracle : Oracle F CP)
    (ePhase : Phase) (hP1 : self.m_Part1 = Confidential.CoSign_Part1 ctx sk v)
    (tauA tauB skT : F)
    (hT1 : ctx.Import self.m_Part2.m_T1
      = some (tauA • ctx.G + (Confidential.CoSign_tt ctx sk v oracle).t1 • ctx.H))
    (hT2 : ctx.Import self.m_Part2.m_T2
      = some (tauB • ctx.G + (Confidential.CoSign_tt ctx sk v oracle).t2 • ctx.H))
    (hTau : (if Phase.SinglePass ≠ ePhase then
          (Confidential.CoSign_msig ctx sk v).AddInfo2 sk
            (Confidential.Challenges ctx self oracle).1 + self.m_Part3.m_TauX
        else (Confidential.CoSign_msig ctx sk v).AddInfo2 sk
            (Confidential.Challenges ctx self oracle).1)
      = tauB * (Confidential.Challenges ctx self oracle).1.x
          * (Confidential.Challenges ctx self oracle).1.x
        + tauA * (Confidential.Challenges ctx self oracle).1.x
        + (Confidential.Challenges ctx self oracle).1.z
          * (Confidential.Challenges ctx self oracle).1.z * skT) :
    ∃ proof o', Confidential.CoSign_tail ctx fuel self sk v
          (Confidential.CoSign_cs1 ctx sk v oracle).2 ePhase
          (Confidential.CoSign_cs1 ctx sk v oracle).1 (Confidential.CoSign_tt ctx sk v oracle)
          (Confidential.CoSign_msig ctx sk v) (Confidential.CoSign_alpha ctx sk v).1
          (Confidential.CoSign_ro ctx sk v).1 (Confidential.CoSign_pS ctx sk v)
        = some (true, proof, o') ∧
      proof.m_Part1 = self.m_Part1 ∧ proof.m_Part2 = self.m_Part2 ∧
      proof.m_Mu = (Confidential.CoSign_ro ctx sk v).1
          * (Confidential.Challenges ctx self oracle).1.x
        + (Confidential.CoSign_alpha ctx sk v).1 ∧
      proof.m_tDot = (Confidential.CoSign_tt ctx sk v oracle).t0
        + (Confidential.CoSign_tt ctx sk v oracle).t1
            * (Confidential.Challenges ctx self oracle).1.x
        + (Confidential.CoSign_tt ctx sk v oracle).t2
            * (Confidential.Challenges ctx self oracle).1.x
            * (Confidential.Challenges ctx self oracle).1.x ∧
      proof.m_tDot = get_Dot (Confidential.CoSign_vec ctx self sk v oracle 0)
        (Confidential.CoSign_vec ctx self sk v oracle 1) ∧
      Confidential.Valid ctx fuel proof (skT • ctx.G + (v : F) • ctx.H) oracle ∧
      ∃ Eip, ∀ bc : BatchContext F P, ∃ bc',
        InnerProduct.IsValidOracle ctx fuel proof.m_P_Tag bc
            (Confidential.Challenges ctx proof oracle).2 proof.m_tDot
            { m_pMultiplier := Function.update (fun _ => none) 1
                (some (Confidential.Challenges ctx proof oracle).1.y⁻¹) }
          = some (true, o', bc') ∧ BatchContext.Adds ctx bc bc' (2 * nCycles) Eip := by
  obtain ⟨hIdx, hIE, hAux, hMinus, hsq⟩ := hctx
  -- the challenges
  obtain ⟨cs, hcs⟩ : ∃ cs, cs = (Confidential.Challenges ctx self oracle).1 := ⟨_, rfl⟩
  obtain ⟨oc, hoc⟩ : ∃ oc, oc = (Confidential.Challenges ctx self oracle).2 := ⟨_, rfl⟩
  have hInit : (Confidential.CoSign_cs1 ctx sk v oracle).1.Init2 ctx self.m_Part2
      (Confidential.CoSign_cs1 ctx sk v oracle).2 = (cs, oc) := by
    rw [hcs, hoc]
    unfold Confidential.Challenges Confidential.CoSign_cs1
    rw [hP1]
  have hzz : cs.zz = cs.z * cs.z := by
    have : cs = ((Confidential.CoSign_cs1 ctx sk v oracle).1.Init2 ctx self.m_Part2
      (Confidential.CoSign_cs1 ctx sk v oracle).2).1 := by rw [hInit]
    rw [this]; rfl
  have hy : cs.y ≠ 0 := by
    have : cs = ((Confidential.CoSign_cs1 ctx sk v oracle).1.Init2 ctx self.m_Part2
      (Confidential.CoSign_cs1 ctx sk v oracle).2).1 := by rw [hInit]
    rw [this]
    exact hsq _
  have htt : Confidential.CoSign_tt ctx sk v oracle
      = Confidential.CoSign_t cs v (Confidential.CoSign_pS ctx sk v) := by
    have : cs = ((Confidential.CoSign_cs1 ctx sk v oracle).1.Init2 ctx self.m_Part2
      (Confidential.CoSign_cs1 ctx sk v oracle).2).1 := by rw [hInit]
    rw [this]; rfl
  rw [← hcs] at hTau ⊢
  -- the vectors
  obtain ⟨lr, hlr⟩ : ∃ lr, lr = (Confidential.CoSign_lr cs v
      (Confidential.CoSign_pS ctx sk v)).1 := ⟨_, rfl⟩
  have hvec : Confidential.CoSign_vec ctx self sk v oracle = lr := by
    unfold Confidential.CoSign_vec
    rw [hInit, hlr]
  have hl : ∀ i, i < nDim → lr 0 i
      = Confidential.CoSign_pS ctx sk v 0 i * cs.x + Confidential.l0 cs v i :=
    fun i hi => by rw [hlr]; exact (CoSign_lr_eq cs v _ i hi).1
  have hr : ∀ i, i < nDim → lr 1 i
      = Confidential.CoSign_pS ctx sk v 1 i * cs.x * cs.y ^ i + Confidential.r0 cs v i :=
    fun i hi => by rw [hlr]; exact (CoSign_lr_eq cs v _ i hi).2
  obtain ⟨tDot, htDot⟩ : ∃ tDot, tDot = (Confidential.CoSign_tt ctx sk v oracle).t0
      + (Confidential.CoSign_tt ctx sk v oracle).t1 * cs.x
      + (Confidential.CoSign_tt ctx sk v oracle).t2 * cs.x * cs.x := ⟨_, rfl⟩
  have hdot : tDot = sumRange nDim (fun i => lr 0 i * lr 1 i) := by
    rw [htDot, htt]
    exact honest_dot cs v _ (lr 0) (lr 1) hl hr
  -- the inner product
  obtain ⟨ip, o', hcreate, hver⟩ := Create_IsValidOracle ctx hIdx hIE hsq fuel hfuel
    self.m_P_Tag oc false tDot (lr 0) (lr 1)
    { m_pMultiplier := Function.update (fun _ => none) 1 (some cs.y⁻¹) }
  simp only [Bool.false_eq_true, if_false] at hcreate hver
  obtain ⟨proof, hproof⟩ : ∃ proof : Confidential F CP, proof =
      { m_Part1 := self.m_Part1, m_Part2 := self.m_Part2,
        m_Part3 := { m_TauX := tauB * cs.x * cs.x + tauA * cs.x + cs.z * cs.z * skT },
        m_Mu := (Confidential.CoSign_ro ctx sk v).1 * cs.x
          + (Confidential.CoSign_alpha ctx sk v).1,
        m_tDot := tDot, m_P_Tag := ip } := ⟨_, rfl⟩
  have hChal : Confidential.Challenges ctx proof oracle = (cs, oc) := by
    rw [hcs, hoc, hproof]; rfl
  have hip : ∀ bc : BatchContext F P, ∃ bc',
      InnerProduct.IsValidOracle ctx fuel proof.m_P_Tag bc
          (Confidential.Challenges ctx proof oracle).2 proof.m_tDot
          { m_pMultiplier := Function.update (fun _ => none) 1
              (some (Confidential.Challenges ctx proof oracle).1.y⁻¹) }
        = some (true, o', bc') ∧ BatchContext.Adds ctx bc bc' (2 * nCycles)
          (-InnerProduct.Commitment ctx
            { m_pMultiplier := Function.update (fun _ => none) 1 (some cs.y⁻¹) }
            (lr 0) (lr 1)) := by
    intro bc
    obtain ⟨terms, kp, h1, h2, h3⟩ := hver bc
    rw [hChal]
    refine ⟨_, by rw [hproof]; exact h1, terms, kp, rfl, h2, ?_⟩
    rw [h3, hdot, sub_self, mul_zero, zero_smul, zero_sub]
  refine ⟨proof, o', ?_, by rw [hproof], by rw [hproof], by rw [hproof],
    by rw [hproof]; exact htDot, ?_, ?_, _, hip⟩
  · unfold Confidential.CoSign_tail
    lift_lets
    extract_lets rc cs' oracle' l0 l1 self1 l2 l3 l4 self2 l5 r0 r1 l6 r2 r3 r4 l7 self3 pS'
      yPwr mod
    have e1 : rc = (cs, oc) := hInit
    have ecs : cs' = cs := by show rc.1 = cs; rw [e1]
    have eo : oracle' = oc := by show rc.2 = oc; rw [e1]
    have el1 : l1 = tauB * cs.x * cs.x + tauA * cs.x + cs.z * cs.z * skT := by
      rw [← hTau, ← ecs]
    have el4 : l4 = (Confidential.CoSign_ro ctx sk v).1 * cs.x
        + (Confidential.CoSign_alpha ctx sk v).1 := by rw [← ecs]
    have el7 : l7 = tDot := by rw [htDot, ← ecs]
    have epS : pS' = lr := by rw [hlr, ← ecs]
    have emod : mod = { m_pMultiplier := Function.update (fun _ => none) 1 (some cs.y⁻¹) } := by
      rw [← ecs]
    have es3 : self3.m_P_Tag = self.m_P_Tag := rfl
    have hco : InnerProduct.CreateOracle ctx fuel self3.m_P_Tag oracle' l7 (pS' 0) (pS' 1) mod
        = some (ip, o') := by
      rw [es3, eo, el7, epS, emod]
      unfold InnerProduct.CreateOracle
      rw [hcreate]
    rw [hco]
    dsimp only
    have es : ({ self3 with m_P_Tag := ip } : Confidential F CP) = proof := by
      rw [hproof, ← el1, ← el4, ← el7]
    rw [es]
  · rw [hvec, get_Dot_eq, hproof]
    exact hdot
  · -- validity
    have hA : ctx.Import proof.m_Part1.m_A
        = some (Confidential.CoSign_A ctx v
            ((Confidential.CoSign_alpha ctx sk v).1 • ctx.G)).1 := by
      rw [hproof]
      show ctx.Import self.m_Part1.m_A = _
      rw [hP1]
      exact hIE _
    have hS : ctx.Import proof.m_Part1.m_S
        = some (Confidential.CoSign_rs ctx sk v).2.2.Calculate := by
      rw [hproof]
      show ctx.Import self.m_Part1.m_S = _
      rw [hP1]
      exact hIE _
    have hT1' : ctx.Import proof.m_Part2.m_T1 = some (tauA • ctx.G
        + (Confidential.CoSign_tt ctx sk v oracle).t1 • ctx.H) := by rw [hproof]; exact hT1
    have hT2' : ctx.Import proof.m_Part2.m_T2 = some (tauB • ctx.G
        + (Confidential.CoSign_tt ctx sk v oracle).t2 • ctx.H) := by rw [hproof]; exact hT2
    refine ⟨by rw [hA]; rfl, by rw [hS]; rfl, by rw [hT1']; rfl, by rw [hT2']; rfl, ?_, ?_, ?_⟩
    · obtain ⟨bc', hrun, -⟩ := hip (BatchContext.init 0)
      exact IsValidOracle_true ctx fuel _ _ _ _ _ _ hrun
    · rw [Equation1Value_eq ctx hIdx proof _ _ _ oracle hT1' hT2', hChal]
      apply honest_E1 ctx proof cs tauA tauB skT (Confidential.CoSign_tt ctx sk v oracle).t0
      · rw [hproof]
      · rw [hproof]; exact htDot
      · rw [htt, honest_t0 cs hzz v hv, hzz]
    · rw [Equation2Value_eq ctx hIdx fuel proof oracle _ hS o' _ hip, hChal]
      unfold Equation2Outer
      rw [hA]
      dsimp only
      have h := honest_E2 ctx hAux cs hy hzz v (Confidential.CoSign_pS ctx sk v)
        (Confidential.CoSign_alpha ctx sk v).1 (Confidential.CoSign_ro ctx sk v).1
        proof.m_Mu (lr 0) (lr 1) hl hr
        (Confidential.CoSign_A ctx v ((Confidential.CoSign_alpha ctx sk v).1 • ctx.G)).1
        (Confidential.CoSign_rs ctx sk v).2.2.Calculate
        (CoSign_A_hom ctx hMinus v _)
        (by
          unfold Confidential.CoSign_pS Confidential.CoSign_rs
          rw [CoSign_S_eq]
          dsimp only
          rw [MultiMac.Calculate_pushPrepared, MultiMac.Calculate_Reset, zero_add])
        (by rw [hproof])
      rw [sub_eq_add_neg] at h
      exact h

theorem IsValid_of_Valid (ctx : Context F P CP) (hIdx : ctx.IdxOk) (fuel : Nat)
    (proof : Confidential F CP) (commitment : P) (oracle : Oracle F CP)
    (hvalid : Confidential.Valid ctx fuel proof commitment oracle) (o' : Oracle F CP) (Eip : P)
    (hip : ∀ bc : BatchContext F P, ∃ bc',
      InnerProduct.IsValidOracle ctx fuel proof.m_P_Tag bc
          (Confidential.Challenges ctx proof oracle).2 proof.m_tDot
          { m_pMultiplier := Function.update (fun _ => none) 1
              (some (Confidential.Challenges ctx proof oracle).1.y⁻¹) }
        = some (true, o', bc') ∧ BatchContext.Adds ctx bc bc' (2 * nCycles) Eip) :
    Confidential.IsValid ctx fuel proof none commitment oracle = some (true, o', none) := by
  obtain ⟨vA, vS, vT1, vT2, vLR, vE1, vE2⟩ := hvalid
  obtain ⟨S, hS⟩ := Option.isSome_iff_exists.mp vS
  obtain ⟨T1, h1⟩ := Option.isSome_iff_exists.mp vT1
  obtain ⟨T2, h2⟩ := Option.isSome_iff_exists.mp vT2
  obtain ⟨bc', hr, hc, -, -, -, hd, -⟩ := IsValidBc_batch_fits ctx hIdx fuel proof commitment
    oracle { (BatchContextEx 1 : BatchContext F P) with m_bEnableBatch := true } T1 T2 S h1 h2 hS
    o' Eip hip rfl
    (by show 0 + s_CasualCountPerProof ≤ 1 * s_CasualCountPerProof; decide)
    (by show 1 * s_CasualCountPerProof < 2 ^ 32; decide)
  have hz : bc'.Calculate ctx = 0 := by
    rw [hc, vE1, vE2, smul_zero, smul_zero, add_zero, add_zero]
    exact Calculate_init ctx (1 * s_CasualCountPerProof)
  unfold Confidential.IsValid
  dsimp only
  rw [hr]
  dsimp only
  simp [BatchContext.Flush, hd, hz]

theorem Create_honest (ctx : Context F P CP) (hctx : ctx.Ok) (fuel : Nat)
    (hfuel : 0 < fuel) (self : Confidential F CP) (sk : F) (v : Nat) (hv : v < 2 ^ 64)
    (oracle : Oracle F CP) :
    ∃ proof o', Confidential.Create ctx fuel self sk v oracle = some (true, proof, o') ∧
      proof.m_Part1 = Confidential.CoSign_Part1 ctx sk v ∧
      proof.m_Part2 =
        { m_T1 := ctx.Export ((Confidential.CoSign_msig ctx sk v).m_tau1 • ctx.G
            + (Confidential.CoSign_tt ctx sk v oracle).t1 • ctx.H),
          m_T2 := ctx.Export ((Confidential.CoSign_msig ctx sk v).m_tau2 • ctx.G
            + (Confidential.CoSign_tt ctx sk v oracle).t2 • ctx.H) } ∧
      Confidential.Valid ctx fuel proof (sk • ctx.G + (v : F) • ctx.H) oracle ∧
      ∃ Eip, ∀ bc : BatchContext F P, ∃ bc',
        InnerProduct.IsValidOracle ctx fuel proof.m_P_Tag bc
            (Confidential.Challenges ctx proof oracle).2 proof.m_tDot
            { m_pMultiplier := Function.update (fun _ => none) 1
                (some (Confidential.Challenges ctx proof oracle).1.y⁻¹) }
          = some (true, o', bc') ∧ BatchContext.Adds ctx bc bc' (2 * nCycles) Eip := by
  have hIE := hctx.2.1
  obtain ⟨proof, o', hrun, hp1, hp2, -, -, -, hvalid, Eip, hip⟩ := CoSign_tail_valid ctx hctx
    fuel hfuel
    { self with
      m_Part1 := Confidential.CoSign_Part1 ctx sk v
      m_Part2 :=
        { m_T1 := ctx.Export ((Confidential.CoSign_msig ctx sk v).m_tau1 • ctx.G
            + (Confidential.CoSign_tt ctx sk v oracle).t1 • ctx.H),
          m_T2 := ctx.Export ((Confidential.CoSign_msig ctx sk v).m_tau2 • ctx.G
            + (Confidential.CoSign_tt ctx sk v oracle).t2 • ctx.H) } }
    sk v hv oracle Phase.SinglePass rfl (Confidential.CoSign_msig ctx sk v).m_tau1
    (Confidential.CoSign_msig ctx sk v).m_tau2 sk (hIE _) (hIE _)
    (by rw [if_neg (by decide), AddInfo2_eq]; rfl)
  refine ⟨proof, o', ?_, hp1, hp2, hvalid, Eip, hip⟩
  unfold Confidential.Create
  rw [CoSign_eq]
  unfold Confidential.CoSign_Part2
  rw [if_pos (by decide), if_neg (by decide)]
  dsimp only
  rw [if_neg (by decide)]
  exact hrun

/-- C1. Range-proof round trip: in a context as the code assumes it, for every value
`v < 2^64`, every blinding scalar `sk`, every transcript state and every prior content of the
proof object, `Create(sk, v, oracle)` returns a proof, and `IsValid(commitment, oracle)` with no
ambient batch context, run on the commitment `sk*G + v*H` and the same transcript state,
returns `true` (so both equations cancel at the final `Flush`) and ends in the transcript state
the prover ended in. -/
theorem RangeProof_roundtrip (ctx : Context F P CP) (hctx : ctx.Ok) (fuel : Nat)
    (hfuel : 0 < fuel) (self : Confidential F CP) (sk : F) (v : Nat) (hv : v < 2 ^ 64)
    (oracle : Oracle F CP) :
    ∃ proof o', Confidential.Create ctx fuel self sk v oracle = some (true, proof, o') ∧
      Confidential.IsValid ctx fuel proof none (sk • ctx.G + (v : F) • ctx.H) oracle
        = some (true, o', none) := by
  obtain ⟨proof, o', hrun, -, -, hvalid, Eip, hip⟩ := Create_honest ctx hctx fuel hfuel self sk
    v hv oracle
  exact ⟨proof, o', hrun, IsValid_of_Valid ctx hctx.1 fuel proof _ oracle hvalid o' Eip hip⟩

theorem Example_ctx_Ok : Example.ctx.Ok := by
  refine ⟨by decide, fun _ => rfl, ?_, fun _ _ => (by decide : (4 : ZMod 7) = -3),
    fun _ => (by decide : (1 : ZMod 7) ≠ 0)⟩
  show (4 : ZMod 7) = -sumRange nDim (fun _ => (3 : ZMod 7))
  decide

theorem RangeProof_roundtrip_witness :
    Example.ctx.Ok ∧ 0 < 1 ∧ 2 ^ 64 - 1 < 2 ^ 64 ∧
    ∃ proof o', Confidential.Create Example.ctx 1 Example.proofZero 3 (2 ^ 64 - 1) []
        = some (true, proof, o') ∧
      Confidential.IsValid Example.ctx 1 proof none
          ((3 : ZMod 7) • Example.ctx.G + ((2 ^ 64 - 1 : Nat) : ZMod 7) • Example.ctx.H) []
        = some (true, o', none) :=
  ⟨Example_ctx_Ok, by decide, by decide,
    RangeProof_roundtrip Example.ctx Example_ctx_Ok 1 (by decide) Example.proofZero 3
      (2 ^ 64 - 1) (by decide) []⟩

theorem Honest_Valid (ctx : Context F P CP) (hctx : ctx.Ok) (fuel : Nat)
    (hfuel : 0 < fuel) (self : Confidential F CP) (sk : F) (v : Nat) (hv : v < 2 ^ 64)
    (oracle : Oracle F CP) :
    Confidential.Valid ctx fuel (Confidential.Honest ctx fuel self sk v oracle).1
      (Confidential.Honest ctx fuel self sk v oracle).2.1
      (Confidential.Honest ctx fuel self sk v oracle).2.2 := by
  obtain ⟨proof, o', hrun, -, -, hvalid, -⟩ := Create_honest ctx hctx fuel hfuel self sk v hv
    oracle
  unfold Confidential.Honest
  rw [hrun]
  exact hvalid

theorem batch_complete_witness :
    Example.ctx.IdxOk ∧ (∀ o, Example.ctx.squeeze o ≠ 0) ∧ 0 < 1 ∧ 0 < 2 ∧
    2 * s_CasualCountPerProof + 3 < 2 ^ 32 ∧
    (∀ x, x ∈ Example.honestList → Confidential.Valid Example.ctx 1 x.1 x.2.1 x.2.2) ∧
    ∃ bc', Confidential.IsValidAll Example.ctx 1 Example.honestList
        { (BatchContextEx 2 : BatchContext (ZMod 7) (ZMod 7)) with m_bEnableBatch := true }
        = some (true, bc') ∧
      (bc'.Flush Example.ctx).1 = true ∧ bc'.m_CasualOverflow = false ∧ bc'.m_WontFit = false ∧
      bc'.m_AssertFailed = false := by
  have hv : ∀ x, x ∈ Example.honestList →
      Confidential.Valid Example.ctx 1 x.1 x.2.1 x.2.2 := by
    intro x hx
    simp only [Example.honestList, List.mem_cons, List.mem_singleton, List.not_mem_nil,
      or_false] at hx
    rcases hx with rfl | rfl | rfl
    · exact Honest_Valid Example.ctx Example_ctx_Ok 1 (by decide) _ _ _ (by decide) _
    · exact Honest_Valid Example.ctx Example_ctx_Ok 1 (by decide) _ _ _ (by decide) _
    · exact Honest_Valid Example.ctx Example_ctx_Ok 1 (by decide) _ _ _ (by decide) _
  exact ⟨by decide, fun _ => (by decide : (1 : ZMod 7) ≠ 0), by decide, by decide, by decide, hv,
    batch_complete Example.ctx (by decide) (fun _ => (by decide : (1 : ZMod 7) ≠ 0)) 1
      (by decide) 2 (by decide) (by decide) Example.honestList hv⟩

theorem IsValid_cycles_log (ctx : Context F P CP) (hsq : ∀ o, ctx.squeeze o ≠ 0) (fuel : Nat)
    (hfuel : 0 < fuel) (self : InnerProduct F CP) :
    ∀ (ks : List Nat) (cs : ChallengeSet F) (o : Oracle F CP) (bc : BatchContext F P)
      (cs' : ChallengeSet F) (o' : Oracle F CP) (bc' : BatchContext F P),
      InnerProduct.IsValid_cycles ctx fuel self ks cs o bc = some (true, cs', o', bc') →
      o' = InnerProduct.roundsLog self ks o := by
  intro ks
  induction ks with
  | nil =>
    intro cs o bc cs' o' bc' h
    simp only [InnerProduct.IsValid_cycles, Option.some.injEq, Prod.mk.injEq, true_and] at h
    rw [← h.2.1]; rfl
  | cons k0 ks ih =>
    intro cs o bc cs' o' bc' h
    rw [InnerProduct.IsValid_cycles, get_Challenge_of_ne ctx hsq fuel hfuel o] at h
    dsimp only at h
    by_cases hlr : (InnerProduct.IsValid_LR ctx self
        { cs with m_Val := set2 (set2 cs.m_Val k0 0 (ctx.squeeze o)) k0 1 (ctx.squeeze o)⁻¹ }
        k0 (List.range 2) (Item.out :: o) bc).1 = true
    · have himp := IsValid_LR_true ctx self _ k0 _ _ _ hlr
      obtain ⟨L, hL⟩ := Option.isSome_iff_exists.mp (himp 0 (by decide))
      obtain ⟨R, hR⟩ := Option.isSome_iff_exists.mp (himp 1 (by decide))
      rw [IsValid_LR_two ctx self _ k0 _ bc L R hL hR] at h
      dsimp only at h
      simp only [Bool.not_true, Bool.false_eq_true, if_false] at h
      rw [InnerProduct.roundsLog]
      exact ih _ _ _ _ _ _ h
    · rw [if_pos (by simpa using hlr)] at h
      simp at h

theorem IsValidOracle_log (ctx : Context F P CP) (hsq : ∀ o, ctx.squeeze o ≠ 0) (fuel : Nat)
    (hfuel : 0 < fuel) (self : InnerProduct F CP) (bc : BatchContext F P)
    (oracle : Oracle F CP) (dotAB : F) (mod : Modifier F) (o' : Oracle F CP)
    (bc' : BatchContext F P)
    (h : InnerProduct.IsValidOracle ctx fuel self bc oracle dotAB mod = some (true, o', bc')) :
    o' = InnerProduct.roundsLog self (List.range nCycles)
      (Item.out :: Item.scalar dotAB :: oracle) := by
  unfold InnerProduct.IsValidOracle at h
  dsimp only [Oracle.get] at h
  cases hc : InnerProduct.IsValid_cycles ctx fuel self (List.range nCycles)
      { m_DotMultiplier := ctx.squeeze (Item.scalar dotAB :: oracle), m_Val := fun _ _ => 0 }
      (Item.out :: Item.scalar dotAB :: oracle) bc with
  | none => rw [hc] at h; simp at h
  | some q =>
    rw [hc] at h
    dsimp only at h
    obtain ⟨b, cs', o2, bc2⟩ := q
    cases b with
    | false => simp at h
    | true =>
      simp only [Bool.not_true, Bool.false_eq_true, if_false, Option.some.injEq,
        Prod.mk.injEq, true_and] at h
      rw [← h.1]
      exact IsValid_cycles_log ctx hsq fuel hfuel self _ _ _ _ _ _ _ hc

/-- C15. The verifier recomputes the prover's challenges. For the proof `Create` makes from a
transcript state, `IsValid` run from the same state on a batch-enabled context with room ends in
exactly the transcript state the prover ended in; a transcript state being the record of every
absorption and extraction so far, both performed the same sequence: `A`, `S` absorbed, `y`, `z`
extracted, `T1`, `T2` absorbed, `x` extracted, `tDot` absorbed, the dot multiplier extracted,
then per round the challenge extracted and `L`, `R` absorbed. The challenges `x, y, z` of the
verifier are those `CoSign` computes. -/
theorem verifier_recomputes_challenges (ctx : Context F P CP) (hctx : ctx.Ok) (fuel : Nat)
    (hfuel : 0 < fuel) (self : Confidential F CP) (sk : F) (v : Nat) (hv : v < 2 ^ 64)
    (oracle : Oracle F CP) (commitment : P) (bc : BatchContext F P)
    (hen : bc.m_bEnableBatch = true)
    (hroom : bc.m_Casual + s_CasualCountPerProof ≤ bc.m_CasualTotal)
    (htot : bc.m_CasualTotal < 2 ^ 32) :
    ∃ proof o' bc', Confidential.Create ctx fuel self sk v oracle = some (true, proof, o') ∧
      Confidential.IsValidBc ctx fuel proof commitment oracle bc = some (true, o', bc') ∧
      o' = InnerProduct.roundsLog proof.m_P_Tag (List.range nCycles)
        (Item.out :: Item.scalar proof.m_tDot :: Item.out :: Item.point proof.m_Part2.m_T2 ::
          Item.point proof.m_Part2.m_T1 :: Item.out :: Item.out ::
          Item.point proof.m_Part1.m_S :: Item.point proof.m_Part1.m_A :: oracle) ∧
      Confidential.Challenges ctx proof oracle
        = (Confidential.CoSign_cs1 ctx sk v oracle).1.Init2 ctx proof.m_Part2
            (Confidential.CoSign_cs1 ctx sk v oracle).2 := by
  obtain ⟨proof, o', hrun, hp1, hp2, hvalid, Eip, hip⟩ := Create_honest ctx hctx fuel hfuel self
    sk v hv oracle
  obtain ⟨-, vS, vT1, vT2, -⟩ := hvalid
  obtain ⟨S, hS⟩ := Option.isSome_iff_exists.mp vS
  obtain ⟨T1, h1⟩ := Option.isSome_iff_exists.mp vT1
  obtain ⟨T2, h2⟩ := Option.isSome_iff_exists.mp vT2
  obtain ⟨bc', hr, -⟩ := IsValidBc_batch_fits ctx hctx.1 fuel proof commitment oracle bc T1 T2 S
    h1 h2 hS o' Eip hip hen hroom htot
  obtain ⟨bc2, hrun2, -⟩ := hip bc
  refine ⟨proof, o', bc', hrun, hr, ?_, ?_⟩
  · rw [IsValidOracle_log ctx hctx.2.2.2.2 fuel hfuel _ _ _ _ _ _ _ hrun2]
    rfl
  · unfold Confidential.Challenges Confidential.CoSign_cs1
    rw [hp1]

theorem verifier_recomputes_challenges_witness :
    Example.ctx.Ok ∧ 0 < 1 ∧ 5 < 2 ^ 64 ∧ (Example.bcBatch 1).m_bEnableBatch = true ∧
    (Example.bcBatch 1).m_Casual + s_CasualCountPerProof ≤ (Example.bcBatch 1).m_CasualTotal ∧
    (Example.bcBatch 1).m_CasualTotal < 2 ^ 32 ∧
    ∃ proof o' bc', Confidential.Create Example.ctx 1 Example.proofZero 3 5 []
        = some (true, proof, o') ∧
      Confidential.IsValidBc Example.ctx 1 proof 0 [] (Example.bcBatch 1)
        = some (true, o', bc') ∧
      o' = InnerProduct.roundsLog proof.m_P_Tag (List.range nCycles)
        (Item.out :: Item.scalar proof.m_tDot :: Item.out :: Item.point proof.m_Part2.m_T2 ::
          Item.point proof.m_Part2.m_T1 :: Item.out :: Item.out ::
          Item.point proof.m_Part1.m_S :: Item.point proof.m_Part1.m_A :: []) ∧
      Confidential.Challenges Example.ctx proof []
        = (Confidential.CoSign_cs1 Example.ctx 3 5 []).1.Init2 Example.ctx proof.m_Part2
            (Confidential.CoSign_cs1 Example.ctx 3 5 []).2 :=
  ⟨Example_ctx_Ok, by decide, by decide, rfl, by decide, by decide,
    verifier_recomputes_challenges Example.ctx Example_ctx_Ok 1 (by decide) Example.proofZero 3 5
      (by decide) [] 0 (Example.bcBatch 1) rfl (by decide) (by decide)⟩

theorem Create_LR_indep (ctx : Context F P CP) (c : Calculator F P) (o : Oracle F CP) (j : Nat) :
    ∃ mm, ∀ ip : InnerProduct F CP, InnerProduct.Create_LR ctx (c, ip, o) j
      = ({ c with m_Mm := mm },
          { ip with m_pLR := set2 ip.m_pLR c.m_iCycle j (ctx.Export (c.LRPoint ctx j)) },
          Item.point (ctx.Export (c.LRPoint ctx j)) :: o) := by
  obtain ⟨mm, h1, h2⟩ := ExtractLR_eq ctx c j
  refine ⟨mm, fun ip => ?_⟩
  unfold InnerProduct.Create_LR
  dsimp only
  rw [h1]
  dsimp only
  rw [h2, set2_same]

theorem Create_cycle_indep (ctx : Context F P CP) (hsq : ∀ o, ctx.squeeze o ≠ 0) (fuel : Nat)
    (hfuel : 0 < fuel) (c : Calculator F P) (o : Oracle F CP) (k : Nat) :
    ∃ c' L R o', ∀ ip : InnerProduct F CP,
      InnerProduct.Create_cycle ctx fuel (c, ip, o) k
        = some (c', { ip with m_pLR := set2 (set2 ip.m_pLR k 0 L) k 1 R }, o') := by
  obtain ⟨c1, hc1⟩ : ∃ c1 : Calculator F P, c1 =
      { c with m_iCycle := k, m_n := nDim >>> (k + 1), m_Mm := c.m_Mm,
               m_Cs := { m_DotMultiplier := c.m_Cs.m_DotMultiplier,
                         m_Val := set2 (set2 c.m_Cs.m_Val k 0 (ctx.squeeze o)) k 1
                            (ctx.squeeze o)⁻¹ } } :=
    ⟨_, rfl⟩
  have hic1 : c1.m_iCycle = k := by rw [hc1]
  obtain ⟨mm0, hE0⟩ := Create_LR_indep ctx c1 (Item.out :: o) 0
  obtain ⟨mm1, hE1⟩ := Create_LR_indep ctx { c1 with m_Mm := mm0 }
    (Item.point (ctx.Export (c1.LRPoint ctx 0)) :: Item.out :: o) 1
  refine ⟨if (({ c1 with m_Mm := mm1 } : Calculator F P).Condense ctx).m_iCycle = 0 then
        (List.range 2).foldl
          (fun (c : Calculator F P) j =>
            { c with m_ppSrc := Function.update c.m_ppSrc j SrcPtr.val })
          (({ c1 with m_Mm := mm1 } : Calculator F P).Condense ctx)
      else (({ c1 with m_Mm := mm1 } : Calculator F P).Condense ctx),
    ctx.Export (c1.LRPoint ctx 0),
    ctx.Export (({ c1 with m_Mm := mm0 } : Calculator F P).LRPoint ctx 1),
    Item.point (ctx.Export (({ c1 with m_Mm := mm0 } : Calculator F P).LRPoint ctx 1)) ::
      Item.point (ctx.Export (c1.LRPoint ctx 0)) :: Item.out :: o, fun ip => ?_⟩
  unfold InnerProduct.Create_cycle
  dsimp only
  rw [get_Challenge_of_ne ctx hsq fuel hfuel o]
  dsimp only
  rw [← hc1, foldl_range_two, hE0, hE1]
  dsimp only
  rw [hic1]

theorem Create_rounds_indep (ctx : Context F P CP) (hsq : ∀ o, ctx.squeeze o ≠ 0) (fuel : Nat)
    (hfuel : 0 < fuel) (ip0 : InnerProduct F CP) :
    ∀ (ks : List Nat) (c : Calculator F P) (o : Oracle F CP),
      ∃ (c' : Calculator F P) (o' : Oracle F CP) (LV : Nat → Nat → CP),
        ∀ ip : InnerProduct F CP, ∃ ip',
          ks.foldlM (InnerProduct.Create_cycle ctx fuel) (c, ip, o) = some (c', ip', o') ∧
          (∀ k, k ∈ ks → ∀ j, j < 2 → ip'.m_pLR k j = LV k j) ∧
          (∀ k, k ∉ ks → ip'.m_pLR k = ip.m_pLR k) ∧
          ip'.m_pCondensed = ip.m_pCondensed := by
  intro ks
  induction ks with
  | nil =>
    intro c o
    exact ⟨c, o, ip0.m_pLR, fun ip => ⟨ip, rfl,
      fun k hk => absurd hk (List.not_mem_nil k), fun _ _ => rfl, rfl⟩⟩
  | cons k rest ih =>
    intro c o
    obtain ⟨c1, L, R, o1, hstep⟩ := Create_cycle_indep ctx hsq fuel hfuel c o k
    obtain ⟨c', o', LV, hrest⟩ := ih c1 o1
    refine ⟨c', o', fun k' j => if k' ∈ rest then LV k' j else if j = 0 then L else R, ?_⟩
    intro ip
    obtain ⟨ip', hrun, hin, hout, hcond⟩ := hrest
      { ip with m_pLR := set2 (set2 ip.m_pLR k 0 L) k 1 R }
    refine ⟨ip', ?_, ?_, ?_, hcond⟩
    · rw [List.foldlM_cons]
      show (InnerProduct.Create_cycle ctx fuel (c, ip, o) k).bind _ = _
      rw [hstep ip]
      exact hrun
    · intro k' hk' j hj
      show ip'.m_pLR k' j = if k' ∈ rest then LV k' j else if j = 0 then L else R
      by_cases hmem : k' ∈ rest
      · rw [if_pos hmem]
        exact hin k' hmem j hj
      · rw [if_neg hmem]
        have hk : k' = k := by
          rcases List.mem_cons.mp hk' with h | h
          · exact h
          · exact absurd h hmem
        subst hk
        rw [hout k' hmem]
        show set2 (set2 ip.m_pLR k' 0 L) k' 1 R k' j = _
        have hj' : j = 0 ∨ j = 1 := by omega
        rcases hj' with rfl | rfl
        · rw [if_pos rfl, set2_col _ _ _ _ _ (by decide), set2_same]
        · rw [if_neg (by decide), set2_same]
    · intro k' hk'
      have h1 : k' ∉ rest := fun h => hk' (List.mem_cons_of_mem _ h)
      have h2 : k' ≠ k := fun h => hk' (h ▸ List.mem_cons_self _ _)
      rw [hout k' h1]
      show set2 (set2 ip.m_pLR k 0 L) k 1 R k' = _
      rw [set2_row _ _ _ _ _ h2, set2_row _ _ _ _ _ h2]

theorem Create_indep (ctx : Context F P CP) (hsq : ∀ o, ctx.squeeze o ≠ 0) (fuel : Nat)
    (hfuel : 0 < fuel) (oracle : Oracle F CP) (pAB : Bool) (dotAB : F) (pA pB : Nat → F)
    (mod : Modifier F) (self0 : InnerProduct F CP) :
    ∃ (ip0 : InnerProduct F CP) (o' : Oracle F CP) (comm : Option P),
      ∀ self : InnerProduct F CP, ∃ ip,
        InnerProduct.Create ctx fuel self oracle pAB dotAB pA pB mod = some (ip, o', comm) ∧
        InnerProduct.SameAs ip ip0 := by
  unfold InnerProduct.Create
  lift_lets
  extract_lets c0 c1 c2 c3 c4 cAB AB r c5 oracle1 d src c6
  obtain ⟨c', o', LV, hall⟩ := Create_rounds_indep ctx hsq fuel hfuel self0 (List.range nCycles)
    c6 d.2
  obtain ⟨ipA, hA1, hA2, -, -⟩ := hall self0
  refine ⟨(List.range 2).foldl
      (fun (self : InnerProduct F CP) i =>
        { self with m_pCondensed := Function.update self.m_pCondensed i (c'.m_pVal i 0) })
      ipA, o', r.2.2, fun self => ?_⟩
  obtain ⟨ip', h1, h2, -, -⟩ := hall self
  refine ⟨_, by rw [h1], ?_, ?_⟩
  · intro k hk j hj
    rw [foldl_range_two, foldl_range_two]
    show ip'.m_pLR k j = ipA.m_pLR k j
    rw [h2 k (List.mem_range.mpr hk) j hj, hA2 k (List.mem_range.mpr hk) j hj]
  · intro j hj
    rw [foldl_range_two, foldl_range_two]
    have hj' : j = 0 ∨ j = 1 := by omega
    rcases hj' with rfl | rfl <;> simp [Function.update]

theorem CoSign_tail_fields (ctx : Context F P CP) (hsq : ∀ o, ctx.squeeze o ≠ 0) (fuel : Nat)
    (hfuel : 0 < fuel) (sk : F) (v : Nat) (oracle : Oracle F CP) (ePhase : Phase)
    (cs : Confidential.ChallengeSet F) (t : Confidential.TState F) (msig : MultiSig F)
    (alpha ro : F) (pS : Nat → Nat → F) (p2 : Part2 CP) (ip1 : InnerProduct F CP) :
    ∃ (ip0 : InnerProduct F CP) (o' : Oracle F CP),
      ∀ self : Confidential F CP, self.m_Part2 = p2 → ∃ ip,
        Confidential.CoSign_tail ctx fuel self sk v oracle ePhase cs t msig alpha ro pS
          = some (true,
              { m_Part1 := self.m_Part1, m_Part2 := self.m_Part2,
                m_Part3 := { m_TauX :=
                  if Phase.SinglePass ≠ ePhase then
                    msig.AddInfo2 sk (cs.Init2 ctx p2 oracle).1 + self.m_Part3.m_TauX
                  else msig.AddInfo2 sk (cs.Init2 ctx p2 oracle).1 },
                m_Mu := ro * (cs.Init2 ctx p2 oracle).1.x + alpha,
                m_tDot := t.t0 + t.t1 * (cs.Init2 ctx p2 oracle).1.x
                  + t.t2 * (cs.Init2 ctx p2 oracle).1.x * (cs.Init2 ctx p2 oracle).1.x,
                m_P_Tag := ip }, o') ∧
        InnerProduct.CreateOracle ctx fuel self.m_P_Tag (cs.Init2 ctx p2 oracle).2
            (t.t0 + t.t1 * (cs.Init2 ctx p2 oracle).1.x
              + t.t2 * (cs.Init2 ctx p2 oracle).1.x * (cs.Init2 ctx p2 oracle).1.x)
            ((Confidential.CoSign_lr (cs.Init2 ctx p2 oracle).1 v pS).1 0)
            ((Confidential.CoSign_lr (cs.Init2 ctx p2 oracle).1 v pS).1 1)
            { m_pMultiplier := Function.update (fun _ => none) 1
                (some (cs.Init2 ctx p2 oracle).1.y⁻¹) }
          = some (ip, o') ∧
        InnerProduct.SameAs ip ip0 := by
  obtain ⟨ip0, o', comm, hall⟩ := Create_indep ctx hsq fuel hfuel (cs.Init2 ctx p2 oracle).2 false
    (t.t0 + t.t1 * (cs.Init2 ctx p2 oracle).1.x
      + t.t2 * (cs.Init2 ctx p2 oracle).1.x * (cs.Init2 ctx p2 oracle).1.x)
    ((Confidential.CoSign_lr (cs.Init2 ctx p2 oracle).1 v pS).1 0)
    ((Confidential.CoSign_lr (cs.Init2 ctx p2 oracle).1 v pS).1 1)
    { m_pMultiplier := Function.update (fun _ => none) 1 (some (cs.Init2 ctx p2 oracle).1.y⁻¹) }
    ip1
  refine ⟨ip0, o', fun self hself => ?_⟩
  obtain ⟨ip, hcreate, hsame⟩ := hall self.m_P_Tag
  have hco : InnerProduct.CreateOracle ctx fuel self.m_P_Tag (cs.Init2 ctx p2 oracle).2
      (t.t0 + t.t1 * (cs.Init2 ctx p2 oracle).1.x
        + t.t2 * (cs.Init2 ctx p2 oracle).1.x * (cs.Init2 ctx p2 oracle).1.x)
      ((Confidential.CoSign_lr (cs.Init2 ctx p2 oracle).1 v pS).1 0)
      ((Confidential.CoSign_lr (cs.Init2 ctx p2 oracle).1 v pS).1 1)
      { m_pMultiplier := Function.update (fun _ => none) 1
          (some (cs.Init2 ctx p2 oracle).1.y⁻¹) }
      = some (ip, o') := by
    unfold InnerProduct.CreateOracle
    rw [hcreate]
  refine ⟨ip, ?_, hco, hsame⟩
  unfold Confidential.CoSign_tail
  lift_lets
  extract_lets rc cs' oracle' l0 l1 self1 l2 l3 l4 self2 l5 r0 r1 l6 r2 r3 r4 l7 self3 pS'
    yPwr mod
  have e1 : rc = cs.Init2 ctx p2 oracle := by show cs.Init2 ctx self.m_Part2 oracle = _; rw [hself]
  have ecs : cs' = (cs.Init2 ctx p2 oracle).1 := by show rc.1 = _; rw [e1]
  have eo : oracle' = (cs.Init2 ctx p2 oracle).2 := by show rc.2 = _; rw [e1]
  have el1 : l1 = if Phase.SinglePass ≠ ePhase then
      msig.AddInfo2 sk (cs.Init2 ctx p2 oracle).1 + self.m_Part3.m_TauX
    else msig.AddInfo2 sk (cs.Init2 ctx p2 oracle).1 := by rw [← ecs]
  have el4 : l4 = ro * (cs.Init2 ctx p2 oracle).1.x + alpha := by rw [← ecs]
  have el7 : l7 = t.t0 + t.t1 * (cs.Init2 ctx p2 oracle).1.x
      + t.t2 * (cs.Init2 ctx p2 oracle).1.x * (cs.Init2 ctx p2 oracle).1.x := by rw [← ecs]
  have epS : pS' = (Confidential.CoSign_lr (cs.Init2 ctx p2 oracle).1 v pS).1 := by rw [← ecs]
  have emod : mod = (⟨Function.update (fun _ => none) 1 (some (cs.Init2 ctx p2 oracle).1.y⁻¹)⟩ :
      Modifier F) := by rw [← ecs]
  have es3 : self3.m_P_Tag = self.m_P_Tag := rfl
  have hco' : InnerProduct.CreateOracle ctx fuel self3.m_P_Tag oracle' l7 (pS' 0) (pS' 1) mod
      = some (ip, o') := by
    rw [es3, eo, el7, epS, emod]
    exact hco
  rw [hco']
  dsimp only
  have es : ({ self3 with m_P_Tag := ip } : Confidential F CP) =
      { m_Part1 := self.m_Part1, m_Part2 := self.m_Part2,
        m_Part3 := { m_TauX := l1 }, m_Mu := l4, m_tDot := l7, m_P_Tag := ip } := rfl
  rw [es, el1, el4, el7]

theorem Challenges_eq_cs2 (ctx : Context F P CP) (proof : Confidential F CP) (sk : F) (v : Nat)
    (oracle : Oracle F CP) (h1 : proof.m_Part1 = Confidential.CoSign_Part1 ctx sk v) :
    Confidential.Challenges ctx proof oracle
      = Confidential.CoSign_cs2 ctx sk v oracle proof.m_Part2 := by
  unfold Confidential.Challenges Confidential.CoSign_cs2 Confidential.CoSign_cs1
  rw [h1]

theorem cs2_zz (ctx : Context F P CP) (sk : F) (v : Nat) (oracle : Oracle F CP) (p2 : Part2 CP) :
    (Confidential.CoSign_cs2 ctx sk v oracle p2).1.zz
      = (Confidential.CoSign_cs2 ctx sk v oracle p2).1.z
        * (Confidential.CoSign_cs2 ctx sk v oracle p2).1.z := rfl

theorem CoSign_fields (ctx : Context F P CP) (hsq : ∀ o, ctx.squeeze o ≠ 0) (fuel : Nat)
    (hfuel : 0 < fuel) (sk : F) (v : Nat) (oracle : Oracle F CP) (ePhase : Phase)
    (hph : Phase.Step2 ≠ ePhase) (p2 : Part2 CP) (ip1 : InnerProduct F CP) :
    ∃ (ip0 : InnerProduct F CP) (o' : Oracle F CP),
      ∀ self : Confidential F CP,
        Confidential.CoSign_Part2 ctx self sk v oracle ePhase = some p2 → ∃ ip,
        Confidential.CoSign ctx fuel self sk v oracle ePhase
          = some (true,
              { m_Part1 := Confidential.CoSign_Part1 ctx sk v, m_Part2 := p2,
                m_Part3 :=
                { m_TauX :=
                  if Phase.SinglePass ≠ ePhase then
                    (Confidential.CoSign_msig ctx sk v).AddInfo2 sk
                      (Confidential.CoSign_cs2 ctx sk v oracle p2).1 + self.m_Part3.m_TauX
                  else (Confidential.CoSign_msig ctx sk v).AddInfo2 sk
                      (Confidential.CoSign_cs2 ctx sk v oracle p2).1 },
                m_Mu := (Confidential.CoSign_ro ctx sk v).1
                  * (Confidential.CoSign_cs2 ctx sk v oracle p2).1.x
                  + (Confidential.CoSign_alpha ctx sk v).1,
                m_tDot := (Confidential.CoSign_tt ctx sk v oracle).t0
                  + (Confidential.CoSign_tt ctx sk v oracle).t1
                    * (Confidential.CoSign_cs2 ctx sk v oracle p2).1.x
                  + (Confidential.CoSign_tt ctx sk v oracle).t2
                    * (Confidential.CoSign_cs2 ctx sk v oracle p2).1.x
                    * (Confidential.CoSign_cs2 ctx sk v oracle p2).1.x,
                m_P_Tag := ip }, o') ∧
        InnerProduct.CreateOracle ctx fuel self.m_P_Tag
            (Confidential.CoSign_cs2 ctx sk v oracle p2).2
            ((Confidential.CoSign_tt ctx sk v oracle).t0
              + (Confidential.CoSign_tt ctx sk v oracle).t1
                * (Confidential.CoSign_cs2 ctx sk v oracle p2).1.x
              + (Confidential.CoSign_tt ctx sk v oracle).t2
                * (Confidential.CoSign_cs2 ctx sk v oracle p2).1.x
                * (Confidential.CoSign_cs2 ctx sk v oracle p2).1.x)
            ((Confidential.CoSign_lr (Confidential.CoSign_cs2 ctx sk v oracle p2).1 v
              (Confidential.CoSign_pS ctx sk v)).1 0)
            ((Confidential.CoSign_lr (Confidential.CoSign_cs2 ctx sk v oracle p2).1 v
              (Confidential.CoSign_pS ctx sk v)).1 1)
            { m_pMultiplier := Function.update (fun _ => none) 1
                (some (Confidential.CoSign_cs2 ctx sk v oracle p2).1.y⁻¹) }
          = some (ip, o') ∧
        InnerProduct.SameAs ip ip0 := by
  obtain ⟨ip0, o', hall⟩ := CoSign_tail_fields ctx hsq fuel hfuel sk v
    (Confidential.CoSign_cs1 ctx sk v oracle).2 ePhase (Confidential.CoSign_cs1 ctx sk v oracle).1
    (Confidential.CoSign_tt ctx sk v oracle) (Confidential.CoSign_msig ctx sk v)
    (Confidential.CoSign_alpha ctx sk v).1 (Confidential.CoSign_ro ctx sk v).1
    (Confidential.CoSign_pS ctx sk v) p2 ip1
  refine ⟨ip0, o', fun self hp2 => ?_⟩
  obtain ⟨ip, hrun, hco, hsame⟩ := hall
    { self with m_Part1 := Confidential.CoSign_Part1 ctx sk v, m_Part2 := p2 } rfl
  dsimp only at hco hrun
  unfold Confidential.CoSign_cs2
  refine ⟨ip, ?_, hco, hsame⟩
  refine (CoSign_eq ctx fuel self sk v oracle ePhase).trans ?_
  generalize Confidential.CoSign_Part2 ctx self sk v oracle ePhase = q at hp2
  subst hp2
  refine (if_neg hph).trans ?_
  exact hrun

theorem CoSign_Part2_none_iff (ctx : Context F P CP) (self : Confidential F CP) (sk : F)
    (v : Nat) (oracle : Oracle F CP) (ePhase : Phase) :
    Confidential.CoSign_Part2 ctx self sk v oracle ePhase = none ↔
      (ePhase = Phase.Step1 ∨ ePhase = Phase.Step2) ∧
        (ctx.Import self.m_Part2.m_T1 = none ∨ ctx.Import self.m_Part2.m_T2 = none) := by
  unfold Confidential.CoSign_Part2
  cases ePhase
  · rw [if_pos (by decide), if_neg (by decide)]
    simp
  · rw [if_pos (by decide), if_pos (by decide)]
    cases h1 : ctx.Import self.m_Part2.m_T1 with
    | none => simp
    | some p =>
      cases h2 : ctx.Import self.m_Part2.m_T2 with
      | none => simp
      | some p' => simp
  · rw [if_pos (by decide), if_pos (by decide)]
    cases h1 : ctx.Import self.m_Part2.m_T1 with
    | none => simp
    | some p =>
      cases h2 : ctx.Import self.m_Part2.m_T2 with
      | none => simp
      | some p' => simp
  · rw [if_neg (by decide)]
    simp

theorem CoSign_Part2_SinglePass (ctx : Context F P CP) (self : Confidential F CP) (sk : F)
    (v : Nat) (oracle : Oracle F CP) :
    Confidential.CoSign_Part2 ctx self sk v oracle Phase.SinglePass
      = some { m_T1 := ctx.Export ((Confidential.CoSign_msig ctx sk v).m_tau1 • ctx.G
                + (Confidential.CoSign_tt ctx sk v oracle).t1 • ctx.H),
               m_T2 := ctx.Export ((Confidential.CoSign_msig ctx sk v).m_tau2 • ctx.G
                + (Confidential.CoSign_tt ctx sk v oracle).t2 • ctx.H) } := by
  unfold Confidential.CoSign_Part2
  rw [if_pos (by decide), if_neg (by decide)]

theorem CoSign_Part2_Finalize (ctx : Context F P CP) (self : Confidential F CP) (sk : F)
    (v : Nat) (oracle : Oracle F CP) :
    Confidential.CoSign_Part2 ctx self sk v oracle Phase.Finalize = some self.m_Part2 := by
  unfold Confidential.CoSign_Part2
  rw [if_neg (by decide)]

theorem CoSign_of_Part2_none (ctx : Context F P CP) (fuel : Nat) (self : Confidential F CP)
    (sk : F) (v : Nat) (oracle : Oracle F CP) (ePhase : Phase)
    (h : Confidential.CoSign_Part2 ctx self sk v oracle ePhase = none) :
    ∃ proof o', Confidential.CoSign ctx fuel self sk v oracle ePhase = some (false, proof, o') := by
  refine ⟨{ self with m_Part1 := Confidential.CoSign_Part1 ctx sk v },
    (Confidential.CoSign_cs1 ctx sk v oracle).2,
    (CoSign_eq ctx fuel self sk v oracle ePhase).trans ?_⟩
  generalize Confidential.CoSign_Part2 ctx self sk v oracle ePhase = q at h
  subst h
  rfl

theorem CoSign_of_Part2_Step2 (ctx : Context F P CP) (fuel : Nat) (self : Confidential F CP)
    (sk : F) (v : Nat) (oracle : Oracle F CP) (p2 : Part2 CP)
    (h : Confidential.CoSign_Part2 ctx self sk v oracle Phase.Step2 = some p2) :
    Confidential.CoSign ctx fuel self sk v oracle Phase.Step2
      = some (true, { self with m_Part1 := Confidential.CoSign_Part1 ctx sk v, m_Part2 := p2 },
          (Confidential.CoSign_cs1 ctx sk v oracle).2) := by
  refine (CoSign_eq ctx fuel self sk v oracle Phase.Step2).trans ?_
  generalize Confidential.CoSign_Part2 ctx self sk v oracle Phase.Step2 = q at h
  subst h
  exact if_pos rfl

/-- C17. When every extraction from the transcript yields a nonzero scalar, `CoSign(sk, v,
oracle, phase)` returns for every prior content of the proof object, and the value it returns is
`false` if and only if the phase is `Step1` or `Step2` and the stored `m_Part2.m_T1` or
`m_Part2.m_T2` does not import; so `Create`, which runs phase `SinglePass`, returns `true`. -/
theorem CoSign_fails_only_on_import (ctx : Context F P CP) (hsq : ∀ o, ctx.squeeze o ≠ 0)
    (fuel : Nat) (hfuel : 0 < fuel) (self : Confidential F CP) (sk : F) (v : Nat)
    (oracle : Oracle F CP) (ePhase : Phase) :
    (∃ b proof o', Confidential.CoSign ctx fuel self sk v oracle ePhase = some (b, proof, o') ∧
      (b = false ↔ (ePhase = Phase.Step1 ∨ ePhase = Phase.Step2) ∧
        (ctx.Import self.m_Part2.m_T1 = none ∨ ctx.Import self.m_Part2.m_T2 = none))) ∧
    (∃ proof o', Confidential.Create ctx fuel self sk v oracle = some (true, proof, o')) := by
  constructor
  · cases h : Confidential.CoSign_Part2 ctx self sk v oracle ePhase with
    | none =>
      obtain ⟨proof, o', hrun⟩ := CoSign_of_Part2_none ctx fuel self sk v oracle ePhase h
      exact ⟨false, proof, o', hrun, iff_of_true rfl ((CoSign_Part2_none_iff _ _ _ _ _ _).1 h)⟩
    | some p2 =>
      have hn : ¬ ((ePhase = Phase.Step1 ∨ ePhase = Phase.Step2) ∧
          (ctx.Import self.m_Part2.m_T1 = none ∨ ctx.Import self.m_Part2.m_T2 = none)) := by
        intro hc
        rw [(CoSign_Part2_none_iff ctx self sk v oracle ePhase).2 hc] at h
        cases h
      by_cases hph : Phase.Step2 = ePhase
      · subst hph
        exact ⟨true, _, _, CoSign_of_Part2_Step2 ctx fuel self sk v oracle p2 h,
          iff_of_false (by decide) hn⟩
      · obtain ⟨ip0, o', hall⟩ := CoSign_fields ctx hsq fuel hfuel sk v oracle ePhase hph p2
          self.m_P_Tag
        obtain ⟨ip, hrun, -, -⟩ := hall self h
        exact ⟨true, _, o', hrun, iff_of_false (by decide) hn⟩
  · obtain ⟨ip0, o', hall⟩ := CoSign_fields ctx hsq fuel hfuel sk v oracle Phase.SinglePass
      (by decide) _ self.m_P_Tag
    obtain ⟨ip, hrun, -, -⟩ := hall self (CoSign_Part2_SinglePass ctx self sk v oracle)
    exact ⟨_, o', hrun⟩

theorem CoSign_fails_only_on_import_witness :
    (∀ o, Example.ctx.squeeze o ≠ 0) ∧ 0 < 1 ∧
    (∃ b proof o', Confidential.CoSign Example.ctx 1 Example.proofBadT1 3 5 [] Phase.Step1
        = some (b, proof, o') ∧
      (b = false ↔ (Phase.Step1 = Phase.Step1 ∨ Phase.Step1 = Phase.Step2) ∧
        (Example.ctx.Import Example.proofBadT1.m_Part2.m_T1 = none ∨
          Example.ctx.Import Example.proofBadT1.m_Part2.m_T2 = none))) ∧
    (∃ proof o', Confidential.Create Example.ctx 1 Example.proofBadT1 3 5 []
        = some (true, proof, o')) :=
  ⟨fun _ => (by decide : (1 : ZMod 7) ≠ 0), by decide,
    CoSign_fails_only_on_import Example.ctx (fun _ => (by decide : (1 : ZMod 7) ≠ 0)) 1
      (by decide) Example.proofBadT1 3 5 [] Phase.Step1⟩

theorem SameAs_of_common (ip ip' ip0 : InnerProduct F CP) (h : InnerProduct.SameAs ip ip0)
    (h' : InnerProduct.SameAs ip' ip0) : InnerProduct.SameAs ip ip' :=
  ⟨fun k hk j hj => (h.1 k hk j hj).trans (h'.1 k hk j hj).symm,
    fun j hj => (h.2 j hj).trans (h'.2 j hj).symm⟩

/-- C18. When every extraction from the transcript yields a nonzero scalar, `CoSign` in phase
`Finalize` returns `true`, leaves `m_Part2` (`T1`, `T2`) as it was and sets `m_Part3.m_TauX` to
its previous value plus `tau2*x^2 + tau1*x + z^2*sk`, with `tau1`, `tau2` the nonces of this
signer and `x` the challenge derived from the unchanged `T1`, `T2`; in phase `SinglePass` the
new `m_TauX` is `tau2*x^2 + tau1*x + z^2*sk` for the `T1`, `T2` it has just computed, whatever
the previous value was. -/
theorem Finalize_accumulates (ctx : Context F P CP) (hsq : ∀ o, ctx.squeeze o ≠ 0)
    (fuel : Nat) (hfuel : 0 < fuel) (self : Confidential F CP) (sk : F) (v : Nat)
    (oracle : Oracle F CP) :
    (∃ proof o', Confidential.CoSign ctx fuel self sk v oracle Phase.Finalize
        = some (true, proof, o') ∧
      proof.m_Part2 = self.m_Part2 ∧
      proof.m_Part3.m_TauX = self.m_Part3.m_TauX +
        ((Confidential.CoSign_msig ctx sk v).m_tau2
            * (Confidential.CoSign_cs2 ctx sk v oracle self.m_Part2).1.x ^ 2
          + (Confidential.CoSign_msig ctx sk v).m_tau1
            * (Confidential.CoSign_cs2 ctx sk v oracle self.m_Part2).1.x
          + (Confidential.CoSign_cs2 ctx sk v oracle self.m_Part2).1.z ^ 2 * sk)) ∧
    (∃ proof o', Confidential.CoSign ctx fuel self sk v oracle Phase.SinglePass
        = some (true, proof, o') ∧
      proof.m_Part2 =
        { m_T1 := ctx.Export ((Confidential.CoSign_msig ctx sk v).m_tau1 • ctx.G
            + (Confidential.CoSign_tt ctx sk v oracle).t1 • ctx.H),
          m_T2 := ctx.Export ((Confidential.CoSign_msig ctx sk v).m_tau2 • ctx.G
            + (Confidential.CoSign_tt ctx sk v oracle).t2 • ctx.H) } ∧
      proof.m_Part3.m_TauX =
        (Confidential.CoSign_msig ctx sk v).m_tau2
            * (Confidential.CoSign_cs2 ctx sk v oracle proof.m_Part2).1.x ^ 2
          + (Confidential.CoSign_msig ctx sk v).m_tau1
            * (Confidential.CoSign_cs2 ctx sk v oracle proof.m_Part2).1.x
          + (Confidential.CoSign_cs2 ctx sk v oracle proof.m_Part2).1.z ^ 2 * sk) := by
  constructor
  · obtain ⟨ip0, o', hall⟩ := CoSign_fields ctx hsq fuel hfuel sk v oracle Phase.Finalize
      (by decide) self.m_Part2 self.m_P_Tag
    obtain ⟨ip, hrun, -, -⟩ := hall self (CoSign_Part2_Finalize ctx self sk v oracle)
    refine ⟨_, o', hrun, rfl, ?_⟩
    dsimp only
    rw [if_pos (by decide), AddInfo2_eq, cs2_zz]
    ring
  · obtain ⟨ip0, o', hall⟩ := CoSign_fields ctx hsq fuel hfuel sk v oracle Phase.SinglePass
      (by decide) _ self.m_P_Tag
    obtain ⟨ip, hrun, -, -⟩ := hall self (CoSign_Part2_SinglePass ctx self sk v oracle)
    refine ⟨_, o', hrun, rfl, ?_⟩
    dsimp only
    rw [if_neg (by decide), AddInfo2_eq, cs2_zz]
    ring

theorem Finalize_accumulates_witness :
    (∀ o, Example.ctx.squeeze o ≠ 0) ∧ 0 < 1 ∧
    (∃ proof o', Confidential.CoSign Example.ctx 1 Example.proofOther 3 5 [] Phase.Finalize
        = some (true, proof, o') ∧
      proof.m_Part2 = Example.proofOther.m_Part2 ∧
      proof.m_Part3.m_TauX = Example.proofOther.m_Part3.m_TauX +
        ((Confidential.CoSign_msig Example.ctx 3 5).m_tau2
            * (Confidential.CoSign_cs2 Example.ctx 3 5 [] Example.proofOther.m_Part2).1.x ^ 2
          + (Confidential.CoSign_msig Example.ctx 3 5).m_tau1
            * (Confidential.CoSign_cs2 Example.ctx 3 5 [] Example.proofOther.m_Part2).1.x
          + (Confidential.CoSign_cs2 Example.ctx 3 5 [] Example.proofOther.m_Part2).1.z ^ 2
            * 3)) ∧
    (∃ proof o', Confidential.CoSign Example.ctx 1 Example.proofOther 3 5 [] Phase.SinglePass
        = some (true, proof, o') ∧
      proof.m_Part2 =
        { m_T1 := Example.ctx.Export ((Confidential.CoSign_msig Example.ctx 3 5).m_tau1
              • Example.ctx.G
            + (Confidential.CoSign_tt Example.ctx 3 5 []).t1 • Example.ctx.H),
          m_T2 := Example.ctx.Export ((Confidential.CoSign_msig Example.ctx 3 5).m_tau2
              • Example.ctx.G
            + (Confidential.CoSign_tt Example.ctx 3 5 []).t2 • Example.ctx.H) } ∧
      proof.m_Part3.m_TauX =
        (Confidential.CoSign_msig Example.ctx 3 5).m_tau2
            * (Confidential.CoSign_cs2 Example.ctx 3 5 [] proof.m_Part2).1.x ^ 2
          + (Confidential.CoSign_msig Example.ctx 3 5).m_tau1
            * (Confidential.CoSign_cs2 Example.ctx 3 5 [] proof.m_Part2).1.x
          + (Confidential.CoSign_cs2 Example.ctx 3 5 [] proof.m_Part2).1.z ^ 2 * 3) :=
  ⟨fun _ => (by decide : (1 : ZMod 7) ≠ 0), by decide,
    Finalize_accumulates Example.ctx (fun _ => (by decide : (1 : ZMod 7) ≠ 0)) 1
      (by decide) Example.proofOther 3 5 []⟩

/-- C19. When every extraction from the transcript yields a nonzero scalar, two calls of
`CoSign` in phase `SinglePass` with the same `sk`, `v` and transcript state, on proof objects
of any two prior contents, both return `true`, end in the same transcript state and produce
the same proof: the same `A`, `S`, `T1`, `T2`, `tau_x`, `mu`, `tDot`, the same `nCycles` pairs
`(L, R)` and the same two condensed scalars. -/
theorem CoSign_deterministic (ctx : Context F P CP) (hsq : ∀ o, ctx.squeeze o ≠ 0)
    (fuel : Nat) (hfuel : 0 < fuel) (sk : F) (v : Nat) (oracle : Oracle F CP)
    (self self' : Confidential F CP) :
    ∃ proof proof' o',
      Confidential.CoSign ctx fuel self sk v oracle Phase.SinglePass = some (true, proof, o') ∧
      Confidential.CoSign ctx fuel self' sk v oracle Phase.SinglePass
        = some (true, proof', o') ∧
      proof.m_Part1 = proof'.m_Part1 ∧ proof.m_Part2 = proof'.m_Part2 ∧
      proof.m_Part3 = proof'.m_Part3 ∧ proof.m_Mu = proof'.m_Mu ∧
      proof.m_tDot = proof'.m_tDot ∧
      (∀ k, k < nCycles → ∀ j, j < 2 → proof.m_P_Tag.m_pLR k j = proof'.m_P_Tag.m_pLR k j) ∧
      (∀ j, j < 2 → proof.m_P_Tag.m_pCondensed j = proof'.m_P_Tag.m_pCondensed j) := by
  obtain ⟨ip0, o', hall⟩ := CoSign_fields ctx hsq fuel hfuel sk v oracle Phase.SinglePass
    (by decide) _ self.m_P_Tag
  obtain ⟨ip, hrun, -, hs⟩ := hall self (CoSign_Part2_SinglePass ctx self sk v oracle)
  obtain ⟨ip', hrun', -, hs'⟩ := hall self' (CoSign_Part2_SinglePass ctx self' sk v oracle)
  have hsame := SameAs_of_common ip ip' ip0 hs hs'
  refine ⟨_, _, o', hrun, hrun', rfl, rfl, ?_, rfl, rfl, hsame.1, hsame.2⟩
  show Part3.mk _ = Part3.mk _
  rw [if_neg (by decide), if_neg (by decide)]

theorem CoSign_deterministic_witness :
    (∀ o, Example.ctx.squeeze o ≠ 0) ∧ 0 < 1 ∧
    ∃ proof proof' o',
      Confidential.CoSign Example.ctx 1 Example.proofZero 3 5 [] Phase.SinglePass
        = some (true, proof, o') ∧
      Confidential.CoSign Example.ctx 1 Example.proofOther 3 5 [] Phase.SinglePass
        = some (true, proof', o') ∧
      proof.m_Part1 = proof'.m_Part1 ∧ proof.m_Part2 = proof'.m_Part2 ∧
      proof.m_Part3 = proof'.m_Part3 ∧ proof.m_Mu = proof'.m_Mu ∧
      proof.m_tDot = proof'.m_tDot ∧
      (∀ k, k < nCycles → ∀ j, j < 2 → proof.m_P_Tag.m_pLR k j = proof'.m_P_Tag.m_pLR k j) ∧
      (∀ j, j < 2 → proof.m_P_Tag.m_pCondensed j = proof'.m_P_Tag.m_pCondensed j) :=
  ⟨fun _ => (by decide : (1 : ZMod 7) ≠ 0), by decide,
    CoSign_deterministic Example.ctx (fun _ => (by decide : (1 : ZMod 7) ≠ 0)) 1
      (by decide) 3 5 [] Example.proofZero Example.proofOther⟩

/-- C20. When every extraction from the transcript yields a nonzero scalar, in every phase of
`CoSign` that reaches the inner-product engine (any phase but `Step2`, with `T1`, `T2`
decodable) the proof fields are `mu = alpha + rho*x` and `tDot = t0 + t1*x + t2*x^2`, the call
`InnerProduct::Create` is made with this `tDot` and vectors `l`, `r` whose dot product
`get_Dot(l, r)` is `tDot`, and `l_i = sL_i*x + bit_i - z`,
`r_i = y^i*(sR_i*x + z + bit_i - 1) + z^2*2^i` for `i < nDim`. -/
theorem tDot_matches_vectors (ctx : Context F P CP) (hsq : ∀ o, ctx.squeeze o ≠ 0)
    (fuel : Nat) (hfuel : 0 < fuel) (self : Confidential F CP) (sk : F) (v : Nat)
    (oracle : Oracle F CP) (ePhase : Phase) (hph : ePhase ≠ Phase.Step2) (p2 : Part2 CP)
    (hp2 : Confidential.CoSign_Part2 ctx self sk v oracle ePhase = some p2) :
    ∃ proof o' l r,
      Confidential.CoSign ctx fuel self sk v oracle ePhase = some (true, proof, o') ∧
      Confidential.Challenges ctx proof oracle = Confidential.CoSign_cs2 ctx sk v oracle p2 ∧
      proof.m_Mu = (Confidential.CoSign_alpha ctx sk v).1
        + (Confidential.CoSign_ro ctx sk v).1 * (Confidential.CoSign_cs2 ctx sk v oracle p2).1.x ∧
      proof.m_tDot = (Confidential.CoSign_tt ctx sk v oracle).t0
        + (Confidential.CoSign_tt ctx sk v oracle).t1
          * (Confidential.CoSign_cs2 ctx sk v oracle p2).1.x
        + (Confidential.CoSign_tt ctx sk v oracle).t2
          * (Confidential.CoSign_cs2 ctx sk v oracle p2).1.x ^ 2 ∧
      InnerProduct.CreateOracle ctx fuel self.m_P_Tag
          (Confidential.CoSign_cs2 ctx sk v oracle p2).2 proof.m_tDot l r
          { m_pMultiplier := Function.update (fun _ => none) 1
              (some (Confidential.CoSign_cs2 ctx sk v oracle p2).1.y⁻¹) }
        = some (proof.m_P_Tag, o') ∧
      proof.m_tDot = get_Dot l r ∧
      ∀ i, i < nDim →
        l i = Confidential.CoSign_pS ctx sk v 0 i
            * (Confidential.CoSign_cs2 ctx sk v oracle p2).1.x
          + bitF v i - (Confidential.CoSign_cs2 ctx sk v oracle p2).1.z ∧
        r i = (Confidential.CoSign_cs2 ctx sk v oracle p2).1.y ^ i
            * (Confidential.CoSign_pS ctx sk v 1 i
                * (Confidential.CoSign_cs2 ctx sk v oracle p2).1.x
              + (Confidential.CoSign_cs2 ctx sk v oracle p2).1.z + bitF v i - 1)
          + (Confidential.CoSign_cs2 ctx sk v oracle p2).1.z ^ 2 * 2 ^ i := by
  obtain ⟨ip0, o', hall⟩ := CoSign_fields ctx hsq fuel hfuel sk v oracle ePhase
    (fun h => hph h.symm) p2 self.m_P_Tag
  obtain ⟨ip, hrun, hco, -⟩ := hall self hp2
  have hlr := CoSign_lr_eq (Confidential.CoSign_cs2 ctx sk v oracle p2).1 v
    (Confidential.CoSign_pS ctx sk v)
  have hdot := honest_dot (Confidential.CoSign_cs2 ctx sk v oracle p2).1 v
    (Confidential.CoSign_pS ctx sk v) _ _ (fun i hi => (hlr i hi).1) (fun i hi => (hlr i hi).2)
  refine ⟨_, o', _, _, hrun, Challenges_eq_cs2 ctx _ sk v oracle rfl, ?_, ?_, hco, ?_, ?_⟩
  · show _ * _ + _ = _
    ring
  · show _ + _ * _ + _ * _ * _ = _
    ring
  · rw [get_Dot_eq]
    exact hdot
  · intro i hi
    obtain ⟨h0, h1⟩ := hlr i hi
    rw [h0, h1]
    unfold Confidential.l0 Confidential.r0
    rw [cs2_zz]
    constructor <;> ring

theorem tDot_matches_vectors_witness :
    (∀ o, Example.ctx.squeeze o ≠ 0) ∧ 0 < 1 ∧ Phase.Finalize ≠ Phase.Step2 ∧
    Confidential.CoSign_Part2 Example.ctx Example.proofZero 3 5 [] Phase.Finalize
      = some Example.proofZero.m_Part2 ∧
    ∃ proof o' l r,
      Confidential.CoSign Example.ctx 1 Example.proofZero 3 5 [] Phase.Finalize
        = some (true, proof, o') ∧
      Confidential.Challenges Example.ctx proof []
        = Confidential.CoSign_cs2 Example.ctx 3 5 [] Example.proofZero.m_Part2 ∧
      proof.m_Mu = (Confidential.CoSign_alpha Example.ctx 3 5).1
        + (Confidential.CoSign_ro Example.ctx 3 5).1
          * (Confidential.CoSign_cs2 Example.ctx 3 5 [] Example.proofZero.m_Part2).1.x ∧
      proof.m_tDot = (Confidential.CoSign_tt Example.ctx 3 5 []).t0
        + (Confidential.CoSign_tt Example.ctx 3 5 []).t1
          * (Confidential.CoSign_cs2 Example.ctx 3 5 [] Example.proofZero.m_Part2).1.x
        + (Confidential.CoSign_tt Example.ctx 3 5 []).t2
          * (Confidential.CoSign_cs2 Example.ctx 3 5 [] Example.proofZero.m_Part2).1.x ^ 2 ∧
      InnerProduct.CreateOracle Example.ctx 1 Example.proofZero.m_P_Tag
          (Confidential.CoSign_cs2 Example.ctx 3 5 [] Example.proofZero.m_Part2).2
          proof.m_tDot l r
          { m_pMultiplier := Function.update (fun _ => none) 1
              (some (Confidential.CoSign_cs2 Example.ctx 3 5 []
                Example.proofZero.m_Part2).1.y⁻¹) }
        = some (proof.m_P_Tag, o') ∧
      proof.m_tDot = get_Dot l r ∧
      ∀ i, i < nDim →
        l i = Confidential.CoSign_pS Example.ctx 3 5 0 i
            * (Confidential.CoSign_cs2 Example.ctx 3 5 [] Example.proofZero.m_Part2).1.x
          + bitF 5 i - (Confidential.CoSign_cs2 Example.ctx 3 5 []
              Example.proofZero.m_Part2).1.z ∧
        r i = (Confidential.CoSign_cs2 Example.ctx 3 5 [] Example.proofZero.m_Part2).1.y ^ i
            * (Confidential.CoSign_pS Example.ctx 3 5 1 i
                * (Confidential.CoSign_cs2 Example.ctx 3 5 [] Example.proofZero.m_Part2).1.x
              + (Confidential.CoSign_cs2 Example.ctx 3 5 [] Example.proofZero.m_Part2).1.z
              + bitF 5 i - 1)
          + (Confidential.CoSign_cs2 Example.ctx 3 5 [] Example.proofZero.m_Part2).1.z ^ 2
            * 2 ^ i :=
  ⟨fun _ => (by decide : (1 : ZMod 7) ≠ 0), by decide, by decide,
    CoSign_Part2_Finalize Example.ctx Example.proofZero 3 5 [],
    tDot_matches_vectors Example.ctx (fun _ => (by decide : (1 : ZMod 7) ≠ 0)) 1
      (by decide) Example.proofZero 3 5 [] Phase.Finalize (by decide) _
      (CoSign_Part2_Finalize Example.ctx Example.proofZero 3 5 [])⟩

theorem CoSign_Part2_step (ctx : Context F P CP) (self : Confidential F CP) (sk : F)
    (v : Nat) (oracle : Oracle F CP) (ePhase : Phase) (h1 : Phase.Finalize ≠ ePhase)
    (h2 : Phase.SinglePass ≠ ePhase) (p p' : P) (hp : ctx.Import self.m_Part2.m_T1 = some p)
    (hp' : ctx.Import self.m_Part2.m_T2 = some p') :
    Confidential.CoSign_Part2 ctx self sk v oracle ePhase
      = some { m_T1 := ctx.Export ((Confidential.CoSign_msig ctx sk v).m_tau1 • ctx.G
                + (Confidential.CoSign_tt ctx sk v oracle).t1 • ctx.H + p),
               m_T2 := ctx.Export ((Confidential.CoSign_msig ctx sk v).m_tau2 • ctx.G
                + (Confidential.CoSign_tt ctx sk v oracle).t2 • ctx.H + p') } := by
  unfold Confidential.CoSign_Part2
  rw [if_pos h1, if_pos h2, hp, hp']

theorem CoSign_of_Part2_tail (ctx : Context F P CP) (fuel : Nat) (self : Confidential F CP)
    (sk : F) (v : Nat) (oracle : Oracle F CP) (ePhase : Phase) (hph : Phase.Step2 ≠ ePhase)
    (p2 : Part2 CP) (h : Confidential.CoSign_Part2 ctx self sk v oracle ePhase = some p2) :
    Confidential.CoSign ctx fuel self sk v oracle ePhase
      = Confidential.CoSign_tail ctx fuel
          { self with m_Part1 := Confidential.CoSign_Part1 ctx sk v, m_Part2 := p2 } sk v
          (Confidential.CoSign_cs1 ctx sk v oracle).2 ePhase
          (Confidential.CoSign_cs1 ctx sk v oracle).1 (Confidential.CoSign_tt ctx sk v oracle)
          (Confidential.CoSign_msig ctx sk v) (Confidential.CoSign_alpha ctx sk v).1
          (Confidential.CoSign_ro ctx sk v).1 (Confidential.CoSign_pS ctx sk v) := by
  refine (CoSign_eq ctx fuel self sk v oracle ePhase).trans ?_
  generalize Confidential.CoSign_Part2 ctx self sk v oracle ePhase = q at h
  subst h
  exact if_neg hph

/-- C11. In a context as the code assumes it, for every value `v < 2^64`, shares `sk1`, `sk2`,
transcript state and prior content of the proof object: the co-signer makes `p2` with
`CoSignPart(sk1, v, oracle, p2)`, the main signer with `m_Part2 = p2` runs `CoSign(sk2, v, oracle,
Step2)`, the co-signer makes `p3` with `CoSignPart(sk1, v, oracle, Part1, Part2, p3)`, the main
signer with `m_Part3 = p3` runs `CoSign(sk2, v, oracle, Finalize)`, each call from the same
transcript state. Both `CoSign` calls return `true`, and `IsValid` accepts the proof against
`(sk1+sk2)*G + v*H`, as it accepts the proof `Create(sk1+sk2, v, oracle)` makes. The proof holds
`T1 = (tau1+tau1')*G + t1*H`, `T2 = (tau2+tau2')*G + t2*H` and
`tau_x = (tau2+tau2')*x^2 + (tau1+tau1')*x + z^2*(sk1+sk2)`. -/
theorem multiparty_valid (ctx : Context F P CP) (hctx : ctx.Ok) (fuel : Nat) (hfuel : 0 < fuel)
    (self : Confidential F CP) (sk1 sk2 : F) (v : Nat) (hv : v < 2 ^ 64)
    (oracle : Oracle F CP) :
    ∃ proofA oA proof o',
      Confidential.CoSign ctx fuel { self with m_Part2 := Confidential.CoSignPart2 ctx sk1 v }
          sk2 v oracle Phase.Step2 = some (true, proofA, oA) ∧
      Confidential.CoSign ctx fuel
          { proofA with m_Part3 :=
              (Confidential.CoSignPart3 ctx sk1 v oracle proofA.m_Part1 proofA.m_Part2).1 }
          sk2 v oracle Phase.Finalize = some (true, proof, o') ∧
      Confidential.IsValid ctx fuel proof none ((sk1 + sk2) • ctx.G + (v : F) • ctx.H) oracle
        = some (true, o', none) ∧
      ctx.Import proof.m_Part2.m_T1
        = some (((Confidential.CoSign_msig ctx sk2 v).m_tau1 + (MultiSig.InitSk ctx sk1 v).m_tau1)
            • ctx.G + (Confidential.CoSign_tt ctx sk2 v oracle).t1 • ctx.H) ∧
      ctx.Import proof.m_Part2.m_T2
        = some (((Confidential.CoSign_msig ctx sk2 v).m_tau2 + (MultiSig.InitSk ctx sk1 v).m_tau2)
            • ctx.G + (Confidential.CoSign_tt ctx sk2 v oracle).t2 • ctx.H) ∧
      proof.m_Part3.m_TauX
        = ((Confidential.CoSign_msig ctx sk2 v).m_tau2 + (MultiSig.InitSk ctx sk1 v).m_tau2)
            * (Confidential.Challenges ctx proof oracle).1.x ^ 2
          + ((Confidential.CoSign_msig ctx sk2 v).m_tau1 + (MultiSig.InitSk ctx sk1 v).m_tau1)
            * (Confidential.Challenges ctx proof oracle).1.x
          + (Confidential.Challenges ctx proof oracle).1.z ^ 2 * (sk1 + sk2) ∧
      ∃ proofS oS, Confidential.Create ctx fuel self (sk1 + sk2) v oracle
          = some (true, proofS, oS) ∧
        Confidential.IsValid ctx fuel proofS none ((sk1 + sk2) • ctx.G + (v : F) • ctx.H) oracle
          = some (true, oS, none) := by
  have hIE := hctx.2.1
  have hsq := hctx.2.2.2.2
  -- step 2
  have hA := CoSign_Part2_step ctx { self with m_Part2 := Confidential.CoSignPart2 ctx sk1 v }
    sk2 v oracle Phase.Step2 (by decide) (by decide)
    ((MultiSig.InitSk ctx sk1 v).m_tau1 • ctx.G) ((MultiSig.InitSk ctx sk1 v).m_tau2 • ctx.G)
    (hIE _) (hIE _)
  have hrunA := CoSign_of_Part2_Step2 ctx fuel
    { self with m_Part2 := Confidential.CoSignPart2 ctx sk1 v } sk2 v oracle _ hA
  obtain ⟨pA, hpA⟩ : ∃ pA : Part2 CP, pA =
      { m_T1 := ctx.Export ((Confidential.CoSign_msig ctx sk2 v).m_tau1 • ctx.G
                + (Confidential.CoSign_tt ctx sk2 v oracle).t1 • ctx.H
                + (MultiSig.InitSk ctx sk1 v).m_tau1 • ctx.G),
        m_T2 := ctx.Export ((Confidential.CoSign_msig ctx sk2 v).m_tau2 • ctx.G
                + (Confidential.CoSign_tt ctx sk2 v oracle).t2 • ctx.H
                + (MultiSig.InitSk ctx sk1 v).m_tau2 • ctx.G) } := ⟨_, rfl⟩
  rw [← hpA] at hA hrunA
  have hT1 : ctx.Import pA.m_T1
      = some (((Confidential.CoSign_msig ctx sk2 v).m_tau1 + (MultiSig.InitSk ctx sk1 v).m_tau1)
            • ctx.G + (Confidential.CoSign_tt ctx sk2 v oracle).t1 • ctx.H) := by
    rw [hpA]
    exact (hIE _).trans (congrArg some (by module))
  have hT2 : ctx.Import pA.m_T2
      = some (((Confidential.CoSign_msig ctx sk2 v).m_tau2 + (MultiSig.InitSk ctx sk1 v).m_tau2)
            • ctx.G + (Confidential.CoSign_tt ctx sk2 v oracle).t2 • ctx.H) := by
    rw [hpA]
    exact (hIE _).trans (congrArg some (by module))
  clear hpA
  -- step 4
  obtain ⟨selfF, hF⟩ : ∃ selfF : Confidential F CP, selfF =
      { m_Part1 := Confidential.CoSign_Part1 ctx sk2 v, m_Part2 := pA,
        m_Part3 := (Confidential.CoSignPart3 ctx sk1 v oracle
          (Confidential.CoSign_Part1 ctx sk2 v) pA).1,
        m_Mu := self.m_Mu, m_tDot := self.m_tDot, m_P_Tag := self.m_P_Tag } := ⟨_, rfl⟩
  have hF1 : selfF.m_Part1 = Confidential.CoSign_Part1 ctx sk2 v := by rw [hF]
  have hF2 : selfF.m_Part2 = pA := by rw [hF]
  have hF3 : selfF.m_Part3.m_TauX
      = (MultiSig.InitSk ctx sk1 v).m_tau2 * (Confidential.Challenges ctx selfF oracle).1.x
          * (Confidential.Challenges ctx selfF oracle).1.x
        + (MultiSig.InitSk ctx sk1 v).m_tau1 * (Confidential.Challenges ctx selfF oracle).1.x
        + (Confidential.Challenges ctx selfF oracle).1.z
          * (Confidential.Challenges ctx selfF oracle).1.z * sk1 := by
    rw [hF]
    rfl
  have hFe : Confidential.mk (Confidential.CoSign_Part1 ctx sk2 v) selfF.m_Part2 selfF.m_Part3
      selfF.m_Mu selfF.m_tDot selfF.m_P_Tag = selfF := by
    rw [hF]
  have hrunF := CoSign_of_Part2_tail ctx fuel selfF sk2 v oracle Phase.Finalize (by decide) _
    (CoSign_Part2_Finalize ctx selfF sk2 v oracle)
  rw [hFe] at hrunF
  have hz : (Confidential.Challenges ctx selfF oracle).1.zz
      = (Confidential.Challenges ctx selfF oracle).1.z
        * (Confidential.Challenges ctx selfF oracle).1.z := rfl
  obtain ⟨proof, o', hrun, hp1, hp2, -, -, -, hvalid, Eip, hip⟩ := CoSign_tail_valid ctx hctx
    fuel hfuel selfF sk2 v hv oracle Phase.Finalize hF1
    ((Confidential.CoSign_msig ctx sk2 v).m_tau1 + (MultiSig.InitSk ctx sk1 v).m_tau1)
    ((Confidential.CoSign_msig ctx sk2 v).m_tau2 + (MultiSig.InitSk ctx sk1 v).m_tau2)
    (sk1 + sk2) (by rw [hF2]; exact hT1) (by rw [hF2]; exact hT2)
    (by rw [if_pos (by decide), AddInfo2_eq, hF3, hz]; ring)
  -- the fields of the final proof
  obtain ⟨ip0, o2, hall⟩ := CoSign_fields ctx hsq fuel hfuel sk2 v oracle Phase.Finalize
    (by decide) selfF.m_Part2 selfF.m_P_Tag
  obtain ⟨ip, hrun2, -, -⟩ := hall selfF (CoSign_Part2_Finalize ctx selfF sk2 v oracle)
  have hrun3 := hrunF.trans hrun
  have hpe := (Prod.mk.inj (Prod.mk.inj (Option.some.inj (hrun2.symm.trans hrun3))).2).1
  have hch : Confidential.Challenges ctx proof oracle = Confidential.Challenges ctx selfF oracle := by
    unfold Confidential.Challenges
    rw [hp1, hp2]
  have hcs : Confidential.CoSign_cs2 ctx sk2 v oracle selfF.m_Part2
      = Confidential.Challenges ctx selfF oracle := (Challenges_eq_cs2 ctx selfF sk2 v oracle hF1).symm
  have hTauX : proof.m_Part3.m_TauX
      = (Confidential.CoSign_msig ctx sk2 v).AddInfo2 sk2
          (Confidential.Challenges ctx selfF oracle).1 + selfF.m_Part3.m_TauX := by
    rw [← hpe, ← hcs]
    dsimp only
    rw [if_pos (by decide)]
  -- the single-pass proof
  obtain ⟨proofS, oS, hrunS, -, -, hvalidS, EipS, hipS⟩ := Create_honest ctx hctx fuel hfuel self
    (sk1 + sk2) v hv oracle
  refine ⟨_, _, proof, o', hrunA, ?_,
    IsValid_of_Valid ctx hctx.1 fuel proof _ oracle hvalid o' Eip hip, ?_, ?_, ?_,
    proofS, oS, hrunS, IsValid_of_Valid ctx hctx.1 fuel proofS _ oracle hvalidS oS EipS hipS⟩
  · rw [← hrun3]
    exact congrArg (fun s => Confidential.CoSign ctx fuel s sk2 v oracle Phase.Finalize) hF.symm
  · rw [hp2, hF2]
    exact hT1
  · rw [hp2, hF2]
    exact hT2
  · rw [hTauX, hch, AddInfo2_eq, hF3, hz]
    ring

theorem multiparty_valid_witness :
    Example.ctx.Ok ∧ 0 < 1 ∧ 5 < 2 ^ 64 ∧
    ∃ proofA oA proof o',
      Confidential.CoSign Example.ctx 1
          { Example.proofZero with m_Part2 := Confidential.CoSignPart2 Example.ctx 3 5 }
          4 5 [] Phase.Step2 = some (true, proofA, oA) ∧
      Confidential.CoSign Example.ctx 1
          { proofA with m_Part3 :=
              (Confidential.CoSignPart3 Example.ctx 3 5 [] proofA.m_Part1 proofA.m_Part2).1 }
          4 5 [] Phase.Finalize = some (true, proof, o') ∧
      Confidential.IsValid Example.ctx 1 proof none
          (((3 : ZMod 7) + 4) • Example.ctx.G + ((5 : Nat) : ZMod 7) • Example.ctx.H) []
        = some (true, o', none) ∧
      Example.ctx.Import proof.m_Part2.m_T1
        = some (((Confidential.CoSign_msig Example.ctx 4 5).m_tau1
              + (MultiSig.InitSk Example.ctx 3 5).m_tau1)
            • Example.ctx.G + (Confidential.CoSign_tt Example.ctx 4 5 []).t1 • Example.ctx.H) ∧
      Example.ctx.Import proof.m_Part2.m_T2
        = some (((Confidential.CoSign_msig Example.ctx 4 5).m_tau2
              + (MultiSig.InitSk Example.ctx 3 5).m_tau2)
            • Example.ctx.G + (Confidential.CoSign_tt Example.ctx 4 5 []).t2 • Example.ctx.H) ∧
      proof.m_Part3.m_TauX
        = ((Confidential.CoSign_msig Example.ctx 4 5).m_tau2
              + (MultiSig.InitSk Example.ctx 3 5).m_tau2)
            * (Confidential.Challenges Example.ctx proof []).1.x ^ 2
          + ((Confidential.CoSign_msig Example.ctx 4 5).m_tau1
              + (MultiSig.InitSk Example.ctx 3 5).m_tau1)
            * (Confidential.Challenges Example.ctx proof []).1.x
          + (Confidential.Challenges Example.ctx proof []).1.z ^ 2 * (3 + 4) ∧
      ∃ proofS oS, Confidential.Create Example.ctx 1 Example.proofZero (3 + 4) 5 []
          = some (true, proofS, oS) ∧
        Confidential.IsValid Example.ctx 1 proofS none
            (((3 : ZMod 7) + 4) • Example.ctx.G + ((5 : Nat) : ZMod 7) • Example.ctx.H) []
          = some (true, oS, none) :=
  ⟨Example_ctx_Ok, by decide, by decide,
    multiparty_valid Example.ctx Example_ctx_Ok 1 (by decide) Example.proofZero 3 4 5
      (by decide) []⟩

theorem Condense_pVal (ctx : Context F P CP) (c : Calculator F P) :
    ∀ j, j < 2 → ∀ i, i < c.m_n → (c.Condense ctx).m_pVal j i
      = c.src j i * c.m_Cs.m_Val c.m_iCycle j
        + c.src j (c.m_n + i) * c.m_Cs.m_Val c.m_iCycle (lnot j) := by
  obtain ⟨v, hV, hv⟩ := CondenseVectors_eq c
  intro j hj i hi
  rw [← hv j hj i hi]
  unfold Calculator.Condense
  dsimp only
  rw [hV]
  by_cases h : c.m_iCycle = s_iCycle0
  · obtain ⟨mm, g, hP, -⟩ := CondensePoints_eq ctx ({ c with m_pVal := v })
      (by show ¬ c.m_iCycle > s_iCycle0; omega)
    rw [if_pos h, hP]
  · rw [if_neg h]

/-- C21. `Calculator::Condense` with half-length `m_n` and the challenge pair
`(m_Val[m_iCycle][0], m_Val[m_iCycle][1])` (which is `(x, x^-1)` in a round of
`InnerProduct::Create`) leaves `a_i*x + a_{n+i}*x^-1` in `m_pVal[0][i]` and
`b_i*x^-1 + b_{n+i}*x` in `m_pVal[1][i]` for every `i < n`, where `a`, `b` are the source vectors
before the call; the result is the same when the sources are the buffers `m_pVal` themselves
(the fold in place) as when they are other arrays with the same content. -/
theorem Condense_folds (ctx : Context F P CP) (c : Calculator F P) :
    (∀ i, i < c.m_n →
      (c.Condense ctx).m_pVal 0 i
        = c.src 0 i * c.m_Cs.m_Val c.m_iCycle 0 + c.src 0 (c.m_n + i) * c.m_Cs.m_Val c.m_iCycle 1 ∧
      (c.Condense ctx).m_pVal 1 i
        = c.src 1 i * c.m_Cs.m_Val c.m_iCycle 1
          + c.src 1 (c.m_n + i) * c.m_Cs.m_Val c.m_iCycle 0) ∧
    (∀ j, j < 2 → ∀ i, i < c.m_n →
      (({ c with m_ppSrc := fun _ => SrcPtr.val } : Calculator F P).Condense ctx).m_pVal j i
        = (({ c with m_ppSrc := fun j => SrcPtr.ext (c.m_pVal j) } :
            Calculator F P).Condense ctx).m_pVal j i) ∧
    (∀ (fuel k : Nat) (ip : InnerProduct F CP) (o : Oracle F CP)
        (s : Calculator F P × InnerProduct F CP × Oracle F CP),
      InnerProduct.Create_cycle ctx fuel (c, ip, o) k = some s →
        s.1.m_Cs.m_Val k 0 ≠ 0 ∧ s.1.m_Cs.m_Val k 1 = (s.1.m_Cs.m_Val k 0)⁻¹ ∧
        ∀ i, i < nDim >>> (k + 1) →
          s.1.m_pVal 0 i = c.src 0 i * s.1.m_Cs.m_Val k 0
            + c.src 0 (nDim >>> (k + 1) + i) * (s.1.m_Cs.m_Val k 0)⁻¹ ∧
          s.1.m_pVal 1 i = c.src 1 i * (s.1.m_Cs.m_Val k 0)⁻¹
            + c.src 1 (nDim >>> (k + 1) + i) * s.1.m_Cs.m_Val k 0) := by
  refine ⟨fun i hi => ⟨Condense_pVal ctx c 0 (by decide) i hi,
    Condense_pVal ctx c 1 (by decide) i hi⟩, ?_, ?_⟩
  · intro j hj i hi
    have ha := Condense_pVal ctx ({ c with m_ppSrc := fun _ => SrcPtr.val } : Calculator F P)
      j hj i hi
    have hb := Condense_pVal ctx
      ({ c with m_ppSrc := fun j => SrcPtr.ext (c.m_pVal j) } : Calculator F P) j hj i hi
    rw [ha, hb]
    rfl
  · intro fuel k ip o s hs
    cases hch : get_Challenge ctx fuel o with
    | none =>
      unfold InnerProduct.Create_cycle at hs
      dsimp only at hs
      rw [hch] at hs
      cases hs
    | some r =>
      obtain ⟨x, o1⟩ := r
      obtain ⟨hx0, hxi⟩ := get_Challenge_spec ctx fuel o _ hch
      obtain ⟨c1, hc1⟩ : ∃ c1 : Calculator F P, c1 =
          { c with m_iCycle := k, m_n := nDim >>> (k + 1), m_Mm := c.m_Mm,
                   m_Cs := { c.m_Cs with m_Val := set2 (set2 c.m_Cs.m_Val k 0 x.1) k 1 x.2 } } :=
        ⟨_, rfl⟩
      have hic1 : c1.m_iCycle = k := by rw [hc1]
      have hn1 : c1.m_n = nDim >>> (k + 1) := by rw [hc1]
      have hv0 : c1.m_Cs.m_Val k 0 = x.1 := by
        rw [hc1]
        show set2 (set2 c.m_Cs.m_Val k 0 x.1) k 1 x.2 k 0 = x.1
        rw [set2_col _ _ _ _ _ (by decide), set2_same]
      have hv1 : c1.m_Cs.m_Val k 1 = x.2 := by
        rw [hc1]
        show set2 (set2 c.m_Cs.m_Val k 0 x.1) k 1 x.2 k 1 = x.2
        rw [set2_same]
      have hsrc1 : ∀ j i, c1.src j i = c.src j i := by intro j i; rw [hc1]; rfl
      have hstart : InnerProduct.Create_cycle ctx fuel (c, ip, o) k
          = (let s := (List.range 2).foldl (InnerProduct.Create_LR ctx) (c1, ip, o1)
             let c := s.1.Condense ctx
             let c := if c.m_iCycle = 0 then
                 (List.range 2).foldl
                   (fun (c : Calculator F P) j =>
                     { c with m_ppSrc := Function.update c.m_ppSrc j SrcPtr.val })
                   c
               else c
             some (c, s.2.1, s.2.2)) := by
        unfold InnerProduct.Create_cycle
        dsimp only
        rw [hch, hc1]
      obtain ⟨mm0, hE0⟩ := Create_LR_eq ctx c1 ip o1 0
      obtain ⟨mm1, hE1⟩ := Create_LR_eq ctx { c1 with m_Mm := mm0 }
        { ip with m_pLR := set2 ip.m_pLR c1.m_iCycle 0 (ctx.Export (c1.LRPoint ctx 0)) }
        (Item.point (ctx.Export (c1.LRPoint ctx 0)) :: o1) 1
      rw [hstart, foldl_range_two, hE0, hE1] at hs
      dsimp only at hs
      obtain ⟨c2, hc2⟩ : ∃ c2 : Calculator F P, c2 =
          { m_pGen := c1.m_pGen, m_pVal := c1.m_pVal, m_ppSrc := c1.m_ppSrc, m_Mod := c1.m_Mod,
            m_Cs := c1.m_Cs, m_Mm := mm1, m_iCycle := c1.m_iCycle, m_n := c1.m_n,
            m_GenOrder := c1.m_GenOrder } := ⟨_, rfl⟩
      rw [← hc2] at hs
      obtain ⟨hC, hCi⟩ := Condense_Cs ctx c2
      have hP := Condense_pVal ctx c2
      have hfin : ∀ cc : Calculator F P,
          (if cc.m_iCycle = 0 then
            (List.range 2).foldl
              (fun (c : Calculator F P) j =>
                { c with m_ppSrc := Function.update c.m_ppSrc j SrcPtr.val })
              cc
          else cc).m_Cs = cc.m_Cs ∧
          (if cc.m_iCycle = 0 then
            (List.range 2).foldl
              (fun (c : Calculator F P) j =>
                { c with m_ppSrc := Function.update c.m_ppSrc j SrcPtr.val })
              cc
          else cc).m_pVal = cc.m_pVal := by
        intro cc
        split
        · rw [foldl_range_two]
          exact ⟨rfl, rfl⟩
        · exact ⟨rfl, rfl⟩
      have hs' := Option.some.inj hs
      rw [← hs']
      dsimp only
      obtain ⟨hf1, hf2⟩ := hfin (Calculator.Condense ctx c2)
      rw [hf1, hf2, hC]
      have hv0' : c2.m_Cs.m_Val k 0 = x.1 := by rw [hc2]; exact hv0
      have hv1' : c2.m_Cs.m_Val k 1 = x.2 := by rw [hc2]; exact hv1
      rw [hv0', hv1']
      have hxi' : x.2 = x.1⁻¹ := hxi
      refine ⟨hx0, hxi', fun i hi => ?_⟩
      have hsrc : ∀ j q, c2.src j q = c.src j q := by
        intro j q
        rw [hc2]
        exact hsrc1 j q
      have hn : c2.m_n = nDim >>> (k + 1) := by rw [hc2]; exact hn1
      have hic : c2.m_iCycle = k := by rw [hc2]; exact hic1
      have h0 := hP 0 (by decide) i (by rw [hn]; exact hi)
      have h1 := hP 1 (by decide) i (by rw [hn]; exact hi)
      rw [hsrc, hsrc, hn, hic, hv0', lnot_zero, hv1', hxi'] at h0
      rw [hsrc, hsrc, hn, hic, hv1', lnot_one, hv0', hxi'] at h1
      exact ⟨h0, h1⟩

/-- C23, as the code has it. The proof value that `IsValid` absorbs field by field holds
`2*nCycles + 4` compact points and `5` scalars (`tau_x`, `mu`, `tDot` and the two condensed
scalars) and nothing else, with `nCycles = log2(nDim) = 6`, `nDim = 64`, and halving `nDim`
`nCycles` times yields `1`. -/
theorem wire_layout (self : Confidential F CP) :
    Oracle.countPoints (Confidential.MultiplierOracle self) = 2 * nCycles + 4 ∧
    Oracle.countScalars (Confidential.MultiplierOracle self) = 5 ∧
    (Confidential.MultiplierOracle self).length = (2 * nCycles + 4) + 5 ∧
    nCycles = Nat.log 2 nDim ∧ nCycles = 6 ∧ nDim = 64 ∧ nDim >>> nCycles = 1 := by
  refine ⟨rfl, rfl, rfl, ?_, rfl, rfl, rfl⟩
  unfold nCycles nDim
  norm_num [Nat.log]

/-- C23, as stated, fails: the proof value holds five scalars, not four. -/
theorem wire_layout_not_four_scalars :
    Oracle.countScalars (Confidential.MultiplierOracle Example.proofZero) ≠ 4 := by
  decide

/-- C24. For every 64-bit value `v` and all challenges `y`, `z`, the coefficient `t0` that
`CoSign` accumulates from the bits of `v` is `z^2 * v + delta(y, z)` with
`delta(y,z) = (z - z^2) * sum_{i<nDim} y^i - z^3 * sum_{i<nDim} 2^i`, the `delta` of the verifier;
so `t0 - delta = z^2 * v`, whatever the blinding vectors are. -/
theorem t0_identity (x y z : F) (v : Nat) (hv : v < 2 ^ 64) (pS pS' : Nat → Nat → F) :
    (Confidential.CoSign_t { x := x, y := y, z := z, zz := z * z } v pS).t0
      = z ^ 2 * (v : F) + ((z - z ^ 2) * sumRange nDim (fun i => y ^ i)
          - z ^ 3 * sumRange nDim (fun i => (2 : F) ^ i)) ∧
    (Confidential.CoSign_t { x := x, y := y, z := z, zz := z * z } v pS).t0
        - Confidential.Delta { x := x, y := y, z := z, zz := z * z } = z ^ 2 * (v : F) ∧
    (Confidential.CoSign_t { x := x, y := y, z := z, zz := z * z } v pS).t0
      = (Confidential.CoSign_t { x := x, y := y, z := z, zz := z * z } v pS').t0 ∧
    ∀ (ctx : Context F P CP) (sk : F) (oracle : Oracle F CP),
      (Confidential.CoSign_tt ctx sk v oracle).t0
        = (Confidential.CoSign_cs1 ctx sk v oracle).1.z ^ 2 * (v : F)
          + Confidential.Delta (Confidential.CoSign_cs1 ctx sk v oracle).1 := by
  have h := honest_t0 ({ x := x, y := y, z := z, zz := z * z } : Confidential.ChallengeSet F)
    rfl v hv
  have hd := Delta_eq ({ x := x, y := y, z := z, zz := z * z } : Confidential.ChallengeSet F)
  dsimp only at h hd
  refine ⟨?_, ?_, ?_, ?_⟩
  · rw [h pS, hd]
    ring
  · rw [h pS]
    ring
  · rw [h pS, h pS']
  · intro ctx sk oracle
    have h2 := honest_t0 (Confidential.CoSign_cs1 ctx sk v oracle).1 rfl v hv
      (Confidential.CoSign_pS ctx sk v)
    unfold Confidential.CoSign_tt
    rw [h2]
    have hz : (Confidential.CoSign_cs1 ctx sk v oracle).1.zz
        = (Confidential.CoSign_cs1 ctx sk v oracle).1.z ^ 2 := by
      rw [pow_two]
      rfl
    rw [hz]

theorem t0_identity_witness :
    5 < 2 ^ 64 ∧
    ((Confidential.CoSign_t ({ x := 1, y := 2, z := 3, zz := 3 * 3 } :
        Confidential.ChallengeSet (ZMod 7)) 5 (fun _ _ => 0)).t0
      = (3 : ZMod 7) ^ 2 * ((5 : Nat) : ZMod 7)
        + (((3 : ZMod 7) - 3 ^ 2) * sumRange nDim (fun i => (2 : ZMod 7) ^ i)
          - 3 ^ 3 * sumRange nDim (fun i => (2 : ZMod 7) ^ i)) ∧
    (Confidential.CoSign_t ({ x := 1, y := 2, z := 3, zz := 3 * 3 } :
        Confidential.ChallengeSet (ZMod 7)) 5 (fun _ _ => 0)).t0
        - Confidential.Delta ({ x := 1, y := 2, z := 3, zz := 3 * 3 } :
            Confidential.ChallengeSet (ZMod 7))
      = (3 : ZMod 7) ^ 2 * ((5 : Nat) : ZMod 7) ∧
    (Confidential.CoSign_t ({ x := 1, y := 2, z := 3, zz := 3 * 3 } :
        Confidential.ChallengeSet (ZMod 7)) 5 (fun _ _ => 0)).t0
      = (Confidential.CoSign_t ({ x := 1, y := 2, z := 3, zz := 3 * 3 } :
          Confidential.ChallengeSet (ZMod 7)) 5 (fun _ _ => 1)).t0 ∧
    ∀ (ctx : Context (ZMod 7) (ZMod 7) (Option (ZMod 7))) (sk : ZMod 7)
        (oracle : Oracle (ZMod 7) (Option (ZMod 7))),
      (Confidential.CoSign_tt ctx sk 5 oracle).t0
        = (Confidential.CoSign_cs1 ctx sk 5 oracle).1.z ^ 2 * ((5 : Nat) : ZMod 7)
          + Confidential.Delta (Confidential.CoSign_cs1 ctx sk 5 oracle).1) :=
  ⟨by decide, t0_identity 1 2 3 5 (by decide) (fun _ _ => 0) (fun _ _ => 1)⟩

/-- C25. For every `v` and `i`, exactly one of the two conditional moves of iteration `i` fires,
so the point added is `m_pGen_[0][i]` when bit `i` of `v` is `1` and `m_pGet1_Minus[i]` when it
is `0`, whatever `ge_s` held before; hence `A` is the encoding of
`alpha*G + sum_{i<nDim} (bit_i ? m_pGen_[0][i] : m_pGet1_Minus[i])`. -/
theorem CoSign_A_selects (ctx : Context F P CP) (v : Nat) :
    (∀ i, ((0 == amountBit v i) = true ∧ (1 == amountBit v i) = false) ∨
      ((0 == amountBit v i) = false ∧ (1 == amountBit v i) = true)) ∧
    (∀ (i : Nat) (prev : P),
      object_cmov (object_cmov prev (ctx.m_pGet1_Minus i) (0 == amountBit v i))
          (ctx.m_pGen_ 0 i) (1 == amountBit v i)
        = if amountBit v i = 1 then ctx.m_pGen_ 0 i else ctx.m_pGet1_Minus i) ∧
    (∀ comm : P, (Confidential.CoSign_A ctx v comm).1
      = comm + sumRange nDim (fun i =>
          if amountBit v i = 1 then ctx.m_pGen_ 0 i else ctx.m_pGet1_Minus i)) ∧
    (∀ sk : F, (Confidential.CoSign_Part1 ctx sk v).m_A
      = ctx.Export ((Confidential.CoSign_alpha ctx sk v).1 • ctx.G + sumRange nDim (fun i =>
          if amountBit v i = 1 then ctx.m_pGen_ 0 i else ctx.m_pGet1_Minus i))) := by
  have hsum : ∀ comm : P, (Confidential.CoSign_A ctx v comm).1
      = comm + sumRange nDim (fun i =>
          if amountBit v i = 1 then ctx.m_pGen_ 0 i else ctx.m_pGet1_Minus i) := by
    intro comm
    rw [CoSign_A_eq]
    congr 1
    apply sumRange_congr
    intro i _
    rcases amountBit_lt v i with h | h <;> simp [h]
  refine ⟨?_, ?_, hsum, ?_⟩
  · intro i
    rcases amountBit_lt v i with h | h <;> simp [h]
  · intro i prev
    rcases amountBit_lt v i with h | h <;> simp [h, object_cmov]
  · intro sk
    show ctx.Export _ = _
    rw [hsum]

theorem AssignRangeAligned_loop (pDst : Nat → Nat) (base n x : Nat) (hb : base + n ≤ 2 ^ 32) :
    ∀ idx, ((List.range n).foldl
      (fun (s : (Nat → Nat) × Nat) t =>
        let i := n - 1 - t
        (Function.update s.1 ((base + i) % 2 ^ 32) (s.2 % 256), s.2 / 256))
      (pDst, x)).1 idx
      = if base ≤ idx ∧ idx < base + n then (x / 256 ^ (base + n - 1 - idx)) % 256
        else pDst idx := by
  have key := foldl_range_induction n
    (fun (s : (Nat → Nat) × Nat) t =>
      let i := n - 1 - t
      (Function.update s.1 ((base + i) % 2 ^ 32) (s.2 % 256), s.2 / 256))
    (fun m (s : (Nat → Nat) × Nat) => s.2 = x / 256 ^ m ∧ ∀ idx, s.1 idx
      = if base + (n - m) ≤ idx ∧ idx < base + n then (x / 256 ^ (base + n - 1 - idx)) % 256
        else pDst idx)
    (pDst, x) ?_ ?_
  · intro idx
    have h := key.2 idx
    rw [Nat.sub_self, Nat.add_zero] at h
    exact h
  · refine ⟨by simp, fun idx => ?_⟩
    rw [if_neg]
    omega
  · intro m s hm hI
    obtain ⟨h2, h1⟩ := hI
    dsimp only
    refine ⟨?_, fun idx => ?_⟩
    · rw [h2, Nat.div_div_eq_div_mul, pow_succ]
    · have hmod : (base + (n - 1 - m)) % 2 ^ 32 = base + (n - 1 - m) := by
        apply Nat.mod_eq_of_lt
        omega
      rw [hmod]
      by_cases hidx : idx = base + (n - 1 - m)
      · rw [hidx, Function.update_same, if_pos (by omega), h2]
        have he : base + n - 1 - (base + (n - 1 - m)) = m := by omega
        rw [he]
      · rw [Function.update_noteq hidx, h1 idx]
        by_cases hc : base + (n - m) ≤ idx ∧ idx < base + n
        · rw [if_pos hc, if_pos (by omega)]
        · rw [if_neg hc, if_neg (by omega)]

theorem AssignRangeAligned_spec (pDst : Nat → Nat) (nDst x q n : Nat) (hn : nDst < 2 ^ 32)
    (hfit : q + n ≤ nDst) :
    (uintBigImpl._AssignRangeAligned pDst nDst x q n).2 = true ∧
    ∀ idx, (uintBigImpl._AssignRangeAligned pDst nDst x q n).1 idx
      = if nDst - (q + n) ≤ idx ∧ idx < nDst - q then (x / 256 ^ (nDst - q - 1 - idx)) % 256
        else pDst idx := by
  unfold uintBigImpl._AssignRangeAligned
  dsimp only
  have hbase : (nDst + (2 ^ 32 - (q + n) % 2 ^ 32)) % 2 ^ 32 = nDst - (q + n) := by omega
  rw [hbase]
  refine ⟨?_, fun idx => ?_⟩
  · rw [decide_eq_true_iff]
    have : (n + q) % 2 ^ 32 = n + q := Nat.mod_eq_of_lt (by omega)
    omega
  · rw [AssignRangeAligned_loop pDst (nDst - (q + n)) n x (by omega) idx]
    have e1 : nDst - (q + n) + n = nDst - q := by omega
    rw [e1]

theorem digits_sum (X s : Nat) :
    sumRange s (fun t => (X / 256 ^ t) % 256 * 256 ^ t) = X % 256 ^ s := by
  induction s with
  | zero => simp [sumRange, Nat.mod_one]
  | succ s ih =>
    rw [sumRange_succ, ih, pow_succ, Nat.mod_mul]
    ring

theorem sumRange_mul_right_nat (n : Nat) (f : Nat → Nat) (c : Nat) :
    sumRange n (fun t => f t * c) = sumRange n f * c := by
  induction n with
  | zero => simp [sumRange]
  | succ n ih => rw [sumRange_succ, sumRange_succ, ih, Nat.add_mul]

theorem AssignSafe_short (sizeofT : Nat) (pDst : Nat → Nat) (nDst x nOffset : Nat)
    (hshort : nDst < nOffset / 8 + sizeofT) :
    (uintBigImpl._AssignSafe sizeofT pDst nDst x nOffset).1 = false := by
  unfold uintBigImpl._AssignSafe uintBigImpl._AssignRangeAlignedSafe
  dsimp only
  rw [Nat.shiftRight_eq_div_pow]
  have h8 : (2 : Nat) ^ 3 = 8 := rfl
  rw [h8]
  by_cases h1 : nDst < nOffset / 8
  · rw [if_pos h1]
    rfl
  · rw [if_neg h1]
    have hb : decide (sizeofT ≤ nDst - nOffset / 8) = false := by
      rw [decide_eq_false_iff_not]
      omega
    dsimp only
    rw [hb]
    rfl

theorem AssignSafe_fits (sizeofT : Nat) (pDst : Nat → Nat) (nDst x nOffset : Nat)
    (hn : nDst < 2 ^ 32) (hfit : nOffset / 8 + sizeofT ≤ nDst) (hs : 0 < sizeofT) :
    uintBigImpl._AssignSafe sizeofT pDst nDst x nOffset
      = if nOffset % 8 ≠ 0 then
          if nDst ≤ nOffset / 8 + sizeofT then
            (false, (uintBigImpl._AssignRangeAligned pDst nDst
                ((x * 2 ^ (nOffset % 8)) % 2 ^ (8 * sizeofT)) (nOffset / 8) sizeofT).1,
              (uintBigImpl._AssignRangeAligned pDst nDst
                ((x * 2 ^ (nOffset % 8)) % 2 ^ (8 * sizeofT)) (nOffset / 8) sizeofT).2)
          else
            (true, Function.update (uintBigImpl._AssignRangeAligned pDst nDst
                ((x * 2 ^ (nOffset % 8)) % 2 ^ (8 * sizeofT)) (nOffset / 8) sizeofT).1
                (nDst - 1 - (nOffset / 8 + sizeofT))
                ((x / 2 ^ (sizeofT * 8 - nOffset % 8)) % 256),
              (uintBigImpl._AssignRangeAligned pDst nDst
                ((x * 2 ^ (nOffset % 8)) % 2 ^ (8 * sizeofT)) (nOffset / 8) sizeofT).2)
        else
          (true, (uintBigImpl._AssignRangeAligned pDst nDst
              ((x * 2 ^ (nOffset % 8)) % 2 ^ (8 * sizeofT)) (nOffset / 8) sizeofT).1,
            (uintBigImpl._AssignRangeAligned pDst nDst
              ((x * 2 ^ (nOffset % 8)) % 2 ^ (8 * sizeofT)) (nOffset / 8) sizeofT).2) := by
  unfold uintBigImpl._AssignSafe uintBigImpl._AssignRangeAlignedSafe
  dsimp only
  have h8 : (2 : Nat) ^ 3 = 8 := rfl
  have h7 : nOffset &&& 7 = nOffset % 8 := Nat.and_pow_two_sub_one_eq_mod nOffset 3
  rw [Nat.shiftRight_eq_div_pow, h8, h7, Nat.shiftLeft_eq, Nat.shiftLeft_eq,
    Nat.shiftRight_eq_div_pow, h8]
  rw [if_neg (by omega : ¬ nDst < nOffset / 8)]
  have hb : decide (sizeofT ≤ nDst - nOffset / 8) = true := by
    rw [decide_eq_true_iff]
    omega
  dsimp only
  rw [hb]
  rw [if_pos rfl]
  have hneg : (!true) = false := rfl
  rw [hneg, if_neg (by decide)]
  have hm1 : (nDst + (2 ^ 32 - 1)) % 2 ^ 32 = nDst - 1 := by omega
  have hm2 : (nOffset / 8 + sizeofT) % 2 ^ 32 = nOffset / 8 + sizeofT :=
    Nat.mod_eq_of_lt (by omega)
  rw [hm1, hm2]
  by_cases hr : nOffset % 8 ≠ 0
  · rw [if_pos hr, if_pos hr]
    by_cases hle : nDst ≤ nOffset / 8 + sizeofT
    · rw [if_pos hle, if_pos (by omega)]
    · rw [if_neg hle, if_neg (by omega)]
      have hm3 : (nDst - 1 + (2 ^ 32 - (nOffset / 8 + sizeofT))) % 2 ^ 32
          = nDst - 1 - (nOffset / 8 + sizeofT) := by omega
      rw [hm3]
  · rw [if_neg hr, if_neg hr]

theorem resid_lt (sizeofT x r : Nat) (hx : x < 2 ^ (8 * sizeofT)) (hr : r < 8) (hr0 : r ≠ 0)
    (hs : 0 < sizeofT) : x / 2 ^ (sizeofT * 8 - r) < 256 := by
  have hsplit : 2 ^ (8 * sizeofT) = 2 ^ (sizeofT * 8 - r) * 2 ^ r := by
    rw [← pow_add]
    congr 1
    omega
  rw [Nat.div_lt_iff_lt_mul (by positivity)]
  have h2 : 2 ^ r ≤ 256 := by
    have : r ≤ 8 := by omega
    calc 2 ^ r ≤ 2 ^ 8 := Nat.pow_le_pow_right (by decide) this
      _ = 256 := rfl
  calc x < 2 ^ (sizeofT * 8 - r) * 2 ^ r := by rw [← hsplit]; exact hx
    _ ≤ 2 ^ (sizeofT * 8 - r) * 256 := Nat.mul_le_mul_left _ h2
    _ = 256 * 2 ^ (sizeofT * 8 - r) := Nat.mul_comm _ _

theorem spill_eq (sizeofT x r : Nat) (hr : r < 8) (hs : 0 < sizeofT) :
    x / 2 ^ (sizeofT * 8 - r) = x * 2 ^ r / 256 ^ sizeofT := by
  have h256 : (256 : Nat) ^ sizeofT = 2 ^ (sizeofT * 8 - r) * 2 ^ r := by
    have : (256 : Nat) = 2 ^ 8 := rfl
    rw [this, ← pow_mul, ← pow_add]
    congr 1
    omega
  rw [h256, Nat.mul_div_mul_right _ _ (by positivity)]

/-- C27. For an unsigned type of `sizeofT` bytes (at most 8), a value `x` of it, a bit offset
`nOffset` and a destination of `nDst` bytes: `_AssignSafe` returns `true` exactly when the
destination holds the `sizeofT` bytes at byte offset `nOffset/8` from the least-significant end
and, when `nOffset mod 8` is nonzero, the next more significant byte; so it returns `false`
whenever the destination is too short for them. When it returns `true`, those `sizeofT` bytes
hold the low `8*sizeofT` bits of `x << (nOffset mod 8)`, the next byte holds
`x >> (8*sizeofT - nOffset mod 8)` when `nOffset mod 8` is nonzero, the bytes written are the
value `x * 2^nOffset`, no other byte is changed and no assertion is violated. -/
theorem AssignSafe_spec (sizeofT : Nat) (hs : 0 < sizeofT) (hs8 : sizeofT ≤ 8)
    (pDst : Nat → Nat) (nDst : Nat) (hn : nDst < 2 ^ 32) (x : Nat) (hx : x < 2 ^ (8 * sizeofT))
    (nOffset : Nat) (ho : nOffset < 2 ^ 32) :
    ((uintBigImpl._AssignSafe sizeofT pDst nDst x nOffset).1 = true ↔
      nOffset / 8 + sizeofT + (if nOffset % 8 = 0 then 0 else 1) ≤ nDst) ∧
    ((uintBigImpl._AssignSafe sizeofT pDst nDst x nOffset).1 = true →
      (∀ t, t < sizeofT →
        (uintBigImpl._AssignSafe sizeofT pDst nDst x nOffset).2.1 (nDst - 1 - (nOffset / 8 + t))
          = ((x <<< (nOffset % 8)) % 2 ^ (8 * sizeofT) / 256 ^ t) % 256) ∧
      (nOffset % 8 ≠ 0 →
        (uintBigImpl._AssignSafe sizeofT pDst nDst x nOffset).2.1
            (nDst - 1 - (nOffset / 8 + sizeofT))
          = x >>> (8 * sizeofT - nOffset % 8)) ∧
      uintBigImpl.rangeValue (uintBigImpl._AssignSafe sizeofT pDst nDst x nOffset).2.1 nDst
          (nOffset / 8) (sizeofT + (if nOffset % 8 = 0 then 0 else 1))
        = x * 2 ^ nOffset ∧
      (∀ idx, ¬ (nDst - (nOffset / 8 + sizeofT + (if nOffset % 8 = 0 then 0 else 1)) ≤ idx ∧
          idx < nDst - nOffset / 8) →
        (uintBigImpl._AssignSafe sizeofT pDst nDst x nOffset).2.1 idx = pDst idx) ∧
      (uintBigImpl._AssignSafe sizeofT pDst nDst x nOffset).2.2 = true) := by
  by_cases hfit : nOffset / 8 + sizeofT ≤ nDst
  swap
  · have hf := AssignSafe_short sizeofT pDst nDst x nOffset (by omega)
    rw [hf]
    refine ⟨⟨fun h => (by cases h), fun h => ?_⟩, fun h => (by cases h)⟩
    exfalso
    split at h <;> omega
  have hE := AssignSafe_fits sizeofT pDst nDst x nOffset hn hfit hs
  obtain ⟨hok, hmem⟩ := AssignRangeAligned_spec pDst nDst
    ((x * 2 ^ (nOffset % 8)) % 2 ^ (8 * sizeofT)) (nOffset / 8) sizeofT hn hfit
  have hshl : x <<< (nOffset % 8) = x * 2 ^ (nOffset % 8) := Nat.shiftLeft_eq _ _
  have hshr : x >>> (8 * sizeofT - nOffset % 8) = x / 2 ^ (sizeofT * 8 - nOffset % 8) := by
    rw [Nat.shiftRight_eq_div_pow, Nat.mul_comm]
  have h256 : (2 : Nat) ^ (8 * sizeofT) = 256 ^ sizeofT := by
    have : (256 : Nat) = 2 ^ 8 := rfl
    rw [this, ← pow_mul]
  have hr8 : nOffset % 8 < 8 := Nat.mod_lt _ (by decide)
  -- the bytes of the aligned part
  have hbytes : ∀ t, t < sizeofT →
      (uintBigImpl._AssignRangeAligned pDst nDst ((x * 2 ^ (nOffset % 8)) % 2 ^ (8 * sizeofT))
        (nOffset / 8) sizeofT).1 (nDst - 1 - (nOffset / 8 + t))
        = ((x * 2 ^ (nOffset % 8)) % 2 ^ (8 * sizeofT) / 256 ^ t) % 256 := by
    intro t ht
    rw [hmem, if_pos (by omega)]
    have e : nDst - nOffset / 8 - 1 - (nDst - 1 - (nOffset / 8 + t)) = t := by omega
    rw [e]
  have hsum : sumRange sizeofT (fun t =>
      (uintBigImpl._AssignRangeAligned pDst nDst ((x * 2 ^ (nOffset % 8)) % 2 ^ (8 * sizeofT))
        (nOffset / 8) sizeofT).1 (nDst - 1 - (nOffset / 8 + t)) * 256 ^ (nOffset / 8 + t))
      = (x * 2 ^ (nOffset % 8)) % 256 ^ sizeofT * 256 ^ (nOffset / 8) := by
    have e1 : sumRange sizeofT (fun t =>
        (uintBigImpl._AssignRangeAligned pDst nDst ((x * 2 ^ (nOffset % 8)) % 2 ^ (8 * sizeofT))
          (nOffset / 8) sizeofT).1 (nDst - 1 - (nOffset / 8 + t)) * 256 ^ (nOffset / 8 + t))
        = sumRange sizeofT (fun t =>
          (((x * 2 ^ (nOffset % 8)) % 2 ^ (8 * sizeofT) / 256 ^ t) % 256 * 256 ^ t)
            * 256 ^ (nOffset / 8)) := by
      apply sumRange_congr
      intro t ht
      rw [hbytes t ht, pow_add]
      ring
    rw [e1, sumRange_mul_right_nat, digits_sum, h256, Nat.mod_mod]
  have hoff : x * 2 ^ nOffset = x * 2 ^ (nOffset % 8) * 256 ^ (nOffset / 8) := by
    have : (256 : Nat) = 2 ^ 8 := rfl
    rw [this, ← pow_mul, Nat.mul_assoc, ← pow_add]
    congr 2
    omega
  by_cases hr : nOffset % 8 ≠ 0
  · rw [if_pos hr] at hE
    have hr' : ¬ nOffset % 8 = 0 := hr
    rw [if_neg hr']
    by_cases hle : nDst ≤ nOffset / 8 + sizeofT
    · rw [if_pos hle] at hE
      rw [hE]
      refine ⟨⟨fun h => (by cases h), fun h => (by omega)⟩, fun h => (by cases h)⟩
    · rw [if_neg hle] at hE
      rw [hE]
      refine ⟨⟨fun _ => (by omega), fun _ => rfl⟩, fun _ => ?_⟩
      have hres := resid_lt sizeofT x (nOffset % 8) hx hr8 hr hs
      have hupd : ∀ t, t < sizeofT →
          Function.update (uintBigImpl._AssignRangeAligned pDst nDst
            ((x * 2 ^ (nOffset % 8)) % 2 ^ (8 * sizeofT)) (nOffset / 8) sizeofT).1
            (nDst - 1 - (nOffset / 8 + sizeofT))
            ((x / 2 ^ (sizeofT * 8 - nOffset % 8)) % 256) (nDst - 1 - (nOffset / 8 + t))
          = (uintBigImpl._AssignRangeAligned pDst nDst
            ((x * 2 ^ (nOffset % 8)) % 2 ^ (8 * sizeofT)) (nOffset / 8) sizeofT).1
            (nDst - 1 - (nOffset / 8 + t)) := by
        intro t ht
        rw [Function.update_noteq (by omega)]
      refine ⟨fun t ht => ?_, fun _ => ?_, ?_, fun idx hidx => ?_, hok⟩
      · show Function.update _ _ _ _ = _
        rw [hupd t ht, hbytes t ht, hshl]
      · show Function.update _ _ _ _ = _
        rw [Function.update_same, Nat.mod_eq_of_lt hres, hshr]
      · unfold uintBigImpl.rangeValue
        rw [sumRange_succ]
        dsimp only
        rw [Function.update_same, Nat.mod_eq_of_lt hres]
        have e2 : sumRange sizeofT (fun t =>
            Function.update (uintBigImpl._AssignRangeAligned pDst nDst
              ((x * 2 ^ (nOffset % 8)) % 2 ^ (8 * sizeofT)) (nOffset / 8) sizeofT).1
              (nDst - 1 - (nOffset / 8 + sizeofT))
              (x / 2 ^ (sizeofT * 8 - nOffset % 8)) (nDst - 1 - (nOffset / 8 + t))
              * 256 ^ (nOffset / 8 + t))
            = sumRange sizeofT (fun t =>
              (uintBigImpl._AssignRangeAligned pDst nDst
                ((x * 2 ^ (nOffset % 8)) % 2 ^ (8 * sizeofT)) (nOffset / 8) sizeofT).1
                (nDst - 1 - (nOffset / 8 + t)) * 256 ^ (nOffset / 8 + t)) := by
          apply sumRange_congr
          intro t ht
          rw [Function.update_noteq (by omega)]
        rw [e2, hsum, spill_eq sizeofT x (nOffset % 8) hr8 hs, hoff, pow_add]
        have hdm := Nat.mod_add_div (x * 2 ^ (nOffset % 8)) (256 ^ sizeofT)
        calc (x * 2 ^ (nOffset % 8)) % 256 ^ sizeofT * 256 ^ (nOffset / 8)
              + x * 2 ^ (nOffset % 8) / 256 ^ sizeofT * (256 ^ (nOffset / 8) * 256 ^ sizeofT)
            = ((x * 2 ^ (nOffset % 8)) % 256 ^ sizeofT
                + 256 ^ sizeofT * (x * 2 ^ (nOffset % 8) / 256 ^ sizeofT))
              * 256 ^ (nOffset / 8) := by ring
          _ = x * 2 ^ (nOffset % 8) * 256 ^ (nOffset / 8) := by rw [hdm]
      · show Function.update _ _ _ _ = _
        rw [Function.update_noteq (by omega), hmem, if_neg (by omega)]
  · rw [if_neg hr] at hE
    have hr' : nOffset % 8 = 0 := by omega
    rw [if_pos hr', hE]
    refine ⟨⟨fun _ => (by omega), fun _ => rfl⟩, fun _ => ?_⟩
    refine ⟨fun t ht => ?_, fun h => absurd hr' h, ?_, fun idx hidx => ?_, hok⟩
    · show (uintBigImpl._AssignRangeAligned _ _ _ _ _).1 _ = _
      rw [hbytes t ht, hshl]
    · unfold uintBigImpl.rangeValue
      rw [Nat.add_zero]
      dsimp only
      rw [hsum, hoff, hr', pow_zero, Nat.mul_one, ← h256, Nat.mod_eq_of_lt hx]
    · show (uintBigImpl._AssignRangeAligned _ _ _ _ _).1 _ = _
      rw [hmem, if_neg (by omega)]

theorem AssignSafe_spec_witness :
    0 < 2 ∧ 2 ≤ 8 ∧ 4 < 2 ^ 32 ∧ 43981 < 2 ^ (8 * 2) ∧ 12 < 2 ^ 32 ∧
    (((uintBigImpl._AssignSafe 2 Example.zeroBuf 4 43981 12).1 = true ↔
      12 / 8 + 2 + (if 12 % 8 = 0 then 0 else 1) ≤ 4) ∧
    ((uintBigImpl._AssignSafe 2 Example.zeroBuf 4 43981 12).1 = true →
      (∀ t, t < 2 →
        (uintBigImpl._AssignSafe 2 Example.zeroBuf 4 43981 12).2.1 (4 - 1 - (12 / 8 + t))
          = ((43981 <<< (12 % 8)) % 2 ^ (8 * 2) / 256 ^ t) % 256) ∧
      (12 % 8 ≠ 0 →
        (uintBigImpl._AssignSafe 2 Example.zeroBuf 4 43981 12).2.1
            (4 - 1 - (12 / 8 + 2))
          = 43981 >>> (8 * 2 - 12 % 8)) ∧
      uintBigImpl.rangeValue (uintBigImpl._AssignSafe 2 Example.zeroBuf 4 43981 12).2.1 4
          (12 / 8) (2 + (if 12 % 8 = 0 then 0 else 1))
        = 43981 * 2 ^ 12 ∧
      (∀ idx, ¬ (4 - (12 / 8 + 2 + (if 12 % 8 = 0 then 0 else 1)) ≤ idx ∧
          idx < 4 - 12 / 8) →
        (uintBigImpl._AssignSafe 2 Example.zeroBuf 4 43981 12).2.1 idx = Example.zeroBuf idx) ∧
      (uintBigImpl._AssignSafe 2 Example.zeroBuf 4 43981 12).2.2 = true)) :=
  ⟨by decide, by decide, by decide, by decide, by decide,
    AssignSafe_spec 2 (by decide) (by decide) Example.zeroBuf 4 (by decide) 43981 (by decide) 12
      (by decide)⟩

theorem skip_add (ctx : Context F P CP) (g : NonceGenerator F CP) (a b : Nat) :
    NonceGenerator.skip ctx (NonceGenerator.skip ctx g a) b = NonceGenerator.skip ctx g (a + b) := by
  induction b with
  | zero => rfl
  | succ b ih =>
    show ((NonceGenerator.skip ctx (NonceGenerator.skip ctx g a) b).get ctx).2 = _
    rw [ih]
    rfl

theorem CoSign_S_row_gen (ctx : Context F P CP) (j : Nat) (n : Nat)
    (s : NonceGenerator F CP × (Nat → Nat → F) × MultiMac F P) :
    ((List.range n).foldl
        (fun (s : NonceGenerator F CP × (Nat → Nat → F) × MultiMac F P) i =>
          let r := s.1.get ctx
          let pS := set2 s.2.1 j i r.1
          (r.2, pS, s.2.2.pushPrepared (ctx.m_pGen_ j i) (pS j i)))
        s).1 = NonceGenerator.skip ctx s.1 n := by
  induction n with
  | zero => rfl
  | succ n ih =>
    rw [List.range_succ, List.foldl_append]
    simp only [List.foldl_cons, List.foldl_nil]
    rw [ih]
    rfl

theorem CoSign_S_gen (ctx : Context F P CP)
    (s : NonceGenerator F CP × (Nat → Nat → F) × MultiMac F P) :
    (Confidential.CoSign_S ctx s).1 = NonceGenerator.skip ctx s.1 (2 * nDim) := by
  unfold Confidential.CoSign_S
  rw [foldl_range_two, CoSign_S_row_gen, CoSign_S_row_gen, skip_add]
  congr 1

theorem CoSign_rs_gen (ctx : Context F P CP) (sk : F) (v : Nat) :
    (Confidential.CoSign_rs ctx sk v).1
      = NonceGenerator.skip ctx { m_Oracle := [Item.amount v], m_sk := sk } (2 * nDim + 2) := by
  unfold Confidential.CoSign_rs
  rw [CoSign_S_gen]
  show NonceGenerator.skip ctx (NonceGenerator.skip ctx _ 2) (2 * nDim) = _
  rw [skip_add]
  congr 1

/-- C29. For every `sk` and `v`, `MultiSig::Init(sk, v)` sets `(tau1, tau2)` to outputs 1 and 2 of
the nonce stream seeded by `(sk, v)`, which are the `alpha` and `rho` of `CoSign(sk, v, ...)`,
whereas the `(tau1, tau2)` of `CoSign` are outputs `2*nDim+3` and `2*nDim+4` of that stream;
hence the share `CoSignPart(sk, v, oracle, p1, p2, p3)` returns is
`rho*x^2 + alpha*x + z^2*sk`, and for the parts of the proof `CoSign(sk, v, ...)` makes this is
`x*mu + z^2*sk` with `mu` the field of that proof. -/
theorem cosigner_nonces (ctx : Context F P CP) (hsq : ∀ o, ctx.squeeze o ≠ 0) (fuel : Nat)
    (hfuel : 0 < fuel) (sk : F) (v : Nat) :
    (MultiSig.InitSk ctx sk v).m_tau1
      = NonceGenerator.output ctx { m_Oracle := [Item.amount v], m_sk := sk } 1 ∧
    (MultiSig.InitSk ctx sk v).m_tau2
      = NonceGenerator.output ctx { m_Oracle := [Item.amount v], m_sk := sk } 2 ∧
    (Confidential.CoSign_alpha ctx sk v).1
      = NonceGenerator.output ctx { m_Oracle := [Item.amount v], m_sk := sk } 1 ∧
    (Confidential.CoSign_ro ctx sk v).1
      = NonceGenerator.output ctx { m_Oracle := [Item.amount v], m_sk := sk } 2 ∧
    (Confidential.CoSign_msig ctx sk v).m_tau1
      = NonceGenerator.output ctx { m_Oracle := [Item.amount v], m_sk := sk } (2 * nDim + 3) ∧
    (Confidential.CoSign_msig ctx sk v).m_tau2
      = NonceGenerator.output ctx { m_Oracle := [Item.amount v], m_sk := sk } (2 * nDim + 4) ∧
    (∀ (oracle : Oracle F CP) (p1 : Part1 CP) (p2 : Part2 CP),
      (Confidential.CoSignPart3 ctx sk v oracle p1 p2).1.m_TauX
        = (Confidential.CoSign_ro ctx sk v).1
            * (Confidential.PartChallenges ctx p1 p2 oracle).x ^ 2
          + (Confidential.CoSign_alpha ctx sk v).1
            * (Confidential.PartChallenges ctx p1 p2 oracle).x
          + (Confidential.PartChallenges ctx p1 p2 oracle).z ^ 2 * sk) ∧
    (∀ (self : Confidential F CP) (oracle : Oracle F CP),
      ∃ proof o', Confidential.CoSign ctx fuel self sk v oracle Phase.SinglePass
          = some (true, proof, o') ∧
        (Confidential.CoSignPart3 ctx sk v oracle proof.m_Part1 proof.m_Part2).1.m_TauX
          = (Confidential.PartChallenges ctx proof.m_Part1 proof.m_Part2 oracle).x * proof.m_Mu
            + (Confidential.PartChallenges ctx proof.m_Part1 proof.m_Part2 oracle).z ^ 2
              * sk) := by
  have hmsig : Confidential.CoSign_msig ctx sk v
      = (MultiSig.Init ctx (NonceGenerator.skip ctx
          { m_Oracle := [Item.amount v], m_sk := sk } (2 * nDim + 2))).1 := by
    unfold Confidential.CoSign_msig
    rw [CoSign_rs_gen]
  have hshare : ∀ (oracle : Oracle F CP) (p1 : Part1 CP) (p2 : Part2 CP),
      (Confidential.CoSignPart3 ctx sk v oracle p1 p2).1.m_TauX
        = (Confidential.CoSign_ro ctx sk v).1
            * (Confidential.PartChallenges ctx p1 p2 oracle).x ^ 2
          + (Confidential.CoSign_alpha ctx sk v).1
            * (Confidential.PartChallenges ctx p1 p2 oracle).x
          + (Confidential.PartChallenges ctx p1 p2 oracle).z ^ 2 * sk := by
    intro oracle p1 p2
    have hz : (Confidential.PartChallenges ctx p1 p2 oracle).zz
        = (Confidential.PartChallenges ctx p1 p2 oracle).z
          * (Confidential.PartChallenges ctx p1 p2 oracle).z := rfl
    have h : (Confidential.CoSignPart3 ctx sk v oracle p1 p2).1.m_TauX
        = (MultiSig.InitSk ctx sk v).AddInfo2 sk (Confidential.PartChallenges ctx p1 p2 oracle) :=
      rfl
    rw [h, AddInfo2_eq, hz]
    have h1 : (MultiSig.InitSk ctx sk v).m_tau1 = (Confidential.CoSign_alpha ctx sk v).1 := rfl
    have h2 : (MultiSig.InitSk ctx sk v).m_tau2 = (Confidential.CoSign_ro ctx sk v).1 := rfl
    rw [h1, h2]
    ring
  refine ⟨rfl, rfl, rfl, rfl, ?_, ?_, hshare, ?_⟩
  · rw [hmsig]
    rfl
  · rw [hmsig]
    rfl
  · intro self oracle
    obtain ⟨ip0, o', hall⟩ := CoSign_fields ctx hsq fuel hfuel sk v oracle Phase.SinglePass
      (by decide) _ self.m_P_Tag
    obtain ⟨ip, hrun, -, -⟩ := hall self (CoSign_Part2_SinglePass ctx self sk v oracle)
    refine ⟨_, o', hrun, ?_⟩
    rw [hshare]
    dsimp only
    have hx : ∀ p2 : Part2 CP,
        (Confidential.PartChallenges ctx (Confidential.CoSign_Part1 ctx sk v) p2 oracle)
          = (Confidential.CoSign_cs2 ctx sk v oracle p2).1 := fun _ => rfl
    rw [hx]
    ring

theorem cosigner_nonces_witness :
    (∀ o, Example.ctx.squeeze o ≠ 0) ∧ 0 < 1 ∧
    ((MultiSig.InitSk Example.ctx 3 5).m_tau1
      = NonceGenerator.output Example.ctx ({ m_Oracle := [Item.amount 5], m_sk := 3 } : NonceGenerator (ZMod 7) (Option (ZMod 7))) 1 ∧
    (MultiSig.InitSk Example.ctx 3 5).m_tau2
      = NonceGenerator.output Example.ctx ({ m_Oracle := [Item.amount 5], m_sk := 3 } : NonceGenerator (ZMod 7) (Option (ZMod 7))) 2 ∧
    (Confidential.CoSign_alpha Example.ctx 3 5).1
      = NonceGenerator.output Example.ctx ({ m_Oracle := [Item.amount 5], m_sk := 3 } : NonceGenerator (ZMod 7) (Option (ZMod 7))) 1 ∧
    (Confidential.CoSign_ro Example.ctx 3 5).1
      = NonceGenerator.output Example.ctx ({ m_Oracle := [Item.amount 5], m_sk := 3 } : NonceGenerator (ZMod 7) (Option (ZMod 7))) 2 ∧
    (Confidential.CoSign_msig Example.ctx 3 5).m_tau1
      = NonceGenerator.output Example.ctx ({ m_Oracle := [Item.amount 5], m_sk := 3 } : NonceGenerator (ZMod 7) (Option (ZMod 7))) (2 * nDim + 3) ∧
    (Confidential.CoSign_msig Example.ctx 3 5).m_tau2
      = NonceGenerator.output Example.ctx ({ m_Oracle := [Item.amount 5], m_sk := 3 } : NonceGenerator (ZMod 7) (Option (ZMod 7))) (2 * nDim + 4) ∧
    (∀ (oracle : Oracle (ZMod 7) (Option (ZMod 7))) (p1 : Part1 (Option (ZMod 7))) (p2 : Part2 (Option (ZMod 7))),
      (Confidential.CoSignPart3 Example.ctx 3 5 oracle p1 p2).1.m_TauX
        = (Confidential.CoSign_ro Example.ctx 3 5).1
            * (Confidential.PartChallenges Example.ctx p1 p2 oracle).x ^ 2
          + (Confidential.CoSign_alpha Example.ctx 3 5).1
            * (Confidential.PartChallenges Example.ctx p1 p2 oracle).x
          + (Confidential.PartChallenges Example.ctx p1 p2 oracle).z ^ 2 * 3) ∧
    (∀ (self : Confidential (ZMod 7) (Option (ZMod 7))) (oracle : Oracle (ZMod 7) (Option (ZMod 7))),
      ∃ proof o', Confidential.CoSign Example.ctx 1 self 3 5 oracle Phase.SinglePass
          = some (true, proof, o') ∧
        (Confidential.CoSignPart3 Example.ctx 3 5 oracle proof.m_Part1 proof.m_Part2).1.m_TauX
          = (Confidential.PartChallenges Example.ctx proof.m_Part1 proof.m_Part2 oracle).x * proof.m_Mu
            + (Confidential.PartChallenges Example.ctx proof.m_Part1 proof.m_Part2 oracle).z ^ 2
              * 3)) :=
  ⟨fun _ => (by decide : (1 : ZMod 7) ≠ 0), by decide,
    cosigner_nonces Example.ctx (fun _ => (by decide : (1 : ZMod 7) ≠ 0)) 1 (by decide) 3 5⟩

theorem dirty_absurd {α : Prop} (bc : BatchContext F P) (hd : bc.m_bDirty = true)
    (hc : bc.m_bDirty = false) : α := by
  rw [hd] at hc
  cases hc

theorem CleanInv_Flush (ctx : Context F P CP) (bc : BatchContext F P) (b : Bool)
    (h : BatchContext.CleanInv (bc, b)) : BatchContext.CleanInv ((bc.Flush ctx).2, false) := by
  refine ⟨fun hc => (by cases hc), ?_⟩
  unfold BatchContext.Flush
  by_cases hd : bc.m_bDirty = true
  · rw [hd]
    by_cases hz : BatchContext.Calculate ctx bc = 0
    · simp only [Bool.not_true, Bool.false_eq_true, if_false, hz, decide_True]
      intro _
      exact ⟨rfl, fun _ => rfl⟩
    · simp only [Bool.not_true, Bool.false_eq_true, if_false, hz, decide_False, Bool.not_false,
        if_true]
      intro hc
      rw [hd] at hc
      cases hc
  · have hd' : bc.m_bDirty = false := by simpa using hd
    rw [hd']
    simp only [Bool.not_false, if_true]
    exact h.2

theorem CleanInv_apply (ctx : Context F P CP) (s : BatchContext F P × Bool)
    (op : BatchContext.Op F P CP) (h : BatchContext.CleanInv s)
    (hop : op.isAdd = true → s.2 = true) : BatchContext.CleanInv (BatchContext.applyOp ctx s op) := by
  obtain ⟨bc, b⟩ := s
  cases op with
  | Reset => exact ⟨fun hc => (by cases hc), fun _ => ⟨rfl, fun _ => rfl⟩⟩
  | Flush => exact CleanInv_Flush ctx bc b h
  | EquationBegin n =>
    show BatchContext.CleanInv ((bc.EquationBegin ctx n).2, (bc.EquationBegin ctx n).1)
    unfold BatchContext.EquationBegin
    by_cases h1 : n > bc.m_CasualTotal
    · rw [if_pos h1]
      exact ⟨fun hc => (by cases hc), h.2⟩
    · rw [if_neg h1]
      dsimp only
      by_cases h2 : (n + bc.m_Casual) % 2 ^ 32 > bc.m_CasualTotal
      · rw [if_pos h2]
        have hF := CleanInv_Flush ctx bc b h
        by_cases h3 : (bc.Flush ctx).1 = true
        · rw [h3]
          exact ⟨fun _ => rfl, fun hc => (by cases hc)⟩
        · have h3' : (bc.Flush ctx).1 = false := by simpa using h3
          rw [h3']
          exact ⟨fun hc => (by cases hc), hF.2⟩
      · rw [if_neg h2]
        exact ⟨fun _ => rfl, fun hc => (by cases hc)⟩
  | EquationEnd =>
    show BatchContext.CleanInv ((bc.EquationEnd ctx).2, false)
    unfold BatchContext.EquationEnd
    dsimp only
    by_cases hb : bc.m_bEnableBatch = true
    · rw [hb]
      exact ⟨fun hc => (by cases hc), h.2⟩
    · have hb' : bc.m_bEnableBatch = false := by simpa using hb
      rw [hb']
      exact CleanInv_Flush ctx _ b ⟨fun hc => h.1 hc, h.2⟩
  | AddCasual pt k =>
    have hd := h.1 (hop rfl)
    exact ⟨fun _ => hd, fun hc => dirty_absurd bc hd hc⟩
  | AddCasualP p k =>
    have hd := h.1 (hop rfl)
    show BatchContext.CleanInv ((bc.AddCasualP ctx p k).2, b)
    unfold BatchContext.AddCasualP
    cases ctx.Import p with
    | none => exact h
    | some pt =>
      exact ⟨fun _ => hd, fun hc => dirty_absurd bc hd hc⟩
  | AddPrepared i k =>
    have hd := h.1 (hop rfl)
    exact ⟨fun _ => hd, fun hc => dirty_absurd bc hd hc⟩
  | WriteKPrep i k =>
    have hd := h.1 (hop rfl)
    exact ⟨fun _ => hd, fun hc => dirty_absurd bc hd hc⟩
  | SetEnableBatch e => exact h
  | SetMultiplier m => exact h

theorem CleanInv_run (ctx : Context F P CP) (ops : List (BatchContext.Op F P CP)) :
    ∀ s : BatchContext F P × Bool, BatchContext.CleanInv s →
      BatchContext.disciplined ctx s ops = true →
      BatchContext.CleanInv (BatchContext.runOps ctx s ops) := by
  induction ops with
  | nil => intro s h _; exact h
  | cons op ops ih =>
    intro s h hd
    unfold BatchContext.disciplined at hd
    rw [Bool.and_eq_true, Bool.or_eq_true, Bool.not_eq_true'] at hd
    have hop : op.isAdd = true → s.2 = true := by
      intro ha
      rcases hd.1 with h1 | h1
      · rw [ha] at h1; cases h1
      · exact h1
    exact ih _ (CleanInv_apply ctx s op h hop) hd.2

/-- C30. Along every sequence of operations on a batch context that starts from its
construction and queues terms (`AddCasual`, `AddPrepared`, the direct coefficient writes of the
verifier) only while an equation is open, that is, after an `EquationBegin` that returned `true`
with no `Flush`, `Reset`, `EquationEnd` or failed `EquationBegin` in between: when the dirty flag
is clear there are no pending casual terms and all prepared coefficients are zero, so the
queued sum is the identity and `Flush` returns `true` leaving the context as it is. -/
theorem clean_context_invariant (ctx : Context F P CP) (nCasualTotal : Nat)
    (ops : List (BatchContext.Op F P CP))
    (hdisc : BatchContext.disciplined ctx (BatchContext.init nCasualTotal, false) ops = true)
    (hclean : (BatchContext.runOps ctx (BatchContext.init nCasualTotal, false) ops).1.m_bDirty
      = false) :
    (BatchContext.runOps ctx (BatchContext.init nCasualTotal, false) ops).1.m_pCasual = [] ∧
    (∀ i, (BatchContext.runOps ctx (BatchContext.init nCasualTotal, false) ops).1.m_pKPrep i
      = 0) ∧
    (BatchContext.runOps ctx (BatchContext.init nCasualTotal, false) ops).1.Calculate ctx = 0 ∧
    (BatchContext.runOps ctx (BatchContext.init nCasualTotal, false) ops).1.Flush ctx
      = (true, (BatchContext.runOps ctx (BatchContext.init nCasualTotal, false) ops).1) := by
  have hinit : BatchContext.CleanInv
      ((BatchContext.init nCasualTotal : BatchContext F P), false) :=
    ⟨fun hc => (by cases hc), fun _ => ⟨rfl, fun _ => rfl⟩⟩
  have h := (CleanInv_run ctx ops _ hinit hdisc).2 hclean
  refine ⟨h.1, h.2, ?_, ?_⟩
  · unfold BatchContext.Calculate
    rw [h.1]
    have hz : sumRange ctx.s_CountPrepared (fun i =>
        (BatchContext.runOps ctx (BatchContext.init nCasualTotal, false) ops).1.m_pKPrep i
          • BatchContext.m_ppPrepared ctx i) = sumRange ctx.s_CountPrepared (fun _ => (0 : P)) := by
      apply sumRange_congr
      intro i _
      rw [h.2 i, zero_smul]
    rw [hz]
    simp [sumRange]
  · unfold BatchContext.Flush
    rw [hclean]
    rfl

set_option maxRecDepth 100000 in
theorem clean_context_invariant_witness :
    BatchContext.disciplined Example.ctx (BatchContext.init 3, false)
      [BatchContext.Op.EquationBegin 2, BatchContext.Op.AddCasual 1 3,
        BatchContext.Op.AddPrepared 130 4, BatchContext.Op.EquationEnd] = true ∧
    (BatchContext.runOps Example.ctx (BatchContext.init 3, false)
      [BatchContext.Op.EquationBegin 2, BatchContext.Op.AddCasual 1 3,
        BatchContext.Op.AddPrepared 130 4, BatchContext.Op.EquationEnd]).1.m_bDirty = false ∧
    (BatchContext.runOps Example.ctx (BatchContext.init 3, false)
      [BatchContext.Op.EquationBegin 2, BatchContext.Op.AddCasual 1 3,
        BatchContext.Op.AddPrepared 130 4, BatchContext.Op.EquationEnd]).1.m_pCasual = [] ∧
    (∀ i, (BatchContext.runOps Example.ctx (BatchContext.init 3, false)
      [BatchContext.Op.EquationBegin 2, BatchContext.Op.AddCasual 1 3,
        BatchContext.Op.AddPrepared 130 4, BatchContext.Op.EquationEnd]).1.m_pKPrep i = 0) ∧
    (BatchContext.runOps Example.ctx (BatchContext.init 3, false)
      [BatchContext.Op.EquationBegin 2, BatchContext.Op.AddCasual 1 3,
        BatchContext.Op.AddPrepared 130 4, BatchContext.Op.EquationEnd]).1.Calculate Example.ctx
      = 0 ∧
    (BatchContext.runOps Example.ctx (BatchContext.init 3, false)
      [BatchContext.Op.EquationBegin 2, BatchContext.Op.AddCasual 1 3,
        BatchContext.Op.AddPrepared 130 4, BatchContext.Op.EquationEnd]).1.Flush Example.ctx
      = (true, (BatchContext.runOps Example.ctx (BatchContext.init 3, false)
          [BatchContext.Op.EquationBegin 2, BatchContext.Op.AddCasual 1 3,
            BatchContext.Op.AddPrepared 130 4, BatchContext.Op.EquationEnd]).1) :=
  ⟨by decide, by decide,
    clean_context_invariant Example.ctx 3
      [BatchContext.Op.EquationBegin 2, BatchContext.Op.AddCasual 1 3,
        BatchContext.Op.AddPrepared 130 4, BatchContext.Op.EquationEnd] (by decide) (by decide)⟩

theorem mult_AddCasuals (bc : BatchContext F P) (ts : List (P × F)) :
    (bc.AddCasuals ts).m_Multiplier = bc.m_Multiplier := by
  induction ts generalizing bc with
  | nil => rfl
  | cons t ts ih => rw [AddCasuals_cons, ih]; rfl

theorem casual_AddCasuals (bc : BatchContext F P) (ts : List (P × F)) :
    (bc.AddCasuals ts).m_pCasual
      = bc.m_pCasual ++ ts.map (fun t =>
          (t.1, if bc.m_bEnableBatch then t.2 * bc.m_Multiplier else t.2)) := by
  induction ts generalizing bc with
  | nil => simp [AddCasuals_nil]
  | cons t ts ih =>
    rw [AddCasuals_cons, ih]
    simp [BatchContext.AddCasual]

theorem Proceed_batch_frame (ctx : Context F P CP) (iCycle : Nat) :
    ∀ (a : Aggregator F P) (bc : BatchContext F P) (iPos : Nat) (k : F),
      a.m_pCalc = none → a.m_pBatchCtx = some bc → a.m_j < 2 → a.m_iCycleTrg ≤ iCycle →
      iCycle ≤ nCycles → iPos + 2 ^ iCycle ≤ nDim →
      ∃ kp, Aggregator.Proceed ctx a iPos iCycle k
          = { a with m_pBatchCtx := some { bc with m_pKPrep := kp } } ∧
        ∀ q, 2 * nDim ≤ q → kp q = bc.m_pKPrep q := by
  have hleaf : ∀ (a : Aggregator F P) (bc : BatchContext F P) (iPos : Nat) (k : F),
      a.m_pCalc = none → a.m_pBatchCtx = some bc → a.m_j < 2 → iPos < nDim →
      ∃ kp, a.Leaf ctx iPos k = { a with m_pBatchCtx := some { bc with m_pKPrep := kp } } ∧
        ∀ q, 2 * nDim ≤ q → kp q = bc.m_pKPrep q := by
    intro a bc iPos k hc hb hj hp
    refine ⟨Function.update bc.m_pKPrep (iPos + a.m_j * nDim)
      (bc.m_pKPrep (iPos + a.m_j * nDim) + a.m_Mod.Set k iPos a.m_j), ?_, ?_⟩
    · unfold Aggregator.Leaf
      simp [hc, hb, hp]
    · intro q hq
      have hlt : iPos + a.m_j * nDim < 2 * nDim := by
        have : a.m_j ≤ 1 := by omega
        have := Nat.mul_le_mul_right nDim this
        omega
      rw [Function.update_noteq (by omega)]
  induction iCycle with
  | zero =>
    intro a bc iPos k hc hb hj ht _ hp
    have ht0 : ¬ (0 ≠ a.m_iCycleTrg) := by omega
    obtain ⟨kp, h1, h2⟩ := hleaf a bc iPos k hc hb hj (by simp at hp; omega)
    refine ⟨kp, ?_, h2⟩
    rw [Aggregator.Proceed, if_neg ht0]
    exact h1
  | succ n ih =>
    intro a bc iPos k hc hb hj ht hn hp
    have h2n : 0 < 2 ^ n := Nat.two_pow_pos n
    have hpow : 2 ^ (n + 1) = 2 ^ n + 2 ^ n := by rw [pow_succ]; omega
    by_cases heq : n + 1 = a.m_iCycleTrg
    · have hpos : iPos < nDim := by omega
      have heq' : ¬ (n + 1 ≠ a.m_iCycleTrg) := not_not.mpr heq
      obtain ⟨kp, h1, h2⟩ := hleaf a bc iPos k hc hb hj hpos
      refine ⟨kp, ?_, h2⟩
      rw [Aggregator.Proceed, if_neg heq']
      exact h1
    · have hflag : (a.m_AssertFailed || !decide (n + 1 ≤ nCycles)) = a.m_AssertFailed := by
        simp [hn]
      have hp1 : iPos + 2 ^ n ≤ nDim := by omega
      have hp2 : iPos + 2 ^ n + 2 ^ n ≤ nDim := by omega
      have htn : a.m_iCycleTrg ≤ n := by omega
      have hnn : n ≤ nCycles := by omega
      obtain ⟨kp1, h1, h2⟩ := ih a bc iPos (k * a.m_cs.m_Val (nCycles - (n + 1)) (lnot a.m_j))
        hc hb hj htn hnn hp1
      obtain ⟨kp2, h3, h4⟩ := ih
        { a with m_pBatchCtx := some { bc with m_pKPrep := kp1 } }
        { bc with m_pKPrep := kp1 } (iPos + 2 ^ n)
        (k * a.m_cs.m_Val (nCycles - (n + 1)) a.m_j) hc rfl hj htn hnn hp2
      refine ⟨kp2, ?_, fun q hq => (h4 q hq).trans (h2 q hq)⟩
      rw [Aggregator.Proceed, if_pos heq]
      simp only [hflag]
      have ha : ({ a with m_AssertFailed := a.m_AssertFailed } : Aggregator F P) = a := rfl
      rw [ha, h1]
      simp only [Nat.one_shiftLeft]
      rw [h3]

theorem IsValid_condensed_frame (ctx : Context F P CP) (self : InnerProduct F CP)
    (cs : ChallengeSet F) (modExp : ModifierExpanded F) (bc : BatchContext F P) (j : Nat)
    (hj : j < 2) :
    ∃ kp, InnerProduct.IsValid_condensed ctx self cs modExp bc j = { bc with m_pKPrep := kp } ∧
      ∀ q, 2 * nDim ≤ q → kp q = bc.m_pKPrep q := by
  obtain ⟨kp, h1, h2⟩ := Proceed_batch_frame ctx nCycles
    { Aggregator.mk' MultiMac.Reset cs modExp j 0 with m_pBatchCtx := some bc } bc 0
    (bc.factor * -self.m_pCondensed j) rfl rfl hj (Nat.zero_le _) (Nat.le_refl _) (by decide)
  refine ⟨kp, ?_, h2⟩
  unfold InnerProduct.IsValid_condensed
  dsimp only
  rw [factor_mul, h1]
  simp [Aggregator.mk']

theorem IsValid_cycles_terms (ctx : Context F P CP) (hsq : ∀ o, ctx.squeeze o ≠ 0) (fuel : Nat)
    (hfuel : 0 < fuel) (ip : InnerProduct F CP) (LR : Nat → Nat → P) :
    ∀ (ks : List Nat) (cs : ChallengeSet F) (o : Oracle F CP) (bc : BatchContext F P),
      (∀ k, k ∈ ks → ∀ j, j < 2 → ctx.Import (ip.m_pLR k j) = some (LR k j)) →
      ∃ val' : Nat → Nat → F, InnerProduct.IsValid_cycles ctx fuel ip ks cs o bc
          = some (true, { cs with m_Val := val' }, InnerProduct.roundsLog ip ks o,
              bc.AddCasuals (InnerProduct.roundTerms ctx ip LR ks o)) := by
  intro ks
  induction ks with
  | nil =>
    intro cs o bc _
    exact ⟨cs.m_Val, rfl⟩
  | cons k rest ih =>
    intro cs o bc himp
    have hch := get_Challenge_of_ne ctx hsq fuel hfuel o
    have hL := himp k (List.mem_cons_self _ _) 0 (by decide)
    have hR := himp k (List.mem_cons_self _ _) 1 (by decide)
    obtain ⟨val', hrest⟩ := ih
      { cs with m_Val := set2 (set2 cs.m_Val k 0 (ctx.squeeze o)) k 1 (ctx.squeeze o)⁻¹ }
      (Item.point (ip.m_pLR k 1) :: Item.point (ip.m_pLR k 0) :: Item.out :: o)
      (bc.AddCasuals [(LR k 0, ctx.squeeze o * ctx.squeeze o),
        (LR k 1, (ctx.squeeze o)⁻¹ * (ctx.squeeze o)⁻¹)])
      (fun k' hk' => himp k' (List.mem_cons_of_mem _ hk'))
    refine ⟨val', ?_⟩
    rw [InnerProduct.IsValid_cycles, hch]
    dsimp only
    rw [IsValid_LR_two ctx ip _ k _ bc (LR k 0) (LR k 1) hL hR]
    dsimp only
    rw [set2_col _ _ _ _ _ (by decide), set2_same, set2_same]
    simp only [Bool.not_true, Bool.false_eq_true, if_false]
    rw [hrest, InnerProduct.roundsLog, InnerProduct.roundTerms, pow_two, pow_two]
    rfl

/-- C22. When every extraction from the transcript yields a nonzero scalar, the points `L_i`,
`R_i` decode and the indices of the prepared table are laid out as the code assumes,
`InnerProduct::IsValid(bc, oracle, dotAB, mod)` returns `true`, appends to the casual terms, for
each round `i < nCycles` in turn, `L_i` with coefficient `x_i^2` and `R_i` with coefficient
`x_i^-2` (`x_i` the challenge of the round), and adds
`(dotAB - condensed[0]*condensed[1]) * dotMultiplier` to the coefficient of `m_GenDot_`; with
batching enabled each of these coefficients is multiplied by `bc.m_Multiplier`, with batching
disabled they are exactly those values. -/
theorem IsValid_enqueues (ctx : Context F P CP) (hIdx : ctx.IdxOk)
    (hsq : ∀ o, ctx.squeeze o ≠ 0) (fuel : Nat) (hfuel : 0 < fuel) (self : InnerProduct F CP)
    (bc : BatchContext F P) (oracle : Oracle F CP) (dotAB : F) (mod : Modifier F)
    (LR : Nat → Nat → P)
    (hLR : ∀ k, k < nCycles → ∀ j, j < 2 → ctx.Import (self.m_pLR k j) = some (LR k j)) :
    ∃ o' bc', InnerProduct.IsValidOracle ctx fuel self bc oracle dotAB mod
        = some (true, o', bc') ∧
      bc'.m_pCasual = bc.m_pCasual ++
        (InnerProduct.roundTerms ctx self LR (List.range nCycles)
          (Item.out :: Item.scalar dotAB :: oracle)).map
          (fun t => (t.1, if bc.m_bEnableBatch then t.2 * bc.m_Multiplier else t.2)) ∧
      bc'.m_pKPrep ctx.s_Idx_GenDot = bc.m_pKPrep ctx.s_Idx_GenDot +
        (if bc.m_bEnableBatch then
          (dotAB - self.m_pCondensed 0 * self.m_pCondensed 1)
            * ctx.squeeze (Item.scalar dotAB :: oracle) * bc.m_Multiplier
        else (dotAB - self.m_pCondensed 0 * self.m_pCondensed 1)
            * ctx.squeeze (Item.scalar dotAB :: oracle)) ∧
      (bc.m_bEnableBatch = false →
        bc'.m_pCasual = bc.m_pCasual ++
          InnerProduct.roundTerms ctx self LR (List.range nCycles)
            (Item.out :: Item.scalar dotAB :: oracle) ∧
        bc'.m_pKPrep ctx.s_Idx_GenDot = bc.m_pKPrep ctx.s_Idx_GenDot +
          (dotAB - self.m_pCondensed 0 * self.m_pCondensed 1)
            * ctx.squeeze (Item.scalar dotAB :: oracle)) := by
  obtain ⟨val', hcyc⟩ := IsValid_cycles_terms ctx hsq fuel hfuel self LR (List.range nCycles)
    { m_DotMultiplier := ctx.squeeze (Item.scalar dotAB :: oracle), m_Val := fun _ _ => 0 }
    (Item.out :: Item.scalar dotAB :: oracle) bc
    (fun k hk j hj => hLR k (List.mem_range.mp hk) j hj)
  obtain ⟨terms, hterms⟩ : ∃ terms, terms = InnerProduct.roundTerms ctx self LR
    (List.range nCycles) (Item.out :: Item.scalar dotAB :: oracle) := ⟨_, rfl⟩
  rw [← hterms] at hcyc ⊢
  obtain ⟨bc1, hbc1⟩ : ∃ bc1 : BatchContext F P, bc1 = { bc.AddCasuals terms with
      m_AssertFailed := (bc.AddCasuals terms).m_AssertFailed || !decide (1 = nDim >>> nCycles) } :=
    ⟨_, rfl⟩
  obtain ⟨kp0, hc0, hf0⟩ := IsValid_condensed_frame ctx self
    { m_DotMultiplier := ctx.squeeze (Item.scalar dotAB :: oracle), m_Val := val' }
    (ModifierExpanded.Init mod) bc1 0 (by decide)
  obtain ⟨kp1, hc1, hf1⟩ := IsValid_condensed_frame ctx self
    { m_DotMultiplier := ctx.squeeze (Item.scalar dotAB :: oracle), m_Val := val' }
    (ModifierExpanded.Init mod) { bc1 with m_pKPrep := kp0 } 1 (by decide)
  have hG : 2 * nDim ≤ ctx.s_Idx_GenDot := hIdx.1
  have hrun : InnerProduct.IsValidOracle ctx fuel self bc oracle dotAB mod
      = some (true, InnerProduct.roundsLog self (List.range nCycles)
          (Item.out :: Item.scalar dotAB :: oracle),
        ({ bc1 with m_pKPrep := kp1 } : BatchContext F P).AddPrepared ctx ctx.s_Idx_GenDot
          ((-(self.m_pCondensed 0 * self.m_pCondensed 1) + dotAB)
            * ctx.squeeze (Item.scalar dotAB :: oracle))) := by
    unfold InnerProduct.IsValidOracle
    dsimp only [Oracle.get]
    rw [hcyc]
    dsimp only
    rw [if_neg (by decide), foldl_range_two, ← hbc1, hc0, hc1]
  have hkp : (({ bc1 with m_pKPrep := kp1 } : BatchContext F P).AddPrepared ctx ctx.s_Idx_GenDot
      ((-(self.m_pCondensed 0 * self.m_pCondensed 1) + dotAB)
        * ctx.squeeze (Item.scalar dotAB :: oracle))).m_pKPrep ctx.s_Idx_GenDot
      = (bc.AddCasuals terms).m_pKPrep ctx.s_Idx_GenDot
        + (if (bc.AddCasuals terms).m_bEnableBatch then
            (-(self.m_pCondensed 0 * self.m_pCondensed 1) + dotAB)
              * ctx.squeeze (Item.scalar dotAB :: oracle) * (bc.AddCasuals terms).m_Multiplier
          else (-(self.m_pCondensed 0 * self.m_pCondensed 1) + dotAB)
              * ctx.squeeze (Item.scalar dotAB :: oracle)) := by
    have e1 : kp1 ctx.s_Idx_GenDot = (bc.AddCasuals terms).m_pKPrep ctx.s_Idx_GenDot := by
      rw [hf1 _ hG]
      show kp0 ctx.s_Idx_GenDot = _
      rw [hf0 _ hG, hbc1]
    rw [← e1, hbc1]
    unfold BatchContext.AddPrepared
    dsimp only
    rw [Function.update_same]
  have hk : -(self.m_pCondensed 0 * self.m_pCondensed 1) + dotAB
      = dotAB - self.m_pCondensed 0 * self.m_pCondensed 1 := by ring
  refine ⟨_, _, hrun, ?_, ?_, ?_⟩
  · show ({ bc1 with m_pKPrep := kp1 } : BatchContext F P).m_pCasual = _
    rw [hbc1]
    exact casual_AddCasuals bc terms
  · rw [hkp, kprep_AddCasuals, AddCasuals_enable, mult_AddCasuals, hk]
  · intro hb
    constructor
    · show ({ bc1 with m_pKPrep := kp1 } : BatchContext F P).m_pCasual = _
      rw [hbc1, casual_AddCasuals bc terms, hb]
      simp
    · rw [hkp, kprep_AddCasuals, AddCasuals_enable, hb, hk, if_neg (by decide)]

theorem IsValid_enqueues_witness :
    Example.ctx.IdxOk ∧ (∀ o, Example.ctx.squeeze o ≠ 0) ∧ 0 < 1 ∧
    (∀ k, k < nCycles → ∀ j, j < 2 →
      Example.ctx.Import (Example.ipZero.m_pLR k j) = some ((fun _ _ => (0 : ZMod 7)) k j)) ∧
    (∃ o' bc', InnerProduct.IsValidOracle Example.ctx 1 Example.ipZero (BatchContext.init 17 : BatchContext (ZMod 7) (ZMod 7)) [] (3 : ZMod 7) Example.modNone
        = some (true, o', bc') ∧
      bc'.m_pCasual = (BatchContext.init 17 : BatchContext (ZMod 7) (ZMod 7)).m_pCasual ++
        (InnerProduct.roundTerms Example.ctx Example.ipZero (fun _ _ => (0 : ZMod 7)) (List.range nCycles)
          (Item.out :: Item.scalar (3 : ZMod 7) :: [])).map
          (fun t => (t.1, if (BatchContext.init 17 : BatchContext (ZMod 7) (ZMod 7)).m_bEnableBatch then t.2 * (BatchContext.init 17 : BatchContext (ZMod 7) (ZMod 7)).m_Multiplier else t.2)) ∧
      bc'.m_pKPrep Example.ctx.s_Idx_GenDot = (BatchContext.init 17 : BatchContext (ZMod 7) (ZMod 7)).m_pKPrep Example.ctx.s_Idx_GenDot +
        (if (BatchContext.init 17 : BatchContext (ZMod 7) (ZMod 7)).m_bEnableBatch then
          ((3 : ZMod 7) - Example.ipZero.m_pCondensed 0 * Example.ipZero.m_pCondensed 1)
            * Example.ctx.squeeze (Item.scalar (3 : ZMod 7) :: []) * (BatchContext.init 17 : BatchContext (ZMod 7) (ZMod 7)).m_Multiplier
        else ((3 : ZMod 7) - Example.ipZero.m_pCondensed 0 * Example.ipZero.m_pCondensed 1)
            * Example.ctx.squeeze (Item.scalar (3 : ZMod 7) :: [])) ∧
      ((BatchContext.init 17 : BatchContext (ZMod 7) (ZMod 7)).m_bEnableBatch = false →
        bc'.m_pCasual = (BatchContext.init 17 : BatchContext (ZMod 7) (ZMod 7)).m_pCasual ++
          InnerProduct.roundTerms Example.ctx Example.ipZero (fun _ _ => (0 : ZMod 7)) (List.range nCycles)
            (Item.out :: Item.scalar (3 : ZMod 7) :: []) ∧
        bc'.m_pKPrep Example.ctx.s_Idx_GenDot = (BatchContext.init 17 : BatchContext (ZMod 7) (ZMod 7)).m_pKPrep Example.ctx.s_Idx_GenDot +
          ((3 : ZMod 7) - Example.ipZero.m_pCondensed 0 * Example.ipZero.m_pCondensed 1)
            * Example.ctx.squeeze (Item.scalar (3 : ZMod 7) :: []))) :=
  ⟨Example_ctx_Ok.1, fun _ => (by decide : (1 : ZMod 7) ≠ 0), by decide, fun _ _ _ _ => rfl,
    IsValid_enqueues Example.ctx Example_ctx_Ok.1 (fun _ => (by decide : (1 : ZMod 7) ≠ 0)) 1
      (by decide) Example.ipZero (BatchContext.init 17) [] 3 Example.modNone (fun _ _ => 0)
      (fun _ _ _ _ => rfl)⟩

theorem Create_cycle_full (ctx : Context F P CP) (M : ModifierExpanded F) (dm : F) (fuel k : Nat)
    (hk : k < nCycles) (c : Calculator F P) (ip : InnerProduct F CP) (o o1 : Oracle F CP)
    (x xi : F) (hinv : CalcInv ctx M dm k c)
    (hch : get_Challenge ctx fuel o = some ((x, xi), o1))
    (val' : Nat → Nat → F) (hval' : val' = set2 (set2 c.m_Cs.m_Val k 0 x) k 1 xi) (L R : P)
    (hLd : L = LRExpanded ctx M dm val' k (c.src 0) (c.src 1) 0)
    (hRd : R = LRExpanded ctx M dm val' k (c.src 0) (c.src 1) 1) :
    ∃ c', InnerProduct.Create_cycle ctx fuel (c, ip, o) k
        = some (c', { ip with m_pLR := set2 (set2 ip.m_pLR k 0 (ctx.Export L)) k 1 (ctx.Export R) },
            Item.point (ctx.Export R) :: Item.point (ctx.Export L) :: o1) ∧
      CalcInv ctx M dm (k + 1) c' ∧
      c'.m_Cs.m_Val = val' ∧
      (∀ i, i < nDim >>> (k + 1) →
        c'.src 0 i = c.src 0 i * x + c.src 0 (nDim >>> (k + 1) + i) * xi ∧
        c'.src 1 i = c.src 1 i * xi + c.src 1 (nDim >>> (k + 1) + i) * x) := by
  subst hval' hLd hRd
  obtain ⟨c1, hc1⟩ : ∃ c1 : Calculator F P, c1 =
      { c with m_iCycle := k, m_n := nDim >>> (k + 1), m_Mm := c.m_Mm,
               m_Cs := { c.m_Cs with m_Val := set2 (set2 c.m_Cs.m_Val k 0 x) k 1 xi } } :=
    ⟨_, rfl⟩
  have hinv1 : CalcInv ctx M dm k c1 := by
    rw [hc1]; exact CalcInv_setVal ctx M dm k c hinv hk x xi _ c.m_Mm
  have hic1 : c1.m_iCycle = k := by rw [hc1]
  have hn1 : c1.m_n = nDim >>> (k + 1) := by rw [hc1]
  have hval1 : c1.m_Cs.m_Val = set2 (set2 c.m_Cs.m_Val k 0 x) k 1 xi := by rw [hc1]
  have hsrc1 : ∀ j i, c1.src j i = c.src j i := by intro j i; rw [hc1]; rfl
  have hstart : InnerProduct.Create_cycle ctx fuel (c, ip, o) k
      = (let s := (List.range 2).foldl (InnerProduct.Create_LR ctx) (c1, ip, o1)
         let c := s.1.Condense ctx
         let c := if c.m_iCycle = 0 then
             (List.range 2).foldl
               (fun (c : Calculator F P) j =>
                 { c with m_ppSrc := Function.update c.m_ppSrc j SrcPtr.val })
               c
           else c
         some (c, s.2.1, s.2.2)) := by
    unfold InnerProduct.Create_cycle
    dsimp only
    rw [hch, hc1]
  obtain ⟨mm0, hE0⟩ := Create_LR_eq ctx c1 ip o1 0
  obtain ⟨mm1, hE1⟩ := Create_LR_eq ctx { c1 with m_Mm := mm0 }
    { ip with m_pLR := set2 ip.m_pLR c1.m_iCycle 0 (ctx.Export (c1.LRPoint ctx 0)) }
    (Item.point (ctx.Export (c1.LRPoint ctx 0)) :: o1) 1
  have hL : c1.LRPoint ctx 0 = LRExpanded ctx M dm (set2 (set2 c.m_Cs.m_Val k 0 x) k 1 xi) k
      (c.src 0) (c.src 1) 0 := by
    rw [LRPoint_zero ctx M dm k c1 hinv1 hic1 hn1 hk, hval1, hn1]
    unfold LRExpanded crossTerm
    simp only [if_true, hsrc1]
  have hR : c1.LRPoint ctx 1 = LRExpanded ctx M dm (set2 (set2 c.m_Cs.m_Val k 0 x) k 1 xi) k
      (c.src 0) (c.src 1) 1 := by
    rw [LRPoint_one ctx M dm k c1 hinv1 hic1 hn1 hk, hval1, hn1]
    unfold LRExpanded crossTerm
    simp only [show (1 : Nat) = 0 ↔ False from by decide, if_false, hsrc1]
  clear hc1 hch
  subst hic1
  rw [hstart, foldl_range_two, hE0, hE1]
  dsimp only
  rw [LRPoint_setMm ctx c1 mm0 1, hL, hR]
  obtain ⟨c', hc'⟩ : ∃ c' : Calculator F P, c' =
      (let c := ({ c1 with m_Mm := mm1 } : Calculator F P).Condense ctx
       if c.m_iCycle = 0 then
         (List.range 2).foldl
           (fun (c : Calculator F P) j =>
             { c with m_ppSrc := Function.update c.m_ppSrc j SrcPtr.val })
           c
       else c) := ⟨_, rfl⟩
  obtain ⟨hI, hval, hsrc⟩ := Create_finish_spec ctx M dm c1.m_iCycle hk { c1 with m_Mm := mm1 }
    hinv1 rfl hn1 c' hc'
  have hv0 : (set2 (set2 c.m_Cs.m_Val c1.m_iCycle 0 x) c1.m_iCycle 1 xi) c1.m_iCycle 0 = x := by
    rw [set2_col _ _ _ _ _ (by decide), set2_same]
  have hv1 : (set2 (set2 c.m_Cs.m_Val c1.m_iCycle 0 x) c1.m_iCycle 1 xi) c1.m_iCycle 1 = xi :=
    set2_same _ _ _ _
  refine ⟨c', by subst hc'; rfl, hI, ?_, ?_⟩
  · rw [hval]; exact hval1
  · intro i hi
    have h0 := hsrc 0 (by decide) i (by show i < c1.m_n; rw [hn1]; exact hi)
    have h1 := hsrc 1 (by decide) i (by show i < c1.m_n; rw [hn1]; exact hi)
    have e0 : c'.src 0 i = c1.src 0 i * c1.m_Cs.m_Val c1.m_iCycle 0
        + c1.src 0 (c1.m_n + i) * c1.m_Cs.m_Val c1.m_iCycle (lnot 0) := h0
    have e1 : c'.src 1 i = c1.src 1 i * c1.m_Cs.m_Val c1.m_iCycle 1
        + c1.src 1 (c1.m_n + i) * c1.m_Cs.m_Val c1.m_iCycle (lnot 1) := h1
    rw [hval1, hsrc1, hsrc1, hn1, lnot_zero, hv0, hv1] at e0
    rw [hval1, hsrc1, hsrc1, hn1, lnot_one, hv0, hv1] at e1
    exact ⟨e0, e1⟩

theorem LRExpanded_congr (ctx : Context F P CP) (M : ModifierExpanded F) (dm : F)
    (val : Nat → Nat → F) (k : Nat) (hk : k < nCycles) (a b a' b' : Nat → F) (j : Nat)
    (ha : ∀ i, i < nDim >>> k → a i = a' i) (hb : ∀ i, i < nDim >>> k → b i = b' i) :
    LRExpanded ctx M dm val k a b j = LRExpanded ctx M dm val k a' b' j := by
  have h2 := nDim_shift_double k hk
  unfold LRExpanded crossTerm
  have e1 : sumRange (nDim >>> (k + 1)) (fun i => a i * b (nDim >>> (k + 1) + i))
      = sumRange (nDim >>> (k + 1)) (fun i => a' i * b' (nDim >>> (k + 1) + i)) := by
    apply sumRange_congr
    intro i hi
    rw [ha i (by omega), hb _ (by omega)]
  have e2 : sumRange (nDim >>> (k + 1)) (fun i => b i * a (nDim >>> (k + 1) + i))
      = sumRange (nDim >>> (k + 1)) (fun i => b' i * a' (nDim >>> (k + 1) + i)) := by
    apply sumRange_congr
    intro i hi
    rw [hb i (by omega), ha _ (by omega)]
  have e3 : sumRange (nDim >>> (k + 1))
      (fun i => a i • Gam ctx M val 0 k (i + nDim >>> (k + 1)))
      = sumRange (nDim >>> (k + 1))
        (fun i => a' i • Gam ctx M val 0 k (i + nDim >>> (k + 1))) := by
    apply sumRange_congr
    intro i hi
    rw [ha i (by omega)]
  have e4 : sumRange (nDim >>> (k + 1))
      (fun i => b (i + nDim >>> (k + 1)) • Gam ctx M val 1 k i)
      = sumRange (nDim >>> (k + 1))
        (fun i => b' (i + nDim >>> (k + 1)) • Gam ctx M val 1 k i) := by
    apply sumRange_congr
    intro i hi
    rw [hb _ (by omega)]
  have e5 : sumRange (nDim >>> (k + 1))
      (fun i => a (i + nDim >>> (k + 1)) • Gam ctx M val 0 k i)
      = sumRange (nDim >>> (k + 1))
        (fun i => a' (i + nDim >>> (k + 1)) • Gam ctx M val 0 k i) := by
    apply sumRange_congr
    intro i hi
    rw [ha _ (by omega)]
  have e6 : sumRange (nDim >>> (k + 1))
      (fun i => b i • Gam ctx M val 1 k (i + nDim >>> (k + 1)))
      = sumRange (nDim >>> (k + 1))
        (fun i => b' i • Gam ctx M val 1 k (i + nDim >>> (k + 1))) := by
    apply sumRange_congr
    intro i hi
    rw [hb i (by omega)]
  simp only [if_true, show (1 : Nat) = 0 ↔ False from by decide, if_false]
  rw [e1, e2, e3, e4, e5, e6]

theorem Create_rounds_plain (ctx : Context F P CP) (hsq : ∀ o, ctx.squeeze o ≠ 0)
    (M : ModifierExpanded F) (dm : F) (fuel : Nat) (hfuel : 0 < fuel) (d : Nat) :
    ∀ (k : Nat), k + d = nCycles → ∀ (c : Calculator F P) (ip : InnerProduct F CP)
      (s : PlainState F CP), CalcInv ctx M dm k c → s.val = c.m_Cs.m_Val →
      (∀ i, i < nDim >>> k → c.src 0 i = s.a i ∧ c.src 1 i = s.b i) → s.lr = ip.m_pLR →
      ∃ c', (List.range' k d).foldlM (InnerProduct.Create_cycle ctx fuel) (c, ip, s.o)
          = some (c',
              { ip with m_pLR :=
                ((List.range' k d).foldl (InnerProduct.plainRound ctx M dm) s).lr },
              ((List.range' k d).foldl (InnerProduct.plainRound ctx M dm) s).o) ∧
        CalcInv ctx M dm nCycles c' ∧
        c'.src 0 0 = ((List.range' k d).foldl (InnerProduct.plainRound ctx M dm) s).a 0 ∧
        c'.src 1 0 = ((List.range' k d).foldl (InnerProduct.plainRound ctx M dm) s).b 0 := by
  induction d with
  | zero =>
    intro k hk c ip s hinv _ hsrc hlr
    have hk' : k = nCycles := by omega
    subst hk'
    have h1 : 0 < nDim >>> nCycles := by decide
    refine ⟨c, ?_, hinv, (hsrc 0 h1).1, (hsrc 0 h1).2⟩
    simp only [List.range', List.foldl_nil]
    rw [hlr]
    rfl
  | succ d ih =>
    intro k hk c ip s hinv hval hsrc hlr
    have hklt : k < nCycles := by omega
    have hch := get_Challenge_of_ne ctx hsq fuel hfuel s.o
    obtain ⟨c1, hstep, hinv1, hval1, hsrc1⟩ := Create_cycle_full ctx M dm fuel k hklt c ip s.o _ _ _
      hinv hch _ rfl _ _ rfl rfl
    have hL : ∀ j, LRExpanded ctx M dm
        (set2 (set2 c.m_Cs.m_Val k 0 (ctx.squeeze s.o)) k 1 (ctx.squeeze s.o)⁻¹) k
        (c.src 0) (c.src 1) j
        = LRExpanded ctx M dm (set2 (set2 s.val k 0 (ctx.squeeze s.o)) k 1 (ctx.squeeze s.o)⁻¹) k
          s.a s.b j := by
      intro j
      rw [hval]
      exact LRExpanded_congr ctx M dm _ k hklt _ _ _ _ j (fun i hi => (hsrc i hi).1)
        (fun i hi => (hsrc i hi).2)
    rw [hL 0, hL 1] at hstep
    have h2 := nDim_shift_double k hklt
    obtain ⟨c', hrun, hinv', ha, hb⟩ := ih (k + 1) (by omega) c1
      { ip with m_pLR := (InnerProduct.plainRound ctx M dm s k).lr }
      (InnerProduct.plainRound ctx M dm s k) hinv1
      (by rw [hval1, ← hval]; rfl)
      (fun i hi => by
        obtain ⟨e0, e1⟩ := hsrc1 i hi
        rw [e0, e1, (hsrc i (by omega)).1, (hsrc i (by omega)).2,
          (hsrc (nDim >>> (k + 1) + i) (by omega)).1, (hsrc (nDim >>> (k + 1) + i) (by omega)).2]
        exact ⟨rfl, rfl⟩)
      rfl
    refine ⟨c', ?_, hinv', ?_, ?_⟩
    · rw [List.range', List.foldlM_cons]
      show (InnerProduct.Create_cycle ctx fuel (c, ip, s.o) k).bind _ = _
      rw [hstep, ← hlr]
      exact hrun
    · rw [List.range', List.foldl_cons]
      exact ha
    · rw [List.range', List.foldl_cons]
      exact hb

theorem Create_eq_plain (ctx : Context F P CP) (hsq : ∀ o, ctx.squeeze o ≠ 0) (fuel : Nat)
    (hfuel : 0 < fuel) (self : InnerProduct F CP) (oracle : Oracle F CP) (pAB : Bool)
    (dotAB : F) (pA pB : Nat → F) (mod : Modifier F) :
    InnerProduct.Create ctx fuel self oracle pAB dotAB pA pB mod
      = some (InnerProduct.CreatePlain ctx self oracle pAB dotAB pA pB mod) := by
  obtain ⟨c0, hc0⟩ : ∃ c0 : Calculator F P, c0 =
      { (Calculator.init : Calculator F P) with
        m_Mod := ModifierExpanded.Init mod, m_GenOrder := nCycles,
        m_ppSrc := Function.update (Function.update (fun _ => SrcPtr.val) 0 (SrcPtr.ext pA)) 1
          (SrcPtr.ext pB) } := ⟨_, rfl⟩
  have hsrc0 : ∀ (mm : MultiMac F P) (cs : ChallengeSet F),
      ({ c0 with m_Mm := mm, m_Cs := cs } : Calculator F P).src 0 = pA := by
    intro mm cs; subst hc0; funext i; simp [Calculator.src, Function.update]
  have hsrc1 : ∀ (mm : MultiMac F P) (cs : ChallengeSet F),
      ({ c0 with m_Mm := mm, m_Cs := cs } : Calculator F P).src 1 = pB := by
    intro mm cs; subst hc0; funext i; simp [Calculator.src, Function.update]
  obtain ⟨mm, hmm, hmmc⟩ := Create_comm_fold ctx c0
  have hcomm : mm.Calculate = InnerProduct.Commitment ctx mod pA pB := by
    rw [hmmc]
    have h0 := hsrc0 c0.m_Mm c0.m_Cs
    have h1 := hsrc1 c0.m_Mm c0.m_Cs
    have hc : ({ c0 with m_Mm := c0.m_Mm, m_Cs := c0.m_Cs } : Calculator F P) = c0 := rfl
    rw [hc] at h0 h1
    rw [h0, h1]
    subst hc0
    simp [InnerProduct.Commitment, Calculator.init, MultiMac.Calculate_Reset]
  obtain ⟨ov, hov⟩ : ∃ ov : Oracle F CP, ov =
      (if pAB then Item.point (ctx.Export (InnerProduct.Commitment ctx mod pA pB)) :: oracle
        else oracle) := ⟨_, rfl⟩
  obtain ⟨dm, hdm⟩ : ∃ dm : F, dm = ctx.squeeze (Item.scalar dotAB :: ov) := ⟨_, rfl⟩
  obtain ⟨c1, hc1⟩ : ∃ c1 : Calculator F P, c1 =
      { c0 with m_Mm := (if pAB then mm else c0.m_Mm),
                m_Cs := { c0.m_Cs with m_DotMultiplier := dm } } := ⟨_, rfl⟩
  have hinv : CalcInv ctx (ModifierExpanded.Init mod) dm 0 c1 := by
    subst hc1; subst hc0
    exact ⟨rfl, rfl, rfl, fun h => absurd h (Nat.not_lt_zero _),
      fun h => absurd h (Nat.lt_irrefl 0)⟩
  have e0 : c1.src 0 = pA := by rw [hc1]; exact hsrc0 _ _
  have e1 : c1.src 1 = pB := by rw [hc1]; exact hsrc1 _ _
  obtain ⟨s0, hs0⟩ : ∃ s0 : PlainState F CP,
      s0 = InnerProduct.plainStart ctx self oracle pAB dotAB pA pB mod := ⟨_, rfl⟩
  have hso : s0.o = Item.out :: Item.scalar dotAB :: ov := by rw [hs0, hov]; rfl
  obtain ⟨c', hrun, hinv', ha, hb⟩ := Create_rounds_plain ctx hsq (ModifierExpanded.Init mod)
    dm fuel hfuel nCycles 0 (Nat.zero_add _) c1 self s0 hinv
    (by rw [hs0, hc1, hc0]; rfl)
    (fun i _ => by rw [e0, e1, hs0]; exact ⟨rfl, rfl⟩)
    (by rw [hs0]; rfl)
  have hrange : List.range nCycles = List.range' 0 nCycles := List.range_eq_range' nCycles
  rw [← hrange, hso] at hrun
  have hdm' : dm = InnerProduct.plainDm ctx oracle pAB dotAB pA pB mod := by
    rw [hdm, hov]; rfl
  have hp0 : c'.m_pVal 0 0 = c'.src 0 0 := (src_val _ _ (hinv'.2.2.2.2 (by decide)).1 0).symm
  have hp1 : c'.m_pVal 1 0 = c'.src 1 0 := (src_val _ _ (hinv'.2.2.2.2 (by decide)).2 0).symm
  have hfin : some ((List.range 2).foldl
      (fun (self : InnerProduct F CP) i =>
        { self with m_pCondensed := Function.update self.m_pCondensed i (c'.m_pVal i 0) })
      ({ self with m_pLR :=
          ((List.range nCycles).foldl
            (InnerProduct.plainRound ctx (ModifierExpanded.Init mod) dm) s0).lr } :
        InnerProduct F CP),
      ((List.range nCycles).foldl
        (InnerProduct.plainRound ctx (ModifierExpanded.Init mod) dm) s0).o,
      (if pAB then some (InnerProduct.Commitment ctx mod pA pB) else none))
      = some (InnerProduct.CreatePlain ctx self oracle pAB dotAB pA pB mod) := by
    rw [foldl_range_two, hp0, hp1, ha, hb, ← hrange, hdm', hs0]
    rfl
  rw [← hfin]
  unfold InnerProduct.Create
  dsimp only [Oracle.get]
  cases pAB
  · simp only [Bool.false_eq_true, if_false] at hov hc1 ⊢
    rw [hov] at hdm hrun
    rw [hdm] at hc1 hrun ⊢
    rw [hc1, hc0] at hrun
    dsimp only [Calculator.init] at hrun ⊢
    rw [hrun]
  · simp only [if_true] at hov hc1 ⊢
    rw [hov] at hdm hrun
    rw [hdm] at hc1 hrun ⊢
    rw [hc1] at hrun
    rw [hc0] at hmm hrun
    dsimp only [Calculator.init] at hmm hrun ⊢
    rw [hmm]
    dsimp only
    rw [hcomm, hrun]

theorem plainRounds_succ (ctx : Context F P CP) (self : InnerProduct F CP) (oracle : Oracle F CP)
    (pAB : Bool) (dotAB : F) (pA pB : Nat → F) (mod : Modifier F) (n : Nat) :
    InnerProduct.plainRounds ctx self oracle pAB dotAB pA pB mod (n + 1)
      = InnerProduct.plainRound ctx (ModifierExpanded.Init mod)
          (InnerProduct.plainDm ctx oracle pAB dotAB pA pB mod)
          (InnerProduct.plainRounds ctx self oracle pAB dotAB pA pB mod n) n := by
  unfold InnerProduct.plainRounds
  rw [List.range_succ, List.foldl_append]
  rfl

theorem plainRounds_lr (ctx : Context F P CP) (self : InnerProduct F CP) (oracle : Oracle F CP)
    (pAB : Bool) (dotAB : F) (pA pB : Nat → F) (mod : Modifier F) (n : Nat) :
    ∀ k, k < n → ∀ j, j < 2 →
      (InnerProduct.plainRounds ctx self oracle pAB dotAB pA pB mod n).lr k j
        = ctx.Export (LRExpanded ctx (ModifierExpanded.Init mod)
            (InnerProduct.plainDm ctx oracle pAB dotAB pA pB mod)
            (InnerProduct.plainRounds ctx self oracle pAB dotAB pA pB mod (k + 1)).val k
            (InnerProduct.plainRounds ctx self oracle pAB dotAB pA pB mod k).a
            (InnerProduct.plainRounds ctx self oracle pAB dotAB pA pB mod k).b j) := by
  induction n with
  | zero => intro k hk; omega
  | succ n ih =>
    intro k hk j hj
    by_cases hkn : k = n
    · subst hkn
      rw [plainRounds_succ]
      have hj' : j = 0 ∨ j = 1 := by omega
      rcases hj' with rfl | rfl
      · show set2 (set2 _ k 0 _) k 1 _ k 0 = _
        rw [set2_col _ _ _ _ _ (by decide), set2_same]
        rfl
      · show set2 (set2 _ k 0 _) k 1 _ k 1 = _
        rw [set2_same]
        rfl
    · rw [plainRounds_succ]
      show set2 (set2 _ n 0 _) n 1 _ k j = _
      rw [set2_row _ _ _ _ _ hkn, set2_row _ _ _ _ _ hkn]
      exact ih k (by omega) j hj

/-- C26. For a transcript that yields a nonzero scalar at every extraction and every input
`(a, b, modifier, transcript)`, `InnerProduct::Create` returns what the construction without
condensation of generators returns: the same pairs `(L_i, R_i)`, the same condensed scalars and
the same transcript; every stored `L_k`, `R_k`, also in the rounds after the cutover round
`s_iCycle0 = 2` where the code starts from the 8 condensed points, is the encoding of the point
with the coefficients of the round expanded over the original `2*nDim` generators. -/
theorem condensation_refines (ctx : Context F P CP) (hsq : ∀ o, ctx.squeeze o ≠ 0) (fuel : Nat)
    (hfuel : 0 < fuel) (self : InnerProduct F CP) (oracle : Oracle F CP) (pAB : Bool)
    (dotAB : F) (pA pB : Nat → F) (mod : Modifier F) :
    InnerProduct.Create ctx fuel self oracle pAB dotAB pA pB mod
      = some (InnerProduct.CreatePlain ctx self oracle pAB dotAB pA pB mod) ∧
    ∃ ip o' comm, InnerProduct.Create ctx fuel self oracle pAB dotAB pA pB mod
        = some (ip, o', comm) ∧
      ∀ k, k < nCycles → ∀ j, j < 2 →
        ip.m_pLR k j = ctx.Export (LRExpanded ctx (ModifierExpanded.Init mod)
          (InnerProduct.plainDm ctx oracle pAB dotAB pA pB mod)
          (InnerProduct.plainRounds ctx self oracle pAB dotAB pA pB mod (k + 1)).val k
          (InnerProduct.plainRounds ctx self oracle pAB dotAB pA pB mod k).a
          (InnerProduct.plainRounds ctx self oracle pAB dotAB pA pB mod k).b j) :=
  ⟨Create_eq_plain ctx hsq fuel hfuel self oracle pAB dotAB pA pB mod, _, _, _,
    Create_eq_plain ctx hsq fuel hfuel self oracle pAB dotAB pA pB mod,
    plainRounds_lr ctx self oracle pAB dotAB pA pB mod nCycles⟩

theorem condensation_refines_witness :
    (∀ o, Example.ctx.squeeze o ≠ 0) ∧ 0 < 1 ∧
    (InnerProduct.Create Example.ctx 1 Example.ipZero [] true 3 (fun _ => 1) (fun i => i)
        Example.modNone
      = some (InnerProduct.CreatePlain Example.ctx Example.ipZero [] true 3 (fun _ => 1)
          (fun i => i) Example.modNone) ∧
    ∃ ip o' comm, InnerProduct.Create Example.ctx 1 Example.ipZero [] true 3 (fun _ => 1)
        (fun i => i) Example.modNone = some (ip, o', comm) ∧
      ∀ k, k < nCycles → ∀ j, j < 2 →
        ip.m_pLR k j = Example.ctx.Export (LRExpanded Example.ctx
          (ModifierExpanded.Init Example.modNone)
          (InnerProduct.plainDm Example.ctx [] true 3 (fun _ => 1) (fun i => i) Example.modNone)
          (InnerProduct.plainRounds Example.ctx Example.ipZero [] true 3 (fun _ => 1)
            (fun i => i) Example.modNone (k + 1)).val k
          (InnerProduct.plainRounds Example.ctx Example.ipZero [] true 3 (fun _ => 1)
            (fun i => i) Example.modNone k).a
          (InnerProduct.plainRounds Example.ctx Example.ipZero [] true 3 (fun _ => 1)
            (fun i => i) Example.modNone k).b j)) :=
  ⟨fun _ => (by decide : (1 : ZMod 7) ≠ 0), by decide,
    condensation_refines Example.ctx (fun _ => (by decide : (1 : ZMod 7) ≠ 0)) 1 (by decide)
      Example.ipZero [] true 3 (fun _ => 1) (fun i => i) Example.modNone⟩

theorem fold_dot (x : F) (hx : x ≠ 0) (n : Nat) (a b : Nat → F) :
    sumRange n (fun i => (a i * x + a (n + i) * x⁻¹) * (b i * x⁻¹ + b (n + i) * x))
      = sumRange (n + n) (fun i => a i * b i)
        + (x ^ 2 * crossTerm n a b 0 + x⁻¹ ^ 2 * crossTerm n a b 1) := by
  have hxx : x * x⁻¹ = 1 := mul_inv_cancel₀ hx
  unfold crossTerm
  simp only [if_true, show (1 : Nat) = 0 ↔ False from by decide, if_false]
  rw [sumRange_split, ← sumRange_mul_left, ← sumRange_mul_left, ← sumRange_add, ← sumRange_add,
    ← sumRange_add]
  apply sumRange_congr
  intro i _
  rw [term_dot x x⁻¹ _ _ _ _ hxx]
  ring

theorem plainRounds_dot (ctx : Context F P CP) (hsq : ∀ o, ctx.squeeze o ≠ 0)
    (self : InnerProduct F CP) (oracle : Oracle F CP) (pAB : Bool) (dotAB : F)
    (pA pB : Nat → F) (mod : Modifier F) (n : Nat) (hn : n ≤ nCycles) :
    sumRange (nDim >>> n) (fun i =>
        (InnerProduct.plainRounds ctx self oracle pAB dotAB pA pB mod n).a i
          * (InnerProduct.plainRounds ctx self oracle pAB dotAB pA pB mod n).b i)
      = sumRange nDim (fun i => pA i * pB i)
        + InnerProduct.crossSum ctx self oracle pAB dotAB pA pB mod n := by
  induction n with
  | zero =>
    unfold InnerProduct.crossSum
    rw [sumRange_zero, add_zero]
    rfl
  | succ n ih =>
    have h2 := nDim_shift_double n (by omega)
    rw [h2] at ih
    unfold InnerProduct.crossSum at ih ⊢
    rw [sumRange_succ, ← add_assoc, ← ih (by omega), plainRounds_succ]
    exact fold_dot _ (hsq _) (nDim >>> (n + 1)) _ _

/-- C28. For a transcript that yields a nonzero scalar at every extraction (so every round
challenge `x_k` is nonzero) and all vectors `a`, `b`, `InnerProduct::Create` returns a proof whose
condensed scalars satisfy `condensed[0] * condensed[1] = <a,b> + sum_k (x_k^2 * crossL_k
+ x_k^-2 * crossR_k)`, where `crossL_k = <a_lo, b_hi>` and `crossR_k = <a_hi, b_lo>` are the
cross terms of the vectors current in round `k`: the stored `L_k` and `R_k` are the encodings of
the points that carry them, times the dot multiplier, on `m_GenDot_`. -/
theorem folding_invariant (ctx : Context F P CP) (hsq : ∀ o, ctx.squeeze o ≠ 0) (fuel : Nat)
    (hfuel : 0 < fuel) (self : InnerProduct F CP) (oracle : Oracle F CP) (pAB : Bool)
    (dotAB : F) (pA pB : Nat → F) (mod : Modifier F) :
    ∃ ip o' comm, InnerProduct.Create ctx fuel self oracle pAB dotAB pA pB mod
        = some (ip, o', comm) ∧
      ip.m_pCondensed 0 * ip.m_pCondensed 1
        = sumRange nDim (fun i => pA i * pB i)
          + sumRange nCycles (fun k =>
              ctx.squeeze (InnerProduct.plainRounds ctx self oracle pAB dotAB pA pB mod k).o ^ 2
                * crossTerm (nDim >>> (k + 1))
                    (InnerProduct.plainRounds ctx self oracle pAB dotAB pA pB mod k).a
                    (InnerProduct.plainRounds ctx self oracle pAB dotAB pA pB mod k).b 0
              + (ctx.squeeze
                    (InnerProduct.plainRounds ctx self oracle pAB dotAB pA pB mod k).o)⁻¹ ^ 2
                * crossTerm (nDim >>> (k + 1))
                    (InnerProduct.plainRounds ctx self oracle pAB dotAB pA pB mod k).a
                    (InnerProduct.plainRounds ctx self oracle pAB dotAB pA pB mod k).b 1) ∧
      (∀ k, k < nCycles → ∀ j, j < 2 →
        ip.m_pLR k j = ctx.Export
          ((crossTerm (nDim >>> (k + 1))
                (InnerProduct.plainRounds ctx self oracle pAB dotAB pA pB mod k).a
                (InnerProduct.plainRounds ctx self oracle pAB dotAB pA pB mod k).b j
              * InnerProduct.plainDm ctx oracle pAB dotAB pA pB mod) • ctx.m_GenDot_
            + LRExpanded ctx (ModifierExpanded.Init mod) 0
                (InnerProduct.plainRounds ctx self oracle pAB dotAB pA pB mod (k + 1)).val k
                (InnerProduct.plainRounds ctx self oracle pAB dotAB pA pB mod k).a
                (InnerProduct.plainRounds ctx self oracle pAB dotAB pA pB mod k).b j)) ∧
      (∀ k, k < nCycles →
        (InnerProduct.plainRounds ctx self oracle pAB dotAB pA pB mod (k + 1)).val k 0
          = ctx.squeeze (InnerProduct.plainRounds ctx self oracle pAB dotAB pA pB mod k).o ∧
        ctx.squeeze (InnerProduct.plainRounds ctx self oracle pAB dotAB pA pB mod k).o ≠ 0 ∧
        ∀ i, (InnerProduct.plainRounds ctx self oracle pAB dotAB pA pB mod (k + 1)).a i
            = (InnerProduct.plainRounds ctx self oracle pAB dotAB pA pB mod k).a i
                * ctx.squeeze (InnerProduct.plainRounds ctx self oracle pAB dotAB pA pB mod k).o
              + (InnerProduct.plainRounds ctx self oracle pAB dotAB pA pB mod k).a
                  (nDim >>> (k + 1) + i)
                * (ctx.squeeze
                    (InnerProduct.plainRounds ctx self oracle pAB dotAB pA pB mod k).o)⁻¹) := by
  refine ⟨_, _, _, Create_eq_plain ctx hsq fuel hfuel self oracle pAB dotAB pA pB mod, ?_, ?_, ?_⟩
  · have h := plainRounds_dot ctx hsq self oracle pAB dotAB pA pB mod nCycles (Nat.le_refl _)
    have h1 : nDim >>> nCycles = 1 := rfl
    rw [h1, sumRange_succ, sumRange_zero, zero_add] at h
    unfold InnerProduct.crossSum at h
    rw [← h]
    rfl
  · intro k hk j hj
    show (InnerProduct.plainRounds ctx self oracle pAB dotAB pA pB mod nCycles).lr k j = _
    rw [plainRounds_lr ctx self oracle pAB dotAB pA pB mod nCycles k hk j hj]
    congr 1
    unfold LRExpanded
    have hj' : j = 0 ∨ j = 1 := by omega
    rcases hj' with rfl | rfl
    · simp only [if_true, mul_zero, zero_smul, zero_add]
      abel
    · simp only [show (1 : Nat) = 0 ↔ False from by decide, if_false, mul_zero, zero_smul,
        zero_add]
      abel
  · intro k hk
    rw [plainRounds_succ]
    refine ⟨?_, hsq _, fun i => rfl⟩
    show set2 (set2 _ k 0 _) k 1 _ k 0 = _
    rw [set2_col _ _ _ _ _ (by decide), set2_same]

theorem folding_invariant_witness :
    (∀ o, Example.ctx.squeeze o ≠ 0) ∧ 0 < 1 ∧
    (∃ ip o' comm, InnerProduct.Create Example.ctx 1 Example.ipZero [] true 3 (fun _ => 1) (fun i => i) Example.modNone
        = some (ip, o', comm) ∧
      ip.m_pCondensed 0 * ip.m_pCondensed 1
        = sumRange nDim (fun i => (1 : ZMod 7) * (i : ZMod 7))
          + sumRange nCycles (fun k =>
              Example.ctx.squeeze (InnerProduct.plainRounds Example.ctx Example.ipZero [] true 3 (fun _ => 1) (fun i => i) Example.modNone k).o ^ 2
                * crossTerm (nDim >>> (k + 1))
                    (InnerProduct.plainRounds Example.ctx Example.ipZero [] true 3 (fun _ => 1) (fun i => i) Example.modNone k).a
                    (InnerProduct.plainRounds Example.ctx Example.ipZero [] true 3 (fun _ => 1) (fun i => i) Example.modNone k).b 0
              + (Example.ctx.squeeze
                    (InnerProduct.plainRounds Example.ctx Example.ipZero [] true 3 (fun _ => 1) (fun i => i) Example.modNone k).o)⁻¹ ^ 2
                * crossTerm (nDim >>> (k + 1))
                    (InnerProduct.plainRounds Example.ctx Example.ipZero [] true 3 (fun _ => 1) (fun i => i) Example.modNone k).a
                    (InnerProduct.plainRounds Example.ctx Example.ipZero [] true 3 (fun _ => 1) (fun i => i) Example.modNone k).b 1) ∧
      (∀ k, k < nCycles → ∀ j, j < 2 →
        ip.m_pLR k j = Example.ctx.Export
          ((crossTerm (nDim >>> (k + 1))
                (InnerProduct.plainRounds Example.ctx Example.ipZero [] true 3 (fun _ => 1) (fun i => i) Example.modNone k).a
                (InnerProduct.plainRounds Example.ctx Example.ipZero [] true 3 (fun _ => 1) (fun i => i) Example.modNone k).b j
              * InnerProduct.plainDm Example.ctx [] true 3 (fun _ => 1) (fun i => i) Example.modNone) • Example.ctx.m_GenDot_
            + LRExpanded Example.ctx (ModifierExpanded.Init Example.modNone) 0
                (InnerProduct.plainRounds Example.ctx Example.ipZero [] true 3 (fun _ => 1) (fun i => i) Example.modNone (k + 1)).val k
                (InnerProduct.plainRounds Example.ctx Example.ipZero [] true 3 (fun _ => 1) (fun i => i) Example.modNone k).a
                (InnerProduct.plainRounds Example.ctx Example.ipZero [] true 3 (fun _ => 1) (fun i => i) Example.modNone k).b j)) ∧
      (∀ k, k < nCycles →
        (InnerProduct.plainRounds Example.ctx Example.ipZero [] true 3 (fun _ => 1) (fun i => i) Example.modNone (k + 1)).val k 0
          = Example.ctx.squeeze (InnerProduct.plainRounds Example.ctx Example.ipZero [] true 3 (fun _ => 1) (fun i => i) Example.modNone k).o ∧
        Example.ctx.squeeze (InnerProduct.plainRounds Example.ctx Example.ipZero [] true 3 (fun _ => 1) (fun i => i) Example.modNone k).o ≠ 0 ∧
        ∀ i, (InnerProduct.plainRounds Example.ctx Example.ipZero [] true 3 (fun _ => 1) (fun i => i) Example.modNone (k + 1)).a i
            = (InnerProduct.plainRounds Example.ctx Example.ipZero [] true 3 (fun _ => 1) (fun i => i) Example.modNone k).a i
                * Example.ctx.squeeze (InnerProduct.plainRounds Example.ctx Example.ipZero [] true 3 (fun _ => 1) (fun i => i) Example.modNone k).o
              + (InnerProduct.plainRounds Example.ctx Example.ipZero [] true 3 (fun _ => 1) (fun i => i) Example.modNone k).a
                  (nDim >>> (k + 1) + i)
                * (Example.ctx.squeeze
                    (InnerProduct.plainRounds Example.ctx Example.ipZero [] true 3 (fun _ => 1) (fun i => i) Example.modNone k).o)⁻¹)) :=
  ⟨fun _ => (by decide : (1 : ZMod 7) ≠ 0), by decide,
    folding_invariant Example.ctx (fun _ => (by decide : (1 : ZMod 7) ≠ 0)) 1 (by decide)
      Example.ipZero [] true 3 (fun _ => 1) (fun i => i) Example.modNone⟩

theorem Leaf_fields (ctx : Context F P CP) (a : Aggregator F P) (iPos : Nat) (k : F) :
    (a.Leaf ctx iPos k).m_cs = a.m_cs ∧ (a.Leaf ctx iPos k).m_j = a.m_j ∧
      (a.Leaf ctx iPos k).m_iCycleTrg = a.m_iCycleTrg := by
  unfold Aggregator.Leaf
  cases a.m_pCalc with
  | some gen => exact ⟨rfl, rfl, rfl⟩
  | none =>
    dsimp only
    cases a.m_pBatchCtx with
    | some bc => exact ⟨rfl, rfl, rfl⟩
    | none => exact ⟨rfl, rfl, rfl⟩

theorem foldl_Leaf_fields (ctx : Context F P CP) (f : Nat → Nat × F) (l : List Nat) :
    ∀ a : Aggregator F P,
      (l.foldl (fun s m => s.Leaf ctx (f m).1 (f m).2) a).m_cs = a.m_cs ∧
      (l.foldl (fun s m => s.Leaf ctx (f m).1 (f m).2) a).m_j = a.m_j ∧
      (l.foldl (fun s m => s.Leaf ctx (f m).1 (f m).2) a).m_iCycleTrg = a.m_iCycleTrg := by
  induction l with
  | nil => intro a; exact ⟨rfl, rfl, rfl⟩
  | cons m l ih =>
    intro a
    rw [List.foldl_cons]
    obtain ⟨h1, h2, h3⟩ := ih (a.Leaf ctx (f m).1 (f m).2)
    obtain ⟨g1, g2, g3⟩ := Leaf_fields ctx a (f m).1 (f m).2
    exact ⟨h1.trans g1, h2.trans g2, h3.trans g3⟩

theorem leafCoef_low (val : Nat → Nat → F) (j trg n off : Nat) (hoff : off < 2 ^ (trg + n)) :
    Aggregator.leafCoef val j trg (trg + (n + 1)) off
      = val (nCycles - (trg + n + 1)) (lnot j) * Aggregator.leafCoef val j trg (trg + n) off := by
  unfold Aggregator.leafCoef
  have e1 : trg + (n + 1) - trg = n + 1 := by omega
  have e2 : trg + n - trg = n := by omega
  have e3 : nCycles - 1 - (trg + n) = nCycles - (trg + n + 1) := by omega
  rw [e1, e2, List.range_succ, List.map_append, List.prod_append, List.map_singleton,
    List.prod_singleton, Nat.testBit_lt_two_pow hoff, e3, mul_comm]
  rfl

theorem leafCoef_high (val : Nat → Nat → F) (j trg n off : Nat) (hoff : off < 2 ^ (trg + n)) :
    Aggregator.leafCoef val j trg (trg + (n + 1)) (2 ^ (trg + n) + off)
      = val (nCycles - (trg + n + 1)) j * Aggregator.leafCoef val j trg (trg + n) off := by
  unfold Aggregator.leafCoef
  have e1 : trg + (n + 1) - trg = n + 1 := by omega
  have e2 : trg + n - trg = n := by omega
  have e3 : nCycles - 1 - (trg + n) = nCycles - (trg + n + 1) := by omega
  rw [e1, e2, List.range_succ, List.map_append, List.prod_append, List.map_singleton,
    List.prod_singleton, Nat.testBit_two_pow_add_eq, Nat.testBit_lt_two_pow hoff, e3, mul_comm]
  congr 2
  apply List.map_congr_left
  intro d hd
  rw [List.mem_range] at hd
  rw [Nat.testBit_two_pow_add_gt (by omega)]

theorem Proceed_leaves (ctx : Context F P CP) (n : Nat) :
    ∀ (a : Aggregator F P) (iPos : Nat) (k : F), a.m_iCycleTrg + n ≤ nCycles →
      Aggregator.Proceed ctx a iPos (a.m_iCycleTrg + n) k
        = (List.range (2 ^ n)).foldl
            (fun s m =>
              s.Leaf ctx
                (Aggregator.leafTerm a.m_cs.m_Val a.m_j a.m_iCycleTrg (a.m_iCycleTrg + n) iPos k m).1
                (Aggregator.leafTerm a.m_cs.m_Val a.m_j a.m_iCycleTrg (a.m_iCycleTrg + n) iPos k m).2)
            a := by
  induction n with
  | zero =>
    intro a iPos k _
    have h0 : Aggregator.leafCoef a.m_cs.m_Val a.m_j a.m_iCycleTrg (a.m_iCycleTrg + 0) (0 * 2 ^ a.m_iCycleTrg) = 1 := by
      unfold Aggregator.leafCoef
      simp
    have hl : Aggregator.Proceed ctx a iPos (a.m_iCycleTrg + 0) k = a.Leaf ctx iPos k := by
      rw [Nat.add_zero]
      cases ht : a.m_iCycleTrg with
      | zero => rw [Aggregator.Proceed, if_neg (by rw [ht]; simp)]
      | succ t => rw [Aggregator.Proceed, if_neg (by rw [ht]; simp)]
    rw [hl]
    show _ = (List.range 1).foldl _ a
    rw [show List.range 1 = [0] from rfl, List.foldl_cons, List.foldl_nil]
    unfold Aggregator.leafTerm
    dsimp only
    rw [h0, mul_one, Nat.zero_mul, Nat.add_zero]
  | succ n ih =>
    intro a iPos k hn
    have hne : a.m_iCycleTrg + n + 1 ≠ a.m_iCycleTrg := by omega
    have hflag : (a.m_AssertFailed || !decide (a.m_iCycleTrg + n + 1 ≤ nCycles))
        = a.m_AssertFailed := by
      have hd : decide (a.m_iCycleTrg + n + 1 ≤ nCycles) = true := decide_eq_true (by omega)
      rw [hd]
      simp
    have ha : ({ a with m_AssertFailed := a.m_AssertFailed } : Aggregator F P) = a := rfl
    obtain ⟨a1, ha1⟩ : ∃ a1, a1 = Aggregator.Proceed ctx a iPos (a.m_iCycleTrg + n)
        (k * a.m_cs.m_Val (nCycles - (a.m_iCycleTrg + n + 1)) (lnot a.m_j)) := ⟨_, rfl⟩
    have hstep : Aggregator.Proceed ctx a iPos (a.m_iCycleTrg + (n + 1)) k
        = Aggregator.Proceed ctx a1 (iPos + 2 ^ (a.m_iCycleTrg + n)) (a.m_iCycleTrg + n)
            (k * a1.m_cs.m_Val (nCycles - (a.m_iCycleTrg + n + 1)) a1.m_j) := by
      show Aggregator.Proceed ctx a iPos (a.m_iCycleTrg + n + 1) k = _
      rw [Aggregator.Proceed, if_pos hne]
      simp only [hflag]
      rw [ha, ← ha1]
      simp only [Nat.one_shiftLeft]
    have h1 := ih a iPos (k * a.m_cs.m_Val (nCycles - (a.m_iCycleTrg + n + 1)) (lnot a.m_j))
      (by omega)
    rw [← ha1] at h1
    obtain ⟨f1, f2, f3⟩ := foldl_Leaf_fields ctx
      (Aggregator.leafTerm a.m_cs.m_Val a.m_j a.m_iCycleTrg (a.m_iCycleTrg + n) iPos
        (k * a.m_cs.m_Val (nCycles - (a.m_iCycleTrg + n + 1)) (lnot a.m_j))) (List.range (2 ^ n)) a
    rw [← h1] at f1 f2 f3
    have h2 := ih a1 (iPos + 2 ^ (a.m_iCycleTrg + n))
      (k * a1.m_cs.m_Val (nCycles - (a.m_iCycleTrg + n + 1)) a1.m_j) (by rw [f3]; omega)
    rw [f3] at h2
    rw [hstep, h2, f1, f2, h1]
    have hp : 2 ^ (n + 1) = 2 ^ n + 2 ^ n := by rw [pow_succ]; omega
    rw [hp, List.range_add, List.foldl_append, List.foldl_map]
    have hpw : 2 ^ (a.m_iCycleTrg + n) = 2 ^ n * 2 ^ a.m_iCycleTrg := by rw [pow_add, mul_comm]
    have hlt : ∀ m, m < 2 ^ n → m * 2 ^ a.m_iCycleTrg < 2 ^ (a.m_iCycleTrg + n) := by
      intro m hm
      rw [hpw]
      exact Nat.mul_lt_mul_of_pos_right hm (Nat.two_pow_pos _)
    have hA : ∀ (l : List Nat) (s : Aggregator F P) (g g' : Nat → Nat × F),
        (∀ m, m ∈ l → g m = g' m) →
        l.foldl (fun s m => s.Leaf ctx (g m).1 (g m).2) s
          = l.foldl (fun s m => s.Leaf ctx (g' m).1 (g' m).2) s := by
      intro l
      induction l with
      | nil => intro s g g' _; rfl
      | cons x l ihl =>
        intro s g g' hg
        rw [List.foldl_cons, List.foldl_cons, hg x (List.mem_cons_self _ _)]
        exact ihl _ g g' (fun m hm => hg m (List.mem_cons_of_mem _ hm))
    rw [hA (List.range (2 ^ n)) a _
      (Aggregator.leafTerm a.m_cs.m_Val a.m_j a.m_iCycleTrg (a.m_iCycleTrg + (n + 1)) iPos k)]
    · apply hA
      intro m hm
      rw [List.mem_range] at hm
      unfold Aggregator.leafTerm
      have e : (2 ^ n + m) * 2 ^ a.m_iCycleTrg = 2 ^ (a.m_iCycleTrg + n) + m * 2 ^ a.m_iCycleTrg := by
        rw [hpw]; ring
      rw [e, leafCoef_high _ _ _ _ _ (hlt m hm)]
      refine Prod.ext ?_ ?_
      · show iPos + 2 ^ (a.m_iCycleTrg + n) + m * 2 ^ a.m_iCycleTrg = _
        omega
      · show _ = _
        dsimp only
        ring
    · intro m hm
      rw [List.mem_range] at hm
      unfold Aggregator.leafTerm
      rw [leafCoef_low _ _ _ _ _ (hlt m hm)]
      refine Prod.ext rfl ?_
      dsimp only
      ring

theorem foldl_Leaf_congr (ctx : Context F P CP) (l : List Nat) :
    ∀ (s : Aggregator F P) (g g' : Nat → Nat × F), (∀ m, m ∈ l → g m = g' m) →
      l.foldl (fun s m => s.Leaf ctx (g m).1 (g m).2) s
        = l.foldl (fun s m => s.Leaf ctx (g' m).1 (g' m).2) s := by
  induction l with
  | nil => intro s g g' _; rfl
  | cons x l ihl =>
    intro s g g' hg
    rw [List.foldl_cons, List.foldl_cons, hg x (List.mem_cons_self _ _)]
    exact ihl _ g g' (fun m hm => hg m (List.mem_cons_of_mem _ hm))

theorem Proceed_leaves_le (ctx : Context F P CP) (a : Aggregator F P) (iPos iCycle : Nat) (k : F)
    (htrg : a.m_iCycleTrg ≤ iCycle) (hn : iCycle ≤ nCycles) :
    Aggregator.Proceed ctx a iPos iCycle k
      = (List.range (2 ^ (iCycle - a.m_iCycleTrg))).foldl
          (fun s m => s.Leaf ctx (iPos + m * 2 ^ a.m_iCycleTrg)
            (k * Aggregator.leafCoef a.m_cs.m_Val a.m_j a.m_iCycleTrg iCycle
              (m * 2 ^ a.m_iCycleTrg)))
          a := by
  obtain ⟨n, rfl⟩ := Nat.exists_eq_add_of_le htrg
  rw [Proceed_leaves ctx n a iPos k hn, Nat.add_sub_cancel_left]
  rfl

theorem Proceed_verifier (ctx : Context F P CP) (a : Aggregator F P) (h0 : a.m_iCycleTrg = 0)
    (k : F) :
    Aggregator.Proceed ctx a 0 nCycles k
      = (List.range nDim).foldl
          (fun s i => s.Leaf ctx i (k * Aggregator.leafCoef a.m_cs.m_Val a.m_j 0 nCycles i)) a := by
  rw [Proceed_leaves_le ctx a 0 nCycles k (by omega) (Nat.le_refl _), h0]
  have e : 2 ^ (nCycles - 0) = nDim := rfl
  rw [e]
  refine (foldl_Leaf_congr ctx (List.range nDim) a
    (fun m => (0 + m * 2 ^ 0, k * Aggregator.leafCoef a.m_cs.m_Val a.m_j 0 nCycles (m * 2 ^ 0)))
    (fun m => (m, k * Aggregator.leafCoef a.m_cs.m_Val a.m_j 0 nCycles m)) ?_)
  intro m _
  simp

theorem Leaf_batch (ctx : Context F P CP) (a : Aggregator F P) (bc : BatchContext F P)
    (iPos : Nat) (k : F) (hc : a.m_pCalc = none) (hb : a.m_pBatchCtx = some bc)
    (hp : iPos < nDim) :
    a.Leaf ctx iPos k
      = { a with
          m_pBatchCtx := some { bc with
            m_pKPrep := Function.update bc.m_pKPrep (iPos + a.m_j * nDim)
              (bc.m_pKPrep (iPos + a.m_j * nDim) + a.m_Mod.Set k iPos a.m_j) } } := by
  unfold Aggregator.Leaf
  simp [hc, hb, hp]

theorem foldl_Leaf_batch (ctx : Context F P CP) (g : Nat → F) (n : Nat) :
    ∀ (a : Aggregator F P) (bc : BatchContext F P), a.m_pCalc = none →
      a.m_pBatchCtx = some bc → n ≤ nDim →
      (List.range n).foldl (fun s i => s.Leaf ctx i (g i)) a
        = { a with
            m_pBatchCtx := some { bc with
              m_pKPrep := fun q =>
                if a.m_j * nDim ≤ q ∧ q < a.m_j * nDim + n then
                  bc.m_pKPrep q + a.m_Mod.Set (g (q - a.m_j * nDim)) (q - a.m_j * nDim) a.m_j
                else bc.m_pKPrep q } } := by
  induction n with
  | zero =>
    intro a bc _ hb _
    have e : (fun q => if a.m_j * nDim ≤ q ∧ q < a.m_j * nDim + 0 then
                bc.m_pKPrep q + a.m_Mod.Set (g (q - a.m_j * nDim)) (q - a.m_j * nDim) a.m_j
              else bc.m_pKPrep q) = bc.m_pKPrep := by
      funext q
      rw [if_neg (by omega)]
    rw [e]
    show a = _
    have eb : ({ bc with m_pKPrep := bc.m_pKPrep } : BatchContext F P) = bc := rfl
    rw [eb, ← hb]
  | succ n ih =>
    intro a bc hc hb hn
    rw [List.range_succ, List.foldl_append, ih a bc hc hb (by omega), List.foldl_cons,
      List.foldl_nil]
    obtain ⟨kp, hkp⟩ : ∃ kp : Nat → F, kp = fun q =>
        if a.m_j * nDim ≤ q ∧ q < a.m_j * nDim + n then
          bc.m_pKPrep q + a.m_Mod.Set (g (q - a.m_j * nDim)) (q - a.m_j * nDim) a.m_j
        else bc.m_pKPrep q := ⟨_, rfl⟩
    rw [← hkp]
    refine (Leaf_batch ctx ({ a with m_pBatchCtx := some { bc with m_pKPrep := kp } })
      ({ bc with m_pKPrep := kp }) n (g n) hc rfl (by omega)).trans ?_
    dsimp only
    congr 3
    funext q
    by_cases hq : q = n + a.m_j * nDim
    · have h1 : kp (n + a.m_j * nDim) = bc.m_pKPrep (n + a.m_j * nDim) := by
        rw [hkp]
        exact if_neg (by omega)
      have e : n + a.m_j * nDim - a.m_j * nDim = n := by omega
      rw [hq, Function.update_same, h1, if_pos (by omega), e]
    · rw [Function.update_noteq hq]
      have h1 : kp q = if a.m_j * nDim ≤ q ∧ q < a.m_j * nDim + n then
          bc.m_pKPrep q + a.m_Mod.Set (g (q - a.m_j * nDim)) (q - a.m_j * nDim) a.m_j
        else bc.m_pKPrep q := by rw [hkp]
      rw [h1]
      by_cases h2 : a.m_j * nDim ≤ q ∧ q < a.m_j * nDim + n
      · rw [if_pos h2, if_pos (by omega)]
      · rw [if_neg h2, if_neg (by omega)]

theorem IsValid_condensed_cells (ctx : Context F P CP) (self : InnerProduct F CP)
    (cs : ChallengeSet F) (modExp : ModifierExpanded F) (bc : BatchContext F P) (j : Nat) :
    InnerProduct.IsValid_condensed ctx self cs modExp bc j
      = { bc with
          m_pKPrep := fun q =>
            if j * nDim ≤ q ∧ q < j * nDim + nDim then
              bc.m_pKPrep q + modExp.Set
                ((if bc.m_bEnableBatch then -self.m_pCondensed j * bc.m_Multiplier
                    else -self.m_pCondensed j)
                  * Aggregator.leafCoef cs.m_Val j 0 nCycles (q - j * nDim)) (q - j * nDim) j
            else bc.m_pKPrep q } := by
  unfold InnerProduct.IsValid_condensed
  dsimp only
  rw [Proceed_verifier ctx _ rfl, foldl_Leaf_batch ctx _ nDim _ bc rfl rfl (Nat.le_refl _)]
  dsimp only [Aggregator.mk']
  simp

/-- C32. `Aggregator::Proceed` terminates and covers each target position exactly once. For
`m_iCycleTrg <= iCycle <= nCycles` the call `Proceed(iPos, iCycle, k)` is the sequence of
`2^(iCycle - m_iCycleTrg)` executions of its leaf branch, one for each `m` below that number in
increasing order, at position `iPos + m * 2^m_iCycleTrg` and with the coefficient `k` times the
product over the bits `b` in `[m_iCycleTrg, iCycle)` of `m_Val[nCycles-1-b][m_j]` if bit `b` of the
offset is set and `m_Val[nCycles-1-b][!m_j]` otherwise; no assertion fails on the way. With
target `0` the call `Proceed(0, nCycles, k)` runs the leaf branch once for every index below
`nDim`, and in the verifier every coefficient `m_pKPrep[i + j * nDim]`, `i < nDim`, of side `j`
receives exactly one addition while every other coefficient keeps its value. -/
theorem Proceed_covers (ctx : Context F P CP) (a : Aggregator F P) (iPos iCycle : Nat) (k : F)
    (htrg : a.m_iCycleTrg ≤ iCycle) (hn : iCycle ≤ nCycles) :
    Aggregator.Proceed ctx a iPos iCycle k
      = (List.range (2 ^ (iCycle - a.m_iCycleTrg))).foldl
          (fun s m => s.Leaf ctx (iPos + m * 2 ^ a.m_iCycleTrg)
            (k * Aggregator.leafCoef a.m_cs.m_Val a.m_j a.m_iCycleTrg iCycle
              (m * 2 ^ a.m_iCycleTrg)))
          a ∧
    (a.m_iCycleTrg = 0 →
      Aggregator.Proceed ctx a 0 nCycles k
        = (List.range nDim).foldl
            (fun s i => s.Leaf ctx i (k * Aggregator.leafCoef a.m_cs.m_Val a.m_j 0 nCycles i))
            a) ∧
    (∀ (self : InnerProduct F CP) (cs : ChallengeSet F) (modExp : ModifierExpanded F)
        (bc : BatchContext F P) (j : Nat),
      InnerProduct.IsValid_condensed ctx self cs modExp bc j
        = { bc with
            m_pKPrep := fun q =>
              if j * nDim ≤ q ∧ q < j * nDim + nDim then
                bc.m_pKPrep q + modExp.Set
                  ((if bc.m_bEnableBatch then -self.m_pCondensed j * bc.m_Multiplier
                      else -self.m_pCondensed j)
                    * Aggregator.leafCoef cs.m_Val j 0 nCycles (q - j * nDim)) (q - j * nDim) j
              else bc.m_pKPrep q }) :=
  ⟨Proceed_leaves_le ctx a iPos iCycle k htrg hn, fun h0 => Proceed_verifier ctx a h0 k,
    IsValid_condensed_cells ctx⟩

theorem Proceed_covers_witness :
    Example.aggr.m_iCycleTrg ≤ 2 ∧ 2 ≤ nCycles ∧
    (Aggregator.Proceed Example.ctx Example.aggr 0 2 (1 : ZMod 7)
      = (List.range (2 ^ (2 - Example.aggr.m_iCycleTrg))).foldl
          (fun s m => s.Leaf Example.ctx (0 + m * 2 ^ Example.aggr.m_iCycleTrg)
            ((1 : ZMod 7) * Aggregator.leafCoef Example.aggr.m_cs.m_Val Example.aggr.m_j Example.aggr.m_iCycleTrg 2
              (m * 2 ^ Example.aggr.m_iCycleTrg)))
          Example.aggr ∧
    (Example.aggr.m_iCycleTrg = 0 →
      Aggregator.Proceed Example.ctx Example.aggr 0 nCycles (1 : ZMod 7)
        = (List.range nDim).foldl
            (fun s i => s.Leaf Example.ctx i ((1 : ZMod 7) * Aggregator.leafCoef Example.aggr.m_cs.m_Val Example.aggr.m_j 0 nCycles i))
            Example.aggr) ∧
    (∀ (self : InnerProduct (ZMod 7) (Option (ZMod 7))) (cs : ChallengeSet (ZMod 7))
        (modExp : ModifierExpanded (ZMod 7))
        (bc : BatchContext (ZMod 7) (ZMod 7)) (j : Nat),
      InnerProduct.IsValid_condensed Example.ctx self cs modExp bc j
        = { bc with
            m_pKPrep := fun q =>
              if j * nDim ≤ q ∧ q < j * nDim + nDim then
                bc.m_pKPrep q + modExp.Set
                  ((if bc.m_bEnableBatch then -self.m_pCondensed j * bc.m_Multiplier
                      else -self.m_pCondensed j)
                    * Aggregator.leafCoef cs.m_Val j 0 nCycles (q - j * nDim)) (q - j * nDim) j
              else bc.m_pKPrep q })) :=
  ⟨by decide, by decide, Proceed_covers Example.ctx Example.aggr 0 2 1 (by decide) (by decide)⟩

theorem Flush_keeps (ctx : Context F P CP) (bc : BatchContext F P) :
    (bc.Flush ctx).2.m_bEnableBatch = bc.m_bEnableBatch ∧
      (bc.Flush ctx).2.m_Multiplier = bc.m_Multiplier := by
  unfold BatchContext.Flush
  split_ifs <;> exact ⟨rfl, rfl⟩

theorem EquationBegin_keeps (ctx : Context F P CP) (bc : BatchContext F P) (n : Nat) :
    (bc.EquationBegin ctx n).2.m_bEnableBatch = bc.m_bEnableBatch ∧
      (bc.EquationBegin ctx n).2.m_Multiplier = bc.m_Multiplier := by
  unfold BatchContext.EquationBegin
  dsimp only
  split_ifs
  · exact ⟨rfl, rfl⟩
  · exact Flush_keeps ctx bc
  · exact Flush_keeps ctx bc
  · exact ⟨rfl, rfl⟩

theorem EquationEnd_keeps (ctx : Context F P CP) (bc : BatchContext F P) :
    (bc.EquationEnd ctx).2.m_bEnableBatch = bc.m_bEnableBatch ∧
      (bc.EquationEnd ctx).2.m_Multiplier = bc.m_Multiplier := by
  unfold BatchContext.EquationEnd
  dsimp only
  split_ifs
  · exact Flush_keeps ctx _
  · exact ⟨rfl, rfl⟩

theorem AddCasualP_keeps (ctx : Context F P CP) (bc : BatchContext F P) (p : CP) (k : F) :
    (bc.AddCasualP ctx p k).2.m_bEnableBatch = bc.m_bEnableBatch ∧
      (bc.AddCasualP ctx p k).2.m_Multiplier = bc.m_Multiplier := by
  unfold BatchContext.AddCasualP
  cases ctx.Import p <;> exact ⟨rfl, rfl⟩

theorem Equation1_keeps (ctx : Context F P CP) (self : Confidential F CP) (commitment : P)
    (cs : Confidential.ChallengeSet F) (bc : BatchContext F P) :
    (Confidential.Equation1 ctx self commitment cs bc).2.m_bEnableBatch = bc.m_bEnableBatch ∧
      (Confidential.Equation1 ctx self commitment cs bc).2.m_Multiplier = bc.m_Multiplier := by
  unfold Confidential.Equation1
  dsimp only
  have h1 := AddCasualP_keeps ctx (bc.AddCasual commitment (-(cs.z * cs.z))) self.m_Part2.m_T1
    (-cs.x)
  have h2 := AddCasualP_keeps ctx
    ((bc.AddCasual commitment (-(cs.z * cs.z))).AddCasualP ctx self.m_Part2.m_T1 (-cs.x)).2
    self.m_Part2.m_T2 (-(cs.x * cs.x))
  split_ifs
  · exact h1
  · exact ⟨h2.1.trans h1.1, h2.2.trans h1.2⟩
  · exact ⟨h2.1.trans h1.1, h2.2.trans h1.2⟩

theorem IsValidBc_eq_with (ctx : Context F P CP) (fuel : Nat) (self : Confidential F CP)
    (commitment : P) (oracle : Oracle F CP) (bc : BatchContext F P)
    (hen : bc.m_bEnableBatch = true) :
    Confidential.IsValidBc ctx fuel self commitment oracle bc
      = Confidential.IsValidBcWith ctx fuel self commitment oracle bc
          (ctx.squeeze (Confidential.MultiplierOracle self))
          (ctx.squeeze [Item.scalar (ctx.squeeze (Confidential.MultiplierOracle self))]) := by
  unfold Confidential.IsValidBc Confidential.IsValidBcWith
  dsimp only [Oracle.get]
  rw [if_pos hen]
  obtain ⟨bc0, hbc0⟩ : ∃ bc0 : BatchContext F P,
      bc0 = { bc with m_Multiplier := ctx.squeeze (Confidential.MultiplierOracle self) } :=
    ⟨_, rfl⟩
  have hb0 : bc0.m_bEnableBatch = true ∧
      bc0.m_Multiplier = ctx.squeeze (Confidential.MultiplierOracle self) := by
    rw [hbc0]; exact ⟨hen, rfl⟩
  rw [← hbc0]
  obtain ⟨cs, hcs⟩ : ∃ cs, cs = ((({ x := 0, y := 0, z := 0, zz := 0 } :
      Confidential.ChallengeSet F).Init1 ctx self.m_Part1 oracle).1.Init2 ctx self.m_Part2
      (({ x := 0, y := 0, z := 0, zz := 0 } :
      Confidential.ChallengeSet F).Init1 ctx self.m_Part1 oracle).2) := ⟨_, rfl⟩
  rw [← hcs]
  obtain ⟨bcE, hbcE⟩ : ∃ bcE, bcE = ((Confidential.Equation1 ctx self commitment cs.1
      (bc0.EquationBegin ctx 3).2).2.EquationEnd ctx).2 := ⟨_, rfl⟩
  have hE : bcE.m_bEnableBatch = true ∧
      bcE.m_Multiplier = ctx.squeeze (Confidential.MultiplierOracle self) := by
    rw [hbcE]
    have a1 := EquationBegin_keeps ctx bc0 3
    have a2 := Equation1_keeps ctx self commitment cs.1 (bc0.EquationBegin ctx 3).2
    have a3 := EquationEnd_keeps ctx
      (Confidential.Equation1 ctx self commitment cs.1 (bc0.EquationBegin ctx 3).2).2
    exact ⟨a3.1.trans (a2.1.trans (a1.1.trans hb0.1)), a3.2.trans (a2.2.trans (a1.2.trans hb0.2))⟩
  rw [← hbcE]
  rw [if_pos hE.1, hE.2]

theorem MultiplierOracle_list (self : Confidential F CP) :
    Confidential.MultiplierOracle self
      = [Item.scalar self.m_tDot, Item.scalar self.m_Mu, Item.scalar self.m_Part3.m_TauX,
          Item.point self.m_Part2.m_T2, Item.point self.m_Part2.m_T1,
          Item.point self.m_Part1.m_S, Item.point self.m_Part1.m_A,
          Item.point (self.m_P_Tag.m_pLR 5 1), Item.point (self.m_P_Tag.m_pLR 4 1),
          Item.point (self.m_P_Tag.m_pLR 3 1), Item.point (self.m_P_Tag.m_pLR 2 1),
          Item.point (self.m_P_Tag.m_pLR 1 1), Item.point (self.m_P_Tag.m_pLR 0 1),
          Item.scalar (self.m_P_Tag.m_pCondensed 1),
          Item.point (self.m_P_Tag.m_pLR 5 0), Item.point (self.m_P_Tag.m_pLR 4 0),
          Item.point (self.m_P_Tag.m_pLR 3 0), Item.point (self.m_P_Tag.m_pLR 2 0),
          Item.point (self.m_P_Tag.m_pLR 1 0), Item.point (self.m_P_Tag.m_pLR 0 0),
          Item.scalar (self.m_P_Tag.m_pCondensed 0)] := rfl

theorem MultiplierOracle_order (self : Confidential F CP) :
    (Confidential.MultiplierOracle self).reverse
      = Item.scalar (self.m_P_Tag.m_pCondensed 0)
          :: (List.range nCycles).map (fun i => Item.point (self.m_P_Tag.m_pLR i 0))
        ++ Item.scalar (self.m_P_Tag.m_pCondensed 1)
          :: (List.range nCycles).map (fun i => Item.point (self.m_P_Tag.m_pLR i 1))
        ++ [Item.point self.m_Part1.m_A, Item.point self.m_Part1.m_S,
            Item.point self.m_Part2.m_T1, Item.point self.m_Part2.m_T2,
            Item.scalar self.m_Part3.m_TauX, Item.scalar self.m_Mu, Item.scalar self.m_tDot] := by
  rw [MultiplierOracle_list]
  rfl

theorem MultiplierOracle_inj (p q : Confidential F CP) :
    Confidential.MultiplierOracle p = Confidential.MultiplierOracle q ↔
      (∀ j, j < 2 → p.m_P_Tag.m_pCondensed j = q.m_P_Tag.m_pCondensed j) ∧
      (∀ i, i < nCycles → ∀ j, j < 2 → p.m_P_Tag.m_pLR i j = q.m_P_Tag.m_pLR i j) ∧
      p.m_Part1.m_A = q.m_Part1.m_A ∧ p.m_Part1.m_S = q.m_Part1.m_S ∧
      p.m_Part2.m_T1 = q.m_Part2.m_T1 ∧ p.m_Part2.m_T2 = q.m_Part2.m_T2 ∧
      p.m_Part3.m_TauX = q.m_Part3.m_TauX ∧ p.m_Mu = q.m_Mu ∧ p.m_tDot = q.m_tDot := by
  rw [MultiplierOracle_list, MultiplierOracle_list]
  simp only [List.cons.injEq, Item.point.injEq, Item.scalar.injEq, and_true]
  constructor
  · rintro ⟨h1, h2, h3, h4, h5, h6, h7, a5, a4, a3, a2, a1, a0, c1, b5, b4, b3, b2, b1, b0, c0⟩
    refine ⟨?_, ?_, h7, h6, h5, h4, h3, h2, h1⟩
    · intro j hj
      have hj' : j = 0 ∨ j = 1 := by omega
      rcases hj' with rfl | rfl
      · exact c0
      · exact c1
    · intro i hi j hj
      have hj' : j = 0 ∨ j = 1 := by omega
      have hi' : i = 0 ∨ i = 1 ∨ i = 2 ∨ i = 3 ∨ i = 4 ∨ i = 5 := by
        unfold nCycles at hi; omega
      rcases hj' with rfl | rfl
      · rcases hi' with rfl | rfl | rfl | rfl | rfl | rfl
        exacts [b0, b1, b2, b3, b4, b5]
      · rcases hi' with rfl | rfl | rfl | rfl | rfl | rfl
        exacts [a0, a1, a2, a3, a4, a5]
  · rintro ⟨hc, hl, h7, h6, h5, h4, h3, h2, h1⟩
    have n6 : ∀ i, i < 6 → i < nCycles := fun i hi => hi
    exact ⟨h1, h2, h3, h4, h5, h6, h7,
      hl 5 (n6 5 (by omega)) 1 (by omega), hl 4 (n6 4 (by omega)) 1 (by omega),
      hl 3 (n6 3 (by omega)) 1 (by omega), hl 2 (n6 2 (by omega)) 1 (by omega),
      hl 1 (n6 1 (by omega)) 1 (by omega), hl 0 (n6 0 (by omega)) 1 (by omega),
      hc 1 (by omega),
      hl 5 (n6 5 (by omega)) 0 (by omega), hl 4 (n6 4 (by omega)) 0 (by omega),
      hl 3 (n6 3 (by omega)) 0 (by omega), hl 2 (n6 2 (by omega)) 0 (by omega),
      hl 1 (n6 1 (by omega)) 0 (by omega), hl 0 (n6 0 (by omega)) 0 (by omega),
      hc 0 (by omega)⟩

/-- C31. The batch multiplier is a function of the proof alone. The fresh transcript from which
`IsValid` extracts the multiplier of the first equation has absorbed, in this order, for each side
`j` the condensed scalar `m_pCondensed[j]` and the `nCycles` points `m_pLR[i][j]`, then `A`, `S`,
`T1`, `T2`, `tau_x`, `mu`, `tDot`, and nothing else; two proofs give the same transcript input
only if they agree in every one of these fields. On a context with batching, whatever the
commitment, the caller's transcript and the prior content of the context, `IsValid` runs as the
verification in which the multiplier is set to the scalar extracted from that transcript before
the first equation and to the scalar extracted from a fresh transcript that absorbed only the
first multiplier before the second equation. -/
theorem multiplier_of_proof (ctx : Context F P CP) (fuel : Nat) (self : Confidential F CP)
    (commitment : P) (oracle : Oracle F CP) (bc : BatchContext F P)
    (hen : bc.m_bEnableBatch = true) :
    (Confidential.MultiplierOracle self).reverse
      = Item.scalar (self.m_P_Tag.m_pCondensed 0)
          :: (List.range nCycles).map (fun i => Item.point (self.m_P_Tag.m_pLR i 0))
        ++ Item.scalar (self.m_P_Tag.m_pCondensed 1)
          :: (List.range nCycles).map (fun i => Item.point (self.m_P_Tag.m_pLR i 1))
        ++ [Item.point self.m_Part1.m_A, Item.point self.m_Part1.m_S,
            Item.point self.m_Part2.m_T1, Item.point self.m_Part2.m_T2,
            Item.scalar self.m_Part3.m_TauX, Item.scalar self.m_Mu, Item.scalar self.m_tDot] ∧
    Confidential.IsValidBc ctx fuel self commitment oracle bc
      = Confidential.IsValidBcWith ctx fuel self commitment oracle bc
          (ctx.squeeze (Confidential.MultiplierOracle self))
          (ctx.squeeze [Item.scalar (ctx.squeeze (Confidential.MultiplierOracle self))]) ∧
    (∀ other : Confidential F CP,
      Confidential.MultiplierOracle self = Confidential.MultiplierOracle other ↔
        (∀ j, j < 2 → self.m_P_Tag.m_pCondensed j = other.m_P_Tag.m_pCondensed j) ∧
        (∀ i, i < nCycles → ∀ j, j < 2 → self.m_P_Tag.m_pLR i j = other.m_P_Tag.m_pLR i j) ∧
        self.m_Part1.m_A = other.m_Part1.m_A ∧ self.m_Part1.m_S = other.m_Part1.m_S ∧
        self.m_Part2.m_T1 = other.m_Part2.m_T1 ∧ self.m_Part2.m_T2 = other.m_Part2.m_T2 ∧
        self.m_Part3.m_TauX = other.m_Part3.m_TauX ∧ self.m_Mu = other.m_Mu ∧
        self.m_tDot = other.m_tDot) :=
  ⟨MultiplierOracle_order self, IsValidBc_eq_with ctx fuel self commitment oracle bc hen,
    MultiplierOracle_inj self⟩

theorem multiplier_of_proof_witness :
    (Example.bcBatch 1).m_bEnableBatch = true ∧
    ((Confidential.MultiplierOracle Example.proofT).reverse
      = Item.scalar (Example.proofT.m_P_Tag.m_pCondensed 0)
          :: (List.range nCycles).map (fun i => Item.point (Example.proofT.m_P_Tag.m_pLR i 0))
        ++ Item.scalar (Example.proofT.m_P_Tag.m_pCondensed 1)
          :: (List.range nCycles).map (fun i => Item.point (Example.proofT.m_P_Tag.m_pLR i 1))
        ++ [Item.point Example.proofT.m_Part1.m_A, Item.point Example.proofT.m_Part1.m_S,
            Item.point Example.proofT.m_Part2.m_T1, Item.point Example.proofT.m_Part2.m_T2,
            Item.scalar Example.proofT.m_Part3.m_TauX, Item.scalar Example.proofT.m_Mu, Item.scalar Example.proofT.m_tDot] ∧
    Confidential.IsValidBc Example.ctx 1 Example.proofT 0 [] (Example.bcBatch 1)
      = Confidential.IsValidBcWith Example.ctx 1 Example.proofT 0 [] (Example.bcBatch 1)
          (Example.ctx.squeeze (Confidential.MultiplierOracle Example.proofT))
          (Example.ctx.squeeze [Item.scalar (Example.ctx.squeeze (Confidential.MultiplierOracle Example.proofT))]) ∧
    (∀ other : Confidential (ZMod 7) (Option (ZMod 7)),
      Confidential.MultiplierOracle Example.proofT = Confidential.MultiplierOracle other ↔
        (∀ j, j < 2 → Example.proofT.m_P_Tag.m_pCondensed j = other.m_P_Tag.m_pCondensed j) ∧
        (∀ i, i < nCycles → ∀ j, j < 2 → Example.proofT.m_P_Tag.m_pLR i j = other.m_P_Tag.m_pLR i j) ∧
        Example.proofT.m_Part1.m_A = other.m_Part1.m_A ∧ Example.proofT.m_Part1.m_S = other.m_Part1.m_S ∧
        Example.proofT.m_Part2.m_T1 = other.m_Part2.m_T1 ∧ Example.proofT.m_Part2.m_T2 = other.m_Part2.m_T2 ∧
        Example.proofT.m_Part3.m_TauX = other.m_Part3.m_TauX ∧ Example.proofT.m_Mu = other.m_Mu ∧
        Example.proofT.m_tDot = other.m_tDot)) :=
  ⟨rfl, multiplier_of_proof Example.ctx 1 Example.proofT 0 [] (Example.bcBatch 1) rfl⟩

end Facts

end ECC
